import Mathlib

/-!
# min12xxw: command framing, raster compression, pages and jobs

A shallow embedding of the printer filter `min12xxw.c` and of the companion
stream parser `esc-m.c`.  Bytes are natural numbers below 256; a store into a `uint8_t`
object that can truncate its value is written with an explicit `% 256`, and `uint32_t`
arithmetic that can wrap with an explicit `% 2 ^ 32`.  Buffers are lists and pointers
into a buffer are positions (`p`, `end` become `p e : Nat`).  A function that writes to
a file returns the bytes it writes; a function that can call `fatal` or fail an
`assert` returns an `Except Fault` value.  The page and job functions also return a
record of what they did (`Line`, `Band`, `PageRec`), in which properties are stated.
-/

namespace Min12xxw

/-! ## Raster data compression (`min12xxw.c`, lines 385-523) -/

/-- The byte at position `p` of a buffer (`*p`).  A position outside the list reads 0. -/
def rd (buf : List Nat) (p : Nat) : Nat := buf.getD p 0

/-- The loop `while ((p < end) && (c == *p++)) len++;` of `get_len`.  The first argument
is the distance from `p` to `end`: when it is 0 the test `p < end` fails. -/
def get_len_loop (buf : List Nat) (c e : Nat) : Nat → Nat → Nat → Nat
  | 0, _, len => len
  | k + 1, p, len =>
    if p < e ∧ c = rd buf p then get_len_loop buf c e k (p + 1) (len + 1) else len

/-- The function `get_len(p, end)`: the number of repetitions of the byte at `p`. -/
def get_len (buf : List Nat) (p e : Nat) : Nat :=
  get_len_loop buf (rd buf p) e (e - (p + 1)) (p + 1) 0 + 1

/-- The compressor's globals `tbllen`, `tbl[16]` and `invtbl[256]`. -/
structure TblState where
  tbllen : Int
  tbl : Nat → Nat
  invtbl : Nat → Nat

/-- The state at program start: `tbllen = -1`, the static arrays zeroed. -/
def TblState.uninit : TblState := ⟨-1, fun _ => 0, fun _ => 0⟩

/-- The function `add_tbl(b)`: returns the table index and the new globals. -/
def add_tbl (st : TblState) (b : Nat) : Nat × TblState :=
  if st.invtbl b < 16 ∨ st.tbllen ≥ 16 then (st.invtbl b, st)
  else ((st.tbllen % 256).toNat,
        { tbllen := st.tbllen + 1
          tbl := Function.update st.tbl st.tbllen.toNat b
          invtbl := Function.update st.invtbl b (st.tbllen % 256).toNat })

/-- The loop `while (j--) if (invtbl[*p++] < 16) i++;` of `next_n_in_tbl`. -/
def count_in_tbl (buf : List Nat) (invtbl : Nat → Nat) : Nat → Nat → Nat → Nat
  | 0, _, i => i
  | j + 1, p, i => count_in_tbl buf invtbl j (p + 1) (if invtbl (rd buf p) < 16 then i + 1 else i)

/-- The function `next_n_in_tbl(p, len, end)`. -/
def next_n_in_tbl (buf : List Nat) (st : TblState) (p len e : Nat) : Bool :=
  if p + len ≥ e then false
  else if st.tbllen < 17 - (len : Int) + (count_in_tbl buf st.invtbl len p 0 : Int) then true
  else false

/-- The two statements `*obuf = add_tbl(*p++) << 4; *obuf++ |= add_tbl(*p++);`:
the byte stored and the new globals. -/
def tbl_pair (buf : List Nat) (st : TblState) (p : Nat) : Nat × TblState :=
  let r0 := add_tbl st (rd buf p)
  let r1 := add_tbl r0.2 (rd buf (p + 1))
  (((r0.1 <<< 4) % 256) ||| r1.1, r1.2)

/-- The loop `while (next_n_in_tbl(p, 2, end) && (*q < 0x7f))` of the table branch.
Arguments: the number of increments `*q` can still take before it reaches 0x7f, the
opcode `*q`, the position `p`, the globals.  Result: the final opcode, the bytes stored,
the number of `olen++` executed, the new position and globals. -/
def tbl_more (buf : List Nat) (e : Nat) :
    Nat → Nat → Nat → TblState → Nat × List Nat × Nat × Nat × TblState
  | 0, q, p, st => (q, [], 0, p, st)
  | k + 1, q, p, st =>
    if next_n_in_tbl buf st p 2 e = true ∧ q < 0x7f then
      if get_len buf p (min (p + 3) e) ≥ 3 then (q, [], 0, p, st)
      else
        let pr := tbl_pair buf st p
        let r := tbl_more buf e k ((q + 1) % 256) (p + 2) pr.2
        (r.1, pr.1 :: r.2.1, r.2.2.1 + 1, r.2.2.2.1, r.2.2.2.2)
    else (q, [], 0, p, st)

/-- The `do ... while ((p < end) && (*q < 9))` loop of the literal branch.  The first
argument is the number of further passes the test `*q < 9` can still allow (9 when the
loop is entered with `*q = 0xff`); on the last pass the loop ends whatever the two
`break` tests say.  Result: the final header `*q`, the bytes stored, the number of
`olen++` executed and the new position. -/
def lit_loop (buf : List Nat) (e : Nat) (st : TblState) :
    Nat → Nat → Nat → Nat × List Nat × Nat × Nat
  | 0, q, p => ((q + 1) % 256, [rd buf p], 1, p + 1)
  | k + 1, q, p =>
    if get_len buf (p + 1) (min (p + 1 + 3) e) ≥ 3 then ((q + 1) % 256, [rd buf p], 1, p + 1)
    else if next_n_in_tbl buf st (p + 1) 4 e = true then ((q + 1) % 256, [rd buf p], 1, p + 1)
    else if p + 1 < e ∧ (q + 1) % 256 < 9 then
      let r := lit_loop buf e st k ((q + 1) % 256) (p + 1)
      (r.1, rd buf p :: r.2.1, r.2.2.1 + 1, r.2.2.2)
    else ((q + 1) % 256, [rd buf p], 1, p + 1)

/-- Ways in which a run of the model stops without a result: a failed `assert`, a loop
bound of the model that was too small, and a call of `fatal` (which exits). -/
inductive Fault where
  | assertion
  | fuel
  | fatal
  deriving DecidableEq, Repr

/-- The loop `for (q = tbl; q < &tbl[tbllen]; q++) invtbl[*q] = 0xff;`. -/
def clear_inv (tbl : Nat → Nat) : Nat → Nat → (Nat → Nat) → (Nat → Nat)
  | 0, _, inv => inv
  | k + 1, i, inv => clear_inv tbl k (i + 1) (Function.update inv (tbl i) 0xff)

/-- The table reset at the start of `compress_scanline` (lines 444-450). -/
def clear_tables (st : TblState) : TblState :=
  { tbllen := 0
    tbl := st.tbl
    invtbl := if st.tbllen = -1 then (fun b => if b < 256 then 0xff else st.invtbl b)
              else clear_inv st.tbl st.tbllen.toNat 0 st.invtbl }

/-- The run-length branch (lines 455-472) for a run of `n` bytes at `p`: the bytes
stored, the increase of `olen`, and the new position. -/
def rle_emit (buf : List Nat) (p n : Nat) : List Nat × Nat × Nat :=
  let long : List Nat × Nat × Nat × Nat :=
    if n > 63 then ([(0xc0 ||| (n >>> 6)) % 256, rd buf p], 2, p + (n &&& 0xffffffc0), n &&& 0x3f)
    else ([], 0, p, n)
  let p1 := long.2.2.1
  let n1 := long.2.2.2
  if n1 ≠ 0 then (long.1 ++ [(0x80 ||| n1) % 256, rd buf p1], long.2.1 + 2, p1 + n1)
  else (long.1, long.2.1, p1)

/-- The loop `while (p < end)` of `compress_scanline`.  The first argument bounds the
number of passes.  Result: the bytes stored through `obuf`, `olen`, the globals. -/
def compress_loop (buf : List Nat) (e : Nat) :
    Nat → Nat → TblState → Except Fault (List Nat × Nat × TblState)
  | 0, p, st => if p < e then .error .fuel else .ok ([], 0, st)
  | f + 1, p, st =>
    if p < e then
      let n := get_len buf p e
      if n > 2 then
        if ¬ n < 63 * 64 + 63 then .error .assertion
        else
          let g := rle_emit buf p n
          match compress_loop buf e f g.2.2 st with
          | .ok r => .ok (g.1 ++ r.1, g.2.1 + r.2.1, r.2.2)
          | .error x => .error x
      else if next_n_in_tbl buf st p 4 e = true then
        let a := tbl_pair buf st p
        let b := tbl_pair buf a.2 (p + 2)
        let m := tbl_more buf e (0x7f - 0x41) 0x41 (p + 4) b.2
        match compress_loop buf e f m.2.2.2.1 m.2.2.2.2 with
        | .ok r => .ok (m.1 :: a.1 :: b.1 :: m.2.1 ++ r.1, 3 + m.2.2.1 + r.2.1, r.2.2)
        | .error x => .error x
      else
        let l := lit_loop buf e st 9 0xff p
        match compress_loop buf e f l.2.2.2 st with
        | .ok r => .ok (l.1 :: l.2.1 ++ r.1, 1 + l.2.2.1 + r.2.1, r.2.2)
        | .error x => .error x
    else .ok ([], 0, st)

/-- The function `compress_scanline(p, end, obuf)` on the scanline at positions
`[p, e)` of `buf`: the bytes stored in `obuf`, the returned `olen` and the globals. -/
def compress_scanline (buf : List Nat) (p e : Nat) (st : TblState) :
    Except Fault (List Nat × Nat × TblState) :=
  compress_loop buf e (e - p) p (clear_tables st)

/-- The table a scanline leaves behind: `tbl[0..tbllen)`. -/
def table (st : TblState) : List Nat := (List.range st.tbllen.toNat).map st.tbl

/-! ## The passes of the compressor's main loop, one by one -/

/-- The three branches of the main loop of `compress_scanline`. -/
inductive Branch where
  | rle
  | table
  | literal
  deriving DecidableEq, Repr

/-- What one pass of the main loop of `compress_scanline` did, kept for stating
properties: the branch taken, the position `p` at the start of the pass, the value `n`
of `get_len(p, end)`, the bytes stored through `obuf`, the calls of `add_tbl` made (the
argument and the index returned), and the position `p` at the end of the pass. -/
structure Group where
  kind : Branch
  pos : Nat
  n : Nat
  out : List Nat
  calls : List (Nat × Nat)
  next : Nat

/-- The calls of `add_tbl` in the two statements `*obuf = add_tbl(*p++) << 4;
*obuf++ |= add_tbl(*p++);`: the argument and the index returned, in order. -/
def tbl_pair_calls (buf : List Nat) (st : TblState) (p : Nat) : List (Nat × Nat) :=
  let r0 := add_tbl st (rd buf p)
  let r1 := add_tbl r0.2 (rd buf (p + 1))
  [(rd buf p, r0.1), (rd buf (p + 1), r1.1)]

/-- The calls of `add_tbl` in the loop `while (next_n_in_tbl(p, 2, end) && (*q < 0x7f))`
of the table branch, pass by pass as in `tbl_more`. -/
def tbl_more_calls (buf : List Nat) (e : Nat) : Nat → Nat → Nat → TblState → List (Nat × Nat)
  | 0, _, _, _ => []
  | k + 1, q, p, st =>
    if next_n_in_tbl buf st p 2 e = true ∧ q < 0x7f then
      if get_len buf p (min (p + 3) e) ≥ 3 then []
      else tbl_pair_calls buf st p ++
        tbl_more_calls buf e k ((q + 1) % 256) (p + 2) (tbl_pair buf st p).2
    else []

/-- The loop `while (p < end)` of `compress_scanline` as in `compress_loop`, with one
record for each pass instead of the concatenated output.  Result: the records, in order,
and the globals. -/
def compress_trace (buf : List Nat) (e : Nat) :
    Nat → Nat → TblState → Except Fault (List Group × TblState)
  | 0, p, st => if p < e then .error .fuel else .ok ([], st)
  | f + 1, p, st =>
    if p < e then
      let n := get_len buf p e
      if n > 2 then
        if ¬ n < 63 * 64 + 63 then .error .assertion
        else
          let g := rle_emit buf p n
          match compress_trace buf e f g.2.2 st with
          | .ok r => .ok ({ kind := .rle, pos := p, n := n, out := g.1, calls := [],
                            next := g.2.2 } :: r.1, r.2)
          | .error x => .error x
      else if next_n_in_tbl buf st p 4 e = true then
        let a := tbl_pair buf st p
        let b := tbl_pair buf a.2 (p + 2)
        let m := tbl_more buf e (0x7f - 0x41) 0x41 (p + 4) b.2
        match compress_trace buf e f m.2.2.2.1 m.2.2.2.2 with
        | .ok r => .ok ({ kind := .table, pos := p, n := n, out := m.1 :: a.1 :: b.1 :: m.2.1,
                          calls := tbl_pair_calls buf st p ++ tbl_pair_calls buf a.2 (p + 2) ++
                            tbl_more_calls buf e (0x7f - 0x41) 0x41 (p + 4) b.2,
                          next := m.2.2.2.1 } :: r.1, r.2)
        | .error x => .error x
      else
        let l := lit_loop buf e st 9 0xff p
        match compress_trace buf e f l.2.2.2 st with
        | .ok r => .ok ({ kind := .literal, pos := p, n := n, out := l.1 :: l.2.1, calls := [],
                          next := l.2.2.2 } :: r.1, r.2)
        | .error x => .error x
    else .ok ([], st)

/-- The passes of `compress_scanline(p, end, obuf)` on the scanline at positions `[p, e)`
of `buf`, and the globals it leaves. -/
def scanline_trace (buf : List Nat) (p e : Nat) (st : TblState) :
    Except Fault (List Group × TblState) :=
  compress_trace buf e (e - p) p (clear_tables st)

/-- The bytes stored by a list of passes, in order. -/
def out_bytes : List Group → List Nat
  | [] => []
  | g :: gs => g.out ++ out_bytes gs

/-- The bytes `(i0 << 4) | i1, (i2 << 4) | i3, ...` made of a list of indices, two by
two. -/
def pack_pairs : List Nat → List Nat
  | a :: b :: r => (((a <<< 4) % 256) ||| b) :: pack_pairs r
  | _ => []

/-- Modelled from the spec: the scanline of `W` bytes that alternates 0xAA, 0x55, 0xAA,
0x55, ... (scenario S3). -/
def checker (W : Nat) : List Nat := (List.range W).map (fun i => if i % 2 = 0 then 0xaa else 0x55)

/-! ## The decoder of the compressed stream, as the specification describes it -/

/-- The table bytes selected by the packed 4-bit indices of a list of stream bytes,
high nibble first; `none` when an index lies outside the table. -/
def unpack (tb : List Nat) : List Nat → Option (List Nat)
  | [] => some []
  | b :: r =>
    match tb[b / 16]?, tb[b % 16]?, unpack tb r with
    | some x, some y, some l => some (x :: y :: l)
    | _, _, _ => none

/-- The first group of an opcode stream `o :: r` read against the table `tb`: the bytes
it stands for and the rest of the stream.  An opcode `0xC0|k` followed by `b` stands for
`64*k` copies of `b`; an opcode `0x80|n` followed by `b` for `n` copies of `b`; an opcode
`0x41+j` followed by `2+j` bytes for the `4+2j` table bytes selected by the packed
indices; a literal header `(0xFF + m) mod 256` followed by `m` raw bytes for those
bytes.  The four forms are tried in this order, so the literal form is used for the
headers below 0x41 (`m = header + 1`). -/
def decode_group (tb : List Nat) (o : Nat) (r : List Nat) : Option (List Nat × List Nat) :=
  if 0xc0 ≤ o then
    match r with
    | b :: r1 => some (List.replicate (64 * (o - 0xc0)) b, r1)
    | [] => none
  else if 0x80 ≤ o then
    match r with
    | b :: r1 => some (List.replicate (o - 0x80) b, r1)
    | [] => none
  else if 0x41 ≤ o then
    if r.length < 2 + (o - 0x41) then none
    else
      match unpack tb (r.take (2 + (o - 0x41))) with
      | some bs => some (bs, r.drop (2 + (o - 0x41)))
      | none => none
  else
    if r.length < o + 1 then none
    else some (r.take (o + 1), r.drop (o + 1))

/-- The decoder of a scanline's opcode stream against the table `tb`: the groups are
read one after the other.  The first argument bounds the number of groups read. -/
def decode (tb : List Nat) : Nat → List Nat → Option (List Nat)
  | _, [] => some []
  | 0, _ :: _ => none
  | f + 1, o :: r =>
    match decode_group tb o r with
    | some g => (decode tb f g.2).map (fun l => g.1 ++ l)
    | none => none

/-- Decoding of a complete stream: every group has at least one byte. -/
def decode_stream (tb : List Nat) (s : List Nat) : Option (List Nat) := decode tb s.length s

/-! ## Command framing (`min12xxw.c`, lines 95-131 and 178-186, 335-383) -/

/-- Conversion of an `int` value to `uint8_t` / `unsigned char`. -/
def uchar (c : Int) : Nat := (c % 256).toNat

/-- The accumulation `cksum += *p++` over a list of bytes, on a `uint8_t` sum. -/
def cksum_add (ck : Nat) (l : List Nat) : Nat := l.foldl (fun c b => (c + b) % 256) ck

/-- The function `do_cmd(out, cmd, len, data)`.  `sq` is the value of its static sequence
counter; the result is the bytes written to `out` and the new value of the counter. -/
def do_cmd (sq cmd len : Nat) (data : List Nat) : Except Fault (List Nat × Nat) :=
  if ¬ len < 0x10000 then .error .assertion
  else
    let buf := [0x1b, cmd, sq, (len &&& 0xff) % 256, (len >>> 8) % 256, uchar (-1 - (cmd : Int))]
    let cksum := cksum_add (cksum_add 0 (data.take len)) buf
    .ok (buf ++ data.take len ++ [cksum], (sq + 1) % 256)

/-- A run of calls of `do_cmd` in one process, each given as `(cmd, len, data)`: the
frames written, in order, and the final value of the sequence counter. -/
def do_cmds : Nat → List (Nat × Nat × List Nat) → Except Fault (List (List Nat) × Nat)
  | sq, [] => .ok ([], sq)
  | sq, c :: cs =>
    match do_cmd sq c.1 c.2.1 c.2.2 with
    | .error x => .error x
    | .ok r =>
      match do_cmds r.2 cs with
      | .error x => .error x
      | .ok rs => .ok (r.1 :: rs.1, rs.2)

/-- The option globals of `min12xxw.c` (lines 79-85). -/
structure Config where
  ptype : Nat
  pformat : Nat
  res : Nat
  tray : Nat
  nomargins : Nat
  ecomode : Nat
  model : Nat

/-- The defaults of the option globals. -/
def Config.default : Config :=
  { ptype := 0x00, pformat := 0x04, res := 0x0001, tray := 0xff, nomargins := 0, ecomode := 0,
    model := 0x81 }

/-- The function `do_start(out)`. -/
def do_start (cfg : Config) (sq : Nat) : Except Fault (List Nat × Nat) :=
  do_cmd sq 0x40 2 [cfg.model % 256, 0]

/-- The buffer `cmdbuf` that `send_start_job` passes to `do_cmd`. -/
def start_job_buf (cfg : Config) : List Nat :=
  [(cfg.res &&& 0xff) % 256, (cfg.res >>> 8) % 256, 0, cfg.ptype % 256, 0x04, 0,
    if cfg.model = 0x83 ∨ cfg.model = 0x86 then 0x04 else 0, 0]

/-- The function `send_start_job(out)`: the bytes written and the new sequence counter. -/
def send_start_job (cfg : Config) (sq : Nat) : Except Fault (List Nat × Nat) :=
  match do_start cfg sq with
  | .error x => .error x
  | .ok r1 =>
    match do_cmd r1.2 0x50 8 (start_job_buf cfg) with
    | .error x => .error x
    | .ok r2 => .ok (r1.1 ++ r2.1, r2.2)

/-- The buffer `cmdbuf` that `send_new_page(out, x, y)` passes to `do_cmd`. -/
def new_page_buf (cfg : Config) (x y : Nat) : List Nat :=
  [0, 0x01, (x >>> 16) &&& 0xff, (x >>> 24) % 256, x &&& 0xff, (x >>> 8) &&& 0xff,
    (y >>> 16) &&& 0xff, (y >>> 24) % 256, y &&& 0xff, (y >>> 8) &&& 0xff,
    0x08, 0, 0x08, 0, cfg.tray % 256, cfg.pformat % 256, 0, 0, 0, 0,
    if cfg.res &&& 0xff = 0 then 0xc0 else 0, 0]

/-- The function `send_new_page(out, x, y)`. -/
def send_new_page (cfg : Config) (sq x y : Nat) : Except Fault (List Nat × Nat) :=
  do_cmd sq 0x51 22 (new_page_buf cfg x y)

/-! ## The stream parser (`esc-m.c`) -/

/-- The standard input: the bytes not yet read and the end-of-file indicator. -/
structure Stdin where
  rest : List Nat
  eof : Bool

/-- The call `getchar()`: the value returned (-1 at end of file) and the new input. -/
def getchar (s : Stdin) : Int × Stdin :=
  match s.rest with
  | [] => (-1, { rest := [], eof := true })
  | b :: r => ((b : Int), { rest := r, eof := s.eof })

/-- The parser's input and its globals `i` (file position) and `sq` (sequence number). -/
structure Dec where
  inp : Stdin
  i : Int
  sq : Int

/-- The loop `while (lb--) { ck += *p++ = getchar(); i++; }` of `readesc`: the bytes
stored, the new input, checksum and position. -/
def read_payload : Nat → Stdin → Nat → Int → List Nat × Stdin × Nat × Int
  | 0, s, ck, i => ([], s, ck, i)
  | lb + 1, s, ck, i =>
    let c := getchar s
    let r := read_payload lb c.2 ((ck + uchar c.1) % 256) (i + 1)
    (uchar c.1 :: r.1, r.2)

/-- The function `readesc(data)`: the value returned, the bytes stored in `data[0..]` by
this call, and the new input and globals. -/
def readesc (d : Dec) : Int × List Nat × Dec :=
  let c0 := getchar d.inp
  let b0 := uchar c0.1
  if c0.2.eof = true then (-1, [b0], { inp := c0.2, i := d.i, sq := d.sq })
  else if b0 ≠ 0x1b then (-2, [b0], { inp := c0.2, i := d.i, sq := d.sq })
  else
    let c1 := getchar c0.2
    let b1 := uchar c1.1
    let c2 := getchar c1.2
    let b2 := uchar c2.1
    if (b2 : Int) ≠ d.sq ∧ (b2 ≠ 0 ∧ b1 ≠ 0x51) then
      (-3, [b0, b1, b2], { inp := c2.2, i := d.i + 1 + 1, sq := d.sq + 1 })
    else
      let sq := if (b2 : Int) ≠ d.sq then (b2 : Int) + 1 else d.sq + 1
      let c3 := getchar c2.2
      let lb := uchar c3.1
      let c4 := getchar c3.2
      let b4 := uchar c4.1
      if b4 ≠ 0 then
        (-4, [b0, b1, b2, lb, b4], { inp := c4.2, i := d.i + 1 + 1 + 1 + 1, sq := sq })
      else
        let c5 := getchar c4.2
        let b5 := uchar c5.1
        if (b5 : Int) ≠ (-1 - (b1 : Int)) % 256 then
          (-5, [b0, b1, b2, lb, b4, b5],
            { inp := c5.2, i := d.i + 1 + 1 + 1 + 1 + 1, sq := sq })
        else
          let ck := ((((b0 + b1) % 256 + b2) % 256 + lb) % 256 + b5) % 256
          let pl := read_payload lb c5.2 ck (d.i + 1 + 1 + 1 + 1 + 1 + 1)
          let c7 := getchar pl.2.1
          let b7 := uchar c7.1
          if b7 ≠ pl.2.2.1 then
            (-6, [b0, b1, b2, lb, b4, b5] ++ pl.1 ++ [b7],
              { inp := c7.2, i := pl.2.2.2, sq := sq })
          else
            ((b1 : Int), [b0, b1, b2, lb, b4, b5] ++ pl.1 ++ [b7],
              { inp := c7.2, i := pl.2.2.2, sq := sq })

/-- The loop `for (tmp = 0; tmp < tmp2; tmp++) { ... getchar() ...; i++; }` of `dump52`,
for `tmp2 - tmp = n` passes left. -/
def skip_raw : Nat → Dec → Dec
  | 0, d => d
  | n + 1, d => skip_raw n { inp := (getchar d.inp).2, i := d.i + 1, sq := d.sq }

/-- The value of a 32-bit `int` that holds the bit pattern `v` (two's complement). -/
def int32 (v : Nat) : Int :=
  if v % 2 ^ 32 < 2 ^ 31 then ((v % 2 ^ 32 : Nat) : Int) else ((v % 2 ^ 32 : Nat) : Int) - 2 ^ 32

/-- The byte count `tmp2` that `dump52` assembles from the payload bytes 0..3 with
`tmp2 = data[3]; tmp2 <<= 8; tmp2 |= data[2]; ...`, as a 32-bit `int`. -/
def raster_count (data : List Nat) : Int :=
  int32 ((((((rd data 9 <<< 8) ||| rd data 8) <<< 8) ||| rd data 7) <<< 8) ||| rd data 6)

/-- The line count `tmp` that `dump52` assembles from the payload bytes 4 and 5. -/
def raster_lines (data : List Nat) : Int := (((rd data 11 <<< 8) ||| rd data 10 : Nat) : Int)

/-- The function `dump52(data)`, on the input and the position counter. -/
def dump52 (data : List Nat) (d : Dec) : Dec :=
  if rd data 3 ≠ 6 then d else skip_raw (raster_count data).toNat d

/-- The function `main` of `esc-m.c`: the exit value and the final input and globals.
The first argument bounds the number of passes of `while (!feof(stdin))`. -/
def esc_main : Nat → Dec → Except Fault (Int × Dec)
  | 0, d => if d.inp.eof = true then .ok (0, d) else .error .fuel
  | f + 1, d =>
    if d.inp.eof = true then .ok (0, d)
    else
      let r := readesc d
      if r.1 < 0 then .ok (r.1, r.2.2)
      else if r.1 = 0x52 then esc_main f (dump52 r.2.1 r.2.2)
      else esc_main f r.2.2

/-- The function `getdword(data)` of `esc-m.c`, for the pointer `data + off`. -/
def getdword (data : List Nat) (off : Nat) : Int :=
  int32 ((((rd data (off + 1) <<< 24) ||| (rd data off <<< 16)) ||| (rd data (off + 3) <<< 8)) |||
    rd data (off + 2))

/-- The globals `gl_x`, `gl_y`, `gl_tray` and `gl_pformat` of `esc-m.c`. -/
structure PageGlobals where
  gl_x : Int
  gl_y : Int
  gl_tray : Int
  gl_pformat : Int

/-- The function `dump51(data)`, on the globals it sets. -/
def dump51 (data : List Nat) (g : PageGlobals) : PageGlobals :=
  if rd data 3 ≠ 22 then g
  else { gl_x := getdword data 8, gl_y := getdword data 12, gl_tray := (rd data 20 : Nat),
         gl_pformat := (rd data 21 : Nat) }

/-! ## Raster data, end of job and device queries (`min12xxw.c`) -/

/-- The function `send_raster_data(out, nlines, len, data)`: the bytes written and the
new sequence counter. -/
def send_raster_data (sq nlines len : Nat) (data : List Nat) : Except Fault (List Nat × Nat) :=
  if ¬ nlines < 2 ^ 16 then .error .assertion
  else
    match do_cmd sq 0x52 6 [len &&& 0xff, (len >>> 8) &&& 0xff, (len >>> 16) &&& 0xff,
      (len >>> 24) % 256, nlines &&& 0xff, (nlines >>> 8) &&& 0xff] with
    | .error x => .error x
    | .ok r => .ok (r.1 ++ data.take len, r.2)

/-- The reads of one pass of the `do` loop of `do_read`: the register id `d`, the length
`c` and `c` payload bytes, from the bytes the device sends.  Result: `d`, `c`, the buffer
`retVal` and the bytes not yet read; `fatal` is called at end of file.  The call of
`malloc` is taken to succeed. -/
def read_response (inp : List Nat) : Except Fault (Nat × Nat × List Nat × List Nat) :=
  match inp with
  | d :: c :: r => if r.length < c then .error .fatal else .ok (d, c, r.take c, r.drop c)
  | _ => .error .fatal

/-- The loop `do { ... } while ((d != reg) && (j++ < 10));` of `do_read`.  The first
argument is the number of times the test `j++ < 10` can still succeed (10 when the loop
is entered with `j = 0`), the second is `j`. -/
def do_read_loop (reg : Nat) : Nat → Nat → List Nat →
    Except Fault (Nat × Nat × List Nat × List Nat)
  | 0, _, inp => read_response inp
  | k + 1, j, inp =>
    match read_response inp with
    | .error x => .error x
    | .ok r => if r.1 ≠ reg ∧ j < 10 then do_read_loop reg k (j + 1) r.2.2.2 else .ok r

/-- The function `do_read(in, reg, &len)`: the buffer returned (`none` for `NULL`), the
value stored in `*len`, and the bytes of the device not yet read. -/
def do_read (reg : Nat) (inp : List Nat) : Except Fault (Option (List Nat) × Nat × List Nat) :=
  match do_read_loop reg 10 0 inp with
  | .error x => .error x
  | .ok r => if r.1 ≠ reg then .ok (none, 0, r.2.2.2) else .ok (some r.2.2.1, r.2.1, r.2.2.2)

/-- The bytes a device sends for a list of responses `(register id, payload)`: the id,
the payload length and the payload of each. -/
def responses : List (Nat × List Nat) → List Nat
  | [] => []
  | r :: rs => r.1 :: r.2.length :: (r.2 ++ responses rs)

/-! ## Pages and jobs (`min12xxw.c`, lines 356-363 and 525-677) -/

/-- The function `send_end_job(out)`: the 0x55 command followed by `do_stop`. -/
def send_end_job (sq : Nat) : Except Fault (List Nat × Nat) :=
  match do_cmd sq 0x55 1 [0] with
  | .error x => .error x
  | .ok r1 =>
    match do_cmd r1.2 0x41 1 [0] with
    | .error x => .error x
    | .ok r2 => .ok (r1.1 ++ r2.1, r2.2)

/-- The table `skiptbl`, read at index `i`.  An index above 2 lies outside the array; it
reads 0 here. -/
def skiptbl (i : Nat) : Nat := [6, 13, 25].getD i 0

/-- The call `fread(scl, 1, n, in)`: the bytes stored (fewer than `n` only at end of
file) and the new input. -/
def fread (n : Nat) (s : Stdin) : List Nat × Stdin :=
  if n ≤ s.rest.length then (s.rest.take n, { rest := s.rest.drop n, eof := s.eof })
  else (s.rest, { rest := [], eof := true })

/-- One scanline that `dopage` compresses, kept for stating properties: the bytes read,
the bytes passed to `compress_scanline`, and the record appended to the block buffer. -/
structure Line where
  raw : List Nat
  fed : List Nat
  record : List Nat

/-- One block of `dopage`: `yy` after the scanline loop, `bllen`, the bytes stored in
the block buffer, and the scanlines compressed. -/
structure Band where
  yy : Nat
  bllen : Nat
  blbuf : List Nat
  lines : List Line

/-- The variables of `dopage` that change from scanline to scanline, with the input and
the compressor's globals. -/
structure PageState where
  inp : Stdin
  yc : Nat
  ecofl : Int
  tbl : TblState

/-- The loop `for (yc = 0; yc < skip * 8; yc++)` of `dopage`, for `n` passes left. -/
def skip_top (sclbytes : Nat) : Nat → Stdin → Except Fault Stdin
  | 0, s => .ok s
  | n + 1, s =>
    if (fread sclbytes s).1.length ≠ sclbytes then .error .fatal
    else skip_top sclbytes n (fread sclbytes s).2

/-- The loop `for (yy = 0; (yy < sclperbl) && (yc < y); yy++, yc++)` of `dopage`.  The
first argument is `sclperbl - yy`. -/
def band_loop (ecomode skip sclbytes y : Nat) : Nat → PageState → Except Fault (Band × PageState)
  | 0, st => .ok ({ yy := 0, bllen := 0, blbuf := [], lines := [] }, st)
  | k + 1, st =>
    if st.yc < y then
      if (fread sclbytes st.inp).1.length ≠ sclbytes then .error .fatal
      else if (st.yc + skip * 8) % 2 ^ 32 > y then
        match band_loop ecomode skip sclbytes y k
          { inp := (fread sclbytes st.inp).2, yc := st.yc + 1, ecofl := st.ecofl, tbl := st.tbl } with
        | .error x => .error x
        | .ok r => .ok ({ yy := r.1.yy + 1, bllen := r.1.bllen, blbuf := r.1.blbuf,
                          lines := r.1.lines }, r.2)
      else
        let raw := (fread sclbytes st.inp).1
        let scl := if ecomode ≠ 0 ∧ st.ecofl ≠ 0 then List.replicate sclbytes 0 else raw
        let ecofl := if ecomode ≠ 0 then -1 - st.ecofl else st.ecofl
        match compress_scanline scl skip ((sclbytes + 2 ^ 32 - skip) % 2 ^ 32) st.tbl with
        | .error x => .error x
        | .ok c =>
          let record := uchar (0x80 + c.2.2.tbllen) :: (table c.2.2 ++ c.1.take c.2.1)
          match band_loop ecomode skip sclbytes y k
            { inp := (fread sclbytes st.inp).2, yc := st.yc + 1, ecofl := ecofl, tbl := c.2.2 } with
          | .error x => .error x
          | .ok r => .ok ({ yy := r.1.yy + 1,
                            bllen := (c.2.1 + 1 + c.2.2.tbllen.toNat + r.1.bllen) % 2 ^ 32,
                            blbuf := record ++ r.1.blbuf,
                            lines := { raw := raw, fed := scl, record := record } :: r.1.lines },
                          r.2)
    else .ok ({ yy := 0, bllen := 0, blbuf := [], lines := [] }, st)

/-- The loop `for (i = 0; i < 8; i++)` of `dopage`, for `n` blocks left.  Result: for
each block the line count passed to `send_raster_data` and the block, the bytes written,
the final state and the new sequence counter. -/
def bands_loop (ecomode skip sclbytes sclperbl y : Nat) :
    Nat → Nat → PageState → Nat → Except Fault (List (Nat × Band) × List Nat × PageState × Nat)
  | 0, _, st, sq => .ok ([], [], st, sq)
  | n + 1, i, st, sq =>
    match band_loop ecomode skip sclbytes y sclperbl st with
    | .error x => .error x
    | .ok b =>
      let yy := if i = 7 then (b.1.yy + 2 ^ 32 - 8 * skip) % 2 ^ 32 else b.1.yy
      match send_raster_data sq yy b.1.bllen b.1.blbuf with
      | .error x => .error x
      | .ok o =>
        match bands_loop ecomode skip sclbytes sclperbl y n (i + 1) b.2 o.2 with
        | .error x => .error x
        | .ok r => .ok ((yy, b.1) :: r.1, o.1 ++ r.2.1, r.2.2)

/-- The value of `skip` in `dopage` (line 551), for the current value of `nomargins`. -/
def page_skip (cfg : Config) (nomargins : Nat) : Nat :=
  if nomargins = 0 then skiptbl (cfg.res &&& 0xff) else 0

/-- The function `dopage(in, out, x, y)`, for the current value of the global
`nomargins`.  The two calls of `malloc` are taken to succeed, and the blocks are kept
as lists, whatever the size of the block buffer: that size is `blblen`, and the stores into
the buffer are listed by `dopage_stores`.  Result: the blocks, the bytes written, the final
state and sequence counter. -/
def dopage (cfg : Config) (nomargins : Nat) (inp : Stdin) (sq : Nat) (tbl : TblState)
    (x y : Nat) : Except Fault (List (Nat × Band) × List Nat × PageState × Nat) :=
  match skip_top (x / 8) (page_skip cfg nomargins * 8) inp with
  | .error e => .error e
  | .ok inp1 =>
    bands_loop cfg.ecomode (page_skip cfg nomargins) (x / 8) (y / 8 + if y &&& 7 ≠ 0 then 1 else 0) y
      8 0 { inp := inp1, yc := page_skip cfg nomargins * 8, ecofl := 0, tbl := tbl } sq

/-- The characters of a line up to and including the first newline, and what follows;
the last component tells whether a newline was found. -/
def split_line : List Nat → List Nat × List Nat × Bool
  | [] => ([], [], false)
  | c :: r =>
    if c = 10 then ([c], r, true)
    else ((c :: (split_line r).1), (split_line r).2.1, (split_line r).2.2)

/-- The call `getline(&line, &llen, in)` (see `getline.c`): the line read, with its
newline when there is one, or `none` for the value -1, and the new input.  The end of
file indicator is set when the end of the input is reached before a newline. -/
def getline (s : Stdin) : Option (List Nat) × Stdin :=
  if s.eof = true then (none, s)
  else if (split_line s.rest).2.2 = true then
    (some (split_line s.rest).1, { rest := (split_line s.rest).2.1, eof := false })
  else if s.rest = [] then (none, { rest := [], eof := true })
  else (some s.rest, { rest := [], eof := true })

/-- White space for `sscanf`: space, `\t`, `\n`, `\v`, `\f`, `\r`. -/
def is_space (c : Nat) : Bool := c = 32 ∨ (9 ≤ c ∧ c ≤ 13)

/-- The decimal digits at the start of a string: their value after the digits `acc`,
how many there are, and the rest of the string. -/
def scan_digits : List Nat → Nat → Nat × Nat × List Nat
  | [], acc => (acc, 0, [])
  | c :: r, acc =>
    if 48 ≤ c ∧ c ≤ 57 then
      ((scan_digits r (acc * 10 + (c - 48))).1, (scan_digits r (acc * 10 + (c - 48))).2.1 + 1,
        (scan_digits r (acc * 10 + (c - 48))).2.2)
    else (acc, 0, c :: r)

/-- Modelled from the C library: the conversion `%lu` of `sscanf` on a string, for a
64-bit `unsigned long`.  White space is skipped, an optional sign and at least one
decimal digit are read; a value that does not fit is replaced by `ULONG_MAX` and a minus
sign negates the value modulo `2^64`.  Result: the value and the rest of the string. -/
def scan_lu (s : List Nat) : Option (Nat × List Nat) :=
  let t := s.dropWhile is_space
  let neg := decide (t.head? = some 45)
  let u := if t.head? = some 45 ∨ t.head? = some 43 then t.tail else t
  let d := scan_digits u 0
  if d.2.1 = 0 then none
  else if d.1 ≥ 2 ^ 64 then some (2 ^ 64 - 1, d.2.2)
  else if neg = true then some ((2 ^ 64 - d.1) % 2 ^ 64, d.2.2)
  else some (d.1, d.2.2)

/-- The call `sscanf(line, "%lu %lu", &lx, &ly)`: `lx` and `ly` when it returns 2. -/
def sscanf_lu_lu (line : List Nat) : Option (Nat × Nat) :=
  match scan_lu line with
  | none => none
  | some a =>
    match scan_lu a.2 with
    | none => none
    | some b => some (a.1, b.1)

/-- The loop `do { getline ... } while (line[0] == '#');` of `dojob`: the first line
that is not a comment, and the new input.  The first argument bounds the number of
lines read. -/
def header_line : Nat → Stdin → Except Fault (List Nat × Stdin)
  | 0, _ => .error .fuel
  | f + 1, s =>
    match (getline s).1 with
    | none => .error .fatal
    | some line => if rd line 0 = 35 then header_line f (getline s).2 else .ok (line, (getline s).2)

/-- The statement `if (x & 0x7) x = 8 + (x & ~0x7);` of `dojob`, on a `uint32_t`. -/
def round_x (x : Nat) : Nat := if x &&& 0x7 ≠ 0 then (8 + (x &&& 0xfffffff8)) % 2 ^ 32 else x

/-- The test `(((y - skip) / 8) <= skip) || (x <= (2 * skip))` of `dojob`, in unsigned
32-bit arithmetic. -/
def small_page (skip x y : Nat) : Bool :=
  decide ((y + 2 ^ 32 - skip) % 2 ^ 32 / 8 ≤ skip ∨ x ≤ 2 * skip)

/-- What `dojob` did for one page, kept for stating properties: the dimensions after
rounding, whether the small-page test held, the values of `nomargins` and `skip` after
the test, the dimensions passed to `send_new_page`, and the blocks of `dopage`. -/
structure PageRec where
  x : Nat
  y : Nat
  small : Bool
  nomargins : Nat
  skip : Nat
  sent_x : Nat
  sent_y : Nat
  bands : List (Nat × Band)

/-- The input, the sequence counter, the compressor's globals, the global `nomargins`
and the local `skip` of `dojob`. -/
structure JobState where
  inp : Stdin
  sq : Nat
  tbl : TblState
  nomargins : Nat
  skip : Nat

/-- The initial value of `skip` in `dojob` (line 616). -/
def job_skip (cfg : Config) : Nat :=
  if cfg.nomargins = 0 then 16 * skiptbl (cfg.res &&& 0xff) else 0

/-- Lines 643-666 of `dojob` for a page whose header gave `lx` and `ly`, with the
current values of `nomargins` and `skip`: the truncation to `uint32_t`, the rounding of
`x`, the small-page test, and the arguments `x - skip` and `y - skip` of `send_new_page`.
No block is recorded yet. -/
def page_head (nomargins skip lx ly : Nat) : PageRec :=
  let x := round_x (lx % 2 ^ 32)
  let y := ly % 2 ^ 32
  let small := small_page skip x y
  let nomargins1 := if small = true then 1 else nomargins
  let skip1 := if small = true then 0 else skip
  { x := x, y := y, small := small, nomargins := nomargins1, skip := skip1,
    sent_x := (x + 2 ^ 32 - skip1) % 2 ^ 32, sent_y := (y + 2 ^ 32 - skip1) % 2 ^ 32,
    bands := [] }

/-- Lines 643-670 of `dojob` for a page whose header gave `lx` and `ly`: `page_head`,
then `send_new_page` and `dopage`.  Result: the record of the page, the bytes written
and the new state. -/
def dojob_page (cfg : Config) (js : JobState) (lx ly : Nat) :
    Except Fault (PageRec × List Nat × JobState) :=
  let h := page_head js.nomargins js.skip lx ly
  match send_new_page cfg js.sq h.sent_x h.sent_y with
  | .error e => .error e
  | .ok np =>
    match dopage cfg h.nomargins js.inp np.2 js.tbl h.x h.y with
    | .error e => .error e
    | .ok pg =>
      .ok ({ h with bands := pg.1 },
           np.1 ++ pg.2.1,
           { inp := pg.2.2.1.inp, sq := pg.2.2.2, tbl := pg.2.2.1.tbl, nomargins := h.nomargins,
             skip := h.skip })

/-- The loop `while (!feof(in) && !ferror(in))` of `dojob`.  The first argument bounds
the number of passes.  Result: the records of the pages, the bytes written and the final
state. -/
def dojob_loop (cfg : Config) : Nat → JobState → Except Fault (List PageRec × List Nat × JobState)
  | 0, js => if js.inp.eof = true then .ok ([], [], js) else .error .fuel
  | f + 1, js =>
    if js.inp.eof = true then .ok ([], [], js)
    else
      match (getline js.inp).1 with
      | none => .ok ([], [], { inp := (getline js.inp).2, sq := js.sq, tbl := js.tbl,
                               nomargins := js.nomargins, skip := js.skip })
      | some line =>
        if rd line 0 ≠ 80 ∨ rd line 1 ≠ 52 then .error .fatal
        else
          match header_line (getline js.inp).2.rest.length.succ (getline js.inp).2 with
          | .error e => .error e
          | .ok h =>
            match sscanf_lu_lu h.1 with
            | none => .error .fatal
            | some d =>
              match dojob_page cfg { inp := h.2, sq := js.sq, tbl := js.tbl,
                                     nomargins := js.nomargins, skip := js.skip } d.1 d.2 with
              | .error e => .error e
              | .ok pg =>
                match dojob_loop cfg f pg.2.2 with
                | .error e => .error e
                | .ok r => .ok (pg.1 :: r.1, pg.2.1 ++ r.2.1, r.2.2)

/-- The function `dojob(in, out)`, started with the sequence counter `sq` and the
compressor's globals `tbl`.  Result: the records of the pages, the bytes written and the
final state. -/
def dojob (cfg : Config) (inp : Stdin) (sq : Nat) (tbl : TblState) :
    Except Fault (List PageRec × List Nat × JobState) :=
  match send_start_job cfg sq with
  | .error e => .error e
  | .ok s =>
    match dojob_loop cfg inp.rest.length.succ
        { inp := inp, sq := s.2, tbl := tbl, nomargins := cfg.nomargins,
          skip := job_skip cfg } with
    | .error e => .error e
    | .ok r =>
      match send_end_job r.2.2.sq with
      | .error e => .error e
      | .ok t => .ok (r.1, s.1 ++ r.2.1 ++ t.1, { r.2.2 with sq := t.2 })

/-- The bytes that `do_cmd` writes for the command `cmd` with the payload `data` when the
sequence counter is `sq` and `cmd` and `sq` are byte values: the six header bytes, the
payload and the checksum. -/
def frame (sq cmd : Nat) (data : List Nat) : List Nat :=
  [0x1b, cmd, sq, data.length % 256, data.length / 256, 0xff - cmd] ++ data ++
    [(0x1b + cmd + sq + data.length % 256 + data.length / 256 + (0xff - cmd) + data.sum) % 256]

/-! ## Predicates used in the proofs -/

/-- The bytes of `buf` at the positions `p, ..., p + n - 1`. -/
def seg (buf : List Nat) : Nat → Nat → List Nat
  | _, 0 => []
  | p, n + 1 => rd buf p :: seg buf (p + 1) n

/-- The table invariant: `0 <= tbllen <= 16`, `invtbl[tbl[i]] = i` for `i < tbllen`, and
`invtbl[b] = 0xff` for every byte `b` that is not one of `tbl[0..tbllen)`. -/
def TblInv (st : TblState) : Prop :=
  0 ≤ st.tbllen ∧ st.tbllen ≤ 16 ∧
  (∀ i : Nat, (i : Int) < st.tbllen → st.invtbl (st.tbl i) = i) ∧
  (∀ b : Nat, b < 256 → (∀ i : Nat, (i : Int) < st.tbllen → st.tbl i ≠ b) → st.invtbl b = 0xff)

/-- The list `tb` holds the table entries `tbl[0..tbllen)` of `st` at their indices. -/
def TblExt (st : TblState) (tb : List Nat) : Prop :=
  ∀ i : Nat, (i : Int) < st.tbllen → tb[i]? = some (st.tbl i)

/-- The table of the second state extends that of the first: entries are only appended,
and a byte that has an index keeps having one. -/
def TblLe (st st' : TblState) : Prop :=
  st.tbllen ≤ st'.tbllen ∧ (∀ i : Nat, (i : Int) < st.tbllen → st'.tbl i = st.tbl i) ∧
    ∀ b : Nat, st.invtbl b < 16 → st'.invtbl b < 16

/-- What the extension loop of the table branch guarantees about its result `r`. -/
def MoreOk (buf : List Nat) (e q p : Nat) (st : TblState)
    (r : Nat × List Nat × Nat × Nat × TblState) : Prop :=
  r.2.1.length = r.2.2.1 ∧ r.1 = q + r.2.2.1 ∧ r.1 ≤ 0x7f ∧ r.2.2.2.1 = p + 2 * r.2.2.1 ∧
    (p ≤ e → r.2.2.2.1 ≤ e) ∧ TblInv r.2.2.2.2 ∧ TblLe st r.2.2.2.2 ∧
    ∀ tb, TblExt r.2.2.2.2 tb → unpack tb r.2.1 = some (seg buf p (2 * r.2.2.1))

/-- What the main loop of `compress_scanline` guarantees about its result `r`. -/
def LoopOk (buf : List Nat) (e p : Nat) (st : TblState) (r : List Nat × Nat × TblState) : Prop :=
  r.2.1 = r.1.length ∧ TblInv r.2.2 ∧ TblLe st r.2.2 ∧
    ∀ tb, TblExt r.2.2 tb → ∀ F, r.1.length ≤ F → decode tb F r.1 = some (seg buf p (e - p))

/-- What the literal loop guarantees about its result `r`. -/
def LitOk (buf : List Nat) (e k q p : Nat) (r : Nat × List Nat × Nat × Nat) : Prop :=
  r.2.1 = seg buf p r.2.2.1 ∧ 1 ≤ r.2.2.1 ∧ r.2.2.1 ≤ k + 1 ∧ r.2.2.2 = p + r.2.2.1 ∧
    r.1 = (q + r.2.2.1) % 256 ∧ (p < e → r.2.2.2 ≤ e)

/-- What holds of every result `r` of the main loop of `compress_scanline` started at
`p` with the globals `st`: `olen` counts the bytes stored, the table invariant holds, the
table only grew, and `olen` is bounded by the bytes left, with or without one extra byte. -/
def LoopInv (buf : List Nat) (e p : Nat) (st : TblState) (r : List Nat × Nat × TblState) : Prop :=
  r.2.1 = r.1.length ∧ TblInv r.2.2 ∧ TblLe st r.2.2 ∧ r.2.1 ≤ (e - p) + (e - p) / 10 + 1 ∧
    ((¬ p < e ∨ get_len buf p e > 2 ∨ next_n_in_tbl buf st p 4 e = true) →
      r.2.1 ≤ (e - p) + (e - p) / 10)

/-- What holds of every block that the scanline loop of `dopage` builds from byte values,
for `k` passes: the bound of each record, the bound of the bytes stored, and `bllen`. -/
def BandOk (sclbytes k : Nat) (b : Band) : Prop :=
  (∀ l ∈ b.lines, l.record.length ≤ 17 + sclbytes + sclbytes / 10 + 1) ∧
    b.blbuf.length ≤ k * (17 + sclbytes + sclbytes / 10 + 1) ∧
    b.bllen = b.blbuf.length % 2 ^ 32

/-- The scanlines that `dopage` compressed for a page, in order. -/
def page_lines : List (Nat × Band) → List Line
  | [] => []
  | b :: bs => b.2.lines ++ page_lines bs

/-- What holds of the scanline compressed as number `idx` of its page (from 0): the
bytes read are a whole scanline, the bytes passed to the compressor are these or zeros,
and the record is the table preamble and the compressor's output for them. -/
def LineOk (ecomode skip sclbytes idx : Nat) (l : Line) : Prop :=
  l.raw.length = sclbytes ∧
    l.fed = (if ecomode ≠ 0 ∧ idx % 2 = 1 then List.replicate sclbytes 0 else l.raw) ∧
    ∃ st c, compress_scanline l.fed skip ((sclbytes + 2 ^ 32 - skip) % 2 ^ 32) st = .ok c ∧
      l.record = uchar (0x80 + c.2.2.tbllen) :: (table c.2.2 ++ c.1.take c.2.1)

/-- What holds of a page that `dojob` processes with `skip = 0`: the values of `skip`
and `nomargins`, the margin of `dopage`, the dimensions passed to `send_new_page`, the
calls made, the number of scanlines compressed and the positions they are compressed
between. -/
def Sticky (cfg : Config) (q : PageRec) : Prop :=
  q.skip = 0 ∧ q.nomargins = 1 ∧ page_skip cfg q.nomargins = 0 ∧
    q.sent_x = q.x ∧ q.sent_y = q.y ∧
    (∃ sq1 inp1 sq2 tbl1 np pr, send_new_page cfg sq1 q.x q.y = .ok np ∧
      dopage cfg 1 inp1 sq2 tbl1 q.x q.y = .ok pr ∧ q.bands = pr.1) ∧
    (page_lines q.bands).length = q.y ∧
    ∀ l ∈ page_lines q.bands, ∃ st c, compress_scanline l.fed 0 (q.x / 8) st = .ok c ∧
      l.record = uchar (0x80 + c.2.2.tbllen) :: (table c.2.2 ++ c.1.take c.2.1)

/-- The result `m` is not a failure of the model's loop bound, and `post` holds of the
value when there is one. -/
def NoFuel {α : Type} (m : Except Fault α) (post : α → Prop) : Prop :=
  match m with
  | .ok r => post r
  | .error x => x ≠ Fault.fuel

/-- What the scanline loop keeps: the input holds byte values and does not grow, and the
table is in order. -/
def PageInv (L : Nat) (st : PageState) : Prop :=
  (∀ b ∈ st.inp.rest, b < 256) ∧ (TblInv st.tbl ∨ st.tbl.tbllen = -1) ∧ st.inp.rest.length ≤ L

/-- What the page loop keeps of the state of `dojob`. -/
def JobInv (L : Nat) (js : JobState) : Prop :=
  (∀ b ∈ js.inp.rest, b < 256) ∧ (TblInv js.tbl ∨ js.tbl.tbllen = -1) ∧ js.inp.rest.length ≤ L

/-- Every call of `add_tbl` in the list returned an index below 16 at which the table
`st` holds the argument of the call. -/
def CallsOk (st : TblState) (calls : List (Nat × Nat)) : Prop :=
  ∀ c ∈ calls, c.2 < 16 ∧ (c.2 : Int) < st.tbllen ∧ st.tbl c.2 = c.1

/-- What holds of a pass of the main loop of `compress_scanline` on `buf`, when `fin`
is the table the scanline leaves.  A run-length pass found a run of 3 to 4094 equal bytes
and stored a long pair for `64 * (n / 64)` of them if `n > 63` and a short pair for the
other `n % 64` if there are any.  A table pass stored an opcode `0x41 + j` and the packed
indices returned by its `4 + 2 * j` calls of `add_tbl` for the bytes from `pos` on; each
index is below 16 and below `tbllen`, and `tbl` holds the byte at it.  A literal pass
stored the header `m - 1` and `m` bytes as they are, for some `m` from 1 to 10. -/
def GroupOk (buf : List Nat) (fin : TblState) (g : Group) : Prop :=
  (g.kind = .rle → 3 ≤ g.n ∧ g.n < 4095 ∧ (∀ i, i < g.n → rd buf (g.pos + i) = rd buf g.pos) ∧
    g.out = (if g.n > 63 then [0xc0 + g.n / 64, rd buf g.pos] else []) ++
      (if g.n % 64 ≠ 0 then [0x80 + g.n % 64, rd buf g.pos] else []) ∧
    g.calls = [] ∧ g.next = g.pos + g.n) ∧
  (g.kind = .table → g.n < 3 ∧
    (∃ op, g.out = op :: pack_pairs (g.calls.map Prod.snd) ∧ 0x41 ≤ op ∧ op ≤ 0x7f ∧
      g.calls.length = 4 + 2 * (op - 0x41)) ∧
    g.calls.map Prod.fst = seg buf g.pos g.calls.length ∧ CallsOk fin g.calls ∧
    g.next = g.pos + g.calls.length) ∧
  (g.kind = .literal → g.n < 3 ∧
    (∃ m, 1 ≤ m ∧ m ≤ 10 ∧ g.out = (m - 1) :: seg buf g.pos m ∧ g.next = g.pos + m) ∧
    g.calls = [])

/-- The two runs of the main loop, with and without records, agree. -/
def SameRun (a : Except Fault (List Group × TblState))
    (b : Except Fault (List Nat × Nat × TblState)) : Prop :=
  match a, b with
  | .ok t, .ok r => r.1 = out_bytes t.1 ∧ r.2.2 = t.2
  | .error x, .error y => x = y
  | _, _ => False

/-- Two table states agree in what `compress_scanline` can see and in what `dopage`
copies: `tbllen`, the entries `tbl[0..tbllen)` and the 256 entries of `invtbl`. -/
def TblEq (a b : TblState) : Prop :=
  a.tbllen = b.tbllen ∧ (∀ i : Nat, (i : Int) < a.tbllen → a.tbl i = b.tbl i) ∧
    ∀ c : Nat, c < 256 → a.invtbl c = b.invtbl c

/-- Two runs of the main loop of `compress_scanline` agree: both fail in the same way, or
both return the same bytes and `olen` and leave table states that agree. -/
def ResEq (x y : Except Fault (List Nat × Nat × TblState)) : Prop :=
  match x, y with
  | .ok r, .ok s => r.1 = s.1 ∧ r.2.1 = s.2.1 ∧ TblEq r.2.2 s.2.2
  | .error u, .error v => u = v
  | _, _ => False

/-! ## The positions of the scanline that the compressor reads -/

/-- The positions at which the loop `while ((p < end) && (c == *p++)) len++;` of
`get_len` reads `*p`: the byte is read whenever `p < end` holds.  The first argument is
the distance from `p` to `end`, as for `get_len_loop`. -/
def get_len_loop_reads (buf : List Nat) (c e : Nat) : Nat → Nat → List Nat
  | 0, _ => []
  | k + 1, p =>
    if p < e then p :: (if c = rd buf p then get_len_loop_reads buf c e k (p + 1) else [])
    else []

/-- The positions read by `get_len(p, end)`: `c = *p++` reads at `p` before any test,
then the loop reads. -/
def get_len_reads (buf : List Nat) (p e : Nat) : List Nat :=
  p :: get_len_loop_reads buf (rd buf p) e (e - (p + 1)) (p + 1)

/-- The positions read by `next_n_in_tbl(p, len, end)`: none when `p + len >= end`, else
`p, ..., p + len - 1`. -/
def next_n_reads (p len e : Nat) : List Nat :=
  if p + len ≥ e then [] else (List.range len).map (fun j => p + j)

/-- The positions read by the loop `while (next_n_in_tbl(p, 2, end) && (*q < 0x7f))` of
the table branch, with the arguments of `tbl_more`.  The call of `next_n_in_tbl` in the
loop test is made also when `*q` has reached 0x7f. -/
def tbl_more_reads (buf : List Nat) (e : Nat) : Nat → Nat → Nat → TblState → List Nat
  | 0, _, p, _ => next_n_reads p 2 e
  | k + 1, q, p, st =>
    next_n_reads p 2 e ++
      (if next_n_in_tbl buf st p 2 e = true ∧ q < 0x7f then
        get_len_reads buf p (min (p + 3) e) ++
          (if get_len buf p (min (p + 3) e) ≥ 3 then []
           else [p, p + 1] ++ tbl_more_reads buf e k ((q + 1) % 256) (p + 2) (tbl_pair buf st p).2)
       else [])

/-- The positions read by the `do ... while` loop of the literal branch, with the
arguments of `lit_loop`: `*p++` is stored, then `get_len(p, MIN(p + 3, end))` and, unless
that breaks the loop, `next_n_in_tbl(p, 4, end)` are called, on the last pass too. -/
def lit_loop_reads (buf : List Nat) (e : Nat) (st : TblState) : Nat → Nat → Nat → List Nat
  | 0, _, p =>
    p :: (get_len_reads buf (p + 1) (min (p + 1 + 3) e) ++
      (if get_len buf (p + 1) (min (p + 1 + 3) e) ≥ 3 then [] else next_n_reads (p + 1) 4 e))
  | k + 1, q, p =>
    p :: (get_len_reads buf (p + 1) (min (p + 1 + 3) e) ++
      (if get_len buf (p + 1) (min (p + 1 + 3) e) ≥ 3 then []
       else next_n_reads (p + 1) 4 e ++
        (if next_n_in_tbl buf st (p + 1) 4 e = true then []
         else if p + 1 < e ∧ (q + 1) % 256 < 9 then
          lit_loop_reads buf e st k ((q + 1) % 256) (p + 1)
         else [])))

/-- The positions read by the run-length branch for a run of `n` bytes at `p`: `*p` for
the long pair, and `*p` again, after `p += n & ~0x3f`, for the short pair. -/
def rle_reads (p n : Nat) : List Nat :=
  (if n > 63 then [p] else []) ++
    (if (if n > 63 then n &&& 0x3f else n) ≠ 0 then
      [if n > 63 then p + (n &&& 0xffffffc0) else p] else [])

/-- The positions of the scanline read by the loop `while (p < end)` of
`compress_scanline`, in order, with the arguments of `compress_loop`; nothing is read
after a failed assertion. -/
def compress_reads (buf : List Nat) (e : Nat) : Nat → Nat → TblState → List Nat
  | 0, _, _ => []
  | f + 1, p, st =>
    if p < e then
      get_len_reads buf p e ++
        (if get_len buf p e > 2 then
          if ¬ get_len buf p e < 63 * 64 + 63 then []
          else rle_reads p (get_len buf p e) ++
            compress_reads buf e f (rle_emit buf p (get_len buf p e)).2.2 st
         else
          next_n_reads p 4 e ++
            (if next_n_in_tbl buf st p 4 e = true then
              [p, p + 1, p + 2, p + 3] ++
                tbl_more_reads buf e (0x7f - 0x41) 0x41 (p + 4)
                  (tbl_pair buf (tbl_pair buf st p).2 (p + 2)).2 ++
                compress_reads buf e f
                  (tbl_more buf e (0x7f - 0x41) 0x41 (p + 4)
                    (tbl_pair buf (tbl_pair buf st p).2 (p + 2)).2).2.2.2.1
                  (tbl_more buf e (0x7f - 0x41) 0x41 (p + 4)
                    (tbl_pair buf (tbl_pair buf st p).2 (p + 2)).2).2.2.2.2
             else
              lit_loop_reads buf e st 9 0xff p ++
                compress_reads buf e f (lit_loop buf e st 9 0xff p).2.2.2 st))
    else []

/-- The positions of the scanline at `[p, e)` that `compress_scanline(p, end, obuf)`
reads, in order. -/
def scanline_reads (buf : List Nat) (p e : Nat) (st : TblState) : List Nat :=
  compress_reads buf e (e - p) p (clear_tables st)

/-! ## Streams of frames through the parser -/

/-- The function `main` of `esc-m.c`, as `esc_main`, with a record of the values that
`readesc` returned for the frames it accepted, in order.  Result: the record, the exit
value and the final input and globals. -/
def esc_trace : Nat → Dec → Except Fault (List Int × Int × Dec)
  | 0, d => if d.inp.eof = true then .ok ([], 0, d) else .error .fuel
  | f + 1, d =>
    if d.inp.eof = true then .ok ([], 0, d)
    else if (readesc d).1 < 0 then .ok ([], (readesc d).1, (readesc d).2.2)
    else
      match esc_trace f (if (readesc d).1 = 0x52 then dump52 (readesc d).2.1 (readesc d).2.2
          else (readesc d).2.2) with
      | .ok t => .ok ((readesc d).1 :: t.1, t.2)
      | .error x => .error x

/-- A run of calls of `do_cmd` in one process, each given as `(cmd, payload, raw)`: the
frame of `do_cmd(out, cmd, len, payload)` for the whole payload, followed by the bytes
`raw` written to `out` right after it (as `send_raster_data` writes the block after its
frame).  Result: all the bytes written, in order, and the final sequence counter. -/
def write_items : Nat → List (Nat × List Nat × List Nat) → Except Fault (List Nat × Nat)
  | sq, [] => .ok ([], sq)
  | sq, it :: its =>
    match do_cmd sq it.1 it.2.1.length it.2.1 with
    | .error x => .error x
    | .ok r =>
      match write_items r.2 its with
      | .error x => .error x
      | .ok rs => .ok (r.1 ++ (it.2.2 ++ rs.1), rs.2)

/-- Modelled from the spec: the number of raw bytes that the payload of a 0x52 frame
announces, its first four bytes read as a little-endian number. -/
def announced (payload : List Nat) : Nat :=
  rd payload 0 + 256 * rd payload 1 + 65536 * rd payload 2 + 16777216 * rd payload 3

/-- Modelled from the spec: an item `(cmd, payload, raw)` of an encoder stream has byte
values and a payload of fewer than 256 bytes; a 0x52 frame with the 6-byte payload of
`send_raster_data` is followed by as many raw bytes as it announces, fewer than `2^31`;
no other frame is followed by raw bytes. -/
def ItemOk (it : Nat × List Nat × List Nat) : Prop :=
  it.1 < 256 ∧ (∀ b ∈ it.2.1, b < 256) ∧ it.2.1.length < 256 ∧
    ((it.1 = 0x52 ∧ it.2.1.length = 6) →
      it.2.2.length = announced it.2.1 ∧ it.2.2.length < 2 ^ 31) ∧
    (¬ (it.1 = 0x52 ∧ it.2.1.length = 6) → it.2.2 = [])

/-! ## The block buffer of `dopage` and the stores into it -/

/-- The value of `blblen` in `dopage` (line 544), the number of bytes that `malloc`
is asked for the block buffer: the product is computed in `uint32_t`. -/
def blblen (x y : Nat) : Nat :=
  ((y / 8 + if y &&& 7 ≠ 0 then 1 else 0) * ((17 + x / 8 + x / 8 / 10 + 1) % 2 ^ 32)) % 2 ^ 32

/-- The stores into the block buffer for one scanline whose record starts at offset `off`
of the buffer (lines 585-592 of `dopage`), each given by its first offset and its length:
the output of `compress_scanline` at `blbuf + 17`, the byte `blbuf[0]`, the table copied to
`blbuf + 1`, and the output moved to `blbuf + 1 + tbllen`. -/
def record_stores (off sclen : Nat) (tbllen : Int) : List (Nat × Nat) :=
  [(off + 17, sclen), (off, 1)] ++
    (if tbllen ≠ 0 then [(off + 1, tbllen.toNat)] else []) ++
    (if tbllen < 16 then [(off + 1 + tbllen.toNat, sclen)] else [])

/-- The stores into the block buffer made by the scanline loop of `dopage`, in order, with
the same arguments as `band_loop` and the offset `off` of `blbuf` from the start of the
buffer.  The loop is followed until it ends or the program stops (`fatal`, or an assertion
of `compress_scanline`; the stores of a call of `compress_scanline` that stops the program
are left out). -/
def band_stores (ecomode skip sclbytes y : Nat) : Nat → Nat → PageState → List (Nat × Nat)
  | 0, _, _ => []
  | k + 1, off, st =>
    if st.yc < y then
      if (fread sclbytes st.inp).1.length ≠ sclbytes then []
      else if (st.yc + skip * 8) % 2 ^ 32 > y then
        band_stores ecomode skip sclbytes y k off
          { inp := (fread sclbytes st.inp).2, yc := st.yc + 1, ecofl := st.ecofl, tbl := st.tbl }
      else
        let raw := (fread sclbytes st.inp).1
        let scl := if ecomode ≠ 0 ∧ st.ecofl ≠ 0 then List.replicate sclbytes 0 else raw
        let ecofl := if ecomode ≠ 0 then -1 - st.ecofl else st.ecofl
        match compress_scanline scl skip ((sclbytes + 2 ^ 32 - skip) % 2 ^ 32) st.tbl with
        | .error _ => []
        | .ok c =>
          record_stores off c.2.1 c.2.2.tbllen ++
            band_stores ecomode skip sclbytes y k (off + (c.2.1 + 1 + c.2.2.tbllen.toNat))
              { inp := (fread sclbytes st.inp).2, yc := st.yc + 1, ecofl := ecofl, tbl := c.2.2 }
    else []

/-- The stores into the block buffer made by the block loop of `dopage`, block by block,
with the same arguments as `bands_loop`; every block starts at offset 0 of the buffer.  The
blocks after one in which the program stops are left out. -/
def bands_stores (ecomode skip sclbytes sclperbl y : Nat) :
    Nat → Nat → PageState → Nat → List (List (Nat × Nat))
  | 0, _, _, _ => []
  | n + 1, i, st, sq =>
    band_stores ecomode skip sclbytes y sclperbl 0 st ::
      match band_loop ecomode skip sclbytes y sclperbl st with
      | .error _ => []
      | .ok b =>
        match send_raster_data sq (if i = 7 then (b.1.yy + 2 ^ 32 - 8 * skip) % 2 ^ 32 else b.1.yy)
            b.1.bllen b.1.blbuf with
        | .error _ => []
        | .ok o => bands_stores ecomode skip sclbytes sclperbl y n (i + 1) b.2 o.2

/-- The stores into the block buffer made by `dopage(in, out, x, y)`, block by block, with
the same arguments as `dopage`. -/
def dopage_stores (cfg : Config) (nomargins : Nat) (inp : Stdin) (sq : Nat) (tbl : TblState)
    (x y : Nat) : List (List (Nat × Nat)) :=
  match skip_top (x / 8) (page_skip cfg nomargins * 8) inp with
  | .error _ => []
  | .ok inp1 =>
    bands_stores cfg.ecomode (page_skip cfg nomargins) (x / 8)
      (y / 8 + if y &&& 7 ≠ 0 then 1 else 0) y
      8 0 { inp := inp1, yc := page_skip cfg nomargins * 8, ecofl := 0, tbl := tbl } sq

/-! ## The loop bounds of the model are exact -/

/-- The result of `get_len_loop` does not depend on its first argument once this is at
least the distance from `p` to `end`. -/
theorem get_len_loop_fuel (buf : List Nat) (c e : Nat) : ∀ k k' p len, e - p ≤ k → e - p ≤ k' →
    get_len_loop buf c e k p len = get_len_loop buf c e k' p len := by
  intro k
  induction k with
  | zero =>
    intro k' p len h _
    have hp : ¬ (p < e ∧ c = rd buf p) := fun x => by omega
    cases k' with
    | zero => rfl
    | succ k' => rw [get_len_loop, get_len_loop, if_neg hp]
  | succ k ih =>
    intro k' p len h h'
    cases k' with
    | zero =>
      have hp : ¬ (p < e ∧ c = rd buf p) := fun x => by omega
      rw [get_len_loop, get_len_loop, if_neg hp]
    | succ k' =>
      rw [get_len_loop, get_len_loop]
      by_cases hc : p < e ∧ c = rd buf p
      · rw [if_pos hc, if_pos hc]
        exact ih k' (p + 1) (len + 1) (by omega) (by omega)
      · rw [if_neg hc, if_neg hc]

/-- The result of `tbl_more` does not depend on its first argument once this is at least
the number of increments that separate `*q` from 0x7f. -/
theorem tbl_more_fuel (buf : List Nat) (e : Nat) : ∀ k k' q p st, 0x7f - q ≤ k → 0x7f - q ≤ k' →
    tbl_more buf e k q p st = tbl_more buf e k' q p st := by
  intro k
  induction k with
  | zero =>
    intro k' q p st h _
    have hq : ¬ (next_n_in_tbl buf st p 2 e = true ∧ q < 0x7f) := fun x => by omega
    cases k' with
    | zero => rfl
    | succ k' => rw [tbl_more, tbl_more, if_neg hq]
  | succ k ih =>
    intro k' q p st h h'
    cases k' with
    | zero =>
      have hq : ¬ (next_n_in_tbl buf st p 2 e = true ∧ q < 0x7f) := fun x => by omega
      rw [tbl_more, tbl_more, if_neg hq]
    | succ k' =>
      rw [tbl_more, tbl_more]
      by_cases hc : next_n_in_tbl buf st p 2 e = true ∧ q < 0x7f
      · have hq : (q + 1) % 256 = q + 1 := by omega
        rw [if_pos hc, if_pos hc]
        simp only
        rw [ih k' ((q + 1) % 256) (p + 2) (tbl_pair buf st p).2 (by omega) (by omega)]
      · rw [if_neg hc, if_neg hc]

/-- The result of `lit_loop` does not depend on its first argument once this is at least
the number of passes that the test `*q < 9` can still allow. -/
theorem lit_loop_fuel (buf : List Nat) (e : Nat) (st : TblState) : ∀ k k' q p,
    9 ≤ (q + 1) % 256 + k → 9 ≤ (q + 1) % 256 + k' →
    lit_loop buf e st k q p = lit_loop buf e st k' q p := by
  intro k
  induction k with
  | zero =>
    intro k' q p h _
    have hq : ¬ (p + 1 < e ∧ (q + 1) % 256 < 9) := fun x => by omega
    cases k' with
    | zero => rfl
    | succ k' =>
      rw [lit_loop, lit_loop, if_neg hq]
      split
      · rfl
      · split <;> rfl
  | succ k ih =>
    intro k' q p h h'
    cases k' with
    | zero =>
      have hq : ¬ (p + 1 < e ∧ (q + 1) % 256 < 9) := fun x => by omega
      rw [lit_loop, lit_loop, if_neg hq]
      split
      · rfl
      · split <;> rfl
    | succ k' =>
      rw [lit_loop, lit_loop]
      by_cases hc : p + 1 < e ∧ (q + 1) % 256 < 9
      · rw [if_pos hc, if_pos hc]
        simp only
        rw [ih k' ((q + 1) % 256) (p + 1) (by omega) (by omega)]
      · rw [if_neg hc, if_neg hc]

/-! ## The compressor: round trip -/

theorem get_len_loop_spec (buf : List Nat) (c e : Nat) :
    ∀ k p len, ∃ m, get_len_loop buf c e k p len = len + m ∧ m ≤ k ∧ (0 < m → p + m ≤ e) ∧
      ∀ i, i < m → rd buf (p + i) = c := by
  intro k
  induction k with
  | zero => intro p len; exact ⟨0, by simp [get_len_loop], le_refl _, by simp, by simp⟩
  | succ k ih =>
    intro p len
    unfold get_len_loop
    by_cases h : p < e ∧ c = rd buf p
    · rw [if_pos h]
      obtain ⟨m, h1, h2, h3, h4⟩ := ih (p + 1) (len + 1)
      refine ⟨m + 1, by omega, by omega, ?_, ?_⟩
      · intro _
        by_cases hm : 0 < m
        · have := h3 hm; omega
        · omega
      · intro i hi
        cases i with
        | zero => simpa using h.2.symm
        | succ j =>
          have := h4 j (by omega)
          rw [← this]; congr 1; omega
    · rw [if_neg h]
      exact ⟨0, by simp, by omega, by simp, by simp⟩

theorem get_len_spec (buf : List Nat) (p e : Nat) :
    1 ≤ get_len buf p e ∧ (p < e → p + get_len buf p e ≤ e) ∧ (e ≤ p → get_len buf p e = 1) ∧
      ∀ i, i < get_len buf p e → rd buf (p + i) = rd buf p := by
  unfold get_len
  obtain ⟨m, h1, h2, h3, h4⟩ := get_len_loop_spec buf (rd buf p) e (e - (p + 1)) (p + 1) 0
  rw [h1]
  refine ⟨by omega, ?_, ?_, ?_⟩
  · intro hp
    by_cases hm : 0 < m
    · have := h3 hm; omega
    · omega
  · intro hp; omega
  · intro i hi
    cases i with
    | zero => rfl
    | succ j =>
      have := h4 j (by omega)
      rw [← this]; congr 1; omega

theorem seg_length (buf : List Nat) : ∀ n p, (seg buf p n).length = n := by
  intro n
  induction n with
  | zero => intro p; rfl
  | succ n ih => intro p; simp [seg, ih]

theorem seg_add (buf : List Nat) : ∀ m p n, seg buf p (m + n) = seg buf p m ++ seg buf (p + m) n := by
  intro m
  induction m with
  | zero => intro p n; simp [seg]
  | succ m ih =>
    intro p n
    have : m + 1 + n = (m + n) + 1 := by omega
    rw [this]
    simp only [seg, List.cons_append, ih]
    congr 3; omega

theorem seg_replicate (buf : List Nat) (c : Nat) : ∀ n p, (∀ i, i < n → rd buf (p + i) = c) →
    seg buf p n = List.replicate n c := by
  intro n
  induction n with
  | zero => intro p _; rfl
  | succ n ih =>
    intro p h
    simp only [seg, List.replicate_succ]
    rw [ih (p + 1) (fun i hi => by have := h (i + 1) (by omega); rw [← this]; congr 1; omega)]
    have := h 0 (by omega)
    simp at this
    rw [this]

theorem seg_drop : ∀ (buf : List Nat) (p : Nat), seg buf p (buf.length - p) = buf.drop p := by
  intro buf p
  generalize hn : buf.length - p = n
  induction n generalizing p with
  | zero =>
    have : buf.length ≤ p := by omega
    simp [seg, List.drop_of_length_le this]
  | succ n ih =>
    have hp : p < buf.length := by omega
    simp only [seg]
    rw [ih (p + 1) (by omega)]
    conv_rhs => rw [List.drop_eq_getElem_cons hp]
    simp [rd, List.getElem?_eq_getElem hp]

theorem seg_all (buf : List Nat) : seg buf 0 buf.length = buf := by
  have := seg_drop buf 0
  simpa using this

set_option maxRecDepth 20000 in
theorem rle_bits_aux : ∀ q, q < 64 → ∀ r, r < 64 →
    ((0xc0 ||| ((64 * q + r) >>> 6)) % 256 = 0xc0 + q ∧
    (64 * q + r) &&& 0xffffffc0 = 64 * q ∧ (64 * q + r) &&& 0x3f = r) := by
  decide

theorem rle_bits (n : Nat) (h : n < 4095) : (0xc0 ||| (n >>> 6)) % 256 = 0xc0 + n / 64 ∧
    n &&& 0xffffffc0 = 64 * (n / 64) ∧ n &&& 0x3f = n % 64 := by
  have := rle_bits_aux (n / 64) (by omega) (n % 64) (by omega)
  rwa [Nat.div_add_mod n 64] at this

theorem short_bits : ∀ m, m < 64 → (0x80 ||| m) % 256 = 0x80 + m := by decide

theorem pack_bits : ∀ i, i < 16 → ∀ j, j < 16 →
    ((((i <<< 4) % 256) ||| j) / 16 = i ∧ (((i <<< 4) % 256) ||| j) % 16 = j ∧
      (((i <<< 4) % 256) ||| j) < 256) := by
  decide

theorem TblLe.refl (st : TblState) : TblLe st st := ⟨le_refl _, fun _ _ => rfl, fun _ h => h⟩

theorem TblLe.trans {a b c : TblState} (h1 : TblLe a b) (h2 : TblLe b c) : TblLe a c :=
  ⟨le_trans h1.1 h2.1,
   fun i hi => by rw [h2.2.1 i (lt_of_lt_of_le hi h1.1), h1.2.1 i hi],
   fun x hx => h2.2.2 x (h1.2.2 x hx)⟩

theorem TblExt.mono {a b : TblState} {tb : List Nat} (h : TblLe a b) (hb : TblExt b tb) :
    TblExt a tb := by
  intro i hi
  rw [hb i (lt_of_lt_of_le hi h.1), h.2.1 i hi]

theorem TblInv.lookup {st : TblState} (h : TblInv st) {b : Nat} (hb : b < 256)
    (hi : st.invtbl b < 16) : (st.invtbl b : Int) < st.tbllen ∧ st.tbl (st.invtbl b) = b := by
  obtain ⟨h0, h16, h3, h4⟩ := h
  by_cases hex : ∃ i : Nat, (i : Int) < st.tbllen ∧ st.tbl i = b
  · obtain ⟨i, hi1, hi2⟩ := hex
    have := h3 i hi1
    rw [hi2] at this
    rw [this]
    exact ⟨hi1, hi2⟩
  · have := h4 b hb (fun i hi1 hi2 => hex ⟨i, hi1, hi2⟩)
    omega

theorem add_tbl_spec (st : TblState) (b : Nat) (hb : b < 256) (hinv : TblInv st)
    (hroom : st.invtbl b < 16 ∨ st.tbllen < 16) :
    TblInv (add_tbl st b).2 ∧ TblLe st (add_tbl st b).2 ∧ (add_tbl st b).1 < 16 ∧
      ((add_tbl st b).1 : Int) < (add_tbl st b).2.tbllen ∧
      (add_tbl st b).2.tbl (add_tbl st b).1 = b ∧ (add_tbl st b).2.invtbl b < 16 ∧
      (add_tbl st b).2.tbllen = st.tbllen + (if st.invtbl b < 16 then 0 else 1) := by
  by_cases hi : st.invtbl b < 16
  · have hl := hinv.lookup hb hi
    have e : add_tbl st b = (st.invtbl b, st) := by simp [add_tbl, hi]
    rw [e]
    exact ⟨hinv, TblLe.refl st, hi, hl.1, hl.2, hi, by simp [hi]⟩
  · have hlt : st.tbllen < 16 := by
      rcases hroom with h | h
      · exact absurd h hi
      · exact h
    obtain ⟨h0, _, h3, h4⟩ := hinv
    obtain ⟨n, hn⟩ := Int.eq_ofNat_of_zero_le h0
    have hn16 : n < 16 := by omega
    have hmod : (st.tbllen % 256).toNat = n := by rw [hn]; omega
    have htn : st.tbllen.toNat = n := by rw [hn]; simp
    have e : add_tbl st b = (n, ⟨st.tbllen + 1, Function.update st.tbl n b,
        Function.update st.invtbl b n⟩) := by
      have : ¬ (st.invtbl b < 16 ∨ st.tbllen ≥ 16) := by
        intro h; rcases h with h | h
        · exact hi h
        · omega
      simp only [add_tbl, if_neg this, hmod, htn]
    rw [e]
    have hne : ∀ i : Nat, (i : Int) < st.tbllen → st.tbl i ≠ b := by
      intro i hil hib
      have := h3 i hil
      rw [hib] at this
      omega
    refine ⟨⟨by simp only; omega, by simp only; omega, ?_, ?_⟩, ⟨by simp only; omega, ?_, ?_⟩,
      hn16, by simp only; omega, by simp, by simp; omega, by simp [hi]⟩
    · intro i hil
      simp only at hil ⊢
      by_cases hin : i = n
      · subst hin; rw [Function.update_same, Function.update_same]
      · have hil' : (i : Int) < st.tbllen := by omega
        rw [Function.update_noteq hin, Function.update_noteq (hne i hil')]
        exact h3 i hil'
    · intro b' hb' hall
      simp only at hall ⊢
      have hbb : b' ≠ b := by
        intro hbb
        have := hall n (by omega)
        simp [hbb] at this
      rw [Function.update_noteq hbb]
      apply h4 b' hb'
      intro i hil
      have := hall i (by omega)
      have hin : i ≠ n := by omega
      rwa [Function.update_noteq hin] at this
    · intro i hil
      simp only
      have hin : i ≠ n := by omega
      rw [Function.update_noteq hin]
    · intro x hx
      simp only
      by_cases hxb : x = b
      · subst hxb; simp; omega
      · rw [Function.update_noteq hxb]; exact hx

/-- A byte needs no more free table slots (0 when it has an index, else 1) after the
table has been extended. -/
theorem need_mono {a b : TblState} (h : TblLe a b) (x : Nat) :
    (if b.invtbl x < 16 then (0 : Int) else 1) ≤ (if a.invtbl x < 16 then (0 : Int) else 1) := by
  by_cases hx : a.invtbl x < 16
  · simp [hx, h.2.2 x hx]
  · simp only [hx, if_false]; split <;> omega

theorem unpack_one (tb : List Nat) (i j x y : Nat) (hi : i < 16) (hj : j < 16)
    (hx : tb[i]? = some x) (hy : tb[j]? = some y) :
    unpack tb [((i <<< 4) % 256) ||| j] = some [x, y] := by
  obtain ⟨h1, h2, _⟩ := pack_bits i hi j hj
  simp [unpack, h1, h2, hx, hy]

theorem tbl_pair_spec (buf : List Nat) (st : TblState) (p : Nat) (hb0 : rd buf p < 256)
    (hb1 : rd buf (p + 1) < 256) (hinv : TblInv st)
    (hroom : st.tbllen + (if st.invtbl (rd buf p) < 16 then 0 else 1) +
      (if st.invtbl (rd buf (p + 1)) < 16 then 0 else 1) ≤ 16) :
    TblInv (tbl_pair buf st p).2 ∧ TblLe st (tbl_pair buf st p).2 ∧
      (tbl_pair buf st p).2.tbllen ≤ st.tbllen + (if st.invtbl (rd buf p) < 16 then 0 else 1) +
        (if st.invtbl (rd buf (p + 1)) < 16 then 0 else 1) ∧
      (tbl_pair buf st p).1 < 256 ∧
      ∀ tb, TblExt (tbl_pair buf st p).2 tb →
        unpack tb [(tbl_pair buf st p).1] = some [rd buf p, rd buf (p + 1)] := by
  have hr0 : st.invtbl (rd buf p) < 16 ∨ st.tbllen < 16 := by
    by_cases h : st.invtbl (rd buf p) < 16
    · exact Or.inl h
    · right
      simp only [h, if_false] at hroom
      split at hroom <;> omega
  obtain ⟨a1, a2, a3, a4, a5, a6, a7⟩ := add_tbl_spec st (rd buf p) hb0 hinv hr0
  have hm := need_mono a2 (rd buf (p + 1))
  have hr1 : (add_tbl st (rd buf p)).2.invtbl (rd buf (p + 1)) < 16 ∨
      (add_tbl st (rd buf p)).2.tbllen < 16 := by
    by_cases h : (add_tbl st (rd buf p)).2.invtbl (rd buf (p + 1)) < 16
    · exact Or.inl h
    · right
      simp only [h, if_false] at hm
      split at hm
      · omega
      · rw [a7]; omega
  obtain ⟨c1, c2, c3, c4, c5, c6, c7⟩ :=
    add_tbl_spec (add_tbl st (rd buf p)).2 (rd buf (p + 1)) hb1 a1 hr1
  simp only [tbl_pair]
  refine ⟨c1, a2.trans c2, by rw [c7, a7]; omega, ?_, ?_⟩
  · exact (pack_bits _ a3 _ c3).2.2
  · intro tb ht
    apply unpack_one tb _ _ _ _ a3 c3
    · rw [ht _ (lt_of_lt_of_le a4 c2.1), c2.2.1 _ a4, a5]
    · rw [ht _ c4, c5]

theorem next2_spec (buf : List Nat) (st : TblState) (p e : Nat)
    (h : next_n_in_tbl buf st p 2 e = true) :
    p + 2 < e ∧ st.tbllen + (if st.invtbl (rd buf p) < 16 then 0 else 1) +
      (if st.invtbl (rd buf (p + 1)) < 16 then 0 else 1) ≤ 16 := by
  have hge : ¬ (p + 2 ≥ e) := by
    intro hh; simp [next_n_in_tbl, hh] at h
  refine ⟨by omega, ?_⟩
  simp only [next_n_in_tbl, if_neg hge, count_in_tbl] at h
  by_cases h0 : st.invtbl (rd buf p) < 16 <;>
    by_cases h1 : st.invtbl (rd buf (p + 1)) < 16 <;>
    simp [h0, h1] at h ⊢ <;> omega

theorem next4_spec (buf : List Nat) (st : TblState) (p e : Nat)
    (h : next_n_in_tbl buf st p 4 e = true) :
    p + 4 < e ∧ st.tbllen + (if st.invtbl (rd buf p) < 16 then 0 else 1) +
      (if st.invtbl (rd buf (p + 1)) < 16 then 0 else 1) +
      (if st.invtbl (rd buf (p + 1 + 1)) < 16 then 0 else 1) +
      (if st.invtbl (rd buf (p + 1 + 1 + 1)) < 16 then 0 else 1) ≤ 16 := by
  have hge : ¬ (p + 4 ≥ e) := by
    intro hh; simp [next_n_in_tbl, hh] at h
  refine ⟨by omega, ?_⟩
  simp only [next_n_in_tbl, if_neg hge, count_in_tbl] at h
  by_cases h0 : st.invtbl (rd buf p) < 16 <;>
    by_cases h1 : st.invtbl (rd buf (p + 1)) < 16 <;>
    by_cases h2 : st.invtbl (rd buf (p + 1 + 1)) < 16 <;>
    by_cases h3 : st.invtbl (rd buf (p + 1 + 1 + 1)) < 16 <;>
    simp [h0, h1, h2, h3] at h ⊢ <;> omega

theorem unpack_cons (tb : List Nat) (a : Nat) (l : List Nat) (v w : List Nat)
    (h1 : unpack tb [a] = some v) (h2 : unpack tb l = some w) :
    unpack tb (a :: l) = some (v ++ w) := by
  simp only [unpack] at h1 ⊢
  rw [h2]
  cases hx : tb[a / 16]? <;> cases hy : tb[a % 16]? <;> simp_all
  rw [← h1]; simp

theorem decode_step (tb : List Nat) (o : Nat) (r bs rest res : List Nat)
    (hg : decode_group tb o r = some (bs, rest))
    (hrest : ∀ F, rest.length ≤ F → decode tb F rest = some res) :
    ∀ F, rest.length + 1 ≤ F → decode tb F (o :: r) = some (bs ++ res) := by
  intro F hF
  cases F with
  | zero => simp at hF
  | succ F =>
    rw [decode, hg]
    simp only
    rw [hrest F (by omega)]
    simp

theorem group_run_long (tb : List Nat) (o b : Nat) (ho : 0xc0 ≤ o) (rest : List Nat) :
    decode_group tb o (b :: rest) = some (List.replicate (64 * (o - 0xc0)) b, rest) := by
  simp only [decode_group, if_pos ho]

theorem group_run_short (tb : List Nat) (o b : Nat) (ho1 : ¬ 0xc0 ≤ o) (ho2 : 0x80 ≤ o)
    (rest : List Nat) :
    decode_group tb o (b :: rest) = some (List.replicate (o - 0x80) b, rest) := by
  simp only [decode_group, if_neg ho1, if_pos ho2]

theorem group_table (tb : List Nat) (o : Nat) (ho1 : 0x41 ≤ o) (ho2 : o ≤ 0x7f)
    (packed vals : List Nat)
    (hlen : packed.length = 2 + (o - 0x41)) (hun : unpack tb packed = some vals)
    (rest : List Nat) :
    decode_group tb o (packed ++ rest) = some (vals, rest) := by
  have h1 : ¬ 0xc0 ≤ o := by omega
  have h2 : ¬ 0x80 ≤ o := by omega
  have h4 : ¬ (packed ++ rest).length < 2 + (o - 0x41) := by
    simp only [List.length_append]; omega
  simp only [decode_group, if_neg h1, if_neg h2, if_pos ho1, if_neg h4]
  rw [← hlen, List.take_left, List.drop_left, hun]

theorem group_literal (tb : List Nat) (o : Nat) (ho : o < 0x41) (raw : List Nat)
    (hlen : raw.length = o + 1) (rest : List Nat) :
    decode_group tb o (raw ++ rest) = some (raw, rest) := by
  have h1 : ¬ 0xc0 ≤ o := by omega
  have h2 : ¬ 0x80 ≤ o := by omega
  have h3 : ¬ 0x41 ≤ o := by omega
  have h4 : ¬ (raw ++ rest).length < o + 1 := by
    simp only [List.length_append]; omega
  simp only [decode_group, if_neg h1, if_neg h2, if_neg h3, if_neg h4]
  rw [← hlen, List.take_left, List.drop_left]

theorem moreOk_stop (buf : List Nat) (e q p : Nat) (st : TblState) (hinv : TblInv st)
    (hq : q ≤ 0x7f) :
    MoreOk buf e q p st (q, [], 0, p, st) :=
  ⟨rfl, rfl, hq, rfl, fun h => h, hinv, TblLe.refl st, fun _ _ => rfl⟩

theorem tbl_more_spec (buf : List Nat) (e : Nat) (hb : ∀ x, rd buf x < 256) :
    ∀ k q p st, TblInv st → q + k ≤ 0x7f → MoreOk buf e q p st (tbl_more buf e k q p st) := by
  intro k
  induction k with
  | zero =>
    intro q p st hinv _
    rw [tbl_more]
    exact moreOk_stop buf e q p st hinv (by omega)
  | succ k ih =>
    intro q p st hinv hq
    rw [tbl_more]
    by_cases hc : next_n_in_tbl buf st p 2 e = true ∧ q < 0x7f
    · rw [if_pos hc]
      by_cases hg : get_len buf p (min (p + 3) e) ≥ 3
      · rw [if_pos hg]
        exact moreOk_stop buf e q p st hinv (by omega)
      · rw [if_neg hg]
        obtain ⟨hlt, hroom⟩ := next2_spec buf st p e hc.1
        obtain ⟨t1, t2, _, _, t5⟩ := tbl_pair_spec buf st p (hb _) (hb _) hinv hroom
        have hq1 : (q + 1) % 256 = q + 1 := by omega
        obtain ⟨i1, i2, i2b, i3, i4, i5, i6, i7⟩ :=
          ih ((q + 1) % 256) (p + 2) (tbl_pair buf st p).2 t1 (by omega)
        refine ⟨by simp [i1], by simp only; rw [i2]; omega, i2b, by simp only; rw [i3]; omega,
          fun _ => i4 (by omega), i5, t2.trans i6, ?_⟩
        intro tb ht
        simp only at ht ⊢
        rw [unpack_cons tb _ _ _ _ (t5 tb (TblExt.mono i6 ht)) (i7 tb ht)]
        have : 2 * ((tbl_more buf e k ((q + 1) % 256) (p + 2) (tbl_pair buf st p).2).2.2.1 + 1)
            = 2 + 2 * (tbl_more buf e k ((q + 1) % 256) (p + 2) (tbl_pair buf st p).2).2.2.1 := by
          omega
        rw [this, seg_add]
        rfl
    · rw [if_neg hc]
      exact moreOk_stop buf e q p st hinv (by omega)

theorem litOk_stop (buf : List Nat) (e k q p : Nat) :
    LitOk buf e k q p ((q + 1) % 256, [rd buf p], 1, p + 1) :=
  ⟨rfl, le_refl _, Nat.succ_le_succ (Nat.zero_le k), rfl, rfl, fun h => h⟩

theorem lit_loop_spec (buf : List Nat) (e : Nat) (st : TblState) :
    ∀ k q p, LitOk buf e k q p (lit_loop buf e st k q p) := by
  intro k
  induction k with
  | zero =>
    intro q p
    rw [lit_loop]
    exact litOk_stop buf e 0 q p
  | succ k ih =>
    intro q p
    rw [lit_loop]
    split
    · exact litOk_stop buf e (k + 1) q p
    · split
      · exact litOk_stop buf e (k + 1) q p
      · split
        · rename_i hc
          obtain ⟨i1, i2, i3, i4, i5, i6⟩ := ih ((q + 1) % 256) (p + 1)
          refine ⟨?_, by simp only; omega, by simp only; omega, by simp only; rw [i4]; omega,
            by simp only; rw [i5]; omega, fun _ => i6 hc.1⟩
          simp only
          rw [i1]
          rfl
        · exact litOk_stop buf e (k + 1) q p

theorem rle_emit_spec (buf : List Nat) (p n : Nat) (hn1 : 1 ≤ n) (hn : n < 4095)
    (hrun : ∀ i, i < n → rd buf (p + i) = rd buf p) :
    (rle_emit buf p n).2.2 = p + n ∧ (rle_emit buf p n).1.length = (rle_emit buf p n).2.1 ∧
      ∀ tb rest res, (∀ F, rest.length ≤ F → decode tb F rest = some res) →
        ∀ F, ((rle_emit buf p n).1 ++ rest).length ≤ F →
          decode tb F ((rle_emit buf p n).1 ++ rest) = some (seg buf p n ++ res) := by
  obtain ⟨b1, b2, b3⟩ := rle_bits n hn
  have hseg := seg_replicate buf (rd buf p) n p hrun
  by_cases hl : n > 63
  · by_cases hs : n % 64 ≠ 0
    · have e1 : rle_emit buf p n = ([0xc0 + n / 64, rd buf p, 0x80 + n % 64, rd buf p], 4, p + n) := by
        have hc : rd buf (p + 64 * (n / 64)) = rd buf p := hrun _ (by omega)
        have := short_bits (n % 64) (by omega)
        simp only [rle_emit, if_pos hl, b1, b2, b3, hs, if_true, ne_eq, not_false_eq_true, hc, this]
        simp only [List.cons_append, List.nil_append, Prod.mk.injEq, true_and]
        omega
      rw [e1]
      refine ⟨rfl, rfl, ?_⟩
      intro tb rest res hrest F hF
      simp only [List.cons_append, List.nil_append, List.length_cons] at hF ⊢
      have h2 := decode_step tb (0x80 + n % 64) (rd buf p :: rest) _ rest res
        (group_run_short tb _ _ (by omega) (by omega) rest) hrest
      have h1 := decode_step tb (0xc0 + n / 64) (rd buf p :: (0x80 + n % 64) :: rd buf p :: rest) _
        ((0x80 + n % 64) :: rd buf p :: rest) _
        (group_run_long tb _ _ (by omega) _) (fun F hF => h2 F (by simp at hF; omega))
      have hk : 64 * (0xc0 + n / 64 - 0xc0) + (0x80 + n % 64 - 0x80) = n := by omega
      rw [h1 F (by simp; omega), hseg, ← List.append_assoc, ← List.replicate_add, hk]
    · have e1 : rle_emit buf p n = ([0xc0 + n / 64, rd buf p], 2, p + n) := by
        have h0 : n % 64 = 0 := by omega
        simp only [rle_emit, if_pos hl, b1, b2, b3, h0, ne_eq, not_true_eq_false, if_false,
          Prod.mk.injEq, true_and]
        omega
      rw [e1]
      refine ⟨rfl, rfl, ?_⟩
      intro tb rest res hrest F hF
      simp only [List.cons_append, List.nil_append, List.length_cons] at hF ⊢
      have h1 := decode_step tb (0xc0 + n / 64) (rd buf p :: rest) _ rest res
        (group_run_long tb _ _ (by omega) _) hrest
      have hk : 64 * (0xc0 + n / 64 - 0xc0) = n := by omega
      rw [h1 F (by omega), hseg, hk]
  · have e1 : rle_emit buf p n = ([0x80 + n, rd buf p], 2, p + n) := by
      have h0 : n ≠ 0 := by omega
      have := short_bits n (by omega)
      simp only [rle_emit, if_neg hl, ne_eq, h0, not_false_eq_true, if_true, this,
        List.nil_append, Nat.zero_add]
    rw [e1]
    refine ⟨rfl, rfl, ?_⟩
    intro tb rest res hrest F hF
    simp only [List.cons_append, List.nil_append, List.length_cons] at hF ⊢
    have h1 := decode_step tb (0x80 + n) (rd buf p :: rest) _ rest res
      (group_run_short tb _ _ (by omega) (by omega) _) hrest
    have hk : 0x80 + n - 0x80 = n := by omega
    rw [h1 F (by omega), hseg, hk]

theorem decode_nil (tb : List Nat) (F : Nat) : decode tb F [] = some [] := by
  cases F <;> rfl

theorem loopOk_done (buf : List Nat) (e p : Nat) (st : TblState) (hinv : TblInv st)
    (hp : ¬ p < e) : LoopOk buf e p st ([], 0, st) := by
  refine ⟨rfl, hinv, TblLe.refl st, ?_⟩
  intro tb _ F _
  have : e - p = 0 := by omega
  rw [this]
  exact decode_nil tb F

theorem rle_step (buf : List Nat) (e p n : Nat) (st : TblState) (r : List Nat × Nat × TblState)
    (hn1 : 1 ≤ n) (hn : n < 4095) (hpe : p + n ≤ e)
    (hrun : ∀ i, i < n → rd buf (p + i) = rd buf p)
    (hr : LoopOk buf e (rle_emit buf p n).2.2 st r) :
    LoopOk buf e p st ((rle_emit buf p n).1 ++ r.1, (rle_emit buf p n).2.1 + r.2.1, r.2.2) := by
  obtain ⟨r1, r2, r3⟩ := rle_emit_spec buf p n hn1 hn hrun
  obtain ⟨k1, k2, k3, k4⟩ := hr
  refine ⟨?_, k2, k3, ?_⟩
  · simp only [List.length_append, r2, k1]
  · intro tb ht F hF
    simp only at hF ⊢
    rw [r3 tb r.1 _ (k4 tb ht) F hF, r1, ← seg_add]
    have : n + (e - (p + n)) = e - p := by omega
    rw [this]

theorem four_pairs (buf : List Nat) (e p : Nat) (st : TblState) (hb : ∀ x, rd buf x < 256)
    (hinv : TblInv st) (ht : next_n_in_tbl buf st p 4 e = true) :
    p + 4 < e ∧ TblInv (tbl_pair buf (tbl_pair buf st p).2 (p + 2)).2 ∧
      TblLe st (tbl_pair buf (tbl_pair buf st p).2 (p + 2)).2 ∧
      ∀ tb, TblExt (tbl_pair buf (tbl_pair buf st p).2 (p + 2)).2 tb → ∀ l w,
        unpack tb l = some w →
        unpack tb ((tbl_pair buf st p).1 :: (tbl_pair buf (tbl_pair buf st p).2 (p + 2)).1 :: l) =
          some (seg buf p 4 ++ w) := by
  obtain ⟨hlt, hroom⟩ := next4_spec buf st p e ht
  have e2 : p + 1 + 1 = p + 2 := by omega
  have e3 : p + 1 + 1 + 1 = p + 2 + 1 := by omega
  rw [e2, e3] at hroom
  have hroomA : st.tbllen + (if st.invtbl (rd buf p) < 16 then 0 else 1) +
      (if st.invtbl (rd buf (p + 1)) < 16 then 0 else 1) ≤ 16 := by
    have h2 : (0 : Int) ≤ (if st.invtbl (rd buf (p + 2)) < 16 then 0 else 1) := by split <;> simp
    have h3 : (0 : Int) ≤ (if st.invtbl (rd buf (p + 2 + 1)) < 16 then 0 else 1) := by
      split <;> simp
    linarith
  obtain ⟨a1, a2, a3, _, a5⟩ := tbl_pair_spec buf st p (hb _) (hb _) hinv hroomA
  have hm2 := need_mono a2 (rd buf (p + 2))
  have hm3 := need_mono a2 (rd buf (p + 2 + 1))
  have hroomB : (tbl_pair buf st p).2.tbllen +
      (if (tbl_pair buf st p).2.invtbl (rd buf (p + 2)) < 16 then 0 else 1) +
      (if (tbl_pair buf st p).2.invtbl (rd buf (p + 2 + 1)) < 16 then 0 else 1) ≤ 16 := by
    linarith
  obtain ⟨b1, b2, _, _, b5⟩ :=
    tbl_pair_spec buf (tbl_pair buf st p).2 (p + 2) (hb _) (hb _) a1 hroomB
  refine ⟨hlt, b1, a2.trans b2, ?_⟩
  intro tb ht l w hl
  have hx1 := a5 tb (TblExt.mono b2 ht)
  have hx2 := b5 tb ht
  rw [unpack_cons tb _ _ _ _ hx1 (unpack_cons tb _ _ _ _ hx2 hl)]
  simp only [seg, List.cons_append, List.nil_append]

theorem tbl_step (buf : List Nat) (e p a b : Nat) (st sb : TblState)
    (M : Nat × List Nat × Nat × Nat × TblState) (r : List Nat × Nat × TblState)
    (hlt : p + 4 < e) (hle : TblLe st sb)
    (hun : ∀ tb, TblExt sb tb → ∀ l w, unpack tb l = some w →
        unpack tb (a :: b :: l) = some (seg buf p 4 ++ w))
    (hM : MoreOk buf e 0x41 (p + 4) sb M)
    (hr : LoopOk buf e M.2.2.2.1 M.2.2.2.2 r) :
    LoopOk buf e p st (M.1 :: a :: b :: M.2.1 ++ r.1, 3 + M.2.2.1 + r.2.1, r.2.2) := by
  obtain ⟨m1, m2, m2b, m3, m4, _, m6, m7⟩ := hM
  have m4 := m4 (by omega)
  obtain ⟨k1, k2, k3, k4⟩ := hr
  refine ⟨?_, k2, hle.trans (m6.trans k3), ?_⟩
  · simp only [List.length_cons, List.length_append, m1, k1]
    omega
  · intro tb ht F hF
    simp only [List.length_cons, List.length_append] at hF ⊢
    have hx3 := m7 tb (TblExt.mono k3 ht)
    have hun := hun tb (TblExt.mono (m6.trans k3) ht) _ _ hx3
    have hg := group_table tb _ (by rw [m2]; omega) m2b _ _
      (by simp only [List.length_cons, m1]; rw [m2]; omega) hun r.1
    have := decode_step tb _ _ _ _ _ hg (k4 tb ht) F (by omega)
    simp only [List.cons_append] at this ⊢
    rw [this, m3]
    have hs : e - p = 4 + (2 * M.2.2.1 + (e - (p + 4 + 2 * M.2.2.1))) := by
      rw [m3] at m4; omega
    rw [hs, seg_add, seg_add]
    simp only [List.append_assoc]

theorem lit_step (buf : List Nat) (e p : Nat) (st : TblState) (L : Nat × List Nat × Nat × Nat)
    (r : List Nat × Nat × TblState) (hp : p < e) (hL : LitOk buf e 9 0xff p L)
    (hr : LoopOk buf e L.2.2.2 st r) :
    LoopOk buf e p st (L.1 :: L.2.1 ++ r.1, 1 + L.2.2.1 + r.2.1, r.2.2) := by
  obtain ⟨l1, l2, l3, l4, l5, l6⟩ := hL
  have l6 := l6 hp
  obtain ⟨k1, k2, k3, k4⟩ := hr
  refine ⟨?_, k2, k3, ?_⟩
  · simp only [List.length_cons, List.length_append, k1]
    rw [l1, seg_length]
    omega
  · intro tb ht F hF
    simp only [List.length_cons, List.length_append] at hF ⊢
    have hlen2 : L.2.1.length = L.1 + 1 := by
      rw [l5]
      conv_lhs => rw [l1, seg_length]
      omega
    have hg := group_literal tb L.1 (by rw [l5]; omega) _ hlen2 r.1
    have := decode_step tb _ _ _ _ _ hg (k4 tb ht) F (by omega)
    simp only [List.cons_append] at this ⊢
    rw [this, l4]
    conv_lhs => rw [l1]
    rw [← seg_add]
    have : L.2.2.1 + (e - (p + L.2.2.1)) = e - p := by rw [l4] at l6; omega
    rw [this]

theorem compress_loop_spec (buf : List Nat) (e : Nat) (hb : ∀ x, rd buf x < 256) :
    ∀ f p st, TblInv st → e - p ≤ f → e - p < 4095 →
      ∃ r, compress_loop buf e f p st = .ok r ∧ LoopOk buf e p st r := by
  intro f
  induction f with
  | zero =>
    intro p st hinv hf _
    have hp : ¬ p < e := by omega
    exact ⟨([], 0, st), by rw [compress_loop, if_neg hp], loopOk_done buf e p st hinv hp⟩
  | succ f ih =>
    intro p st hinv hf hlen
    by_cases hp : p < e
    · obtain ⟨g1, g2, _, g4⟩ := get_len_spec buf p e
      have g2 := g2 hp
      rw [compress_loop, if_pos hp]
      simp only
      by_cases hn : get_len buf p e > 2
      · have hn2 : get_len buf p e < 63 * 64 + 63 := by omega
        rw [if_pos hn, if_neg (not_not.mpr hn2)]
        have r1 := (rle_emit_spec buf p (get_len buf p e) g1 (by omega) g4).1
        obtain ⟨r, hr, hok⟩ := ih (rle_emit buf p (get_len buf p e)).2.2 st hinv
          (by rw [r1]; omega) (by rw [r1]; omega)
        rw [hr]
        exact ⟨_, rfl, rle_step buf e p _ st r g1 (by omega) g2 g4 hok⟩
      · rw [if_neg hn]
        by_cases ht : next_n_in_tbl buf st p 4 e = true
        · rw [if_pos ht]
          obtain ⟨hlt, b1, hle, hun⟩ := four_pairs buf e p st hb hinv ht
          have hM := tbl_more_spec buf e hb (0x7f - 0x41) 0x41
            (p + 4) (tbl_pair buf (tbl_pair buf st p).2 (p + 2)).2 b1 (by omega)
          generalize tbl_more buf e (0x7f - 0x41) 0x41 (p + 4)
            (tbl_pair buf (tbl_pair buf st p).2 (p + 2)).2 = M at hM ⊢
          have m3 := hM.2.2.2.1
          have m4 := hM.2.2.2.2.1 (by omega)
          obtain ⟨r, hr, hok⟩ := ih M.2.2.2.1 M.2.2.2.2 hM.2.2.2.2.2.1
            (by rw [m3]; omega) (by rw [m3]; omega)
          rw [hr]
          exact ⟨_, rfl, tbl_step buf e p _ _ st _ M r hlt hle hun hM hok⟩
        · rw [if_neg ht]
          have hL := lit_loop_spec buf e st 9 0xff p
          generalize lit_loop buf e st 9 0xff p = L at hL ⊢
          have l4 := hL.2.2.2.1
          have l2 := hL.2.1
          obtain ⟨r, hr, hok⟩ := ih L.2.2.2 st hinv (by rw [l4]; omega) (by rw [l4]; omega)
          rw [hr]
          exact ⟨_, rfl, lit_step buf e p st L r hp hL hok⟩
    · exact ⟨([], 0, st), by rw [compress_loop, if_neg hp], loopOk_done buf e p st hinv hp⟩

theorem clear_inv_apply (tbl : Nat → Nat) (b : Nat) : ∀ k i inv,
    clear_inv tbl k i inv b = 0xff ∨
      (clear_inv tbl k i inv b = inv b ∧ ∀ j, i ≤ j → j < i + k → tbl j ≠ b) := by
  intro k
  induction k with
  | zero =>
    intro i inv
    right
    exact ⟨rfl, fun j h1 h2 => by omega⟩
  | succ k ih =>
    intro i inv
    rw [clear_inv]
    rcases ih (i + 1) (Function.update inv (tbl i) 0xff) with h | ⟨h1, h2⟩
    · exact Or.inl h
    · by_cases hb : tbl i = b
      · left
        rw [h1, ← hb, Function.update_same]
      · right
        refine ⟨?_, ?_⟩
        · rw [h1, Function.update_noteq (Ne.symm hb)]
        · intro j hj1 hj2
          by_cases hji : j = i
          · subst hji; exact hb
          · exact h2 j (by omega) (by omega)

theorem clear_tables_inv (st : TblState) (h : TblInv st ∨ st.tbllen = -1) :
    TblInv (clear_tables st) := by
  refine ⟨le_refl _, by simp [clear_tables], ?_, ?_⟩
  · intro i hi
    simp only [clear_tables] at hi
    omega
  · intro b hb _
    simp only [clear_tables]
    rcases h with h | h
    · have hne : st.tbllen ≠ -1 := by have := h.1; omega
      rw [if_neg hne]
      rcases clear_inv_apply st.tbl b st.tbllen.toNat 0 st.invtbl with h1 | ⟨h1, h2⟩
      · exact h1
      · rw [h1]
        apply h.2.2.2 b hb
        intro i hi
        exact h2 i (Nat.zero_le _) (by have := h.1; omega)
    · rw [if_pos h]
      simp [hb]

theorem rd_lt (S : List Nat) (hS : ∀ b ∈ S, b < 256) (x : Nat) : rd S x < 256 := by
  unfold rd
  by_cases hx : x < S.length
  · rw [List.getD_eq_getElem _ _ hx]
    exact hS _ (List.getElem_mem _)
  · rw [List.getD_eq_default _ _ (by omega)]
    omega

theorem tblExt_table (st : TblState) : TblExt st (table st) := by
  intro i hi
  have : i < st.tbllen.toNat := by omega
  simp [table, List.getElem?_range this]

/-- C1. Round trip of the compressor: for a scanline `S` of fewer than 4095 bytes and a
prior table state that satisfies the table invariant or is uninitialised,
`compress_scanline` returns, `olen` is the number of bytes stored, and decoding these
bytes against the table left in `tbl[0..tbllen)` gives `S` back. -/
theorem compress_scanline_roundtrip (S : List Nat) (st : TblState) (hW : S.length < 4095)
    (hS : ∀ b ∈ S, b < 256) (hst : TblInv st ∨ st.tbllen = -1) :
    ∃ out olen st', compress_scanline S 0 S.length st = .ok (out, olen, st') ∧
      olen = out.length ∧ decode_stream (table st') out = some S := by
  obtain ⟨r, hr, k1, _, _, k4⟩ := compress_loop_spec S S.length (rd_lt S hS) (S.length - 0) 0
    (clear_tables st) (clear_tables_inv st hst) (le_refl _) (by omega)
  refine ⟨r.1, r.2.1, r.2.2, hr, k1, ?_⟩
  have := k4 (table r.2.2) (tblExt_table r.2.2) r.1.length (le_refl _)
  rw [Nat.sub_zero, seg_all] at this
  exact this

theorem compress_scanline_roundtrip_witness :
    [7, 7, 7, 1, 2, 3, 4, 5, 9].length < 4095 ∧
    ∃ out olen st', compress_scanline [7, 7, 7, 1, 2, 3, 4, 5, 9] 0
        [7, 7, 7, 1, 2, 3, 4, 5, 9].length TblState.uninit = .ok (out, olen, st') ∧
      olen = out.length ∧ decode_stream (table st') out = some [7, 7, 7, 1, 2, 3, 4, 5, 9] :=
  ⟨by decide, compress_scanline_roundtrip [7, 7, 7, 1, 2, 3, 4, 5, 9] TblState.uninit (by decide)
    (by decide) (Or.inr rfl)⟩

/-! ## Command framing and the stream parser -/

theorem uchar_nat (b : Nat) (h : b < 256) : uchar (b : Int) = b := by
  unfold uchar; omega

theorem uchar_not (cmd : Nat) (h : cmd < 256) : uchar (-1 - (cmd : Int)) = 0xff - cmd := by
  unfold uchar; omega

theorem cksum_add_eq (l : List Nat) : ∀ ck, ck < 256 → cksum_add ck l = (ck + l.sum) % 256 := by
  induction l with
  | nil => intro ck h; simp only [cksum_add, List.foldl_nil, List.sum_nil]; omega
  | cons a l ih =>
    intro ck _
    have := ih ((ck + a) % 256) (by omega)
    simp only [cksum_add, List.foldl_cons, List.sum_cons] at this ⊢
    rw [this]
    omega

theorem len_bits (n : Nat) : n &&& 0xff = n % 256 ∧ n >>> 8 = n / 256 := by
  refine ⟨?_, ?_⟩
  · exact Nat.and_pow_two_sub_one_eq_mod n 8
  · exact Nat.shiftRight_eq_div_pow n 8

theorem do_cmd_eq (sq cmd : Nat) (data : List Nat) (hcmd : cmd < 256)
    (hlen : data.length < 0x10000) :
    do_cmd sq cmd data.length data =
      .ok ([0x1b, cmd, sq, data.length % 256, data.length / 256, 0xff - cmd] ++ data ++
        [(0x1b + cmd + sq + data.length % 256 + data.length / 256 + (0xff - cmd) + data.sum) % 256],
        (sq + 1) % 256) := by
  obtain ⟨e1, e2⟩ := len_bits data.length
  have h1 : ¬ ¬ data.length < 0x10000 := not_not.mpr hlen
  have h2 : data.length / 256 % 256 = data.length / 256 := by omega
  have h3 : (0 + data.sum) % 256 < 256 := by omega
  simp only [do_cmd, if_neg h1, List.take_length, e1, e2, uchar_not cmd hcmd,
    cksum_add_eq data 0 (by omega), cksum_add_eq _ _ h3, Nat.mod_mod, h2]
  simp only [List.sum_cons, List.sum_nil]
  have hk : ((0 + data.sum) % 256 + (27 + (cmd + (sq + (data.length % 256 +
      (data.length / 256 + (255 - cmd + 0))))))) % 256 =
      (27 + cmd + sq + data.length % 256 + data.length / 256 + (255 - cmd) + data.sum) % 256 := by
    omega
  rw [hk]

/-- C2. Frame layout: for a command byte `cmd`, a payload of `len < 65536` bytes and the
current sequence value `s`, `do_cmd` writes exactly `len + 7` bytes: 0x1B, `cmd`, `s`,
`len & 0xFF`, `len >> 8`, `(~cmd) & 0xFF` (that is `0xFF - cmd`), the payload unchanged,
and one checksum byte. -/
theorem do_cmd_frame_layout (s cmd : Nat) (payload : List Nat) (hcmd : cmd < 256)
    (hlen : payload.length < 65536) :
    ∃ ck sq', do_cmd s cmd payload.length payload =
        .ok ([0x1b, cmd, s, payload.length &&& 0xff, payload.length >>> 8, 0xff - cmd] ++
          payload ++ [ck], sq') ∧
      ([0x1b, cmd, s, payload.length &&& 0xff, payload.length >>> 8, 0xff - cmd] ++
          payload ++ [ck]).length = payload.length + 7 := by
  obtain ⟨e1, e2⟩ := len_bits payload.length
  refine ⟨(0x1b + cmd + s + payload.length % 256 + payload.length / 256 + (0xff - cmd) +
    payload.sum) % 256, (s + 1) % 256, ?_, ?_⟩
  · rw [do_cmd_eq s cmd payload hcmd hlen, e1, e2]
  · simp only [List.length_append, List.length_cons, List.length_nil]
    omega

theorem do_cmd_frame_layout_witness :
    ∃ ck sq', do_cmd 3 0x51 [1, 2, 3].length [1, 2, 3] =
        .ok ([0x1b, 0x51, 3, [1, 2, 3].length &&& 0xff, [1, 2, 3].length >>> 8, 0xff - 0x51] ++
          [1, 2, 3] ++ [ck], sq') ∧
      ([0x1b, 0x51, 3, [1, 2, 3].length &&& 0xff, [1, 2, 3].length >>> 8, 0xff - 0x51] ++
          [1, 2, 3] ++ [ck]).length = [1, 2, 3].length + 7 :=
  do_cmd_frame_layout 3 0x51 [1, 2, 3] (by decide) (by decide)

/-- C3, counterexample. The start frame (command 0x40, sequence 0, payload `[0x81, 0]`)
ends with the checksum byte 157, not with the value 130 of the stated formula. -/
theorem do_cmd_checksum_counterexample :
    (do_cmd 0 0x40 2 [0x81, 0]).toOption.map (fun r => r.1.getLast?) = some (some 157) ∧
      ¬ ((do_cmd 0 0x40 2 [0x81, 0]).toOption.map (fun r => r.1.getLast?) =
        some (some ((0x40 + 0 + (2 &&& 0xff) + (2 >>> 8) + (0xff - 0x40) + [0x81, 0].sum) % 256))) := by
  decide

/-- C3, amended. The trailing checksum byte of the frame written by `do_cmd` is
`(0x1B + cmd + seq + len_lo + len_hi + (~cmd & 0xFF) + sum of the payload bytes) mod 256`:
the sum runs over all six header bytes, the leading 0x1B included. -/
theorem do_cmd_checksum (s cmd : Nat) (payload : List Nat) (hcmd : cmd < 256)
    (hlen : payload.length < 65536) :
    ∃ body sq', do_cmd s cmd payload.length payload =
        .ok (body ++ [(0x1b + cmd + s + (payload.length &&& 0xff) + (payload.length >>> 8) +
          (0xff - cmd) + payload.sum) % 256], sq') ∧
      body = [0x1b, cmd, s, payload.length &&& 0xff, payload.length >>> 8, 0xff - cmd] ++
        payload := by
  obtain ⟨e1, e2⟩ := len_bits payload.length
  refine ⟨[0x1b, cmd, s, payload.length &&& 0xff, payload.length >>> 8, 0xff - cmd] ++
        payload, (s + 1) % 256, ?_, rfl⟩
  rw [do_cmd_eq s cmd payload hcmd hlen, e1, e2]

theorem do_cmd_checksum_witness :
    ∃ body sq', do_cmd 0 0x40 [0x81, 0].length [0x81, 0] =
        .ok (body ++ [(0x1b + 0x40 + 0 + ([0x81, 0].length &&& 0xff) + ([0x81, 0].length >>> 8) +
          (0xff - 0x40) + [0x81, 0].sum) % 256], sq') ∧
      body = [0x1b, 0x40, 0, [0x81, 0].length &&& 0xff, [0x81, 0].length >>> 8, 0xff - 0x40] ++
        [0x81, 0] :=
  do_cmd_checksum 0 0x40 [0x81, 0] (by decide) (by decide)

theorem do_cmd_seq (sq cmd len : Nat) (data : List Nat) (hlen : len < 0x10000) :
    ∃ r, do_cmd sq cmd len data = .ok r ∧ rd r.1 2 = sq ∧ r.2 = (sq + 1) % 256 := by
  have h1 : ¬ ¬ len < 0x10000 := not_not.mpr hlen
  simp only [do_cmd, if_neg h1]
  exact ⟨_, rfl, by simp [rd], rfl⟩

theorem do_cmds_seq : ∀ (cmds : List (Nat × Nat × List Nat)) (sq : Nat), sq < 256 →
    (∀ c ∈ cmds, c.2.1 < 0x10000) →
    ∃ frames sq', do_cmds sq cmds = .ok (frames, sq') ∧ frames.length = cmds.length ∧
      ∀ k, k < cmds.length → ∃ fr, frames[k]? = some fr ∧ rd fr 2 = (sq + k) % 256 := by
  intro cmds
  induction cmds with
  | nil =>
    intro sq _ _
    exact ⟨[], sq, rfl, rfl, fun k hk => by simp at hk⟩
  | cons c cs ih =>
    intro sq hsq h
    obtain ⟨r, hr, hr2, hr3⟩ := do_cmd_seq sq c.1 c.2.1 c.2.2 (h c (List.mem_cons_self _ _))
    obtain ⟨frames, sq', hf, hl, hk⟩ := ih r.2 (by rw [hr3]; omega)
      (fun x hx => h x (List.mem_cons_of_mem _ hx))
    refine ⟨r.1 :: frames, sq', ?_, by simp [hl], ?_⟩
    · rw [do_cmds, hr]
      simp only
      rw [hf]
    · intro k hk1
      cases k with
      | zero => exact ⟨r.1, by simp, by rw [hr2]; omega⟩
      | succ k =>
        obtain ⟨fr, hfr, hfr2⟩ := hk k (by simp at hk1; omega)
        refine ⟨fr, by simpa using hfr, ?_⟩
        rw [hfr2, hr3]
        omega

/-- C5. Sequence numbers: when `do_cmd` is called any number of times in one process
(the counter starts at 0), the `k`-th frame written (`k = 0, 1, 2, ...`) carries the
sequence byte `k mod 256`, whatever the commands and payloads are. -/
theorem do_cmd_sequence (cmds : List (Nat × Nat × List Nat))
    (h : ∀ c ∈ cmds, c.2.1 < 0x10000) :
    ∃ frames sq', do_cmds 0 cmds = .ok (frames, sq') ∧ frames.length = cmds.length ∧
      ∀ k, k < cmds.length → ∃ fr, frames[k]? = some fr ∧ rd fr 2 = k % 256 := by
  obtain ⟨frames, sq', h1, h2, h3⟩ := do_cmds_seq cmds 0 (by omega) h
  refine ⟨frames, sq', h1, h2, ?_⟩
  intro k hk
  obtain ⟨fr, h4, h5⟩ := h3 k hk
  exact ⟨fr, h4, by rw [h5, Nat.zero_add]⟩

theorem do_cmd_sequence_witness :
    ∃ frames sq', do_cmds 0 [(0x40, 2, [0x81, 0]), (0x50, 1, [7]), (0x41, 1, [0])] =
        .ok (frames, sq') ∧
      frames.length = [(0x40, 2, [0x81, 0]), (0x50, 1, [7]), (0x41, 1, [0])].length ∧
      ∀ k, k < [(0x40, 2, [0x81, 0]), (0x50, 1, [7]), (0x41, 1, [0])].length →
        ∃ fr, frames[k]? = some fr ∧ rd fr 2 = k % 256 :=
  do_cmd_sequence [(0x40, 2, [0x81, 0]), (0x50, 1, [7]), (0x41, 1, [0])] (by decide)

theorem read_payload_spec : ∀ (pl rest : List Nat) (eof : Bool) (ck : Nat) (i : Int),
    (∀ b ∈ pl, b < 256) → ck < 256 →
    read_payload pl.length ⟨pl ++ rest, eof⟩ ck i =
      (pl, ⟨rest, eof⟩, (ck + pl.sum) % 256, i + pl.length) := by
  intro pl
  induction pl with
  | nil =>
    intro rest eof ck i _ hck
    simp only [List.length_nil, read_payload, List.nil_append, List.sum_nil, Nat.add_zero,
      Nat.cast_zero, add_zero, Nat.mod_eq_of_lt hck]
  | cons a pl ih =>
    intro rest eof ck i h hck
    have ha : a < 256 := h a (List.mem_cons_self _ _)
    have := ih rest eof ((ck + a) % 256) (i + 1) (fun b hb => h b (List.mem_cons_of_mem _ hb))
      (by omega)
    simp only [List.length_cons, read_payload, getchar, List.cons_append, uchar_nat a ha, this,
      List.sum_cons, Nat.cast_add, Nat.cast_one]
    refine Prod.ext rfl (Prod.ext rfl (Prod.ext ?_ ?_))
    · simp only; omega
    · simp only; omega

/-- The outcome of `readesc` on an input that starts with six header bytes, a payload
of as many bytes as the fourth header byte says, and one more byte. -/
theorem readesc_eval (b0 b1 b2 b3 b4 b5 c : Nat) (pl rest : List Nat) (i sq : Int)
    (h0 : b0 < 256) (h1 : b1 < 256) (h2 : b2 < 256) (h3 : b3 < 256) (h4 : b4 < 256)
    (h5 : b5 < 256) (hc : c < 256) (hpl : ∀ b ∈ pl, b < 256) (hlen : pl.length = b3) :
    readesc ⟨⟨b0 :: b1 :: b2 :: b3 :: b4 :: b5 :: (pl ++ c :: rest), false⟩, i, sq⟩ =
      if b0 ≠ 0x1b then
        (-2, [b0], ⟨⟨b1 :: b2 :: b3 :: b4 :: b5 :: (pl ++ c :: rest), false⟩, i, sq⟩)
      else if (b2 : Int) ≠ sq ∧ (b2 ≠ 0 ∧ b1 ≠ 0x51) then
        (-3, [b0, b1, b2], ⟨⟨b3 :: b4 :: b5 :: (pl ++ c :: rest), false⟩, i + 1 + 1, sq + 1⟩)
      else if b4 ≠ 0 then
        (-4, [b0, b1, b2, b3, b4], ⟨⟨b5 :: (pl ++ c :: rest), false⟩, i + 1 + 1 + 1 + 1,
          if (b2 : Int) ≠ sq then (b2 : Int) + 1 else sq + 1⟩)
      else if b5 ≠ 0xff - b1 then
        (-5, [b0, b1, b2, b3, b4, b5], ⟨⟨pl ++ c :: rest, false⟩, i + 1 + 1 + 1 + 1 + 1,
          if (b2 : Int) ≠ sq then (b2 : Int) + 1 else sq + 1⟩)
      else if c ≠ (b0 + b1 + b2 + b3 + b5 + pl.sum) % 256 then
        (-6, [b0, b1, b2, b3, b4, b5] ++ pl ++ [c], ⟨⟨rest, false⟩, i + 6 + pl.length,
          if (b2 : Int) ≠ sq then (b2 : Int) + 1 else sq + 1⟩)
      else
        ((b1 : Int), [b0, b1, b2, b3, b4, b5] ++ pl ++ [c], ⟨⟨rest, false⟩, i + 6 + pl.length,
          if (b2 : Int) ≠ sq then (b2 : Int) + 1 else sq + 1⟩) := by
  have hneg : (b5 : Int) ≠ (-1 - (b1 : Int)) % 256 ↔ b5 ≠ 0xff - b1 := by omega
  have hrp := read_payload_spec pl (c :: rest) false
    (((((b0 + b1) % 256 + b2) % 256 + b3) % 256 + b5) % 256) (i + 1 + 1 + 1 + 1 + 1 + 1)
    hpl (by omega)
  rw [hlen] at hrp
  have hck : (((((b0 + b1) % 256 + b2) % 256 + b3) % 256 + b5) % 256 + pl.sum) % 256 =
      (b0 + b1 + b2 + b3 + b5 + pl.sum) % 256 := by omega
  have hi : i + 1 + 1 + 1 + 1 + 1 + 1 + (b3 : Int) = i + 6 + b3 := by omega
  simp only [readesc, getchar, uchar_nat _ h0, uchar_nat _ h1, uchar_nat _ h2, uchar_nat _ h3,
    uchar_nat _ h4, uchar_nat _ h5, uchar_nat _ hc, hneg, hrp, hck, hi, hlen]
  simp

/-- A frame written by `do_cmd` with a payload of fewer than 256 bytes is accepted by
`readesc` when the expected sequence number is the frame's. -/
theorem readesc_frame (s cmd : Nat) (payload rest : List Nat) (i : Int) (hs : s < 256)
    (hcmd : cmd < 256) (hpl : ∀ b ∈ payload, b < 256) (hlen : payload.length < 256) :
    ∃ frame, do_cmd s cmd payload.length payload = .ok (frame, (s + 1) % 256) ∧
      frame = [0x1b, cmd, s, payload.length, 0, 0xff - cmd] ++ payload ++
        [(0x1b + cmd + s + payload.length + (0xff - cmd) + payload.sum) % 256] ∧
      readesc ⟨⟨frame ++ rest, false⟩, i, s⟩ =
        ((cmd : Int), frame, ⟨⟨rest, false⟩, i + 6 + payload.length, (s : Int) + 1⟩) := by
  have e1 : payload.length % 256 = payload.length := by omega
  have e2 : payload.length / 256 = 0 := by omega
  refine ⟨[0x1b, cmd, s, payload.length, 0, 0xff - cmd] ++ payload ++
        [(0x1b + cmd + s + payload.length + (0xff - cmd) + payload.sum) % 256], ?_, rfl, ?_⟩
  · rw [do_cmd_eq s cmd payload hcmd (by omega)]
    simp only [e1, e2, Nat.add_zero]
  · have := readesc_eval 0x1b cmd s payload.length 0 (0xff - cmd)
      ((0x1b + cmd + s + payload.length + (0xff - cmd) + payload.sum) % 256) payload rest i s
      (by omega) hcmd hs hlen (by omega) (by omega) (by omega) hpl rfl
    simp only [e1, e2, Nat.add_zero, List.cons_append, List.nil_append, List.append_assoc]
      at this ⊢
    rw [this]
    simp

/-- C4, counterexample. For a payload of 256 bytes the fresh parser does not return the
command byte: it stops at the high byte of the length with the value -4. -/
theorem frame_roundtrip_counterexample :
    (do_cmd 0 0x40 256 (List.replicate 256 0)).toOption.map
        (fun r => (readesc ⟨⟨r.1, false⟩, 0, 0⟩).1) = some (-4) ∧
      ¬ ((do_cmd 0 0x40 256 (List.replicate 256 0)).toOption.map
        (fun r => (readesc ⟨⟨r.1, false⟩, 0, 0⟩).1) = some 0x40) := by
  decide

/-- C4, amended. Frame round trip for payloads of fewer than 256 bytes: the bytes written
by a fresh `do_cmd(cmd, payload)` are accepted by a fresh `readesc`, which returns `cmd`
and leaves the frame in its buffer, the payload after the 6-byte header. -/
theorem frame_roundtrip (cmd : Nat) (payload : List Nat) (hcmd : cmd < 256)
    (hpl : ∀ b ∈ payload, b < 256) (hlen : payload.length < 256) :
    ∃ frame sq', do_cmd 0 cmd payload.length payload = .ok (frame, sq') ∧
      (readesc ⟨⟨frame, false⟩, 0, 0⟩).1 = cmd ∧
      ((readesc ⟨⟨frame, false⟩, 0, 0⟩).2.1.drop 6).take payload.length = payload := by
  obtain ⟨frame, h1, h2, h3⟩ := readesc_frame 0 cmd payload [] 0 (by omega) hcmd hpl hlen
  rw [List.append_nil] at h3
  simp only [Nat.cast_zero] at h3
  refine ⟨frame, _, h1, ?_, ?_⟩
  · rw [h3]
  · have : (readesc ⟨⟨frame, false⟩, 0, 0⟩).2.1 = frame := by
      have := congrArg (fun r => r.2.1) h3
      simpa using this
    rw [this, h2]
    simp

theorem frame_roundtrip_witness :
    ∃ frame sq', do_cmd 0 0x50 [1, 2, 3].length [1, 2, 3] = .ok (frame, sq') ∧
      (readesc ⟨⟨frame, false⟩, 0, 0⟩).1 = 0x50 ∧
      ((readesc ⟨⟨frame, false⟩, 0, 0⟩).2.1.drop 6).take [1, 2, 3].length = [1, 2, 3] :=
  frame_roundtrip 0x50 [1, 2, 3] (by decide) (by decide) (by decide)

theorem set_last : ∀ (l : List Nat) (a v : Nat), (l ++ [a]).set l.length v = l ++ [v] := by
  intro l
  induction l with
  | nil => intro a v; rfl
  | cons x l ih => intro a v; simp [ih]

/-- C6, counterexample. The frame of command 0x40, sequence 0 and payload `[0x1A]` is
`1B 40 00 01 00 BF 1A 35`; with its length byte replaced by 0 the parser accepts a frame
(it returns the command byte 0x40), the payload byte being taken as the checksum. -/
theorem corruption_counterexample :
    (do_cmd 0 0x40 1 [0x1a]).toOption.map (fun r => r.1) =
        some [0x1b, 0x40, 0, 1, 0, 0xbf, 0x1a, 0x35] ∧
      (readesc ⟨⟨[0x1b, 0x40, 0, 1, 0, 0xbf, 0x1a, 0x35].set 3 0, false⟩, 0, 0⟩).1 = 0x40 ∧
      ¬ ((readesc ⟨⟨[0x1b, 0x40, 0, 1, 0, 0xbf, 0x1a, 0x35].set 3 0, false⟩, 0, 0⟩).1 < 0) := by
  decide

/-- C6, amended. For a frame written by `do_cmd` with a payload of fewer than 256 bytes,
replacing the ESC byte, the command byte, the sequence byte, the high length byte, the
complemented command byte (positions 0, 1, 2, 4, 5) or the checksum byte by a different
value makes `readesc` (expecting the frame's sequence number) return one of its error
values -2 .. -6. -/
theorem corruption_detected (s cmd : Nat) (payload rest : List Nat) (i : Int) (k v : Nat)
    (hs : s < 256) (hcmd : cmd < 256) (hpl : ∀ b ∈ payload, b < 256)
    (hlen : payload.length < 256) (hv : v < 256)
    (hk : k = 0 ∨ k = 1 ∨ k = 2 ∨ k = 4 ∨ k = 5 ∨ k = payload.length + 6) :
    ∃ frame sq', do_cmd s cmd payload.length payload = .ok (frame, sq') ∧
      frame.length = payload.length + 7 ∧
      (rd frame k ≠ v →
        (readesc ⟨⟨frame.set k v ++ rest, false⟩, i, s⟩).1 = -2 ∨
        (readesc ⟨⟨frame.set k v ++ rest, false⟩, i, s⟩).1 = -3 ∨
        (readesc ⟨⟨frame.set k v ++ rest, false⟩, i, s⟩).1 = -4 ∨
        (readesc ⟨⟨frame.set k v ++ rest, false⟩, i, s⟩).1 = -5 ∨
        (readesc ⟨⟨frame.set k v ++ rest, false⟩, i, s⟩).1 = -6) := by
  obtain ⟨frame, h1, h2, _⟩ := readesc_frame s cmd payload rest i hs hcmd hpl hlen
  refine ⟨frame, _, h1, by rw [h2]; simp, ?_⟩
  intro hne
  have hck : (0x1b + cmd + s + payload.length + (0xff - cmd) + payload.sum) % 256 < 256 := by
    omega
  rcases hk with hk | hk | hk | hk | hk | hk
  · subst hk
    rw [h2] at hne ⊢
    simp only [rd, List.cons_append, List.getD_cons_zero] at hne
    simp only [List.cons_append, List.nil_append, List.set_cons_zero, List.append_assoc]
    rw [readesc_eval v cmd s payload.length 0 (0xff - cmd) _ payload rest i s hv hcmd hs hlen
      (by omega) (by omega) hck hpl rfl, if_pos (Ne.symm hne)]
    exact Or.inl rfl
  · subst hk
    rw [h2] at hne ⊢
    simp only [rd, List.cons_append, List.getD_cons_succ, List.getD_cons_zero] at hne
    simp only [List.cons_append, List.nil_append, List.set_cons_zero, List.set_cons_succ,
      List.append_assoc]
    have h5 : 0xff - cmd ≠ 0xff - v := by omega
    rw [readesc_eval 0x1b v s payload.length 0 (0xff - cmd) _ payload rest i s (by omega) hv hs
      hlen (by omega) (by omega) hck hpl rfl, if_neg (by simp), if_neg (by simp),
      if_neg (by simp), if_pos h5]
    exact Or.inr (Or.inr (Or.inr (Or.inl rfl)))
  · subst hk
    rw [h2] at hne ⊢
    simp only [rd, List.cons_append, List.getD_cons_succ, List.getD_cons_zero] at hne
    simp only [List.cons_append, List.nil_append, List.set_cons_zero, List.set_cons_succ,
      List.append_assoc]
    rw [readesc_eval 0x1b cmd v payload.length 0 (0xff - cmd) _ payload rest i s (by omega) hcmd
      hv hlen (by omega) (by omega) hck hpl rfl, if_neg (by simp)]
    by_cases h3 : (v : Int) ≠ s ∧ (v ≠ 0 ∧ cmd ≠ 0x51)
    · rw [if_pos h3]
      exact Or.inr (Or.inl rfl)
    · have h6 : (0x1b + cmd + s + payload.length + (0xff - cmd) + payload.sum) % 256 ≠
          (0x1b + cmd + v + payload.length + (0xff - cmd) + payload.sum) % 256 := by omega
      rw [if_neg h3, if_neg (by simp), if_neg (by simp), if_pos h6]
      exact Or.inr (Or.inr (Or.inr (Or.inr rfl)))
  · subst hk
    rw [h2] at hne ⊢
    simp only [rd, List.cons_append, List.getD_cons_succ, List.getD_cons_zero] at hne
    simp only [List.cons_append, List.nil_append, List.set_cons_zero, List.set_cons_succ,
      List.append_assoc]
    rw [readesc_eval 0x1b cmd s payload.length v (0xff - cmd) _ payload rest i s (by omega) hcmd
      hs hlen hv (by omega) hck hpl rfl, if_neg (by simp), if_neg (by simp),
      if_pos (Ne.symm hne)]
    exact Or.inr (Or.inr (Or.inl rfl))
  · subst hk
    rw [h2] at hne ⊢
    simp only [rd, List.cons_append, List.getD_cons_succ, List.getD_cons_zero] at hne
    simp only [List.cons_append, List.nil_append, List.set_cons_zero, List.set_cons_succ,
      List.append_assoc]
    rw [readesc_eval 0x1b cmd s payload.length 0 v _ payload rest i s (by omega) hcmd
      hs hlen (by omega) hv hck hpl rfl, if_neg (by simp), if_neg (by simp), if_neg (by simp),
      if_pos (Ne.symm hne)]
    exact Or.inr (Or.inr (Or.inr (Or.inl rfl)))
  · subst hk
    rw [h2] at hne ⊢
    have hset : ([0x1b, cmd, s, payload.length, 0, 0xff - cmd] ++ payload ++
        [(0x1b + cmd + s + payload.length + (0xff - cmd) + payload.sum) % 256]).set
        (payload.length + 6) v = [0x1b, cmd, s, payload.length, 0, 0xff - cmd] ++ payload ++ [v] := by
      have := set_last ([0x1b, cmd, s, payload.length, 0, 0xff - cmd] ++ payload)
        ((0x1b + cmd + s + payload.length + (0xff - cmd) + payload.sum) % 256) v
      rw [← this]
      congr 1
    have hrd : rd ([0x1b, cmd, s, payload.length, 0, 0xff - cmd] ++ payload ++
        [(0x1b + cmd + s + payload.length + (0xff - cmd) + payload.sum) % 256])
        (payload.length + 6) =
        (0x1b + cmd + s + payload.length + (0xff - cmd) + payload.sum) % 256 := by
      simp [rd, List.getD_eq_getElem?_getD, List.getElem?_append_right]
    rw [hrd] at hne
    rw [hset]
    simp only [List.cons_append, List.nil_append, List.append_assoc]
    rw [readesc_eval 0x1b cmd s payload.length 0 (0xff - cmd) v payload rest i s (by omega) hcmd
      hs hlen (by omega) (by omega) hv hpl rfl, if_neg (by simp), if_neg (by simp),
      if_neg (by simp), if_neg (by simp), if_pos (Ne.symm hne)]
    exact Or.inr (Or.inr (Or.inr (Or.inr rfl)))


theorem corruption_detected_witness :
    ∃ frame sq', do_cmd 7 0x50 [1, 2, 3].length [1, 2, 3] = .ok (frame, sq') ∧
      frame.length = [1, 2, 3].length + 7 ∧
      (rd frame 2 ≠ 9 →
        (readesc ⟨⟨frame.set 2 9 ++ [], false⟩, 0, 7⟩).1 = -2 ∨
        (readesc ⟨⟨frame.set 2 9 ++ [], false⟩, 0, 7⟩).1 = -3 ∨
        (readesc ⟨⟨frame.set 2 9 ++ [], false⟩, 0, 7⟩).1 = -4 ∨
        (readesc ⟨⟨frame.set 2 9 ++ [], false⟩, 0, 7⟩).1 = -5 ∨
        (readesc ⟨⟨frame.set 2 9 ++ [], false⟩, 0, 7⟩).1 = -6) :=
  corruption_detected 7 0x50 [1, 2, 3] [] 0 2 9 (by decide) (by decide) (by decide) (by decide)
    (by decide) (by decide)

/-- C7, counterexample. With expected sequence number 0, the frame of command 0x51 and
sequence byte 5 is accepted although its sequence byte is not 0, and the next expected
sequence number becomes 6. -/
theorem sequence_rule_counterexample :
    (readesc ⟨⟨[0x1b, 0x51, 5, 1, 0, 0xae, 0, 0x20], false⟩, 0, 0⟩).1 = 0x51 ∧
      (readesc ⟨⟨[0x1b, 0x51, 5, 1, 0, 0xae, 0, 0x20], false⟩, 0, 0⟩).2.2.sq = 6 ∧
      ¬ ((readesc ⟨⟨[0x1b, 0x51, 5, 1, 0, 0xae, 0, 0x20], false⟩, 0, 0⟩).1 ≠ -3 ↔
        ((5 : Nat) = 0 ∧ (0x51 : Nat) = 0x51)) := by
  decide

/-- C7, amended. When `readesc` reads a frame whose sequence byte differs from the
expected sequence number, it fails with the sequence error (-3) exactly when the
sequence byte is not 0 and the command byte is not 0x51; when the sequence byte is 0 or
the command byte is 0x51 the frame passes the sequence test and the expected sequence
number for the next frame becomes the sequence byte plus one. -/
theorem sequence_rule (cmd seq : Nat) (rest : List Nat) (i sq : Int) (hcmd : cmd < 256)
    (hseq : seq < 256) (hne : (seq : Int) ≠ sq) :
    ((readesc ⟨⟨0x1b :: cmd :: seq :: rest, false⟩, i, sq⟩).1 = -3 ↔ (seq ≠ 0 ∧ cmd ≠ 0x51)) ∧
      ((seq = 0 ∨ cmd = 0x51) →
        (readesc ⟨⟨0x1b :: cmd :: seq :: rest, false⟩, i, sq⟩).2.2.sq = seq + 1) := by
  have hg : ∀ (b : Nat) (r : List Nat) (e : Bool), getchar ⟨b :: r, e⟩ = ((b : Int), ⟨r, e⟩) :=
    fun _ _ _ => rfl
  have h27 : uchar (27 : Nat) = 27 := rfl
  by_cases h : seq ≠ 0 ∧ cmd ≠ 0x51
  · have h3 : (seq : Int) ≠ sq ∧ (seq ≠ 0 ∧ cmd ≠ 0x51) := ⟨hne, h⟩
    refine ⟨⟨fun _ => h, fun _ => ?_⟩, fun h' => ?_⟩
    · simp only [readesc, hg, uchar_nat _ hcmd, uchar_nat _ hseq, h27]
      simp [h3]
    · exfalso; omega
  · have h3 : ¬ ((seq : Int) ≠ sq ∧ (seq ≠ 0 ∧ cmd ≠ 0x51)) := fun x => h x.2
    refine ⟨⟨fun hr => ?_, fun h' => absurd h' h⟩, fun _ => ?_⟩
    · exfalso
      simp only [readesc, hg, uchar_nat _ hcmd, uchar_nat _ hseq, h27, if_neg h3] at hr
      split_ifs at hr <;> simp at hr
    · simp only [readesc, hg, uchar_nat _ hcmd, uchar_nat _ hseq, h27, if_neg h3]
      split_ifs <;> first | contradiction | simp [hne]

theorem sequence_rule_witness :
    ((readesc ⟨⟨0x1b :: 0x40 :: 0 :: [1, 0, 0xbf, 0, 0x1b], false⟩, 0, 3⟩).1 = -3 ↔
        ((0 : Nat) ≠ 0 ∧ (0x40 : Nat) ≠ 0x51)) ∧
      (((0 : Nat) = 0 ∨ (0x40 : Nat) = 0x51) →
        (readesc ⟨⟨0x1b :: 0x40 :: 0 :: [1, 0, 0xbf, 0, 0x1b], false⟩, 0, 3⟩).2.2.sq =
          ((0 : Nat) : Int) + 1) :=
  sequence_rule 0x40 0 [1, 0, 0xbf, 0, 0x1b] 0 3 (by decide) (by decide) (by decide)

/-- C8, evaluation at the failing input. The two stop frames written by `do_cmd` are
`1B 41 00 01 00 BE 00 1B` and `1B 41 01 01 00 BE 00 1C`.  On the stream made of the first
frame followed by the second with its checksum byte replaced by 0x1D, `main` stops with
the checksum error (-6) at position counter 14, while the wrong checksum byte is at
offset 15 of the stream. -/
theorem checksum_offset_second_frame :
    (do_cmds 0 [(0x41, 1, [0]), (0x41, 1, [0])]).toOption.map (fun r => r.1) =
        some [[0x1b, 0x41, 0, 1, 0, 0xbe, 0, 0x1b], [0x1b, 0x41, 1, 1, 0, 0xbe, 0, 0x1c]] ∧
      (esc_main 3 ⟨⟨[0x1b, 0x41, 0, 1, 0, 0xbe, 0, 0x1b] ++ [0x1b, 0x41, 1, 1, 0, 0xbe, 0, 0x1d],
        false⟩, 0, 0⟩).toOption.map (fun r => (r.1, r.2.i)) = some (-6, 14) ∧
      ([0x1b, 0x41, 0, 1, 0, 0xbe, 0, 0x1b] ++ [0x1b, 0x41, 1, 1, 0, 0xbe, 0]).length = 15 := by
  decide

theorem byte_bits (x : Nat) (hx : x < 2 ^ 32) :
    (x >>> 24) % 256 = x >>> 24 ∧ (x >>> 8) % 256 = (x >>> 8) &&& 0xff ∧
      (x &&& 0xff) % 256 = x &&& 0xff := by
  have h1 : x >>> 24 = x / 2 ^ 24 := Nat.shiftRight_eq_div_pow x 24
  have h2 : (x >>> 8) &&& 0xff = (x >>> 8) % 256 := Nat.and_pow_two_sub_one_eq_mod _ 8
  have h3 : x &&& 0xff = x % 256 := Nat.and_pow_two_sub_one_eq_mod _ 8
  refine ⟨?_, h2.symm, ?_⟩
  · rw [h1]; omega
  · rw [h3]; omega

/-- C9. New-page payload: for 32-bit `x` and `y`, `send_new_page(x, y)` writes one 0x51
frame whose 22-byte payload is `[0, 1, (x>>16)&0xFF, x>>24, x&0xFF, (x>>8)&0xFF,
(y>>16)&0xFF, y>>24, y&0xFF, (y>>8)&0xFF, 8, 0, 8, 0, tray, pformat, 0, 0, 0, 0, flag, 0]`
with `flag = 0xC0` when the low byte of the resolution code is 0 and 0 otherwise. -/
theorem send_new_page_payload (cfg : Config) (sq x y : Nat) (hx : x < 2 ^ 32) (hy : y < 2 ^ 32)
    (ht : cfg.tray < 256) (hf : cfg.pformat < 256) :
    ∃ ck sq', send_new_page cfg sq x y =
      .ok ([0x1b, 0x51, sq, 22, 0, 0xae] ++
        [0, 0x01, (x >>> 16) &&& 0xff, x >>> 24, x &&& 0xff, (x >>> 8) &&& 0xff,
          (y >>> 16) &&& 0xff, y >>> 24, y &&& 0xff, (y >>> 8) &&& 0xff,
          0x08, 0, 0x08, 0, cfg.tray, cfg.pformat, 0, 0, 0, 0,
          if cfg.res &&& 0xff = 0 then 0xc0 else 0, 0] ++ [ck], sq') := by
  have e := do_cmd_eq sq 0x51 (new_page_buf cfg x y) (by omega) (by simp [new_page_buf])
  have hl : (new_page_buf cfg x y).length = 22 := rfl
  rw [hl] at e
  refine ⟨(27 + 81 + sq + 22 % 256 + 22 / 256 + (255 - 81) + (new_page_buf cfg x y).sum) % 256,
    (sq + 1) % 256, ?_⟩
  rw [send_new_page, e]
  simp only [new_page_buf, (byte_bits x hx).1, (byte_bits y hy).1, Nat.mod_eq_of_lt ht,
    Nat.mod_eq_of_lt hf]

theorem send_new_page_payload_witness :
    ∃ ck sq', send_new_page Config.default 2 4800 6720 =
      .ok ([0x1b, 0x51, 2, 22, 0, 0xae] ++
        [0, 0x01, (4800 >>> 16) &&& 0xff, 4800 >>> 24, 4800 &&& 0xff, (4800 >>> 8) &&& 0xff,
          (6720 >>> 16) &&& 0xff, 6720 >>> 24, 6720 &&& 0xff, (6720 >>> 8) &&& 0xff,
          0x08, 0, 0x08, 0, Config.default.tray, Config.default.pformat, 0, 0, 0, 0,
          if Config.default.res &&& 0xff = 0 then 0xc0 else 0, 0] ++ [ck], sq') :=
  send_new_page_payload Config.default 2 4800 6720 (by decide) (by decide) (by decide)
    (by decide)

theorem res_bits (r : Nat) : (r &&& 0xff) % 256 = r &&& 0xff ∧
    (r >>> 8) % 256 = (r >>> 8) &&& 0xff := by
  have h2 : (r >>> 8) &&& 0xff = (r >>> 8) % 256 := Nat.and_pow_two_sub_one_eq_mod _ 8
  have h3 : r &&& 0xff = r % 256 := Nat.and_pow_two_sub_one_eq_mod _ 8
  refine ⟨?_, h2.symm⟩
  rw [h3]; omega

/-- C10. Start-job payload: `send_start_job` writes a start frame (command 0x40, payload
`[model, 0]`) immediately followed by a 0x50 frame whose 8-byte payload is
`[res & 0xFF, (res >> 8) & 0xFF, 0, ptype, 4, 0, m, 0]`, with `m = 4` when the model is
0x83 or 0x86 and `m = 0` otherwise. -/
theorem send_start_job_payload (cfg : Config) (sq : Nat) (hm : cfg.model < 256)
    (hp : cfg.ptype < 256) :
    ∃ ck1 ck2 sq', send_start_job cfg sq =
      .ok (([0x1b, 0x40, sq, 2, 0, 0xbf] ++ [cfg.model, 0x00] ++ [ck1]) ++
        ([0x1b, 0x50, (sq + 1) % 256, 8, 0, 0xaf] ++
          [cfg.res &&& 0xff, (cfg.res >>> 8) &&& 0xff, 0, cfg.ptype, 0x04, 0,
            if cfg.model = 0x83 ∨ cfg.model = 0x86 then 0x04 else 0, 0] ++ [ck2]), sq') := by
  have e1 := do_cmd_eq sq 0x40 [cfg.model % 256, 0] (by omega) (by simp)
  have e2 := do_cmd_eq ((sq + 1) % 256) 0x50 (start_job_buf cfg) (by omega)
    (by simp [start_job_buf])
  have hl1 : [cfg.model % 256, 0].length = 2 := rfl
  have hl2 : (start_job_buf cfg).length = 8 := rfl
  rw [hl1] at e1
  rw [hl2] at e2
  refine ⟨(27 + 64 + sq + 2 % 256 + 2 / 256 + (255 - 64) + [cfg.model % 256, 0].sum) % 256,
    (27 + 80 + (sq + 1) % 256 + 8 % 256 + 8 / 256 + (255 - 80) + (start_job_buf cfg).sum) % 256,
    ((sq + 1) % 256 + 1) % 256, ?_⟩
  rw [send_start_job, do_start, e1]
  simp only
  rw [e2]
  simp only [start_job_buf, (res_bits cfg.res).1, (res_bits cfg.res).2, Nat.mod_eq_of_lt hm,
    Nat.mod_eq_of_lt hp]

theorem send_start_job_payload_witness :
    ∃ ck1 ck2 sq', send_start_job Config.default 0 =
      .ok (([0x1b, 0x40, 0, 2, 0, 0xbf] ++ [Config.default.model, 0x00] ++ [ck1]) ++
        ([0x1b, 0x50, (0 + 1) % 256, 8, 0, 0xaf] ++
          [Config.default.res &&& 0xff, (Config.default.res >>> 8) &&& 0xff, 0,
            Config.default.ptype, 0x04, 0,
            if Config.default.model = 0x83 ∨ Config.default.model = 0x86 then 0x04 else 0, 0] ++
          [ck2]), sq') :=
  send_start_job_payload Config.default 0 (by decide) (by decide)

/-! ## Raster data and page dimensions through the parser -/

theorem shl_or (a b : Nat) (hb : b < 256) : (a <<< 8) ||| b = a * 256 + b := by
  rw [Nat.shiftLeft_eq]
  have := Nat.mul_add_lt_is_or (i := 8) (b := b) (by simpa using hb) a
  simp only [show (2 : Nat) ^ 8 = 256 from rfl] at this ⊢
  rw [Nat.mul_comm a 256, this]

theorem and_ff (y : Nat) : y &&& 0xff = y % 256 := Nat.and_pow_two_sub_one_eq_mod y 8

theorem int32_small (v : Nat) (h : v < 2 ^ 31) : int32 v = v := by
  unfold int32
  have h1 : v % 2 ^ 32 = v := Nat.mod_eq_of_lt (by omega)
  rw [h1, if_pos h]

/-- The payload that `send_raster_data` builds has bytes below 256. -/
theorem raster_payload_lt (len nlines : Nat) :
    ∀ b ∈ [len &&& 0xff, (len >>> 8) &&& 0xff, (len >>> 16) &&& 0xff,
      (len >>> 24) % 256, nlines &&& 0xff, (nlines >>> 8) &&& 0xff], b < 256 := by
  intro b hb
  simp only [and_ff, List.mem_cons, List.mem_singleton, List.not_mem_nil, or_false] at hb
  omega

theorem skip_raw_spec : ∀ (data rest : List Nat) (eof : Bool) (i sq : Int),
    skip_raw data.length ⟨⟨data ++ rest, eof⟩, i, sq⟩ = ⟨⟨rest, eof⟩, i + data.length, sq⟩ := by
  intro data
  induction data with
  | nil => intro rest eof i sq; simp [skip_raw]
  | cons a l ih =>
    intro rest eof i sq
    simp only [List.length_cons, skip_raw, getchar, List.cons_append, ih]
    congr 1
    push_cast
    omega

theorem le32_bytes (x : Nat) (hx : x < 2 ^ 32) :
    (((((((x >>> 24) % 256) <<< 8) ||| ((x >>> 16) &&& 0xff)) <<< 8) |||
      ((x >>> 8) &&& 0xff)) <<< 8) ||| (x &&& 0xff) = x := by
  rw [and_ff, and_ff, and_ff, shl_or _ _ (by omega), shl_or _ _ (by omega), shl_or _ _ (by omega),
    Nat.shiftRight_eq_div_pow, Nat.shiftRight_eq_div_pow, Nat.shiftRight_eq_div_pow]
  omega

theorem le16_bytes (x : Nat) (hx : x < 2 ^ 16) :
    (((x >>> 8) &&& 0xff) <<< 8) ||| (x &&& 0xff) = x := by
  rw [and_ff, and_ff, shl_or _ _ (by omega), Nat.shiftRight_eq_div_pow]
  omega

/-- C11. Raster-data round trip: for `len < 2^31`, `nlines < 65536` and `len` data bytes,
`send_raster_data` writes a 0x52 frame with the payload `[len&0xFF, (len>>8)&0xFF,
(len>>16)&0xFF, len>>24, nlines&0xFF, (nlines>>8)&0xFF]`, the same frame whatever the
data bytes are, followed by the data unchanged; `readesc` accepts the frame, `dump52`
reads `len` and `nlines` back from it and leaves the input right after the data. -/
theorem raster_data_roundtrip (s nlines : Nat) (data rest : List Nat) (i : Int) (hs : s < 256)
    (hlen : data.length < 2 ^ 31) (hn : nlines < 65536) :
    ∃ ck frame,
      frame = [0x1b, 0x52, s, 6, 0, 0xad] ++
        [data.length &&& 0xff, (data.length >>> 8) &&& 0xff, (data.length >>> 16) &&& 0xff,
          data.length >>> 24, nlines &&& 0xff, (nlines >>> 8) &&& 0xff] ++ [ck] ∧
      (∀ data' : List Nat, data'.length = data.length →
        send_raster_data s nlines data.length data' = .ok (frame ++ data', (s + 1) % 256)) ∧
      (readesc ⟨⟨frame ++ (data ++ rest), false⟩, i, s⟩).1 = 0x52 ∧
      (readesc ⟨⟨frame ++ (data ++ rest), false⟩, i, s⟩).2.1 = frame ∧
      raster_count frame = data.length ∧ raster_lines frame = nlines ∧
      (dump52 frame (readesc ⟨⟨frame ++ (data ++ rest), false⟩, i, s⟩).2.2).inp.rest = rest := by
  have h24 : (data.length >>> 24) % 256 = data.length >>> 24 := by
    rw [Nat.shiftRight_eq_div_pow]; omega
  obtain ⟨frame, h1, h2, h3⟩ := readesc_frame s 0x52 [data.length &&& 0xff,
    (data.length >>> 8) &&& 0xff, (data.length >>> 16) &&& 0xff, (data.length >>> 24) % 256,
    nlines &&& 0xff, (nlines >>> 8) &&& 0xff] (data ++ rest) i hs (by omega)
    (raster_payload_lt data.length nlines) (by simp)
  simp only [List.length_cons, List.length_nil, Nat.zero_add, Nat.reduceAdd, Nat.reduceSub]
    at h1 h2 h3
  have hc := le32_bytes data.length (by omega)
  have hl := le16_bytes nlines (by omega)
  rw [h24] at hc
  refine ⟨(27 + 82 + s + 6 + 173 + [data.length &&& 255, data.length >>> 8 &&& 255,
    data.length >>> 16 &&& 255, data.length >>> 24 % 256, nlines &&& 255,
    nlines >>> 8 &&& 255].sum) % 256, frame, ?_, ?_, ?_, ?_, ?_, ?_, ?_⟩
  · rw [h2, h24]
  · intro data' hd
    have hn' : ¬ ¬ nlines < 2 ^ 16 := not_not.mpr (by omega)
    rw [send_raster_data, if_neg hn', h1, ← hd, List.take_length]
  · rw [h3]; rfl
  · rw [h3]
  · rw [h2, h24]
    simp only [raster_count, rd, List.cons_append, List.nil_append, List.getD_cons_succ,
      List.getD_cons_zero]
    rw [hc, int32_small _ hlen]
  · rw [h2]
    simp only [raster_lines, rd, List.cons_append, List.nil_append, List.getD_cons_succ,
      List.getD_cons_zero]
    rw [hl]
  · rw [h3]
    have h6 : rd frame 3 = 6 := by rw [h2]; rfl
    have hrc : raster_count frame = data.length := by
      rw [h2, h24]
      simp only [raster_count, rd, List.cons_append, List.nil_append, List.getD_cons_succ,
        List.getD_cons_zero]
      rw [hc, int32_small _ hlen]
    simp only [dump52, h6, ne_eq, not_true_eq_false, if_false, hrc, Int.toNat_ofNat]
    rw [skip_raw_spec]

theorem raster_data_roundtrip_witness :
    ∃ ck frame,
      frame = [0x1b, 0x52, 3, 6, 0, 0xad] ++
        [[0x80, 0, 0].length &&& 0xff, ([0x80, 0, 0].length >>> 8) &&& 0xff,
          ([0x80, 0, 0].length >>> 16) &&& 0xff, [0x80, 0, 0].length >>> 24, 1 &&& 0xff,
          (1 >>> 8) &&& 0xff] ++ [ck] ∧
      (∀ data' : List Nat, data'.length = [0x80, 0, 0].length →
        send_raster_data 3 1 [0x80, 0, 0].length data' = .ok (frame ++ data', (3 + 1) % 256)) ∧
      (readesc ⟨⟨frame ++ ([0x80, 0, 0] ++ [0x1b]), false⟩, 7, (3 : Nat)⟩).1 = 0x52 ∧
      (readesc ⟨⟨frame ++ ([0x80, 0, 0] ++ [0x1b]), false⟩, 7, (3 : Nat)⟩).2.1 = frame ∧
      raster_count frame = [0x80, 0, 0].length ∧ raster_lines frame = (1 : Nat) ∧
      (dump52 frame (readesc ⟨⟨frame ++ ([0x80, 0, 0] ++ [0x1b]), false⟩, 7,
        (3 : Nat)⟩).2.2).inp.rest = [0x1b] :=
  raster_data_roundtrip 3 1 [0x80, 0, 0] [0x1b] 7 (by decide) (by decide) (by decide)

theorem shl_or_k (k a b : Nat) (hb : b < 2 ^ k) : (a <<< k) ||| b = a * 2 ^ k + b := by
  rw [Nat.shiftLeft_eq, Nat.mul_comm a (2 ^ k), Nat.mul_add_lt_is_or hb a]

theorem mixed32_bytes (x : Nat) :
    ((((x >>> 24) <<< 24) ||| (((x >>> 16) &&& 0xff) <<< 16)) ||| (((x >>> 8) &&& 0xff) <<< 8)) |||
      (x &&& 0xff) = x := by
  rw [Nat.or_assoc, Nat.or_assoc, and_ff, and_ff, and_ff]
  rw [shl_or_k 8 _ _ (by omega)]
  have h8 : x >>> 8 % 256 * 2 ^ 8 + x % 256 < 2 ^ 16 := by omega
  rw [shl_or_k 16 _ _ h8]
  have h16 : x >>> 16 % 256 * 2 ^ 16 + (x >>> 8 % 256 * 2 ^ 8 + x % 256) < 2 ^ 24 := by omega
  rw [shl_or_k 24 _ _ h16, Nat.shiftRight_eq_div_pow, Nat.shiftRight_eq_div_pow,
    Nat.shiftRight_eq_div_pow]
  omega

/-- C12. Page-dimension round trip: for `x, y < 2^31`, `getdword` applied to the payload
bytes 2..5 (and 6..9) of the new-page frame written by `send_new_page(x, y)` returns `x`
(and `y`); `dump51` stores them in `gl_x` and `gl_y`. -/
theorem page_dimension_roundtrip (cfg : Config) (sq x y : Nat) (g : PageGlobals)
    (hx : x < 2 ^ 31) (hy : y < 2 ^ 31) :
    ∃ frame sq', send_new_page cfg sq x y = .ok (frame, sq') ∧
      getdword frame (6 + 2) = x ∧ getdword frame (6 + 6) = y ∧
      (dump51 frame g).gl_x = x ∧ (dump51 frame g).gl_y = y := by
  have e := do_cmd_eq sq 0x51 (new_page_buf cfg x y) (by omega) (by simp [new_page_buf])
  have hl : (new_page_buf cfg x y).length = 22 := rfl
  rw [hl] at e
  have hx24 : (x >>> 24) % 256 = x >>> 24 := by rw [Nat.shiftRight_eq_div_pow]; omega
  have hy24 : (y >>> 24) % 256 = y >>> 24 := by rw [Nat.shiftRight_eq_div_pow]; omega
  have gx : getdword ([0x1b, 0x51, sq, 22 % 256, 22 / 256, 0xff - 0x51] ++ new_page_buf cfg x y ++
      [(0x1b + 0x51 + sq + 22 % 256 + 22 / 256 + (0xff - 0x51) + (new_page_buf cfg x y).sum) % 256])
      8 = x := by
    simp only [getdword, new_page_buf, rd, List.cons_append, List.nil_append, List.getD_cons_succ,
      List.getD_cons_zero, hx24]
    rw [mixed32_bytes x, int32_small x hx]
  have gy : getdword ([0x1b, 0x51, sq, 22 % 256, 22 / 256, 0xff - 0x51] ++ new_page_buf cfg x y ++
      [(0x1b + 0x51 + sq + 22 % 256 + 22 / 256 + (0xff - 0x51) + (new_page_buf cfg x y).sum) % 256])
      12 = y := by
    simp only [getdword, new_page_buf, rd, List.cons_append, List.nil_append, List.getD_cons_succ,
      List.getD_cons_zero, hy24]
    rw [mixed32_bytes y, int32_small y hy]
  refine ⟨_, _, by rw [send_new_page, e], gx, gy, ?_, ?_⟩
  · have h3 : rd ([0x1b, 0x51, sq, 22 % 256, 22 / 256, 0xff - 0x51] ++ new_page_buf cfg x y ++
      [(0x1b + 0x51 + sq + 22 % 256 + 22 / 256 + (0xff - 0x51) + (new_page_buf cfg x y).sum) % 256])
      3 = 22 := rfl
    simp only [dump51, h3, ne_eq, not_true_eq_false, if_false]
    exact gx
  · have h3 : rd ([0x1b, 0x51, sq, 22 % 256, 22 / 256, 0xff - 0x51] ++ new_page_buf cfg x y ++
      [(0x1b + 0x51 + sq + 22 % 256 + 22 / 256 + (0xff - 0x51) + (new_page_buf cfg x y).sum) % 256])
      3 = 22 := rfl
    simp only [dump51, h3, ne_eq, not_true_eq_false, if_false]
    exact gy

theorem page_dimension_roundtrip_witness :
    ∃ frame sq', send_new_page Config.default 2 4592 6512 = .ok (frame, sq') ∧
      getdword frame (6 + 2) = (4592 : Nat) ∧ getdword frame (6 + 6) = (6512 : Nat) ∧
      (dump51 frame ⟨0, 0, 0, 0⟩).gl_x = (4592 : Nat) ∧
      (dump51 frame ⟨0, 0, 0, 0⟩).gl_y = (6512 : Nat) :=
  page_dimension_roundtrip Config.default 2 4592 6512 ⟨0, 0, 0, 0⟩ (by decide) (by decide)

/-! ## Device queries -/

theorem read_response_cons (r : Nat × List Nat) (rs : List (Nat × List Nat)) (tail : List Nat) :
    read_response (responses (r :: rs) ++ tail) =
      .ok (r.1, r.2.length, r.2, responses rs ++ tail) := by
  have h : ¬ (r.2 ++ (responses rs ++ tail)).length < r.2.length := by
    simp only [List.length_append]; omega
  simp only [responses, read_response, List.cons_append, if_neg h, List.append_assoc,
    List.take_left, List.drop_left]

theorem responses_append : ∀ (a b : List (Nat × List Nat)),
    responses (a ++ b) = responses a ++ responses b := by
  intro a
  induction a with
  | nil => intro b; rfl
  | cons r a ih => intro b; simp [responses, ih]

theorem do_read_loop_found (reg : Nat) (pl : List Nat) (rs : List (Nat × List Nat))
    (tail : List Nat) : ∀ (pre : List (Nat × List Nat)) (k j : Nat),
    (∀ r ∈ pre, r.1 ≠ reg) → pre.length ≤ k → pre.length + j ≤ 10 →
    do_read_loop reg k j (responses (pre ++ (reg, pl) :: rs) ++ tail) =
      .ok (reg, pl.length, pl, responses rs ++ tail) := by
  intro pre
  induction pre with
  | nil =>
    intro k j _ _ _
    cases k with
    | zero => rw [do_read_loop, List.nil_append, read_response_cons]
    | succ k =>
      rw [do_read_loop, List.nil_append, read_response_cons]
      simp
  | cons a pre ih =>
    intro k j hne hk hj
    cases k with
    | zero => simp at hk
    | succ k =>
      have ha : a.1 ≠ reg ∧ j < 10 :=
        ⟨hne a (List.mem_cons_self _ _), by simp only [List.length_cons] at hj; omega⟩
      rw [do_read_loop, List.cons_append, read_response_cons]
      simp only
      rw [if_pos ha]
      exact ih k (j + 1) (fun r hr => hne r (List.mem_cons_of_mem _ hr))
        (by simp only [List.length_cons] at hk; omega)
        (by simp only [List.length_cons] at hj; omega)

theorem do_read_loop_none (reg : Nat) (tail : List Nat) : ∀ (k j : Nat)
    (pre : List (Nat × List Nat)),
    (∀ r ∈ pre, r.1 ≠ reg) → pre.length = k + 1 → j + k = 10 →
    ∃ r : Nat × List Nat,
      do_read_loop reg k j (responses pre ++ tail) = .ok (r.1, r.2.length, r.2, tail) ∧
      r.1 ≠ reg := by
  intro k
  induction k with
  | zero =>
    intro j pre hne hl _
    match pre, hl with
    | [a], _ =>
      refine ⟨a, ?_, hne a (List.mem_cons_self _ _)⟩
      rw [do_read_loop, read_response_cons]
      rfl
  | succ k ih =>
    intro j pre hne hl hj
    match pre, hl with
    | a :: pre', hl' =>
      have ha : a.1 ≠ reg ∧ j < 10 := ⟨hne a (List.mem_cons_self _ _), by omega⟩
      obtain ⟨r, h1, h2⟩ := ih (j + 1) pre' (fun r hr => hne r (List.mem_cons_of_mem _ hr))
        (by simp only [List.length_cons] at hl'; omega) (by omega)
      refine ⟨r, ?_, h2⟩
      rw [do_read_loop, read_response_cons]
      simp only
      rw [if_pos ha, h1]

/-- C18, counterexample. When the first ten responses carry another register id and
the eleventh carries the id asked for, `do_read` reads the eleventh response and returns
its payload (it does not return `NULL` with length 0 after ten responses). -/
theorem do_read_cap_counterexample :
    (do_read 4 (responses (List.replicate 10 (0x4a, [0]) ++ [(4, [7])]))).toOption =
        some (some [7], 1, []) ∧
      ¬ ((do_read 4 (responses (List.replicate 10 (0x4a, [0]) ++ [(4, [7])]))).toOption =
        some (none, 0, responses [(4, [7])])) := by
  decide

/-- C18, amended. Device query cap, for a device that sends a sequence of responses
(register id, length, payload): `do_read(R)` makes at most 11 read attempts.  It returns
the payload and the length of the first response whose id is `R` when at most 10
responses precede it, and leaves the later responses unread; when none of the first 11
responses has the id `R` it returns `NULL` with length 0 and leaves the twelfth and later
responses unread. -/
theorem do_read_cap (reg : Nat) (pre rs : List (Nat × List Nat)) (tail : List Nat)
    (hne : ∀ r ∈ pre, r.1 ≠ reg) :
    (∀ pl, pre.length ≤ 10 →
      do_read reg (responses (pre ++ (reg, pl) :: rs) ++ tail) =
        .ok (some pl, pl.length, responses rs ++ tail)) ∧
    (pre.length = 11 →
      do_read reg (responses (pre ++ rs) ++ tail) = .ok (none, 0, responses rs ++ tail)) := by
  refine ⟨fun pl hl => ?_, fun hl => ?_⟩
  · rw [do_read, do_read_loop_found reg pl rs tail pre 10 0 hne hl (by omega)]
    simp
  · obtain ⟨r, h1, h2⟩ := do_read_loop_none reg (responses rs ++ tail) 10 0 pre hne hl rfl
    rw [do_read, responses_append, List.append_assoc, h1]
    simp [h2]

theorem do_read_cap_witness :
    (∀ pl, [(0x4a, [1, 2]), (0x45, [3])].length ≤ 10 →
      do_read 4 (responses ([(0x4a, [1, 2]), (0x45, [3])] ++ (4, pl) :: [(2, [9])]) ++ [5]) =
        .ok (some pl, pl.length, responses [(2, [9])] ++ [5])) ∧
    ([(0x4a, [1, 2]), (0x45, [3])].length = 11 →
      do_read 4 (responses ([(0x4a, [1, 2]), (0x45, [3])] ++ [(2, [9])]) ++ [5]) =
        .ok (none, 0, responses [(2, [9])] ++ [5])) :=
  do_read_cap 4 [(0x4a, [1, 2]), (0x45, [3])] [(2, [9])] [5] (by decide)

/-! ## The compressor: table invariant and output length -/

theorem get_len_loop_ge (buf : List Nat) (c e k p len : Nat) :
    len ≤ get_len_loop buf c e k p len := by
  obtain ⟨m, h, _⟩ := get_len_loop_spec buf c e k p len
  omega

/-- Three equal bytes ahead within a nearer end are three equal bytes ahead. -/
theorem get_len_mono (buf : List Nat) (p e' e : Nat) (he : e' ≤ e)
    (h : get_len buf p e' ≥ 3) : get_len buf p e ≥ 3 := by
  obtain ⟨_, g2, g3, g4⟩ := get_len_spec buf p e'
  have hp : p < e' := by
    by_contra hc
    have := g3 (by omega)
    omega
  have g2 := g2 hp
  have h1 : rd buf (p + 1) = rd buf p := g4 1 (by omega)
  have h2 : rd buf (p + 2) = rd buf p := g4 2 (by omega)
  obtain ⟨k, hk⟩ : ∃ k, e - (p + 1) = k + 2 := ⟨e - (p + 1) - 2, by omega⟩
  unfold get_len
  rw [hk, get_len_loop, if_pos ⟨by omega, h1.symm⟩, get_len_loop,
    if_pos ⟨by omega, h2.symm⟩]
  have := get_len_loop_ge buf (rd buf p) e k (p + 1 + 1 + 1) (0 + 1 + 1)
  omega

theorem rle_emit_len (buf : List Nat) (p n : Nat) (hn3 : 3 ≤ n) (hn : n < 4095) :
    (rle_emit buf p n).2.1 + 1 ≤ n := by
  obtain ⟨_, _, b3⟩ := rle_bits n hn
  by_cases hl : n > 63
  · simp only [rle_emit, if_pos hl, b3]
    split <;> simp only <;> omega
  · have h0 : n ≠ 0 := by omega
    simp only [rle_emit, if_neg hl, ne_eq, h0, not_false_eq_true, if_true]
    omega

/-- Why the literal loop ended: ten bytes stored, the end reached, three equal bytes
ahead, or four bytes ahead that fit the table. -/
theorem lit_loop_exit (buf : List Nat) (e : Nat) (st : TblState) : ∀ k q p,
    (lit_loop buf e st k q p).2.2.1 = k + 1 ∨
      ¬ ((lit_loop buf e st k q p).2.2.2 < e ∧ (lit_loop buf e st k q p).1 < 9) ∨
      get_len buf (lit_loop buf e st k q p).2.2.2
        (min ((lit_loop buf e st k q p).2.2.2 + 3) e) ≥ 3 ∨
      next_n_in_tbl buf st (lit_loop buf e st k q p).2.2.2 4 e = true := by
  intro k
  induction k with
  | zero => intro q p; left; rw [lit_loop]
  | succ k ih =>
    intro q p
    rw [lit_loop]
    by_cases h1 : get_len buf (p + 1) (min (p + 1 + 3) e) ≥ 3
    · rw [if_pos h1]
      exact Or.inr (Or.inr (Or.inl h1))
    · rw [if_neg h1]
      by_cases h2 : next_n_in_tbl buf st (p + 1) 4 e = true
      · rw [if_pos h2]
        exact Or.inr (Or.inr (Or.inr h2))
      · rw [if_neg h2]
        by_cases h3 : p + 1 < e ∧ (q + 1) % 256 < 9
        · rw [if_pos h3]
          simp only
          rcases ih ((q + 1) % 256) (p + 1) with h | h | h | h
          · left; omega
          · exact Or.inr (Or.inl h)
          · exact Or.inr (Or.inr (Or.inl h))
          · exact Or.inr (Or.inr (Or.inr h))
        · rw [if_neg h3]
          exact Or.inr (Or.inl h3)

theorem loopInv_done (buf : List Nat) (e p : Nat) (st : TblState) (hinv : TblInv st) :
    LoopInv buf e p st ([], 0, st) :=
  ⟨rfl, hinv, TblLe.refl st, Nat.zero_le _, fun _ => Nat.zero_le _⟩

theorem rle_step_inv (buf : List Nat) (e p n : Nat) (st : TblState)
    (r : List Nat × Nat × TblState) (hn3 : 3 ≤ n) (hn : n < 4095) (hpe : p + n ≤ e)
    (hrun : ∀ i, i < n → rd buf (p + i) = rd buf p)
    (hr : LoopInv buf e (rle_emit buf p n).2.2 st r) :
    LoopInv buf e p st ((rle_emit buf p n).1 ++ r.1, (rle_emit buf p n).2.1 + r.2.1, r.2.2) := by
  obtain ⟨r1, r2, _⟩ := rle_emit_spec buf p n (by omega) hn hrun
  have r3 := rle_emit_len buf p n hn3 hn
  obtain ⟨k1, k2, k3, k4, _⟩ := hr
  rw [r1] at k4
  have hb : (rle_emit buf p n).2.1 + r.2.1 ≤ (e - p) + (e - p) / 10 := by
    have : e - p = n + (e - (p + n)) := by omega
    omega
  refine ⟨?_, k2, k3, by simp only; omega, fun _ => hb⟩
  simp only [List.length_append, r2, k1]

theorem tbl_step_inv (buf : List Nat) (e p a b : Nat) (st sb : TblState)
    (M : Nat × List Nat × Nat × Nat × TblState) (r : List Nat × Nat × TblState)
    (hlt : p + 4 < e) (hle : TblLe st sb) (hM : MoreOk buf e 0x41 (p + 4) sb M)
    (hr : LoopInv buf e M.2.2.2.1 M.2.2.2.2 r) :
    LoopInv buf e p st (M.1 :: a :: b :: M.2.1 ++ r.1, 3 + M.2.2.1 + r.2.1, r.2.2) := by
  obtain ⟨m1, _, _, m3, m4, _, m6, _⟩ := hM
  have m4 := m4 (by omega)
  obtain ⟨k1, k2, k3, k4, _⟩ := hr
  rw [m3] at k4 m4
  have hb : 3 + M.2.2.1 + r.2.1 ≤ (e - p) + (e - p) / 10 := by
    have : e - p = (4 + 2 * M.2.2.1) + (e - (p + 4 + 2 * M.2.2.1)) := by omega
    omega
  refine ⟨?_, k2, hle.trans (m6.trans k3), by simp only; omega, fun _ => hb⟩
  simp only [List.length_cons, List.length_append, m1, k1]
  omega

theorem lit_step_inv (buf : List Nat) (e p : Nat) (st : TblState)
    (L : Nat × List Nat × Nat × Nat) (r : List Nat × Nat × TblState) (hp : p < e)
    (hn : ¬ get_len buf p e > 2) (ht : ¬ next_n_in_tbl buf st p 4 e = true)
    (hL : LitOk buf e 9 0xff p L)
    (hx : L.2.2.1 = 9 + 1 ∨ ¬ (L.2.2.2 < e ∧ L.1 < 9) ∨
      get_len buf L.2.2.2 (min (L.2.2.2 + 3) e) ≥ 3 ∨ next_n_in_tbl buf st L.2.2.2 4 e = true)
    (hr : LoopInv buf e L.2.2.2 st r) :
    LoopInv buf e p st (L.1 :: L.2.1 ++ r.1, 1 + L.2.2.1 + r.2.1, r.2.2) := by
  obtain ⟨l1, l2, l3, l4, l5, l6⟩ := hL
  have l6 := l6 hp
  obtain ⟨k1, k2, k3, k4, k5⟩ := hr
  have hlen : L.2.1.length = L.2.2.1 := by
    conv_lhs => rw [l1, seg_length]
  have hb : 1 + L.2.2.1 + r.2.1 ≤ (e - p) + (e - p) / 10 + 1 := by
    rw [l4] at k4 k5 l6 hx
    have hsplit : e - p = L.2.2.1 + (e - (p + L.2.2.1)) := by omega
    rcases hx with h | h | h | h
    · omega
    · by_cases hpe : p + L.2.2.1 < e
      · have : ¬ L.1 < 9 := fun hq => h ⟨hpe, hq⟩
        rw [l5] at this
        omega
      · have := k5 (Or.inl hpe)
        omega
    · have hg := get_len_mono buf (p + L.2.2.1) _ e (Nat.min_le_right _ _) h
      have := k5 (Or.inr (Or.inl (by omega)))
      omega
    · have := k5 (Or.inr (Or.inr h))
      omega
  refine ⟨?_, k2, k3, hb, fun h => ?_⟩
  · simp only [List.length_cons, List.length_append, hlen, k1]
    omega
  · rcases h with h | h | h
    · exact absurd hp h
    · exact absurd h hn
    · exact absurd h ht

/-- The main loop of `compress_scanline`, given enough passes, either stops at the
assertion or returns a result of which `LoopInv` holds. -/
theorem compress_loop_inv (buf : List Nat) (e : Nat) (hb : ∀ x, rd buf x < 256) :
    ∀ f p st, TblInv st → e - p ≤ f →
      compress_loop buf e f p st = .error .assertion ∨
        ∃ r, compress_loop buf e f p st = .ok r ∧ LoopInv buf e p st r := by
  intro f
  induction f with
  | zero =>
    intro p st hinv hf
    have hp : ¬ p < e := by omega
    exact Or.inr ⟨([], 0, st), by rw [compress_loop, if_neg hp], loopInv_done buf e p st hinv⟩
  | succ f ih =>
    intro p st hinv hf
    by_cases hp : p < e
    · obtain ⟨g1, g2, _, g4⟩ := get_len_spec buf p e
      have g2 := g2 hp
      rw [compress_loop, if_pos hp]
      simp only
      by_cases hn : get_len buf p e > 2
      · rw [if_pos hn]
        by_cases hn2 : get_len buf p e < 63 * 64 + 63
        · rw [if_neg (not_not.mpr hn2)]
          have r1 := (rle_emit_spec buf p (get_len buf p e) g1 (by omega) g4).1
          rcases ih (rle_emit buf p (get_len buf p e)).2.2 st hinv (by rw [r1]; omega) with
            hr | ⟨r, hr, hok⟩
          · left; rw [hr]
          · right
            rw [hr]
            exact ⟨_, rfl, rle_step_inv buf e p _ st r (by omega) (by omega) g2 g4 hok⟩
        · left; rw [if_pos hn2]
      · rw [if_neg hn]
        by_cases ht : next_n_in_tbl buf st p 4 e = true
        · rw [if_pos ht]
          obtain ⟨hlt, b1, hle, _⟩ := four_pairs buf e p st hb hinv ht
          have hM := tbl_more_spec buf e hb (0x7f - 0x41) 0x41
            (p + 4) (tbl_pair buf (tbl_pair buf st p).2 (p + 2)).2 b1 (by omega)
          generalize tbl_more buf e (0x7f - 0x41) 0x41 (p + 4)
            (tbl_pair buf (tbl_pair buf st p).2 (p + 2)).2 = M at hM ⊢
          have m3 := hM.2.2.2.1
          rcases ih M.2.2.2.1 M.2.2.2.2 hM.2.2.2.2.2.1 (by rw [m3]; omega) with
            hr | ⟨r, hr, hok⟩
          · left; rw [hr]
          · right
            rw [hr]
            exact ⟨_, rfl, tbl_step_inv buf e p _ _ st _ M r hlt hle hM hok⟩
        · rw [if_neg ht]
          have hL := lit_loop_spec buf e st 9 0xff p
          have hx := lit_loop_exit buf e st 9 0xff p
          generalize lit_loop buf e st 9 0xff p = L at hL hx ⊢
          have l4 := hL.2.2.2.1
          have l2 := hL.2.1
          rcases ih L.2.2.2 st hinv (by rw [l4]; omega) with hr | ⟨r, hr, hok⟩
          · left; rw [hr]
          · right
            rw [hr]
            exact ⟨_, rfl, lit_step_inv buf e p st L r hp hn ht hL hx hok⟩
    · exact Or.inr ⟨([], 0, st), by rw [compress_loop, if_neg hp], loopInv_done buf e p st hinv⟩

/-- C17. Table invariant: a call of `compress_scanline` on a scanline of byte values,
started in the uninitialised state or in a state that satisfies the invariant (as every
state left by a previous call does), returns when the scanline has fewer than 4095 bytes,
and whenever it returns the state it leaves has `0 <= tbllen <= 16`,
`invtbl[tbl[i]] = i` for `i < tbllen`, `invtbl[b] = 0xff` for every byte `b` that is
not in `tbl[0..tbllen)`, and pairwise distinct table entries. -/
theorem table_invariant (buf : List Nat) (p e : Nat) (st : TblState)
    (hb : ∀ b ∈ buf, b < 256) (hst : TblInv st ∨ st.tbllen = -1) :
    (e - p < 4095 → ∃ r, compress_scanline buf p e st = .ok r) ∧
    ∀ r, compress_scanline buf p e st = .ok r →
      (0 ≤ r.2.2.tbllen ∧ r.2.2.tbllen ≤ 16 ∧
        (∀ i : Nat, (i : Int) < r.2.2.tbllen → r.2.2.invtbl (r.2.2.tbl i) = i) ∧
        (∀ b : Nat, b < 256 → (∀ i : Nat, (i : Int) < r.2.2.tbllen → r.2.2.tbl i ≠ b) →
          r.2.2.invtbl b = 0xff)) ∧
      ∀ i j : Nat, i < j → (j : Int) < r.2.2.tbllen → r.2.2.tbl i ≠ r.2.2.tbl j := by
  have hc := clear_tables_inv st hst
  constructor
  · intro hW
    obtain ⟨r, hr, _⟩ := compress_loop_spec buf e (rd_lt buf hb) (e - p) p (clear_tables st) hc
      (le_refl _) hW
    exact ⟨r, hr⟩
  · intro r hr
    rcases compress_loop_inv buf e (rd_lt buf hb) (e - p) p (clear_tables st) hc (le_refl _)
      with h | ⟨r', h, hinv⟩
    · rw [compress_scanline, h] at hr
      cases hr
    · rw [compress_scanline, h] at hr
      cases hr
      refine ⟨hinv.2.1, ?_⟩
      intro i j hij hj heq
      have h1 := hinv.2.1.2.2.1 i (by omega)
      have h2 := hinv.2.1.2.2.1 j hj
      rw [heq, h2] at h1
      omega

theorem table_invariant_witness :
    (∀ b ∈ [7, 7, 7, 1, 2, 3, 4, 5, 9], b < 256) ∧
    ((9 - 0 < 4095 → ∃ r, compress_scanline [7, 7, 7, 1, 2, 3, 4, 5, 9] 0 9 TblState.uninit = .ok r) ∧
    ∀ r, compress_scanline [7, 7, 7, 1, 2, 3, 4, 5, 9] 0 9 TblState.uninit = .ok r →
      (0 ≤ r.2.2.tbllen ∧ r.2.2.tbllen ≤ 16 ∧
        (∀ i : Nat, (i : Int) < r.2.2.tbllen → r.2.2.invtbl (r.2.2.tbl i) = i) ∧
        (∀ b : Nat, b < 256 → (∀ i : Nat, (i : Int) < r.2.2.tbllen → r.2.2.tbl i ≠ b) →
          r.2.2.invtbl b = 0xff)) ∧
      ∀ i j : Nat, i < j → (j : Int) < r.2.2.tbllen → r.2.2.tbl i ≠ r.2.2.tbl j) :=
  ⟨by decide, table_invariant [7, 7, 7, 1, 2, 3, 4, 5, 9] 0 9 TblState.uninit (by decide)
    (Or.inr rfl)⟩

/-- The output length of `compress_scanline`, whenever it returns. -/
theorem compress_scanline_len (buf : List Nat) (p e : Nat) (st : TblState)
    (hb : ∀ b ∈ buf, b < 256) (hst : TblInv st ∨ st.tbllen = -1)
    (r : List Nat × Nat × TblState) (hr : compress_scanline buf p e st = .ok r) :
    r.2.1 = r.1.length ∧ r.2.1 ≤ (e - p) + (e - p) / 10 + 1 ∧ TblInv r.2.2 := by
  rcases compress_loop_inv buf e (rd_lt buf hb) (e - p) p (clear_tables st)
    (clear_tables_inv st hst) (le_refl _) with h | ⟨r', h, hinv⟩
  · rw [compress_scanline, h] at hr
    cases hr
  · rw [compress_scanline, h] at hr
    cases hr
    exact ⟨hinv.1, hinv.2.2.2.1, hinv.2.1⟩

/-! ## Pages: what one block holds -/

theorem band_loop_zero (ecomode skip sclbytes y : Nat) (st : PageState) :
    band_loop ecomode skip sclbytes y 0 st =
      .ok ({ yy := 0, bllen := 0, blbuf := [], lines := [] }, st) := by
  rw [band_loop]

/-- The cases of one pass of the scanline loop that returns. -/
theorem band_loop_succ (ecomode skip sclbytes y k : Nat) (st : PageState) (r : Band × PageState)
    (h : band_loop ecomode skip sclbytes y (k + 1) st = .ok r) :
    (¬ st.yc < y ∧ r = ({ yy := 0, bllen := 0, blbuf := [], lines := [] }, st)) ∨
    (st.yc < y ∧ (fread sclbytes st.inp).1.length = sclbytes ∧
      (((st.yc + skip * 8) % 2 ^ 32 > y ∧
        ∃ r', band_loop ecomode skip sclbytes y k
            { inp := (fread sclbytes st.inp).2, yc := st.yc + 1, ecofl := st.ecofl,
              tbl := st.tbl } = .ok r' ∧
          r = ({ yy := r'.1.yy + 1, bllen := r'.1.bllen, blbuf := r'.1.blbuf,
                 lines := r'.1.lines }, r'.2)) ∨
       (¬ (st.yc + skip * 8) % 2 ^ 32 > y ∧
        ∃ c r', compress_scanline
              (if ecomode ≠ 0 ∧ st.ecofl ≠ 0 then List.replicate sclbytes 0
                else (fread sclbytes st.inp).1)
              skip ((sclbytes + 2 ^ 32 - skip) % 2 ^ 32) st.tbl = .ok c ∧
          band_loop ecomode skip sclbytes y k
            { inp := (fread sclbytes st.inp).2, yc := st.yc + 1,
              ecofl := if ecomode ≠ 0 then -1 - st.ecofl else st.ecofl, tbl := c.2.2 } = .ok r' ∧
          r = ({ yy := r'.1.yy + 1,
                 bllen := (c.2.1 + 1 + c.2.2.tbllen.toNat + r'.1.bllen) % 2 ^ 32,
                 blbuf := (uchar (0x80 + c.2.2.tbllen) :: (table c.2.2 ++ c.1.take c.2.1)) ++
                   r'.1.blbuf,
                 lines := { raw := (fread sclbytes st.inp).1,
                            fed := if ecomode ≠ 0 ∧ st.ecofl ≠ 0 then List.replicate sclbytes 0
                              else (fread sclbytes st.inp).1,
                            record := uchar (0x80 + c.2.2.tbllen) ::
                              (table c.2.2 ++ c.1.take c.2.1) } :: r'.1.lines }, r'.2)))) := by
  rw [band_loop] at h
  by_cases h1 : st.yc < y
  · rw [if_pos h1] at h
    by_cases h2 : (fread sclbytes st.inp).1.length ≠ sclbytes
    · rw [if_pos h2] at h
      cases h
    · rw [if_neg h2] at h
      refine Or.inr ⟨h1, not_not.mp h2, ?_⟩
      by_cases h3 : (st.yc + skip * 8) % 2 ^ 32 > y
      · rw [if_pos h3] at h
        refine Or.inl ⟨h3, ?_⟩
        generalize band_loop ecomode skip sclbytes y k _ = M at h
        cases M with
        | error x => cases h
        | ok r' =>
          simp only [Except.ok.injEq] at h
          exact ⟨r', rfl, h.symm⟩
      · rw [if_neg h3] at h
        refine Or.inr ⟨h3, ?_⟩
        simp only at h
        split at h
        · cases h
        · rename_i c hC
          split at h
          · cases h
          · rename_i r' hM
            simp only [Except.ok.injEq] at h
            exact ⟨c, r', hC, hM, h.symm⟩
  · rw [if_neg h1] at h
    simp only [Except.ok.injEq] at h
    exact Or.inl ⟨h1, h.symm⟩

/-- The cases of one pass of the block loop that returns. -/
theorem bands_loop_succ (ecomode skip sclbytes sclperbl y n i : Nat) (st : PageState) (sq : Nat)
    (r : List (Nat × Band) × List Nat × PageState × Nat)
    (h : bands_loop ecomode skip sclbytes sclperbl y (n + 1) i st sq = .ok r) :
    ∃ b o r', band_loop ecomode skip sclbytes y sclperbl st = .ok b ∧
      send_raster_data sq (if i = 7 then (b.1.yy + 2 ^ 32 - 8 * skip) % 2 ^ 32 else b.1.yy)
        b.1.bllen b.1.blbuf = .ok o ∧
      bands_loop ecomode skip sclbytes sclperbl y n (i + 1) b.2 o.2 = .ok r' ∧
      r = ((if i = 7 then (b.1.yy + 2 ^ 32 - 8 * skip) % 2 ^ 32 else b.1.yy, b.1) :: r'.1,
        o.1 ++ r'.2.1, r'.2.2) := by
  rw [bands_loop] at h
  generalize hB : band_loop ecomode skip sclbytes y sclperbl st = B at h
  cases B with
  | error x => cases h
  | ok b =>
    simp only at h
    generalize hO : send_raster_data sq _ b.1.bllen b.1.blbuf = O at h
    cases O with
    | error x => cases h
    | ok o =>
      simp only at h
      generalize hR : bands_loop ecomode skip sclbytes sclperbl y n (i + 1) b.2 o.2 = R at h
      cases R with
      | error x => cases h
      | ok r' =>
        simp only [Except.ok.injEq] at h
        exact ⟨b, o, r', rfl, hO, hR, h.symm⟩

theorem fread_rest (n : Nat) (s : Stdin) (hs : ∀ b ∈ s.rest, b < 256) :
    (∀ b ∈ (fread n s).1, b < 256) ∧ ∀ b ∈ (fread n s).2.rest, b < 256 := by
  unfold fread
  by_cases h : n ≤ s.rest.length
  · rw [if_pos h]
    exact ⟨fun b hb => hs b (List.mem_of_mem_take hb), fun b hb => hs b (List.mem_of_mem_drop hb)⟩
  · rw [if_neg h]
    exact ⟨hs, fun b hb => by cases hb⟩

theorem table_length (st : TblState) : (table st).length = st.tbllen.toNat := by
  simp [table]

/-- The bound of one record, from the bound of `olen`. -/
theorem record_bound (sclbytes skip : Nat) (scl : List Nat) (st : TblState)
    (c : List Nat × Nat × TblState) (hx : sclbytes < 2 ^ 32) (hs : skip ≤ sclbytes)
    (hscl : ∀ b ∈ scl, b < 256) (hst : TblInv st ∨ st.tbllen = -1)
    (hc : compress_scanline scl skip ((sclbytes + 2 ^ 32 - skip) % 2 ^ 32) st = .ok c) :
    TblInv c.2.2 ∧
      (uchar (0x80 + c.2.2.tbllen) :: (table c.2.2 ++ c.1.take c.2.1)).length
        = c.2.1 + 1 + c.2.2.tbllen.toNat ∧
      (uchar (0x80 + c.2.2.tbllen) :: (table c.2.2 ++ c.1.take c.2.1)).length
        ≤ 17 + sclbytes + sclbytes / 10 + 1 := by
  obtain ⟨h1, h2, h3⟩ := compress_scanline_len scl skip _ st hscl hst c hc
  have he : (sclbytes + 2 ^ 32 - skip) % 2 ^ 32 = sclbytes - skip := by omega
  rw [he] at h2
  have hl : (uchar (0x80 + c.2.2.tbllen) :: (table c.2.2 ++ c.1.take c.2.1)).length
      = c.2.1 + 1 + c.2.2.tbllen.toNat := by
    rw [List.length_cons, List.length_append, table_length, List.length_take, ← h1, Nat.min_self]
    omega
  refine ⟨h3, hl, ?_⟩
  rw [hl]
  have := h3.1
  have := h3.2.1
  omega

theorem band_loop_bound (ecomode skip sclbytes y : Nat) (hx : sclbytes < 2 ^ 32)
    (hs : skip ≤ sclbytes) : ∀ k st r,
    (∀ b ∈ st.inp.rest, b < 256) → (TblInv st.tbl ∨ st.tbl.tbllen = -1) →
    band_loop ecomode skip sclbytes y k st = .ok r →
      (∀ b ∈ r.2.inp.rest, b < 256) ∧ (TblInv r.2.tbl ∨ r.2.tbl.tbllen = -1) ∧
        BandOk sclbytes k r.1 := by
  intro k
  induction k with
  | zero =>
    intro st r hi ht h
    rw [band_loop_zero] at h
    cases h
    exact ⟨hi, ht, ⟨fun l hl => (by cases hl), Nat.zero_le _, rfl⟩⟩
  | succ k ih =>
    intro st r hi ht h
    obtain ⟨hraw, hrest⟩ := fread_rest sclbytes st.inp hi
    rcases band_loop_succ ecomode skip sclbytes y k st r h with ⟨_, rfl⟩ |
      ⟨_, _, ⟨_, r', h1, rfl⟩ | ⟨_, c, r', hc, h1, rfl⟩⟩
    · exact ⟨hi, ht, ⟨fun l hl => (by cases hl), Nat.zero_le _, rfl⟩⟩
    · obtain ⟨k1, k2, k3, k4, k5⟩ := ih _ r' (by exact hrest) (by exact ht) h1
      refine ⟨k1, k2, ⟨k3, ?_, k5⟩⟩
      simp only
      rw [Nat.succ_mul]
      omega
    · have hfed : ∀ b ∈ (if ecomode ≠ 0 ∧ st.ecofl ≠ 0 then List.replicate sclbytes 0
          else (fread sclbytes st.inp).1), b < 256 := by
        intro b hb
        split at hb
        · rw [List.eq_of_mem_replicate hb]; decide
        · exact hraw b hb
      obtain ⟨c1, c2, c3⟩ := record_bound sclbytes skip _ st.tbl c hx hs hfed ht hc
      obtain ⟨k1, k2, k3, k4, k5⟩ := ih _ r' (by exact hrest) (by exact Or.inl c1) h1
      refine ⟨k1, k2, ⟨?_, ?_, ?_⟩⟩
      · intro l hl
        simp only [List.mem_cons] at hl
        rcases hl with rfl | hl
        · exact c3
        · exact k3 l hl
      · simp only [List.length_append]
        rw [Nat.succ_mul]
        omega
      · simp only [List.length_append]
        rw [c2, k5]
        omega

theorem skip_top_rest (sclbytes : Nat) : ∀ n s s', (∀ b ∈ s.rest, b < 256) →
    skip_top sclbytes n s = .ok s' → ∀ b ∈ s'.rest, b < 256 := by
  intro n
  induction n with
  | zero =>
    intro s s' hs h
    rw [skip_top] at h
    cases h
    exact hs
  | succ n ih =>
    intro s s' hs h
    rw [skip_top] at h
    split at h
    · cases h
    · exact ih _ s' (fread_rest sclbytes s hs).2 h

theorem bands_loop_bound (ecomode skip sclbytes sclperbl y : Nat) (hx : sclbytes < 2 ^ 32)
    (hs : skip ≤ sclbytes) : ∀ n i st sq r,
    (∀ b ∈ st.inp.rest, b < 256) → (TblInv st.tbl ∨ st.tbl.tbllen = -1) →
    bands_loop ecomode skip sclbytes sclperbl y n i st sq = .ok r →
      (∀ b ∈ r.2.2.1.inp.rest, b < 256) ∧ (TblInv r.2.2.1.tbl ∨ r.2.2.1.tbl.tbllen = -1) ∧
        ∀ b ∈ r.1, BandOk sclbytes sclperbl b.2 := by
  intro n
  induction n with
  | zero =>
    intro i st sq r hi ht h
    rw [bands_loop] at h
    cases h
    exact ⟨hi, ht, fun b hb => (by cases hb)⟩
  | succ n ih =>
    intro i st sq r hi ht h
    obtain ⟨b, o, r', hb, _, hr, rfl⟩ := bands_loop_succ ecomode skip sclbytes sclperbl y n i st sq r h
    obtain ⟨b1, b2, b3⟩ := band_loop_bound ecomode skip sclbytes y hx hs sclperbl st b hi ht hb
    obtain ⟨k1, k2, k3⟩ := ih _ _ _ r' (by exact b1) (by exact b2) hr
    refine ⟨k1, k2, ?_⟩
    intro b' hb'
    simp only [List.mem_cons] at hb'
    rcases hb' with rfl | hb'
    · exact b3
    · exact k3 b' hb'

/-- The bounds of the blocks of one page. -/
theorem dopage_bound (cfg : Config) (nomargins : Nat) (inp : Stdin) (sq : Nat) (tbl : TblState)
    (x y : Nat) (r : List (Nat × Band) × List Nat × PageState × Nat)
    (hx : x < 2 ^ 32) (hs : page_skip cfg nomargins ≤ x / 8)
    (hi : ∀ b ∈ inp.rest, b < 256) (ht : TblInv tbl ∨ tbl.tbllen = -1)
    (h : dopage cfg nomargins inp sq tbl x y = .ok r) :
    (∀ b ∈ r.2.2.1.inp.rest, b < 256) ∧ (TblInv r.2.2.1.tbl ∨ r.2.2.1.tbl.tbllen = -1) ∧
      ∀ b ∈ r.1, BandOk (x / 8) (y / 8 + if y &&& 7 ≠ 0 then 1 else 0) b.2 := by
  rw [dopage] at h
  split at h
  · cases h
  · rename_i inp1 h1
    exact bands_loop_bound cfg.ecomode _ (x / 8) _ y (by omega) hs 8 0 _ sq r
      (skip_top_rest (x / 8) _ inp inp1 hi h1) ht h

/-! ## Jobs: the page loop -/

theorem split_line_rest : ∀ (l : List Nat) (b : Nat), b ∈ (split_line l).2.1 → b ∈ l := by
  intro l
  induction l with
  | nil => intro b hb; rw [split_line] at hb; cases hb
  | cons c r ih =>
    intro b hb
    rw [split_line] at hb
    split at hb
    · exact List.mem_cons_of_mem _ hb
    · exact List.mem_cons_of_mem _ (ih b hb)

theorem getline_rest (s : Stdin) (b : Nat) (hb : b ∈ (getline s).2.rest) : b ∈ s.rest := by
  unfold getline at hb
  split at hb
  · exact hb
  · split at hb
    · exact split_line_rest _ b hb
    · split at hb
      · cases hb
      · cases hb

theorem header_line_rest : ∀ (f : Nat) (s : Stdin) (h : List Nat × Stdin),
    header_line f s = .ok h → ∀ b ∈ h.2.rest, b ∈ s.rest := by
  intro f
  induction f with
  | zero => intro s h hh; rw [header_line] at hh; cases hh
  | succ f ih =>
    intro s h hh b hb
    rw [header_line] at hh
    split at hh
    · cases hh
    · split at hh
      · exact getline_rest s b (ih _ h hh b hb)
      · cases hh
        exact getline_rest s b hb

/-- The cases of one pass of the page loop that returns. -/
theorem dojob_loop_succ (cfg : Config) (f : Nat) (js : JobState)
    (r : List PageRec × List Nat × JobState) (h : dojob_loop cfg (f + 1) js = .ok r) :
    r.1 = [] ∨
    ∃ s pg r' lx ly, (∀ b ∈ s.rest, b ∈ js.inp.rest) ∧
      dojob_page cfg { inp := s, sq := js.sq, tbl := js.tbl, nomargins := js.nomargins,
                       skip := js.skip } lx ly = .ok pg ∧
      dojob_loop cfg f pg.2.2 = .ok r' ∧
      r = (pg.1 :: r'.1, pg.2.1 ++ r'.2.1, r'.2.2) := by
  rw [dojob_loop] at h
  split at h
  · cases h; exact Or.inl rfl
  · split at h
    · cases h; exact Or.inl rfl
    · split at h
      · cases h
      · split at h
        · cases h
        · rename_i hd hh
          split at h
          · cases h
          · rename_i d _
            split at h
            · cases h
            · rename_i pg hpg
              split at h
              · cases h
              · rename_i r' hr'
                simp only [Except.ok.injEq] at h
                refine Or.inr ⟨hd.2, pg, r', d.1, d.2, ?_, hpg, hr', h.symm⟩
                intro b hb
                exact getline_rest _ b (header_line_rest _ _ hd hh b hb)

theorem dojob_loop_nil (cfg : Config) (js : JobState) (r : List PageRec × List Nat × JobState)
    (h : dojob_loop cfg 0 js = .ok r) : r.1 = [] := by
  rw [dojob_loop] at h
  split at h
  · cases h; rfl
  · cases h

/-- A property of the state that holds before every page and is kept by every page gives
a property of every page of the job. -/
theorem dojob_loop_inv (cfg : Config) (I : JobState → Prop) (Q : PageRec → Prop)
    (hI : ∀ (js : JobState) (s : Stdin), I js → (∀ b ∈ s.rest, b ∈ js.inp.rest) →
      I { inp := s, sq := js.sq, tbl := js.tbl, nomargins := js.nomargins, skip := js.skip })
    (hstep : ∀ js lx ly pg, I js → dojob_page cfg js lx ly = .ok pg → Q pg.1 ∧ I pg.2.2) :
    ∀ f js r, I js → dojob_loop cfg f js = .ok r → ∀ p ∈ r.1, Q p := by
  intro f
  induction f with
  | zero =>
    intro js r _ h p hp
    rw [dojob_loop_nil cfg js r h] at hp
    cases hp
  | succ f ih =>
    intro js r hjs h p hp
    rcases dojob_loop_succ cfg f js r h with h0 | ⟨s, pg, r', lx, ly, hs, hpg, hr', rfl⟩
    · rw [h0] at hp
      cases hp
    · obtain ⟨q1, q2⟩ := hstep _ lx ly pg (hI js s hjs hs) hpg
      simp only [List.mem_cons] at hp
      rcases hp with rfl | hp
      · exact q1
      · exact ih _ r' q2 hr' p hp

/-- The cases of a call of `dojob` that returns. -/
theorem dojob_ok (cfg : Config) (inp : Stdin) (sq : Nat) (tbl : TblState)
    (r : List PageRec × List Nat × JobState) (h : dojob cfg inp sq tbl = .ok r) :
    ∃ s r' t, send_start_job cfg sq = .ok s ∧
      dojob_loop cfg inp.rest.length.succ
        { inp := inp, sq := s.2, tbl := tbl, nomargins := cfg.nomargins, skip := job_skip cfg }
        = .ok r' ∧
      send_end_job r'.2.2.sq = .ok t ∧ r.1 = r'.1 ∧ r.2.1 = s.1 ++ r'.2.1 ++ t.1 := by
  rw [dojob] at h
  split at h
  · cases h
  · rename_i s hs
    split at h
    · cases h
    · rename_i r' hr'
      split at h
      · cases h
      · rename_i t ht
        simp only [Except.ok.injEq] at h
        subst h
        exact ⟨s, r', t, hs, hr', ht, rfl, rfl⟩

theorem ecofl_step (ecomode n0 : Nat) (z : Int)
    (hz : z = if ecomode ≠ 0 ∧ n0 % 2 = 1 then -1 else 0) :
    ((ecomode ≠ 0 ∧ z ≠ 0) ↔ (ecomode ≠ 0 ∧ n0 % 2 = 1)) ∧
      (if ecomode ≠ 0 then -1 - z else z) =
        if ecomode ≠ 0 ∧ (n0 + 1) % 2 = 1 then -1 else 0 := by
  by_cases he : ecomode = 0
  · subst hz
    simp [he]
  · rcases Nat.mod_two_eq_zero_or_one n0 with h | h
    · have h1 : (n0 + 1) % 2 = 1 := by omega
      subst hz
      simp [he, h, h1]
    · have h1 : (n0 + 1) % 2 = 0 := by omega
      subst hz
      simp [he, h, h1]

theorem band_loop_alt (ecomode skip sclbytes y : Nat) : ∀ k st r n0,
    st.ecofl = (if ecomode ≠ 0 ∧ n0 % 2 = 1 then -1 else 0) →
    band_loop ecomode skip sclbytes y k st = .ok r →
      r.2.ecofl = (if ecomode ≠ 0 ∧ (n0 + r.1.lines.length) % 2 = 1 then -1 else 0) ∧
        ∀ j l, r.1.lines[j]? = some l → LineOk ecomode skip sclbytes (n0 + j) l := by
  intro k
  induction k with
  | zero =>
    intro st r n0 hz h
    rw [band_loop_zero] at h
    cases h
    exact ⟨hz, fun j l hl => (by simp at hl)⟩
  | succ k ih =>
    intro st r n0 hz h
    rcases band_loop_succ ecomode skip sclbytes y k st r h with ⟨_, rfl⟩ |
      ⟨_, hlen, ⟨_, r', h1, rfl⟩ | ⟨_, c, r', hc, h1, rfl⟩⟩
    · exact ⟨hz, fun j l hl => (by simp at hl)⟩
    · exact ih _ r' n0 (by exact hz) h1
    · obtain ⟨e1, e2⟩ := ecofl_step ecomode n0 st.ecofl hz
      obtain ⟨k1, k2⟩ := ih _ r' (n0 + 1) (by exact e2) h1
      constructor
      · simp only [List.length_cons]
        rw [k1]
        have : n0 + 1 + r'.1.lines.length = n0 + (r'.1.lines.length + 1) := by omega
        rw [this]
      · intro j l hl
        cases j with
        | zero =>
          simp only [List.getElem?_cons_zero, Option.some.injEq] at hl
          subst hl
          refine ⟨hlen, ?_, st.tbl, c, hc, rfl⟩
          simp only [Nat.add_zero]
          by_cases hq : ecomode ≠ 0 ∧ st.ecofl ≠ 0
          · rw [if_pos hq, if_pos (e1.mp hq)]
          · rw [if_neg hq, if_neg (fun hh => hq (e1.mpr hh))]
        | succ j =>
          simp only [List.getElem?_cons_succ] at hl
          have := k2 j l hl
          have e : n0 + 1 + j = n0 + (j + 1) := by omega
          rw [e] at this
          exact this

theorem bands_loop_alt (ecomode skip sclbytes sclperbl y : Nat) : ∀ n i st sq r n0,
    st.ecofl = (if ecomode ≠ 0 ∧ n0 % 2 = 1 then -1 else 0) →
    bands_loop ecomode skip sclbytes sclperbl y n i st sq = .ok r →
      ∀ j l, (page_lines r.1)[j]? = some l → LineOk ecomode skip sclbytes (n0 + j) l := by
  intro n
  induction n with
  | zero =>
    intro i st sq r n0 _ h j l hl
    rw [bands_loop] at h
    cases h
    simp [page_lines] at hl
  | succ n ih =>
    intro i st sq r n0 hz h j l hl
    obtain ⟨b, o, r', hb, _, hr, rfl⟩ := bands_loop_succ ecomode skip sclbytes sclperbl y n i st sq r h
    obtain ⟨b1, b2⟩ := band_loop_alt ecomode skip sclbytes y sclperbl st b n0 hz hb
    simp only [page_lines] at hl
    by_cases hj : j < b.1.lines.length
    · rw [List.getElem?_append_left hj] at hl
      exact b2 j l hl
    · rw [List.getElem?_append_right (by omega)] at hl
      have := ih _ _ _ r' (n0 + b.1.lines.length) (by exact b1) hr _ l hl
      have e : n0 + b.1.lines.length + (j - b.1.lines.length) = n0 + j := by omega
      rw [e] at this
      exact this

/-- The scanlines of one page alternate from the first one on. -/
theorem dopage_alt (cfg : Config) (nomargins : Nat) (inp : Stdin) (sq : Nat) (tbl : TblState)
    (x y : Nat) (r : List (Nat × Band) × List Nat × PageState × Nat)
    (h : dopage cfg nomargins inp sq tbl x y = .ok r) :
    ∀ j l, (page_lines r.1)[j]? = some l →
      LineOk cfg.ecomode (page_skip cfg nomargins) (x / 8) j l := by
  rw [dopage] at h
  split at h
  · cases h
  · intro j l hl
    have := bands_loop_alt cfg.ecomode _ (x / 8) _ y 8 0 _ sq r 0 (by simp) h j l hl
    rw [Nat.zero_add] at this
    exact this

/-- The cases of a page that `dojob` completes. -/
theorem dojob_page_ok (cfg : Config) (js : JobState) (lx ly : Nat)
    (pg : PageRec × List Nat × JobState) (h : dojob_page cfg js lx ly = .ok pg) :
    ∃ np pr,
      send_new_page cfg js.sq (page_head js.nomargins js.skip lx ly).sent_x
        (page_head js.nomargins js.skip lx ly).sent_y = .ok np ∧
      dopage cfg (page_head js.nomargins js.skip lx ly).nomargins js.inp np.2 js.tbl
        (page_head js.nomargins js.skip lx ly).x (page_head js.nomargins js.skip lx ly).y
        = .ok pr ∧
      pg = ({ page_head js.nomargins js.skip lx ly with bands := pr.1 }, np.1 ++ pr.2.1,
          { inp := pr.2.2.1.inp, sq := pr.2.2.2, tbl := pr.2.2.1.tbl,
            nomargins := (page_head js.nomargins js.skip lx ly).nomargins,
            skip := (page_head js.nomargins js.skip lx ly).skip }) := by
  rw [dojob_page] at h
  split at h
  · cases h
  · rename_i np hnp
    split at h
    · cases h
    · rename_i pr hpr
      simp only [Except.ok.injEq] at h
      exact ⟨np, pr, hnp, hpr, h.symm⟩

theorem round_x_lt (x : Nat) (h : x < 2 ^ 32) : round_x x < 2 ^ 32 := by
  unfold round_x
  split
  · exact Nat.mod_lt _ (by decide)
  · exact h

theorem page_head_x_lt (nomargins skip lx ly : Nat) :
    (page_head nomargins skip lx ly).x < 2 ^ 32 :=
  round_x_lt _ (Nat.mod_lt _ (by decide))

theorem skiptbl_le (i : Nat) : skiptbl i ≤ 25 := by
  unfold skiptbl
  match i with
  | 0 => decide
  | 1 => decide
  | 2 => decide
  | n + 3 => simp

/-- In `dopage` the margin is at most the scanline width, for every page of `dojob`. -/
theorem page_skip_le (cfg : Config) (nomargins skip lx ly : Nat)
    (hs : nomargins = 0 → skip = 16 * skiptbl (cfg.res &&& 0xff)) :
    page_skip cfg (page_head nomargins skip lx ly).nomargins
      ≤ (page_head nomargins skip lx ly).x / 8 := by
  unfold page_skip
  split
  · rename_i h0
    simp only [page_head] at h0 ⊢
    by_cases hsm : small_page skip (round_x (lx % 2 ^ 32)) (ly % 2 ^ 32) = true
    · rw [if_pos hsm] at h0
      cases h0
    · rw [if_neg hsm] at h0
      have h1 := hs h0
      simp only [small_page, decide_eq_true_eq, not_or, not_le] at hsm
      omega
  · exact Nat.zero_le _

/-- C19. Ecomode alternation: in every job that `dojob` completes, the scanlines of a
page that reach the compressor, counted from 0 across the blocks of the page, are whole
scanlines of `x / 8` bytes; with ecomode on those with an even number (the 1st, 3rd, ...)
are compressed as read and those with an odd number (the 2nd, 4th, ...) are replaced by
zeros, on every page alike, and with ecomode off every one is compressed as read.  The
record of a scanline is the table preamble and the output of `compress_scanline` for
these bytes. -/
theorem ecomode_alternation (cfg : Config) (inp : Stdin) (sq : Nat) (tbl : TblState)
    (r : List PageRec × List Nat × JobState) (h : dojob cfg inp sq tbl = .ok r) :
    ∀ p ∈ r.1, ∀ j l, (page_lines p.bands)[j]? = some l →
      l.raw.length = p.x / 8 ∧
      l.fed = (if cfg.ecomode ≠ 0 ∧ j % 2 = 1 then List.replicate (p.x / 8) 0 else l.raw) ∧
      ∃ st c, compress_scanline l.fed (page_skip cfg p.nomargins)
          ((p.x / 8 + 2 ^ 32 - page_skip cfg p.nomargins) % 2 ^ 32) st = .ok c ∧
        l.record = uchar (0x80 + c.2.2.tbllen) :: (table c.2.2 ++ c.1.take c.2.1) := by
  obtain ⟨s, r', t, _, hr', _, e1, _⟩ := dojob_ok cfg inp sq tbl r h
  rw [e1]
  refine dojob_loop_inv cfg (fun _ => True)
    (fun p => ∀ j l, (page_lines p.bands)[j]? = some l →
      LineOk cfg.ecomode (page_skip cfg p.nomargins) (p.x / 8) j l)
    (fun _ _ _ _ => trivial) ?_ _ _ r' trivial hr'
  intro js lx ly pg _ hpg
  obtain ⟨np, pr, _, hpr, rfl⟩ := dojob_page_ok cfg js lx ly pg hpg
  exact ⟨dopage_alt cfg _ js.inp np.2 js.tbl _ _ pr hpr, trivial⟩

theorem ecomode_alternation_witness :
    ∃ r, dojob { Config.default with ecomode := 1 }
        ⟨[80, 52, 10, 56, 32, 51, 10, 1, 2, 3, 80, 52, 10, 56, 32, 50, 10, 4, 5], false⟩ 0
        TblState.uninit = .ok r ∧
      r.1.map (fun p => (page_lines p.bands).map (fun l => (l.raw, l.fed))) =
        [[([1], [1]), ([2], [0]), ([3], [3])], [([4], [4]), ([5], [0])]] ∧
      ∀ p ∈ r.1, ∀ j l, (page_lines p.bands)[j]? = some l →
        l.raw.length = p.x / 8 ∧
        l.fed = (if ({ Config.default with ecomode := 1 } : Config).ecomode ≠ 0 ∧ j % 2 = 1
          then List.replicate (p.x / 8) 0 else l.raw) ∧
        ∃ st c, compress_scanline l.fed
            (page_skip { Config.default with ecomode := 1 } p.nomargins)
            ((p.x / 8 + 2 ^ 32 - page_skip { Config.default with ecomode := 1 } p.nomargins)
              % 2 ^ 32) st = .ok c ∧
          l.record = uchar (0x80 + c.2.2.tbllen) :: (table c.2.2 ++ c.1.take c.2.1) := by
  have hd : (dojob { Config.default with ecomode := 1 }
      ⟨[80, 52, 10, 56, 32, 51, 10, 1, 2, 3, 80, 52, 10, 56, 32, 50, 10, 4, 5], false⟩ 0
      TblState.uninit).toOption.map
        (fun r => r.1.map (fun p => (page_lines p.bands).map (fun l => (l.raw, l.fed)))) =
      some [[([1], [1]), ([2], [0]), ([3], [3])], [([4], [4]), ([5], [0])]] := by decide
  rcases h : dojob { Config.default with ecomode := 1 }
      ⟨[80, 52, 10, 56, 32, 51, 10, 1, 2, 3, 80, 52, 10, 56, 32, 50, 10, 4, 5], false⟩ 0
      TblState.uninit with e | r
  · rw [h] at hd
    cases hd
  · rw [h] at hd
    exact ⟨r, rfl, Option.some.inj hd, ecomode_alternation _ _ _ _ r h⟩

/-- The records and the blocks against the bound in unbounded arithmetic: on a scanline of
`W < 4095` byte values `compress_scanline` returns, `olen` is the number of bytes stored
and `olen <= W + W / 10 + 1`; and in every job of byte values that `dojob` completes,
every scanline record of a page has at most `17 + sclbytes + sclbytes / 10 + 1` bytes,
every block holds at most as many bytes as the product
`sclperbl * (17 + sclbytes + sclbytes / 10 + 1)` of natural numbers, and `bllen` is the
number of bytes of the block modulo `2^32`.  The size of the buffer is the value of the
product in `uint32_t`, see `blblen`. -/
theorem block_buffer_bound (cfg : Config) (inp : Stdin) (sq : Nat) (tbl : TblState)
    (hi : ∀ b ∈ inp.rest, b < 256) (ht : TblInv tbl ∨ tbl.tbllen = -1) :
    (∀ (buf : List Nat) (p e : Nat) (st : TblState), (∀ b ∈ buf, b < 256) →
      (TblInv st ∨ st.tbllen = -1) → e - p < 4095 →
      ∃ c, compress_scanline buf p e st = .ok c ∧ c.2.1 = c.1.length ∧
        c.2.1 ≤ (e - p) + (e - p) / 10 + 1) ∧
    ∀ r, dojob cfg inp sq tbl = .ok r → ∀ p ∈ r.1, ∀ b ∈ p.bands,
      (∀ l ∈ b.2.lines, l.record.length ≤ 17 + p.x / 8 + p.x / 8 / 10 + 1) ∧
      b.2.blbuf.length ≤
        (p.y / 8 + if p.y &&& 7 ≠ 0 then 1 else 0) * (17 + p.x / 8 + p.x / 8 / 10 + 1) ∧
      b.2.bllen = b.2.blbuf.length % 2 ^ 32 := by
  constructor
  · intro buf p e st hb hst hW
    obtain ⟨c, hc, _⟩ := compress_loop_spec buf e (rd_lt buf hb) (e - p) p (clear_tables st)
      (clear_tables_inv st hst) (le_refl _) hW
    have hc' : compress_scanline buf p e st = .ok c := hc
    obtain ⟨h1, h2, _⟩ := compress_scanline_len buf p e st hb hst c hc'
    exact ⟨c, hc', h1, h2⟩
  · intro r h
    obtain ⟨s, r', t, _, hr', _, e1, _⟩ := dojob_ok cfg inp sq tbl r h
    rw [e1]
    refine dojob_loop_inv cfg
      (fun js => (∀ b ∈ js.inp.rest, b < 256) ∧ (TblInv js.tbl ∨ js.tbl.tbllen = -1) ∧
        (js.nomargins = 0 → js.skip = 16 * skiptbl (cfg.res &&& 0xff)))
      (fun p => ∀ b ∈ p.bands,
        BandOk (p.x / 8) (p.y / 8 + if p.y &&& 7 ≠ 0 then 1 else 0) b.2)
      ?_ ?_ _ _ r' ⟨hi, ht, ?_⟩ hr'
    · intro js s hjs hs
      exact ⟨fun b hb => hjs.1 b (hs b hb), hjs.2.1, hjs.2.2⟩
    · intro js lx ly pg hjs hpg
      obtain ⟨np, pr, _, hpr, rfl⟩ := dojob_page_ok cfg js lx ly pg hpg
      obtain ⟨d1, d2, d3⟩ := dopage_bound cfg _ js.inp np.2 js.tbl _ _ pr
        (page_head_x_lt _ _ _ _) (page_skip_le cfg _ _ _ _ hjs.2.2) hjs.1 hjs.2.1 hpr
      refine ⟨d3, d1, d2, ?_⟩
      intro h0
      simp only [page_head] at h0 ⊢
      by_cases hsm : small_page js.skip (round_x (lx % 2 ^ 32)) (ly % 2 ^ 32) = true
      · rw [if_pos hsm] at h0
        cases h0
      · rw [if_neg hsm] at h0 ⊢
        exact hjs.2.2 h0
    · intro h0
      simp only [job_skip]
      rw [if_pos h0]

theorem block_buffer_bound_witness :
    (∀ b ∈ [80, 52, 10, 49, 54, 32, 51, 10, 1, 1, 2, 3, 9, 9], b < 256) ∧
    (∃ r, dojob Config.default ⟨[80, 52, 10, 49, 54, 32, 51, 10, 1, 1, 2, 3, 9, 9], false⟩ 0
        TblState.uninit = .ok r ∧
      r.1.map (fun p => (p.x, p.y, p.bands.map (fun b => b.2.blbuf))) =
        [(16, 3, [[128, 1, 1, 1], [128, 1, 2, 3], [128, 1, 9, 9], [], [], [], [], []])]) ∧
    ((∀ (buf : List Nat) (p e : Nat) (st : TblState), (∀ b ∈ buf, b < 256) →
      (TblInv st ∨ st.tbllen = -1) → e - p < 4095 →
      ∃ c, compress_scanline buf p e st = .ok c ∧ c.2.1 = c.1.length ∧
        c.2.1 ≤ (e - p) + (e - p) / 10 + 1) ∧
    ∀ r, dojob Config.default ⟨[80, 52, 10, 49, 54, 32, 51, 10, 1, 1, 2, 3, 9, 9], false⟩ 0
        TblState.uninit = .ok r → ∀ p ∈ r.1, ∀ b ∈ p.bands,
      (∀ l ∈ b.2.lines, l.record.length ≤ 17 + p.x / 8 + p.x / 8 / 10 + 1) ∧
      b.2.blbuf.length ≤
        (p.y / 8 + if p.y &&& 7 ≠ 0 then 1 else 0) * (17 + p.x / 8 + p.x / 8 / 10 + 1) ∧
      b.2.bllen = b.2.blbuf.length % 2 ^ 32) := by
  refine ⟨by decide, ?_, block_buffer_bound Config.default
    ⟨[80, 52, 10, 49, 54, 32, 51, 10, 1, 1, 2, 3, 9, 9], false⟩ 0 TblState.uninit (by decide)
    (Or.inr rfl)⟩
  have hd : (dojob Config.default
      ⟨[80, 52, 10, 49, 54, 32, 51, 10, 1, 1, 2, 3, 9, 9], false⟩ 0
      TblState.uninit).toOption.map
        (fun r => r.1.map (fun p => (p.x, p.y, p.bands.map (fun b => b.2.blbuf)))) =
      some [(16, 3, [[128, 1, 1, 1], [128, 1, 2, 3], [128, 1, 9, 9], [], [], [], [], []])] := by
    decide
  rcases h : dojob Config.default
      ⟨[80, 52, 10, 49, 54, 32, 51, 10, 1, 1, 2, 3, 9, 9], false⟩ 0 TblState.uninit with e | r
  · rw [h] at hd
    cases hd
  · rw [h] at hd
    exact ⟨r, rfl, Option.some.inj hd⟩

theorem band_loop_count (ecomode sclbytes y : Nat) (hy : y < 2 ^ 32) : ∀ k st r,
    band_loop ecomode 0 sclbytes y k st = .ok r →
      r.1.lines.length = min k (y - st.yc) ∧ r.2.yc = st.yc + min k (y - st.yc) ∧
        r.1.yy = min k (y - st.yc) := by
  intro k
  induction k with
  | zero =>
    intro st r h
    rw [band_loop_zero] at h
    cases h
    simp
  | succ k ih =>
    intro st r h
    rcases band_loop_succ ecomode 0 sclbytes y k st r h with ⟨h0, rfl⟩ |
      ⟨h0, _, ⟨h2, _⟩ | ⟨_, c, r', _, h1, rfl⟩⟩
    · have : y - st.yc = 0 := by omega
      simp [this]
    · exfalso
      omega
    · obtain ⟨k1, k2, k3⟩ := ih _ r' h1
      simp only at k1 k2 k3
      simp only [List.length_cons]
      rw [k1, k2, k3]
      omega

theorem bands_loop_count (ecomode sclbytes sclperbl y : Nat) (hy : y < 2 ^ 32) :
    ∀ n i st sq r, bands_loop ecomode 0 sclbytes sclperbl y n i st sq = .ok r →
      (page_lines r.1).length = min (n * sclperbl) (y - st.yc) := by
  intro n
  induction n with
  | zero =>
    intro i st sq r h
    rw [bands_loop] at h
    cases h
    simp [page_lines]
  | succ n ih =>
    intro i st sq r h
    obtain ⟨b, o, r', hb, _, hr, rfl⟩ := bands_loop_succ ecomode 0 sclbytes sclperbl y n i st sq r h
    obtain ⟨b1, b2, _⟩ := band_loop_count ecomode sclbytes y hy sclperbl st b hb
    have k1 := ih _ _ _ r' hr
    simp only [page_lines, List.length_append]
    rw [b1, k1, b2, Nat.succ_mul]
    omega

theorem skip_top_zero (sclbytes : Nat) (s : Stdin) : skip_top sclbytes 0 s = .ok s := by
  rw [skip_top]

/-- A page with the margins off: every scanline is compressed, over its whole width. -/
theorem dopage_nomargins (cfg : Config) (nomargins : Nat) (inp : Stdin) (sq : Nat)
    (tbl : TblState) (x y : Nat) (r : List (Nat × Band) × List Nat × PageState × Nat)
    (hn : nomargins ≠ 0) (hx : x < 2 ^ 32) (hy : y < 2 ^ 32)
    (h : dopage cfg nomargins inp sq tbl x y = .ok r) :
    (page_lines r.1).length = y ∧
    ∀ l ∈ page_lines r.1, ∃ st c, compress_scanline l.fed 0 (x / 8) st = .ok c ∧
      l.record = uchar (0x80 + c.2.2.tbllen) :: (table c.2.2 ++ c.1.take c.2.1) := by
  have hps : page_skip cfg nomargins = 0 := by rw [page_skip, if_neg hn]
  constructor
  · have h' := h
    rw [dopage, hps, Nat.zero_mul, skip_top_zero] at h'
    have := bands_loop_count cfg.ecomode (x / 8) _ y hy 8 0 _ sq r h'
    rw [this]
    have hm : y &&& 7 = y % 8 := Nat.and_pow_two_sub_one_eq_mod y 3
    rw [hm]
    simp only [Nat.sub_zero]
    split <;> omega
  · intro l hl
    obtain ⟨j, hj⟩ := List.getElem?_of_mem hl
    obtain ⟨_, _, st, c, hc, hrec⟩ := dopage_alt cfg nomargins inp sq tbl x y r h j l hj
    rw [hps] at hc
    have he : (x / 8 + 2 ^ 32 - 0) % 2 ^ 32 = x / 8 := by omega
    rw [he] at hc
    exact ⟨st, c, hc, hrec⟩

theorem page_head_y_lt (nomargins skip lx ly : Nat) :
    (page_head nomargins skip lx ly).y < 2 ^ 32 :=
  Nat.mod_lt _ (by decide)

theorem page_head_sticky (nomargins skip lx ly : Nat)
    (h : (page_head nomargins skip lx ly).small = true ∨ (nomargins = 1 ∧ skip = 0)) :
    (page_head nomargins skip lx ly).nomargins = 1 ∧
      (page_head nomargins skip lx ly).skip = 0 ∧
      (page_head nomargins skip lx ly).sent_x = (page_head nomargins skip lx ly).x ∧
      (page_head nomargins skip lx ly).sent_y = (page_head nomargins skip lx ly).y := by
  have hx := page_head_x_lt nomargins skip lx ly
  have hy := page_head_y_lt nomargins skip lx ly
  have hs : (page_head nomargins skip lx ly).nomargins = 1 ∧
      (page_head nomargins skip lx ly).skip = 0 := by
    simp only [page_head] at h ⊢
    rcases h with h | ⟨h1, h2⟩
    · rw [if_pos h, if_pos h]
      exact ⟨rfl, rfl⟩
    · subst h1 h2
      constructor <;> split <;> rfl
  refine ⟨hs.1, hs.2, ?_, ?_⟩
  · have e : (page_head nomargins skip lx ly).sent_x =
        ((page_head nomargins skip lx ly).x + 2 ^ 32 - (page_head nomargins skip lx ly).skip)
          % 2 ^ 32 := rfl
    rw [e, hs.2]
    omega
  · have e : (page_head nomargins skip lx ly).sent_y =
        ((page_head nomargins skip lx ly).y + 2 ^ 32 - (page_head nomargins skip lx ly).skip)
          % 2 ^ 32 := rfl
    rw [e, hs.2]
    omega

theorem sticky_page (cfg : Config) (js : JobState) (lx ly : Nat)
    (pg : PageRec × List Nat × JobState) (hpg : dojob_page cfg js lx ly = .ok pg)
    (h : pg.1.small = true ∨ (js.nomargins = 1 ∧ js.skip = 0)) :
    Sticky cfg pg.1 ∧ pg.2.2.nomargins = 1 ∧ pg.2.2.skip = 0 := by
  obtain ⟨np, pr, hnp, hpr, rfl⟩ := dojob_page_ok cfg js lx ly pg hpg
  obtain ⟨s1, s2, s3, s4⟩ := page_head_sticky js.nomargins js.skip lx ly h
  rw [s3, s4] at hnp
  rw [s1] at hpr
  obtain ⟨d1, d2⟩ := dopage_nomargins cfg 1 js.inp np.2 js.tbl _ _ pr (by decide)
    (page_head_x_lt _ _ _ _) (page_head_y_lt _ _ _ _) hpr
  refine ⟨⟨s2, s1, ?_, s3, s4, ⟨js.sq, js.inp, np.2, js.tbl, np, pr, hnp, hpr, rfl⟩, d1, d2⟩,
    s1, s2⟩
  show page_skip cfg (page_head js.nomargins js.skip lx ly).nomargins = 0
  rw [s1, page_skip, if_neg (by decide)]

/-- Once the state has `nomargins = 1` and `skip = 0`, every page is processed so. -/
theorem dojob_loop_sticky (cfg : Config) : ∀ f js r, js.nomargins = 1 ∧ js.skip = 0 →
    dojob_loop cfg f js = .ok r → ∀ p ∈ r.1, Sticky cfg p :=
  dojob_loop_inv cfg (fun js => js.nomargins = 1 ∧ js.skip = 0) (Sticky cfg)
    (fun _ _ h _ => h)
    (fun js lx ly pg hjs hpg => sticky_page cfg js lx ly pg hpg (Or.inr hjs))

/-- From a page on which the small-page test holds, every page is processed with
`skip = 0`. -/
theorem dojob_loop_small (cfg : Config) : ∀ f js r, dojob_loop cfg f js = .ok r →
    ∀ pre p post, r.1 = pre ++ p :: post → p.small = true → ∀ q ∈ p :: post, Sticky cfg q := by
  intro f
  induction f with
  | zero =>
    intro js r h pre p post hs
    rw [dojob_loop_nil cfg js r h] at hs
    cases pre <;> cases hs
  | succ f ih =>
    intro js r h pre p post hs hsm q hq
    rcases dojob_loop_succ cfg f js r h with h0 | ⟨s, pg, r', lx, ly, _, hpg, hr', rfl⟩
    · rw [h0] at hs
      cases pre <;> cases hs
    · cases pre with
      | nil =>
        simp only [List.nil_append, List.cons.injEq] at hs
        obtain ⟨e1, e2⟩ := hs
        subst e1
        obtain ⟨t1, t2, t3⟩ := sticky_page cfg _ lx ly pg hpg (Or.inl hsm)
        simp only [List.mem_cons] at hq
        rcases hq with rfl | hq
        · exact t1
        · rw [← e2] at hq
          exact dojob_loop_sticky cfg f pg.2.2 r' ⟨t2, t3⟩ hr' q hq
      | cons a pre' =>
        simp only [List.cons_append, List.cons.injEq] at hs
        exact ih pg.2.2 r' hr' pre' p post hs.2 hsm q hq

/-- C16. Margin auto-disable is sticky: in every job that `dojob` completes, once the
small-page test holds on a page, that page and every later page of the job are processed
with `skip = 0` and `nomargins = 1`: `send_new_page` is called with the full dimensions
`x` and `y`, and `dopage` is called with `nomargins = 1`, so that its margin is 0, all
`y` scanlines of the page are compressed and each is compressed from position 0 to
position `x / 8` - whatever the sizes of the later pages. -/
theorem margins_sticky (cfg : Config) (inp : Stdin) (sq : Nat) (tbl : TblState)
    (r : List PageRec × List Nat × JobState) (pre : List PageRec) (p : PageRec)
    (post : List PageRec) (h : dojob cfg inp sq tbl = .ok r) (hs : r.1 = pre ++ p :: post)
    (hsm : p.small = true) :
    ∀ q ∈ p :: post,
      q.skip = 0 ∧ q.nomargins = 1 ∧ page_skip cfg q.nomargins = 0 ∧
      q.sent_x = q.x ∧ q.sent_y = q.y ∧
      (∃ sq1 inp1 sq2 tbl1 np pr, send_new_page cfg sq1 q.x q.y = .ok np ∧
        dopage cfg 1 inp1 sq2 tbl1 q.x q.y = .ok pr ∧ q.bands = pr.1) ∧
      (page_lines q.bands).length = q.y ∧
      ∀ l ∈ page_lines q.bands, ∃ st c, compress_scanline l.fed 0 (q.x / 8) st = .ok c ∧
        l.record = uchar (0x80 + c.2.2.tbllen) :: (table c.2.2 ++ c.1.take c.2.1) := by
  obtain ⟨s, r', t, _, hr', _, e1, _⟩ := dojob_ok cfg inp sq tbl r h
  rw [e1] at hs
  exact dojob_loop_small cfg _ _ r' hr' pre p post hs hsm

theorem margins_sticky_witness :
    ∃ r p post, dojob Config.default
        ⟨[80, 52, 10, 49, 32, 49, 10, 0, 80, 52, 10, 56, 32, 56, 10, 1, 2, 3, 4, 5, 6, 7, 8],
          false⟩ 0 TblState.uninit = .ok r ∧
      r.1 = [] ++ p :: post ∧ p.small = true ∧
      r.1.map (fun q => (q.x, q.y, q.small, q.sent_x, q.sent_y)) =
        [(8, 1, true, 8, 1), (8, 8, false, 8, 8)] ∧
      ∀ q ∈ p :: post,
        q.skip = 0 ∧ q.nomargins = 1 ∧ page_skip Config.default q.nomargins = 0 ∧
        q.sent_x = q.x ∧ q.sent_y = q.y ∧
        (∃ sq1 inp1 sq2 tbl1 np pr, send_new_page Config.default sq1 q.x q.y = .ok np ∧
          dopage Config.default 1 inp1 sq2 tbl1 q.x q.y = .ok pr ∧ q.bands = pr.1) ∧
        (page_lines q.bands).length = q.y ∧
        ∀ l ∈ page_lines q.bands, ∃ st c, compress_scanline l.fed 0 (q.x / 8) st = .ok c ∧
          l.record = uchar (0x80 + c.2.2.tbllen) :: (table c.2.2 ++ c.1.take c.2.1) := by
  have hd : (dojob Config.default
      ⟨[80, 52, 10, 49, 32, 49, 10, 0, 80, 52, 10, 56, 32, 56, 10, 1, 2, 3, 4, 5, 6, 7, 8],
        false⟩ 0 TblState.uninit).toOption.map
        (fun r => r.1.map (fun q => (q.x, q.y, q.small, q.sent_x, q.sent_y))) =
      some [(8, 1, true, 8, 1), (8, 8, false, 8, 8)] := by decide
  rcases h : dojob Config.default
      ⟨[80, 52, 10, 49, 32, 49, 10, 0, 80, 52, 10, 56, 32, 56, 10, 1, 2, 3, 4, 5, 6, 7, 8],
        false⟩ 0 TblState.uninit with e | r
  · rw [h] at hd
    cases hd
  · rw [h] at hd
    have hm : r.1.map (fun q => (q.x, q.y, q.small, q.sent_x, q.sent_y)) =
        [(8, 1, true, 8, 1), (8, 8, false, 8, 8)] := Option.some.inj hd
    rcases hr : r.1 with _ | ⟨p, post⟩
    · rw [hr] at hm
      cases hm
    · have hsm : p.small = true := by
        rw [hr] at hm
        simp only [List.map_cons, List.cons.injEq, Prod.mk.injEq] at hm
        exact hm.1.2.2.1
      exact ⟨r, p, post, rfl, hr, hsm, hm, margins_sticky Config.default _ 0 TblState.uninit r []
        p post h hr hsm⟩

/-- A page that no small page precedes is processed in the initial margin state. -/
theorem dojob_loop_enforced (cfg : Config) : ∀ f js r, dojob_loop cfg f js = .ok r →
    ∀ pre p post, r.1 = pre ++ p :: post → (∀ q ∈ pre, q.small = false) →
      ∃ js1 lx ly pg, js1.nomargins = js.nomargins ∧ js1.skip = js.skip ∧
        dojob_page cfg js1 lx ly = .ok pg ∧ pg.1 = p := by
  intro f
  induction f with
  | zero =>
    intro js r h pre p post hs
    rw [dojob_loop_nil cfg js r h] at hs
    cases pre <;> cases hs
  | succ f ih =>
    intro js r h pre p post hs hpre
    rcases dojob_loop_succ cfg f js r h with h0 | ⟨s, pg, r', lx, ly, _, hpg, hr', rfl⟩
    · rw [h0] at hs
      cases pre <;> cases hs
    · cases pre with
      | nil =>
        simp only [List.nil_append, List.cons.injEq] at hs
        exact ⟨{ inp := s, sq := js.sq, tbl := js.tbl, nomargins := js.nomargins,
                 skip := js.skip }, lx, ly, pg, rfl, rfl, hpg, hs.1⟩
      | cons a pre' =>
        simp only [List.cons_append, List.cons.injEq] at hs
        obtain ⟨js1, lx1, ly1, pg1, e1, e2, e3, e4⟩ :=
          ih pg.2.2 r' hr' pre' p post hs.2 (fun q hq => hpre q (List.mem_cons_of_mem _ hq))
        have ha : pg.1.small = false := by
          rw [hs.1]
          exact hpre a (List.mem_cons_self _ _)
        obtain ⟨np, pr, _, _, rfl⟩ := dojob_page_ok cfg _ lx ly pg hpg
        have ha' : small_page js.skip (round_x (lx % 2 ^ 32)) (ly % 2 ^ 32) = false := ha
        refine ⟨js1, lx1, ly1, pg1, ?_, ?_, e3, e4⟩
        · rw [e1]
          simp only [page_head, ha']
          rfl
        · rw [e2]
          simp only [page_head, ha']
          rfl

/-- The small-page test of `dojob` when the margins are enforced and `skip` is the
margin on both sides in pixels. -/
theorem page_head_small (skip lx ly : Nat) :
    ((page_head 0 skip lx ly).small = true ↔ (page_head 0 skip lx ly).nomargins = 1) ∧
    ((page_head 0 skip lx ly).small = false ↔ (page_head 0 skip lx ly).nomargins = 0) ∧
    ((page_head 0 skip lx ly).x ≤ 2 * skip → (page_head 0 skip lx ly).small = true) ∧
    (skip ≤ (page_head 0 skip lx ly).y →
      ((page_head 0 skip lx ly).small = true ↔
        ((page_head 0 skip lx ly).y - skip) / 8 ≤ skip ∨
          (page_head 0 skip lx ly).x ≤ 2 * skip)) := by
  have hy := page_head_y_lt 0 skip lx ly
  simp only [page_head] at hy ⊢
  refine ⟨?_, ?_, ?_, ?_⟩
  · split <;> simp_all
  · split <;> simp_all
  · intro hx
    simp only [small_page, decide_eq_true_eq]
    exact Or.inr hx
  · intro hsk
    have e : (ly % 2 ^ 32 + 2 ^ 32 - skip) % 2 ^ 32 = ly % 2 ^ 32 - skip := by omega
    simp only [small_page, decide_eq_true_eq, e]

set_option maxRecDepth 1000000 in
set_option maxHeartbeats 4000000 in
/-- C14, counterexample.  At 300 dpi (`skiptbl` gives 6) the job of one page of width
104 and height 104 is completed with the margins disabled for the page, although
neither `(104 - 8 * 6) / 8 <= 6` nor `104 <= 16 * 6` holds.  At 600 dpi (`skiptbl`
gives 13) the small-page test holds for a page of 400 by 6720 by its width alone and for
a page of 4800 by 1000 by its height alone, and the condition with `8 * skip`, `skip`
and `16 * skip` holds for neither. -/
theorem auto_disable_condition_counterexample :
    (∃ r p, dojob { Config.default with res := 0 }
        ⟨[80, 52, 10, 49, 48, 52, 32, 49, 48, 52, 10] ++ List.replicate 1352 0, false⟩ 0
        TblState.uninit = .ok r ∧
      r.1 = [p] ∧ p.x = 104 ∧ p.y = 104 ∧ p.small = true ∧ p.nomargins = 1 ∧
      skiptbl (({ Config.default with res := 0 } : Config).res &&& 0xff) = 6 ∧
      ¬ ((104 - 8 * 6) / 8 ≤ 6 ∨ 104 ≤ 16 * 6)) ∧
    (skiptbl (Config.default.res &&& 0xff) = 13 ∧
      (page_head 0 (job_skip Config.default) 400 6720).small = true ∧
      ¬ ((6720 - 16 * 13) / 8 ≤ 16 * 13) ∧
      ¬ ((6720 - 8 * 13) / 8 ≤ 13 ∨ 400 ≤ 16 * 13)) ∧
    ((page_head 0 (job_skip Config.default) 4800 1000).small = true ∧
      ¬ (4800 ≤ 32 * 13) ∧
      ¬ ((1000 - 8 * 13) / 8 ≤ 13 ∨ 4800 ≤ 16 * 13)) := by
  refine ⟨?_, by decide, by decide⟩
  have hd : (dojob { Config.default with res := 0 }
      ⟨[80, 52, 10, 49, 48, 52, 32, 49, 48, 52, 10] ++ List.replicate 1352 0, false⟩ 0
      TblState.uninit).toOption.map
        (fun r => r.1.map (fun q => (q.x, q.y, q.small, q.nomargins))) =
      some [(104, 104, true, 1)] := by decide
  rcases h : dojob { Config.default with res := 0 }
      ⟨[80, 52, 10, 49, 48, 52, 32, 49, 48, 52, 10] ++ List.replicate 1352 0, false⟩ 0
      TblState.uninit with e | r
  · rw [h] at hd
    cases hd
  · rw [h] at hd
    have hm : r.1.map (fun q => (q.x, q.y, q.small, q.nomargins)) = [(104, 104, true, 1)] :=
      Option.some.inj hd
    rcases hr : r.1 with _ | ⟨p, post⟩
    · rw [hr] at hm
      cases hm
    · rw [hr] at hm
      simp only [List.map_cons, List.cons.injEq, Prod.mk.injEq, List.map_eq_nil_iff] at hm
      obtain ⟨⟨m1, m2, m3, m4⟩, m5⟩ := hm
      subst m5
      exact ⟨r, p, rfl, hr, m1, m2, m3, m4, by decide, by decide⟩

/-- C14, amended.  Margin auto-disable condition: in every job that `dojob` completes
with the margins enforced at its start, for a page of rounded width `x` and height `y`
that no small page precedes, with `s = skiptbl[res & 0xff]`, the margins are disabled for
the page (the test holds and `nomargins` becomes 1) whenever `x <= 32 * s`, and for
`y >= 16 * s` they are disabled if and only if `(y - 16 * s) / 8 <= 16 * s` or
`x <= 32 * s`; otherwise `nomargins` stays 0. -/
theorem auto_disable_condition (cfg : Config) (inp : Stdin) (sq : Nat) (tbl : TblState)
    (r : List PageRec × List Nat × JobState) (pre : List PageRec) (p : PageRec)
    (post : List PageRec) (h : dojob cfg inp sq tbl = .ok r) (hs : r.1 = pre ++ p :: post)
    (hn : cfg.nomargins = 0) (hpre : ∀ q ∈ pre, q.small = false) :
    (p.small = true ↔ p.nomargins = 1) ∧ (p.small = false ↔ p.nomargins = 0) ∧
    (p.x ≤ 32 * skiptbl (cfg.res &&& 0xff) → p.small = true) ∧
    (16 * skiptbl (cfg.res &&& 0xff) ≤ p.y →
      (p.small = true ↔
        (p.y - 16 * skiptbl (cfg.res &&& 0xff)) / 8 ≤ 16 * skiptbl (cfg.res &&& 0xff) ∨
          p.x ≤ 32 * skiptbl (cfg.res &&& 0xff))) := by
  obtain ⟨s, r', t, _, hr', _, e1, _⟩ := dojob_ok cfg inp sq tbl r h
  rw [e1] at hs
  obtain ⟨js1, lx, ly, pg, j1, j2, hpg, rfl⟩ :=
    dojob_loop_enforced cfg _ _ r' hr' pre p post hs hpre
  obtain ⟨np, pr, _, _, rfl⟩ := dojob_page_ok cfg js1 lx ly pg hpg
  simp only at j1 j2
  rw [hn] at j1
  rw [job_skip, if_pos hn] at j2
  rw [j1, j2]
  have e32 : 32 * skiptbl (cfg.res &&& 0xff) = 2 * (16 * skiptbl (cfg.res &&& 0xff)) := by
    omega
  rw [e32]
  exact page_head_small (16 * skiptbl (cfg.res &&& 0xff)) lx ly

theorem auto_disable_condition_witness :
    ∃ r p post, dojob Config.default ⟨[80, 52, 10, 49, 32, 49, 10, 0], false⟩ 0
        TblState.uninit = .ok r ∧
      r.1 = [] ++ p :: post ∧ Config.default.nomargins = 0 ∧
      r.1.map (fun q => (q.x, q.y, q.small, q.nomargins)) = [(8, 1, true, 1)] ∧
      ((p.small = true ↔ p.nomargins = 1) ∧ (p.small = false ↔ p.nomargins = 0) ∧
      (p.x ≤ 32 * skiptbl (Config.default.res &&& 0xff) → p.small = true) ∧
      (16 * skiptbl (Config.default.res &&& 0xff) ≤ p.y →
        (p.small = true ↔
          (p.y - 16 * skiptbl (Config.default.res &&& 0xff)) / 8
              ≤ 16 * skiptbl (Config.default.res &&& 0xff) ∨
            p.x ≤ 32 * skiptbl (Config.default.res &&& 0xff)))) := by
  have hd : (dojob Config.default ⟨[80, 52, 10, 49, 32, 49, 10, 0], false⟩ 0
      TblState.uninit).toOption.map
        (fun r => r.1.map (fun q => (q.x, q.y, q.small, q.nomargins))) =
      some [(8, 1, true, 1)] := by decide
  rcases h : dojob Config.default ⟨[80, 52, 10, 49, 32, 49, 10, 0], false⟩ 0
      TblState.uninit with e | r
  · rw [h] at hd
    cases hd
  · rw [h] at hd
    have hm : r.1.map (fun q => (q.x, q.y, q.small, q.nomargins)) = [(8, 1, true, 1)] :=
      Option.some.inj hd
    rcases hr : r.1 with _ | ⟨p, post⟩
    · rw [hr] at hm
      cases hm
    · exact ⟨r, p, post, rfl, hr, rfl, hr ▸ hm, auto_disable_condition Config.default _ 0
        TblState.uninit r [] p post h hr rfl (fun q hq => (by cases hq))⟩

/-- C15, counterexample.  At 300 dpi (`skiptbl` gives 6) a page of 200 by 872 keeps its
margins, and `dojob` passes the dimensions 104 by 776 to `send_new_page`, not
`200 - 8 * 6 = 152` by `872 - 8 * 6 = 824`; the payloads for the two differ. -/
theorem new_page_dimensions_counterexample :
    skiptbl (({ Config.default with res := 0 } : Config).res &&& 0xff) = 6 ∧
    (page_head 0 (job_skip { Config.default with res := 0 }) 200 872).small = false ∧
    (page_head 0 (job_skip { Config.default with res := 0 }) 200 872).nomargins = 0 ∧
    (page_head 0 (job_skip { Config.default with res := 0 }) 200 872).x = 200 ∧
    (page_head 0 (job_skip { Config.default with res := 0 }) 200 872).y = 872 ∧
    (page_head 0 (job_skip { Config.default with res := 0 }) 200 872).sent_x = 104 ∧
    (page_head 0 (job_skip { Config.default with res := 0 }) 200 872).sent_y = 776 ∧
    200 - 8 * 6 = 152 ∧ 872 - 8 * 6 = 824 ∧
    new_page_buf { Config.default with res := 0 } 104 776 ≠
      new_page_buf { Config.default with res := 0 } 152 824 := by
  decide

/-- The margin state of `dojob` before a page, and what it gives for the page. -/
theorem page_head_dims (s nomargins skip lx ly : Nat)
    (h : (nomargins = 0 ∧ skip = 16 * s) ∨ (nomargins ≠ 0 ∧ skip = 0)) :
    (((page_head nomargins skip lx ly).nomargins = 0 ∧
        (page_head nomargins skip lx ly).skip = 16 * s) ∨
      ((page_head nomargins skip lx ly).nomargins ≠ 0 ∧
        (page_head nomargins skip lx ly).skip = 0)) ∧
    ((page_head nomargins skip lx ly).nomargins = 0 →
      16 * s ≤ (page_head nomargins skip lx ly).y →
      (page_head nomargins skip lx ly).sent_x = (page_head nomargins skip lx ly).x - 16 * s ∧
      (page_head nomargins skip lx ly).sent_y = (page_head nomargins skip lx ly).y - 16 * s ∧
      32 * s < (page_head nomargins skip lx ly).x) ∧
    ((page_head nomargins skip lx ly).nomargins ≠ 0 →
      (page_head nomargins skip lx ly).sent_x = (page_head nomargins skip lx ly).x ∧
      (page_head nomargins skip lx ly).sent_y = (page_head nomargins skip lx ly).y) := by
  have hx := page_head_x_lt nomargins skip lx ly
  have hy := page_head_y_lt nomargins skip lx ly
  simp only [page_head] at hx hy ⊢
  by_cases hsm : small_page skip (round_x (lx % 2 ^ 32)) (ly % 2 ^ 32) = true
  · simp only [hsm, if_true]
    exact ⟨Or.inr ⟨by decide, trivial⟩, fun h0 => absurd h0 (by decide),
      fun _ => ⟨by omega, by omega⟩⟩
  · have hsm' := hsm
    simp only [small_page, decide_eq_true_eq, not_or, not_le] at hsm'
    simp only [if_neg hsm]
    rcases h with ⟨h1, h2⟩ | ⟨h1, h2⟩
    · subst h1 h2
      exact ⟨Or.inl ⟨rfl, rfl⟩, fun _ _ => ⟨by omega, by omega, by omega⟩,
        fun h0 => absurd rfl h0⟩
    · subst h2
      exact ⟨Or.inr ⟨h1, rfl⟩, fun h0 => absurd h0 h1, fun _ => ⟨by omega, by omega⟩⟩

/-! ## Scenario: the job of one page of one pixel -/

/-- The scanline loop tests `ecomode` against 0 only. -/
theorem band_loop_ecomode (e1 e2 skip sclbytes y : Nat) (he : e1 = 0 ↔ e2 = 0) :
    ∀ k st, band_loop e1 skip sclbytes y k st = band_loop e2 skip sclbytes y k st := by
  have h1 : (e1 ≠ 0) = (e2 ≠ 0) := propext (not_congr he)
  intro k
  induction k with
  | zero => intro st; rw [band_loop, band_loop]
  | succ k ih =>
    intro st
    rw [band_loop, band_loop]
    simp only [h1, ih]

theorem bands_loop_ecomode (e1 e2 skip sclbytes sclperbl y : Nat) (he : e1 = 0 ↔ e2 = 0) :
    ∀ n i st sq, bands_loop e1 skip sclbytes sclperbl y n i st sq =
      bands_loop e2 skip sclbytes sclperbl y n i st sq := by
  intro n
  induction n with
  | zero => intro i st sq; rw [bands_loop, bands_loop]
  | succ n ih =>
    intro i st sq
    rw [bands_loop, bands_loop]
    simp only [band_loop_ecomode e1 e2 skip sclbytes y he, ih]

/-- With the margins off `dopage` depends on the options through `ecomode != 0` only. -/
theorem dopage_ecomode (cfg : Config) (inp : Stdin) (sq : Nat) (tbl : TblState) (x y : Nat) :
    dopage cfg 1 inp sq tbl x y =
      dopage { Config.default with ecomode := if cfg.ecomode = 0 then 0 else 1 } 1 inp sq tbl
        x y := by
  have he : cfg.ecomode = 0 ↔ (if cfg.ecomode = 0 then 0 else 1) = 0 := by
    split <;> simp_all
  have h10 : ¬ (1 = 0) := by decide
  simp only [dopage, page_skip, if_neg h10, bands_loop_ecomode _ _ _ _ _ _ he]

theorem send_start_job_eq (cfg : Config) (sq : Nat) :
    send_start_job cfg sq =
      .ok (frame sq 0x40 [cfg.model % 256, 0] ++ frame ((sq + 1) % 256) 0x50 (start_job_buf cfg),
        ((sq + 1) % 256 + 1) % 256) := by
  have e1 := do_cmd_eq sq 0x40 [cfg.model % 256, 0] (by omega) (by simp)
  have e2 := do_cmd_eq ((sq + 1) % 256) 0x50 (start_job_buf cfg) (by omega)
    (by simp [start_job_buf])
  have hl1 : [cfg.model % 256, 0].length = 2 := rfl
  have hl2 : (start_job_buf cfg).length = 8 := rfl
  rw [hl1] at e1
  rw [hl2] at e2
  rw [send_start_job, do_start, e1]
  simp only
  rw [e2]
  simp only [frame, hl1, hl2]

theorem send_new_page_eq (cfg : Config) (sq x y : Nat) :
    send_new_page cfg sq x y =
      .ok (frame sq 0x51 (new_page_buf cfg x y), (sq + 1) % 256) := by
  have e1 := do_cmd_eq sq 0x51 (new_page_buf cfg x y) (by omega) (by simp [new_page_buf])
  have hl1 : (new_page_buf cfg x y).length = 22 := rfl
  rw [hl1] at e1
  rw [send_new_page, e1]
  simp only [frame, hl1]

theorem send_end_job_eq (sq : Nat) :
    send_end_job sq =
      .ok (frame sq 0x55 [0] ++ frame ((sq + 1) % 256) 0x41 [0], ((sq + 1) % 256 + 1) % 256) := by
  have e1 := do_cmd_eq sq 0x55 [0] (by omega) (by simp)
  have e2 := do_cmd_eq ((sq + 1) % 256) 0x41 [0] (by omega) (by simp)
  have hl1 : [0].length = 1 := rfl
  rw [hl1] at e1 e2
  rw [send_end_job, e1]
  simp only
  rw [e2]
  simp only [frame, hl1]


/-- The page of scenario S1 in `dopage`: eight blocks, the first with one scanline. -/
theorem dopage_s1 (cfg : Config) :
    ∃ pr, dopage cfg 1 ⟨[0], false⟩ 3 TblState.uninit 8 1 = .ok pr ∧
      pr.2.1 = frame 3 0x52 [3, 0, 0, 0, 1, 0] ++ [0x80, 0, 0] ++
        frame 4 0x52 [0, 0, 0, 0, 0, 0] ++ frame 5 0x52 [0, 0, 0, 0, 0, 0] ++
        frame 6 0x52 [0, 0, 0, 0, 0, 0] ++ frame 7 0x52 [0, 0, 0, 0, 0, 0] ++
        frame 8 0x52 [0, 0, 0, 0, 0, 0] ++ frame 9 0x52 [0, 0, 0, 0, 0, 0] ++
        frame 10 0x52 [0, 0, 0, 0, 0, 0] ∧
      pr.2.2.2 = 11 ∧ pr.2.2.1.inp.rest = [] ∧ pr.2.2.1.inp.eof = false := by
  have key : ∀ e : Nat, e = 0 ∨ e = 1 →
      (dopage { Config.default with ecomode := e } 1 ⟨[0], false⟩ 3 TblState.uninit 8
        1).toOption.map (fun pr => (pr.2.1, pr.2.2.2, pr.2.2.1.inp.rest, pr.2.2.1.inp.eof)) =
      some (frame 3 0x52 [3, 0, 0, 0, 1, 0] ++ [0x80, 0, 0] ++
        frame 4 0x52 [0, 0, 0, 0, 0, 0] ++ frame 5 0x52 [0, 0, 0, 0, 0, 0] ++
        frame 6 0x52 [0, 0, 0, 0, 0, 0] ++ frame 7 0x52 [0, 0, 0, 0, 0, 0] ++
        frame 8 0x52 [0, 0, 0, 0, 0, 0] ++ frame 9 0x52 [0, 0, 0, 0, 0, 0] ++
        frame 10 0x52 [0, 0, 0, 0, 0, 0], 11, [], false) := by
    intro e he
    rcases he with rfl | rfl <;> decide
  rw [dopage_ecomode]
  have hk := key (if cfg.ecomode = 0 then 0 else 1) (by split <;> simp)
  rcases h : dopage { Config.default with ecomode := if cfg.ecomode = 0 then 0 else 1 } 1
      ⟨[0], false⟩ 3 TblState.uninit 8 1 with e | pr
  · rw [h] at hk
    cases hk
  · rw [h] at hk
    have hm : (pr.2.1, pr.2.2.2, pr.2.2.1.inp.rest, pr.2.2.1.inp.eof) = _ := Option.some.inj hk
    simp only [Prod.mk.injEq] at hm
    exact ⟨pr, rfl, hm.1, hm.2.1, hm.2.2.1, hm.2.2.2⟩

theorem skiptbl_ge (i : Nat) (h : i < 3) : 6 ≤ skiptbl i := by
  unfold skiptbl
  match i, h with
  | 0, _ => decide
  | 1, _ => decide
  | 2, _ => decide

/-- A page for which `send_new_page` and `dopage` return. -/
theorem dojob_page_eq (cfg : Config) (js : JobState) (lx ly : Nat) (h : PageRec)
    (np : List Nat × Nat) (pr : List (Nat × Band) × List Nat × PageState × Nat)
    (hh : page_head js.nomargins js.skip lx ly = h)
    (h1 : send_new_page cfg js.sq h.sent_x h.sent_y = .ok np)
    (h2 : dopage cfg h.nomargins js.inp np.2 js.tbl h.x h.y = .ok pr) :
    dojob_page cfg js lx ly =
      .ok ({ h with bands := pr.1 }, np.1 ++ pr.2.1,
        { inp := pr.2.2.1.inp, sq := pr.2.2.2, tbl := pr.2.2.1.tbl, nomargins := h.nomargins,
          skip := h.skip }) := by
  subst hh
  rw [dojob_page]
  simp only [h1, h2]

theorem page_head_s1 (cfg : Config) (hres : cfg.res &&& 0xff < 3) :
    page_head 0 (16 * skiptbl (cfg.res &&& 0xff)) 1 1 =
      { x := 8, y := 1, small := true, nomargins := 1, skip := 0, sent_x := 8, sent_y := 1,
        bands := [] } := by
  have hs := skiptbl_ge _ hres
  have hsm : small_page (16 * skiptbl (cfg.res &&& 0xff)) 8 1 = true := by
    simp only [small_page, decide_eq_true_eq]
    exact Or.inr (by omega)
  have hr : round_x 1 = 8 := by decide
  simp only [page_head, show 1 % 2 ^ 32 = 1 from rfl, hr, hsm, if_true]
  rfl

/-- The page of scenario S1 in `dojob`, started with the margins enforced. -/
theorem dojob_page_s1 (cfg : Config) (hres : cfg.res &&& 0xff < 3) :
    ∃ pg, dojob_page cfg { inp := ⟨[0], false⟩, sq := 2, tbl := TblState.uninit,
                           nomargins := 0, skip := 16 * skiptbl (cfg.res &&& 0xff) } 1 1
        = .ok pg ∧
      pg.2.1 = frame 2 0x51 (new_page_buf cfg 8 1) ++
        (frame 3 0x52 [3, 0, 0, 0, 1, 0] ++ [0x80, 0, 0] ++
        frame 4 0x52 [0, 0, 0, 0, 0, 0] ++ frame 5 0x52 [0, 0, 0, 0, 0, 0] ++
        frame 6 0x52 [0, 0, 0, 0, 0, 0] ++ frame 7 0x52 [0, 0, 0, 0, 0, 0] ++
        frame 8 0x52 [0, 0, 0, 0, 0, 0] ++ frame 9 0x52 [0, 0, 0, 0, 0, 0] ++
        frame 10 0x52 [0, 0, 0, 0, 0, 0]) ∧
      pg.2.2.sq = 11 ∧ pg.2.2.inp.rest = [] ∧ pg.2.2.inp.eof = false ∧
      pg.1.x = 8 ∧ pg.1.y = 1 ∧ pg.1.small = true ∧ pg.1.sent_x = 8 ∧ pg.1.sent_y = 1 := by
  obtain ⟨pr, hpr, p1, p2, p3, p4⟩ := dopage_s1 cfg
  have e := dojob_page_eq cfg
    { inp := ⟨[0], false⟩, sq := 2, tbl := TblState.uninit, nomargins := 0,
      skip := 16 * skiptbl (cfg.res &&& 0xff) } 1 1
    { x := 8, y := 1, small := true, nomargins := 1, skip := 0, sent_x := 8, sent_y := 1,
      bands := [] } (frame 2 0x51 (new_page_buf cfg 8 1), 3) pr (page_head_s1 cfg hres)
    (send_new_page_eq cfg 2 8 1) hpr
  refine ⟨_, e, ?_, p2, p3, p4, rfl, rfl, rfl, rfl, rfl⟩
  show frame 2 0x51 (new_page_buf cfg 8 1) ++ pr.2.1 = _
  rw [p1]

/-- At the end of the input the page loop stops. -/
theorem dojob_loop_end (cfg : Config) (f : Nat) (js : JobState) (h1 : js.inp.rest = [])
    (h2 : js.inp.eof = false) :
    ∃ r, dojob_loop cfg (f + 1) js = .ok r ∧ r.1 = [] ∧ r.2.1 = [] ∧ r.2.2.sq = js.sq := by
  have hg : (getline js.inp).1 = none := by
    simp [getline, h1, h2, split_line]
  rw [dojob_loop]
  simp only [h2, Bool.false_eq_true, if_false]
  rw [hg]
  exact ⟨_, rfl, rfl, rfl, rfl⟩

/-- Scenario S1 in the page loop of `dojob`. -/
theorem dojob_loop_s1 (cfg : Config) (hres : cfg.res &&& 0xff < 3) :
    ∃ r, dojob_loop cfg 9 { inp := ⟨[80, 52, 10, 49, 32, 49, 10, 0], false⟩, sq := 2,
                            tbl := TblState.uninit, nomargins := 0,
                            skip := 16 * skiptbl (cfg.res &&& 0xff) } = .ok r ∧
      r.2.1 = frame 2 0x51 (new_page_buf cfg 8 1) ++
        (frame 3 0x52 [3, 0, 0, 0, 1, 0] ++ [0x80, 0, 0] ++
        frame 4 0x52 [0, 0, 0, 0, 0, 0] ++ frame 5 0x52 [0, 0, 0, 0, 0, 0] ++
        frame 6 0x52 [0, 0, 0, 0, 0, 0] ++ frame 7 0x52 [0, 0, 0, 0, 0, 0] ++
        frame 8 0x52 [0, 0, 0, 0, 0, 0] ++ frame 9 0x52 [0, 0, 0, 0, 0, 0] ++
        frame 10 0x52 [0, 0, 0, 0, 0, 0]) ∧
      r.2.2.sq = 11 ∧
      r.1.map (fun p => (p.x, p.y, p.small, p.sent_x, p.sent_y)) = [(8, 1, true, 8, 1)] := by
  obtain ⟨pg, hpg, g1, g2, g3, g4, g5, g6, g7, g8, g9⟩ := dojob_page_s1 cfg hres
  obtain ⟨r', hr', k1, k2, k3⟩ := dojob_loop_end cfg 7 pg.2.2 g3 g4
  have hg : getline ⟨[80, 52, 10, 49, 32, 49, 10, 0], false⟩ =
      (some [80, 52, 10], ⟨[49, 32, 49, 10, 0], false⟩) := by rfl
  have hh : header_line (Nat.succ [49, 32, 49, 10, 0].length) ⟨[49, 32, 49, 10, 0], false⟩ =
      .ok ([49, 32, 49, 10], ⟨[0], false⟩) := by rfl
  have hsc : sscanf_lu_lu [49, 32, 49, 10] = some (1, 1) := by rfl
  have hc : ¬ (rd [80, 52, 10] 0 ≠ 80 ∨ rd [80, 52, 10] 1 ≠ 52) := by decide
  refine ⟨(pg.1 :: r'.1, pg.2.1 ++ r'.2.1, r'.2.2), ?_, ?_, ?_, ?_⟩
  · rw [dojob_loop]
    simp only [Bool.false_eq_true, if_false, hg, if_neg hc, hh, hsc, hpg, hr']
  · simp only
    rw [k2, List.append_nil, g1]
  · simp only
    rw [k3, g2]
  · simp only
    rw [k1]
    simp only [List.map_cons, List.map_nil, g5, g6, g7, g8, g9]

/-- C13, counterexample.  With the default options the output of `dojob` for the job
`P4\n1 1\n\x00` begins with a complete frame of command 0x40, not with a 0x50 frame. -/
theorem scenario_s1_counterexample :
    ∃ r, dojob Config.default ⟨[80, 52, 10, 49, 32, 49, 10, 0], false⟩ 0 TblState.uninit
        = .ok r ∧
      r.2.1.take 9 = frame 0 0x40 [0x81, 0] ∧ r.2.1.getD 1 0 = 0x40 ∧ r.2.1.getD 1 0 ≠ 0x50 := by
  have hd : (dojob Config.default ⟨[80, 52, 10, 49, 32, 49, 10, 0], false⟩ 0
      TblState.uninit).toOption.map (fun r => (r.2.1.take 9, r.2.1.getD 1 0)) =
      some (frame 0 0x40 [0x81, 0], 0x40) := by decide
  rcases h : dojob Config.default ⟨[80, 52, 10, 49, 32, 49, 10, 0], false⟩ 0
      TblState.uninit with e | r
  · rw [h] at hd
    cases hd
  · rw [h] at hd
    have hm : (r.2.1.take 9, r.2.1.getD 1 0) = (frame 0 0x40 [0x81, 0], 0x40) :=
      Option.some.inj hd
    simp only [Prod.mk.injEq] at hm
    exact ⟨r, rfl, hm.1, hm.2, by rw [hm.2]; decide⟩

/-- C13, amended.  Scenario S1: for the job `P4\n1 1\n\x00`, with the margins enforced
at the start and a resolution whose low byte is 0, 1 or 2 (as for all supported
resolutions), `dojob` returns and its complete output is, in order, exactly: one 0x40
frame, one 0x50 frame, one 0x51 frame whose payload encodes `x = 8` and `y = 1`, eight
0x52 frames each followed by its block data (the first block holds one scanline and the
data `80 00 00`, the others are empty), one 0x55 frame and one 0x41 frame, with the
sequence numbers 0 to 12. -/
theorem scenario_s1 (cfg : Config) (hn : cfg.nomargins = 0) (hres : cfg.res &&& 0xff < 3) :
    ∃ r, dojob cfg ⟨[80, 52, 10, 49, 32, 49, 10, 0], false⟩ 0 TblState.uninit = .ok r ∧
      r.2.1 = frame 0 0x40 [cfg.model % 256, 0] ++ frame 1 0x50 (start_job_buf cfg) ++
        frame 2 0x51 (new_page_buf cfg 8 1) ++
        frame 3 0x52 [3, 0, 0, 0, 1, 0] ++ [0x80, 0, 0] ++
        frame 4 0x52 [0, 0, 0, 0, 0, 0] ++ frame 5 0x52 [0, 0, 0, 0, 0, 0] ++
        frame 6 0x52 [0, 0, 0, 0, 0, 0] ++ frame 7 0x52 [0, 0, 0, 0, 0, 0] ++
        frame 8 0x52 [0, 0, 0, 0, 0, 0] ++ frame 9 0x52 [0, 0, 0, 0, 0, 0] ++
        frame 10 0x52 [0, 0, 0, 0, 0, 0] ++
        frame 11 0x55 [0] ++ frame 12 0x41 [0] ∧
      (new_page_buf cfg 8 1).take 10 = [0, 1, 0, 0, 8, 0, 0, 0, 1, 0] ∧
      r.1.map (fun p => (p.x, p.y, p.small, p.sent_x, p.sent_y)) = [(8, 1, true, 8, 1)] := by
  obtain ⟨r', hr', k1, k2, k3⟩ := dojob_loop_s1 cfg hres
  have hj : job_skip cfg = 16 * skiptbl (cfg.res &&& 0xff) := by rw [job_skip, if_pos hn]
  have e : dojob cfg ⟨[80, 52, 10, 49, 32, 49, 10, 0], false⟩ 0 TblState.uninit =
      .ok (r'.1, (frame 0 0x40 [cfg.model % 256, 0] ++ frame 1 0x50 (start_job_buf cfg)) ++
        r'.2.1 ++ (frame 11 0x55 [0] ++ frame 12 0x41 [0]), { r'.2.2 with sq := 13 }) := by
    rw [dojob, send_start_job_eq]
    simp only [hn, hj]
    have hr'' : dojob_loop cfg (Nat.succ [80, 52, 10, 49, 32, 49, 10, 0].length)
        { inp := ⟨[80, 52, 10, 49, 32, 49, 10, 0], false⟩, sq := ((0 + 1) % 256 + 1) % 256,
          tbl := TblState.uninit, nomargins := 0,
          skip := 16 * skiptbl (cfg.res &&& 0xff) } = .ok r' := hr'
    rw [hr'']
    simp only [k2, send_end_job_eq]
  refine ⟨_, e, ?_, ?_, k3⟩
  · simp only [k1, List.append_assoc]
  · rfl

theorem scenario_s1_witness :
    Config.default.nomargins = 0 ∧ Config.default.res &&& 0xff < 3 ∧
    ∃ r, dojob Config.default ⟨[80, 52, 10, 49, 32, 49, 10, 0], false⟩ 0 TblState.uninit
        = .ok r ∧
      r.2.1 = frame 0 0x40 [Config.default.model % 256, 0] ++
        frame 1 0x50 (start_job_buf Config.default) ++
        frame 2 0x51 (new_page_buf Config.default 8 1) ++
        frame 3 0x52 [3, 0, 0, 0, 1, 0] ++ [0x80, 0, 0] ++
        frame 4 0x52 [0, 0, 0, 0, 0, 0] ++ frame 5 0x52 [0, 0, 0, 0, 0, 0] ++
        frame 6 0x52 [0, 0, 0, 0, 0, 0] ++ frame 7 0x52 [0, 0, 0, 0, 0, 0] ++
        frame 8 0x52 [0, 0, 0, 0, 0, 0] ++ frame 9 0x52 [0, 0, 0, 0, 0, 0] ++
        frame 10 0x52 [0, 0, 0, 0, 0, 0] ++
        frame 11 0x55 [0] ++ frame 12 0x41 [0] ∧
      (new_page_buf Config.default 8 1).take 10 = [0, 1, 0, 0, 8, 0, 0, 0, 1, 0] ∧
      r.1.map (fun p => (p.x, p.y, p.small, p.sent_x, p.sent_y)) = [(8, 1, true, 8, 1)] :=
  ⟨by decide, by decide, scenario_s1 Config.default (by decide) (by decide)⟩

/-! ## Pages and jobs: the loop bounds of the model suffice -/

theorem compress_scanline_safe (buf : List Nat) (p e : Nat) (st : TblState)
    (hb : ∀ b ∈ buf, b < 256) (hst : TblInv st ∨ st.tbllen = -1) :
    NoFuel (compress_scanline buf p e st) (fun c => TblInv c.2.2) := by
  rcases compress_loop_inv buf e (rd_lt buf hb) (e - p) p (clear_tables st)
    (clear_tables_inv st hst) (le_refl _) with h | ⟨r, h, hinv⟩
  · rw [compress_scanline, h]
    simp [NoFuel]
  · rw [compress_scanline, h]
    exact hinv.2.1

theorem fread_length (n : Nat) (s : Stdin) : (fread n s).2.rest.length ≤ s.rest.length := by
  unfold fread
  split
  · simp
  · simp

theorem band_loop_safe (ecomode skip sclbytes y L : Nat) : ∀ k st, PageInv L st →
    NoFuel (band_loop ecomode skip sclbytes y k st) (fun r => PageInv L r.2) := by
  intro k
  induction k with
  | zero =>
    intro st hst
    rw [band_loop_zero]
    exact hst
  | succ k ih =>
    intro st hst
    obtain ⟨hraw, hrest⟩ := fread_rest sclbytes st.inp hst.1
    have hlen := fread_length sclbytes st.inp
    have hL := hst.2.2
    rw [band_loop]
    split
    · split
      · simp [NoFuel]
      · split
        · have := ih { inp := (fread sclbytes st.inp).2, yc := st.yc + 1, ecofl := st.ecofl,
                       tbl := st.tbl } ⟨hrest, hst.2.1, by simp only; omega⟩
          split
          · rename_i x hx
            rw [hx] at this
            exact this
          · rename_i r hr
            rw [hr] at this
            exact this
        · have hfed : ∀ b ∈ (if ecomode ≠ 0 ∧ st.ecofl ≠ 0 then List.replicate sclbytes 0
              else (fread sclbytes st.inp).1), b < 256 := by
            intro b hb
            split at hb
            · rw [List.eq_of_mem_replicate hb]; decide
            · exact hraw b hb
          have hc := compress_scanline_safe _ skip ((sclbytes + 2 ^ 32 - skip) % 2 ^ 32) st.tbl
            hfed hst.2.1
          simp only
          split
          · rename_i x hx
            rw [hx] at hc
            exact hc
          · rename_i c hcc
            rw [hcc] at hc
            have := ih { inp := (fread sclbytes st.inp).2, yc := st.yc + 1,
                         ecofl := if ecomode ≠ 0 then -1 - st.ecofl else st.ecofl,
                         tbl := c.2.2 } ⟨hrest, Or.inl hc, by simp only; omega⟩
            split
            · rename_i x hx
              rw [hx] at this
              exact this
            · rename_i r hr
              rw [hr] at this
              exact this
    · exact hst


theorem do_cmd_safe (sq cmd len : Nat) (data : List Nat) :
    NoFuel (do_cmd sq cmd len data) (fun _ => True) := by
  rw [do_cmd]
  split
  · simp [NoFuel]
  · trivial

theorem send_raster_data_safe (sq nlines len : Nat) (data : List Nat) :
    NoFuel (send_raster_data sq nlines len data) (fun _ => True) := by
  rw [send_raster_data]
  split
  · simp [NoFuel]
  · have := do_cmd_safe sq 0x52 6 [len &&& 0xff, (len >>> 8) &&& 0xff, (len >>> 16) &&& 0xff,
      (len >>> 24) % 256, nlines &&& 0xff, (nlines >>> 8) &&& 0xff]
    split
    · rename_i x hx
      rw [hx] at this
      exact this
    · trivial

theorem bands_loop_safe (ecomode skip sclbytes sclperbl y L : Nat) : ∀ n i st sq,
    PageInv L st →
    NoFuel (bands_loop ecomode skip sclbytes sclperbl y n i st sq)
      (fun r => PageInv L r.2.2.1) := by
  intro n
  induction n with
  | zero =>
    intro i st sq hst
    rw [bands_loop]
    exact hst
  | succ n ih =>
    intro i st sq hst
    have hb := band_loop_safe ecomode skip sclbytes y L sclperbl st hst
    rw [bands_loop]
    split
    · rename_i x hx
      rw [hx] at hb
      exact hb
    · rename_i b hbb
      rw [hbb] at hb
      simp only
      have ho := send_raster_data_safe sq
        (if i = 7 then (b.1.yy + 2 ^ 32 - 8 * skip) % 2 ^ 32 else b.1.yy) b.1.bllen b.1.blbuf
      split
      · rename_i x hx
        rw [hx] at ho
        exact ho
      · rename_i o _
        have := ih (i + 1) b.2 o.2 hb
        split
        · rename_i x hx
          rw [hx] at this
          exact this
        · rename_i r hr
          rw [hr] at this
          exact this

theorem skip_top_safe (sclbytes L : Nat) : ∀ n s, (∀ b ∈ s.rest, b < 256) → s.rest.length ≤ L →
    NoFuel (skip_top sclbytes n s) (fun s' => (∀ b ∈ s'.rest, b < 256) ∧ s'.rest.length ≤ L) := by
  intro n
  induction n with
  | zero =>
    intro s hs hl
    rw [skip_top]
    exact ⟨hs, hl⟩
  | succ n ih =>
    intro s hs hl
    rw [skip_top]
    split
    · simp [NoFuel]
    · exact ih _ (fread_rest sclbytes s hs).2 (le_trans (fread_length sclbytes s) hl)

theorem dopage_safe (cfg : Config) (nomargins : Nat) (inp : Stdin) (sq : Nat) (tbl : TblState)
    (x y L : Nat) (hi : ∀ b ∈ inp.rest, b < 256) (ht : TblInv tbl ∨ tbl.tbllen = -1)
    (hl : inp.rest.length ≤ L) :
    NoFuel (dopage cfg nomargins inp sq tbl x y) (fun r => PageInv L r.2.2.1) := by
  have h1 := skip_top_safe (x / 8) L (page_skip cfg nomargins * 8) inp hi hl
  rw [dopage]
  split
  · rename_i e he
    rw [he] at h1
    exact h1
  · rename_i inp1 he
    rw [he] at h1
    exact bands_loop_safe cfg.ecomode _ _ _ y L 8 0 _ sq ⟨h1.1, ht, h1.2⟩

theorem dojob_page_safe (cfg : Config) (js : JobState) (lx ly L : Nat) (hjs : JobInv L js) :
    NoFuel (dojob_page cfg js lx ly) (fun pg => JobInv L pg.2.2) := by
  rw [dojob_page]
  have h1 := do_cmd_safe js.sq 0x51 22 (new_page_buf cfg
    (page_head js.nomargins js.skip lx ly).sent_x (page_head js.nomargins js.skip lx ly).sent_y)
  split
  · rename_i e he
    rw [send_new_page] at he
    rw [he] at h1
    exact h1
  · rename_i np _
    have h2 := dopage_safe cfg (page_head js.nomargins js.skip lx ly).nomargins js.inp np.2
      js.tbl (page_head js.nomargins js.skip lx ly).x (page_head js.nomargins js.skip lx ly).y
      L hjs.1 hjs.2.1 hjs.2.2
    split
    · rename_i e he
      rw [he] at h2
      exact h2
    · rename_i pr hpr
      rw [hpr] at h2
      exact h2


theorem noFuel_weaken {α : Type} (m : Except Fault α) (P Q : α → Prop) (h : NoFuel m P)
    (hPQ : ∀ r, P r → Q r) : NoFuel m Q := by
  cases m with
  | error x => exact h
  | ok r => exact hPQ r h

theorem split_line_found : ∀ l : List Nat, (split_line l).2.2 = true →
    (split_line l).2.1.length < l.length := by
  intro l
  induction l with
  | nil => intro h; rw [split_line] at h; cases h
  | cons c r ih =>
    intro h
    rw [split_line] at h ⊢
    split
    · simp
    · rename_i hc
      rw [if_neg hc] at h
      have := ih h
      simp only [List.length_cons]
      omega

theorem getline_some_lt (s : Stdin) (line : List Nat) (h : (getline s).1 = some line) :
    (getline s).2.rest.length < s.rest.length := by
  unfold getline at h ⊢
  split
  · rename_i h1
    rw [if_pos h1] at h
    cases h
  · rename_i h1
    rw [if_neg h1] at h
    split
    · rename_i h2
      exact split_line_found _ h2
    · rename_i h2
      rw [if_neg h2] at h
      split
      · rename_i h3
        rw [if_pos h3] at h
        cases h
      · rename_i h3
        simp only [List.length_nil]
        exact List.length_pos.mpr h3

theorem header_line_safe : ∀ (f : Nat) (s : Stdin), s.rest.length < f →
    NoFuel (header_line f s)
      (fun h => (∀ b ∈ h.2.rest, b ∈ s.rest) ∧ h.2.rest.length < s.rest.length) := by
  intro f
  induction f with
  | zero => intro s h; omega
  | succ f ih =>
    intro s hs
    rw [header_line]
    split
    · simp [NoFuel]
    · rename_i line hline
      have hlt := getline_some_lt s line hline
      split
      · refine noFuel_weaken _ _ _ (ih (getline s).2 (by omega)) ?_
        intro r hr
        exact ⟨fun b hb => getline_rest s b (hr.1 b hb), by omega⟩
      · exact ⟨fun b hb => getline_rest s b hb, hlt⟩

theorem dojob_loop_safe (cfg : Config) : ∀ (f : Nat) (js : JobState),
    (∀ b ∈ js.inp.rest, b < 256) → (TblInv js.tbl ∨ js.tbl.tbllen = -1) →
    js.inp.rest.length < f → NoFuel (dojob_loop cfg f js) (fun _ => True) := by
  intro f
  induction f with
  | zero => intro js _ _ h; omega
  | succ f ih =>
    intro js hb ht hf
    rw [dojob_loop]
    split
    · trivial
    · split
      · trivial
      · rename_i line hline
        have hlt := getline_some_lt js.inp line hline
        split
        · simp [NoFuel]
        · have hh := header_line_safe (getline js.inp).2.rest.length.succ (getline js.inp).2
            (Nat.lt_succ_self _)
          split
          · rename_i e he
            rw [he] at hh
            exact hh
          · rename_i h hhe
            rw [hhe] at hh
            split
            · simp [NoFuel]
            · rename_i d _
              have hp := dojob_page_safe cfg
                { inp := h.2, sq := js.sq, tbl := js.tbl, nomargins := js.nomargins,
                  skip := js.skip } d.1 d.2 h.2.rest.length
                ⟨fun b hbb => hb b (getline_rest js.inp b (hh.1 b hbb)), ht, le_refl _⟩
              split
              · rename_i e he
                rw [he] at hp
                exact hp
              · rename_i pg hpg
                rw [hpg] at hp
                have hr := ih pg.2.2 hp.1 hp.2.1 (by have := hp.2.2; have := hh.2; omega)
                split
                · rename_i e he
                  rw [he] at hr
                  exact hr
                · trivial

/-- The bound on the number of passes of the page loop in `dojob` is sufficient: on a job
of byte values `dojob` never fails for lack of passes, in the page loop, in the header
loop or in the compressor. -/
theorem dojob_fuel (cfg : Config) (inp : Stdin) (sq : Nat) (tbl : TblState)
    (hi : ∀ b ∈ inp.rest, b < 256) (ht : TblInv tbl ∨ tbl.tbllen = -1) :
    dojob cfg inp sq tbl ≠ .error .fuel := by
  have h := dojob_loop_safe cfg inp.rest.length.succ
    { inp := inp, sq := (((sq + 1) % 256 + 1) % 256), tbl := tbl, nomargins := cfg.nomargins,
      skip := job_skip cfg } hi ht (Nat.lt_succ_self _)
  rw [dojob, send_start_job_eq]
  simp only
  split
  · rename_i e he
    rw [he] at h
    intro hc
    cases hc
    exact h rfl
  · rw [send_end_job_eq]
    intro hc
    cases hc

/-! ## The passes of the compressor's main loop -/

theorem compress_trace_loop (buf : List Nat) (e : Nat) : ∀ f p st,
    SameRun (compress_trace buf e f p st) (compress_loop buf e f p st) := by
  intro f
  induction f with
  | zero =>
    intro p st
    rw [compress_trace, compress_loop]
    split
    · rfl
    · exact ⟨rfl, rfl⟩
  | succ f ih =>
    intro p st
    rw [compress_trace, compress_loop]
    split
    · simp only
      split
      · split
        · rfl
        · have := ih (rle_emit buf p (get_len buf p e)).2.2 st
          generalize compress_trace buf e f (rle_emit buf p (get_len buf p e)).2.2 st = A at this ⊢
          generalize compress_loop buf e f (rle_emit buf p (get_len buf p e)).2.2 st = B at this ⊢
          cases A <;> cases B <;> simp_all [SameRun, out_bytes]
      · split
        · have := ih (tbl_more buf e (0x7f - 0x41) 0x41 (p + 4)
            (tbl_pair buf (tbl_pair buf st p).2 (p + 2)).2).2.2.2.1
            (tbl_more buf e (0x7f - 0x41) 0x41 (p + 4)
            (tbl_pair buf (tbl_pair buf st p).2 (p + 2)).2).2.2.2.2
          generalize tbl_more buf e (0x7f - 0x41) 0x41 (p + 4)
            (tbl_pair buf (tbl_pair buf st p).2 (p + 2)).2 = M at this ⊢
          generalize compress_trace buf e f M.2.2.2.1 M.2.2.2.2 = A at this ⊢
          generalize compress_loop buf e f M.2.2.2.1 M.2.2.2.2 = B at this ⊢
          cases A <;> cases B <;> simp_all [SameRun, out_bytes]
        · have := ih (lit_loop buf e st 9 0xff p).2.2.2 st
          generalize lit_loop buf e st 9 0xff p = L at this ⊢
          generalize compress_trace buf e f L.2.2.2 st = A at this ⊢
          generalize compress_loop buf e f L.2.2.2 st = B at this ⊢
          cases A <;> cases B <;> simp_all [SameRun, out_bytes]
    · exact ⟨rfl, rfl⟩

/-- A scanline that `compress_scanline` compresses has its passes, and the bytes these
stored are the output. -/
theorem scanline_trace_ok (buf : List Nat) (p e : Nat) (st : TblState)
    (r : List Nat × Nat × TblState) (h : compress_scanline buf p e st = .ok r) :
    ∃ t, scanline_trace buf p e st = .ok t ∧ r.1 = out_bytes t.1 ∧ r.2.2 = t.2 := by
  have := compress_trace_loop buf e (e - p) p (clear_tables st)
  rw [compress_scanline] at h
  rw [h] at this
  rw [scanline_trace]
  generalize compress_trace buf e (e - p) p (clear_tables st) = A at this ⊢
  cases A with
  | error x => exact absurd this (by simp [SameRun])
  | ok t => exact ⟨t, rfl, this⟩

theorem scanline_trace_out (buf : List Nat) (p e : Nat) (st : TblState)
    (t : List Group × TblState) (h : scanline_trace buf p e st = .ok t) :
    ∃ r, compress_scanline buf p e st = .ok r ∧ r.1 = out_bytes t.1 ∧ r.2.2 = t.2 := by
  have := compress_trace_loop buf e (e - p) p (clear_tables st)
  rw [scanline_trace] at h
  rw [h] at this
  rw [compress_scanline]
  generalize compress_loop buf e (e - p) p (clear_tables st) = B at this ⊢
  cases B with
  | error x => exact absurd this (by simp [SameRun])
  | ok r => exact ⟨r, rfl, this⟩

theorem callsOk_mono {a b : TblState} {cs : List (Nat × Nat)} (h : TblLe a b)
    (hc : CallsOk a cs) : CallsOk b cs := by
  intro c hcm
  obtain ⟨c1, c2, c3⟩ := hc c hcm
  refine ⟨c1, lt_of_lt_of_le c2 h.1, ?_⟩
  rw [h.2.1 _ c2, c3]

theorem callsOk_append {st : TblState} {l1 l2 : List (Nat × Nat)} (h1 : CallsOk st l1)
    (h2 : CallsOk st l2) : CallsOk st (l1 ++ l2) := by
  intro c hc
  rcases List.mem_append.mp hc with h | h
  · exact h1 c h
  · exact h2 c h

/-- The two calls of `add_tbl` for a pair of bytes that the table has room for. -/
theorem tbl_pair_calls_spec (buf : List Nat) (st : TblState) (p : Nat) (hb0 : rd buf p < 256)
    (hb1 : rd buf (p + 1) < 256) (hinv : TblInv st)
    (hroom : st.tbllen + (if st.invtbl (rd buf p) < 16 then 0 else 1) +
      (if st.invtbl (rd buf (p + 1)) < 16 then 0 else 1) ≤ 16) :
    CallsOk (tbl_pair buf st p).2 (tbl_pair_calls buf st p) ∧
      ∃ i0 i1, tbl_pair_calls buf st p = [(rd buf p, i0), (rd buf (p + 1), i1)] ∧
        (tbl_pair buf st p).1 = ((i0 <<< 4) % 256) ||| i1 := by
  have hr0 : st.invtbl (rd buf p) < 16 ∨ st.tbllen < 16 := by
    by_cases h : st.invtbl (rd buf p) < 16
    · exact Or.inl h
    · right
      simp only [h, if_false] at hroom
      split at hroom <;> omega
  obtain ⟨a1, a2, a3, a4, a5, a6, a7⟩ := add_tbl_spec st (rd buf p) hb0 hinv hr0
  have hm := need_mono a2 (rd buf (p + 1))
  have hr1 : (add_tbl st (rd buf p)).2.invtbl (rd buf (p + 1)) < 16 ∨
      (add_tbl st (rd buf p)).2.tbllen < 16 := by
    by_cases h : (add_tbl st (rd buf p)).2.invtbl (rd buf (p + 1)) < 16
    · exact Or.inl h
    · right
      simp only [h, if_false] at hm
      split at hm
      · omega
      · rw [a7]; omega
  obtain ⟨c1, c2, c3, c4, c5, c6, c7⟩ :=
    add_tbl_spec (add_tbl st (rd buf p)).2 (rd buf (p + 1)) hb1 a1 hr1
  refine ⟨?_, (add_tbl st (rd buf p)).1, (add_tbl (add_tbl st (rd buf p)).2 (rd buf (p + 1))).1,
    rfl, rfl⟩
  intro c hc
  simp only [tbl_pair_calls, List.mem_cons, List.mem_singleton, List.not_mem_nil, or_false] at hc
  rcases hc with rfl | rfl
  · refine ⟨a3, ?_, ?_⟩
    · exact lt_of_lt_of_le a4 c2.1
    · show (tbl_pair buf st p).2.tbl _ = _
      simp only [tbl_pair]
      rw [c2.2.1 _ a4, a5]
  · exact ⟨c3, c4, c5⟩

theorem pack_pairs_two (i0 i1 : Nat) (l : List Nat) :
    pack_pairs (i0 :: i1 :: l) = (((i0 <<< 4) % 256) ||| i1) :: pack_pairs l := by
  rw [pack_pairs]

/-- The calls of `add_tbl` in the extension loop of the table branch. -/
theorem tbl_more_calls_spec (buf : List Nat) (e : Nat) (hb : ∀ x, rd buf x < 256) :
    ∀ k q p st, TblInv st → q + k ≤ 0x7f →
      CallsOk (tbl_more buf e k q p st).2.2.2.2 (tbl_more_calls buf e k q p st) ∧
      (tbl_more buf e k q p st).2.1 = pack_pairs ((tbl_more_calls buf e k q p st).map Prod.snd) ∧
      (tbl_more_calls buf e k q p st).map Prod.fst =
        seg buf p (2 * (tbl_more buf e k q p st).2.2.1) ∧
      (tbl_more_calls buf e k q p st).length = 2 * (tbl_more buf e k q p st).2.2.1 := by
  intro k
  induction k with
  | zero =>
    intro q p st _ _
    rw [tbl_more, tbl_more_calls]
    exact ⟨fun c hc => (by cases hc), rfl, rfl, rfl⟩
  | succ k ih =>
    intro q p st hinv hq
    rw [tbl_more, tbl_more_calls]
    by_cases hc : next_n_in_tbl buf st p 2 e = true ∧ q < 0x7f
    · rw [if_pos hc, if_pos hc]
      by_cases hg : get_len buf p (min (p + 3) e) ≥ 3
      · rw [if_pos hg, if_pos hg]
        exact ⟨fun c hc => (by cases hc), rfl, rfl, rfl⟩
      · rw [if_neg hg, if_neg hg]
        obtain ⟨hlt, hroom⟩ := next2_spec buf st p e hc.1
        obtain ⟨t1, t2, _, _, _⟩ := tbl_pair_spec buf st p (hb _) (hb _) hinv hroom
        obtain ⟨d1, i0, i1, d2, d3⟩ := tbl_pair_calls_spec buf st p (hb _) (hb _) hinv hroom
        have hq1 : (q + 1) % 256 = q + 1 := by omega
        have hM := tbl_more_spec buf e hb k ((q + 1) % 256) (p + 2) (tbl_pair buf st p).2 t1
          (by omega)
        obtain ⟨j1, j2, j3, j4⟩ := ih ((q + 1) % 256) (p + 2) (tbl_pair buf st p).2 t1 (by omega)
        refine ⟨callsOk_append (callsOk_mono hM.2.2.2.2.2.2.1 d1) j1, ?_, ?_, ?_⟩
        · simp only
          rw [d2, j2, d3]
          simp only [List.map_append, List.map_cons, List.map_nil, List.cons_append,
            List.nil_append, pack_pairs_two]
        · simp only
          rw [d2, List.map_append, j3]
          have : 2 * ((tbl_more buf e k ((q + 1) % 256) (p + 2) (tbl_pair buf st p).2).2.2.1 + 1)
              = 2 + 2 * (tbl_more buf e k ((q + 1) % 256) (p + 2) (tbl_pair buf st p).2).2.2.1 := by
            omega
          rw [this, seg_add]
          rfl
        · simp only
          rw [List.length_append, j4, d2]
          simp only [List.length_cons, List.length_nil]
          omega
    · rw [if_neg hc, if_neg hc]
      exact ⟨fun c hc => (by cases hc), rfl, rfl, rfl⟩

/-- The bytes that the run-length branch stores for a run of `n` bytes. -/
theorem rle_emit_eq (buf : List Nat) (p n : Nat) (hn : n < 4095) :
    rle_emit buf p n =
      ((if n > 63 then [0xc0 + n / 64, rd buf p] else []) ++
        (if n % 64 ≠ 0 then [0x80 + n % 64, rd buf (if n > 63 then p + 64 * (n / 64) else p)]
          else []),
       (if n > 63 then 2 else 0) + (if n % 64 ≠ 0 then 2 else 0), p + n) := by
  obtain ⟨b1, b2, b3⟩ := rle_bits n hn
  have hs := short_bits (n % 64) (Nat.mod_lt _ (by decide))
  unfold rle_emit
  by_cases h63 : n > 63
  · simp only [if_pos h63, b1, b2, b3, hs]
    by_cases hm : n % 64 ≠ 0
    · simp only [if_pos hm]
      have : p + 64 * (n / 64) + n % 64 = p + n := by omega
      rw [this]
    · simp only [if_neg hm]
      have : n % 64 = 0 := by omega
      have : p + 64 * (n / 64) = p + n := by omega
      simp only [List.append_nil, Nat.add_zero, *]
  · have h1 : n % 64 = n := by omega
    have h2 : n &&& 0x3f = n := by rw [b3, h1]
    simp only [if_neg h63]
    by_cases hm : n % 64 ≠ 0
    · have hn0 : n ≠ 0 := by omega
      have hs' : (0x80 ||| n) % 256 = 0x80 + n := by
        have := short_bits n (by omega)
        exact this
      simp only [if_pos hm, if_pos hn0, hs', h1]
    · have hn0 : ¬ n ≠ 0 := by omega
      simp only [if_neg hm, if_neg hn0]
      have : n = 0 := by omega
      subst this
      rfl

/-- A pass of the run-length branch. -/
theorem groupOk_rle (buf : List Nat) (fin : TblState) (e p : Nat) (hp : p < e)
    (hn : get_len buf p e > 2) (hn2 : get_len buf p e < 63 * 64 + 63) :
    GroupOk buf fin
      { kind := .rle, pos := p, n := get_len buf p e,
        out := (rle_emit buf p (get_len buf p e)).1, calls := [],
        next := (rle_emit buf p (get_len buf p e)).2.2 } ∧
      (rle_emit buf p (get_len buf p e)).2.2 = p + get_len buf p e ∧
      p + get_len buf p e ≤ e := by
  obtain ⟨_, g2, _, g4⟩ := get_len_spec buf p e
  have hl : get_len buf p e < 4095 := by omega
  have he := rle_emit_eq buf p (get_len buf p e) hl
  refine ⟨⟨fun _ => ⟨(show 3 ≤ get_len buf p e by omega), hl, g4, ?_, rfl, ?_⟩,
    fun h => (by cases h), fun h => (by cases h)⟩,
    by rw [he], g2 hp⟩
  · show (rle_emit buf p (get_len buf p e)).1 = _
    rw [he]
    simp only
    by_cases hm : get_len buf p e % 64 ≠ 0
    · rw [if_pos hm, if_pos hm]
      by_cases h63 : get_len buf p e > 63
      · rw [if_pos h63, if_pos h63]
        have := g4 (64 * (get_len buf p e / 64)) (by omega)
        rw [this]
      · rw [if_neg h63, if_neg h63]
    · rw [if_neg hm, if_neg hm]
  · show (rle_emit buf p (get_len buf p e)).2.2 = _
    rw [he]

/-- A pass of the table branch. -/
theorem groupOk_table (buf : List Nat) (e p : Nat) (st fin : TblState)
    (hb : ∀ x, rd buf x < 256) (hinv : TblInv st) (hn : ¬ get_len buf p e > 2)
    (ht : next_n_in_tbl buf st p 4 e = true)
    (hfin : TblLe (tbl_more buf e (0x7f - 0x41) 0x41 (p + 4)
      (tbl_pair buf (tbl_pair buf st p).2 (p + 2)).2).2.2.2.2 fin) :
    GroupOk buf fin
      { kind := .table, pos := p, n := get_len buf p e,
        out := (tbl_more buf e (0x7f - 0x41) 0x41 (p + 4)
            (tbl_pair buf (tbl_pair buf st p).2 (p + 2)).2).1 :: (tbl_pair buf st p).1 ::
          (tbl_pair buf (tbl_pair buf st p).2 (p + 2)).1 ::
          (tbl_more buf e (0x7f - 0x41) 0x41 (p + 4)
            (tbl_pair buf (tbl_pair buf st p).2 (p + 2)).2).2.1,
        calls := tbl_pair_calls buf st p ++ tbl_pair_calls buf (tbl_pair buf st p).2 (p + 2) ++
          tbl_more_calls buf e (0x7f - 0x41) 0x41 (p + 4)
            (tbl_pair buf (tbl_pair buf st p).2 (p + 2)).2,
        next := (tbl_more buf e (0x7f - 0x41) 0x41 (p + 4)
            (tbl_pair buf (tbl_pair buf st p).2 (p + 2)).2).2.2.2.1 } := by
  obtain ⟨hlt, hroom⟩ := next4_spec buf st p e ht
  have e2 : p + 1 + 1 = p + 2 := by omega
  have e3 : p + 1 + 1 + 1 = p + 2 + 1 := by omega
  rw [e2, e3] at hroom
  have hroomA : st.tbllen + (if st.invtbl (rd buf p) < 16 then 0 else 1) +
      (if st.invtbl (rd buf (p + 1)) < 16 then 0 else 1) ≤ 16 := by
    have h2 : (0 : Int) ≤ (if st.invtbl (rd buf (p + 2)) < 16 then 0 else 1) := by split <;> simp
    have h3 : (0 : Int) ≤ (if st.invtbl (rd buf (p + 2 + 1)) < 16 then 0 else 1) := by
      split <;> simp
    linarith
  obtain ⟨a1, a2, a3, _, _⟩ := tbl_pair_spec buf st p (hb _) (hb _) hinv hroomA
  obtain ⟨ac, i0, i1, ae, ap⟩ := tbl_pair_calls_spec buf st p (hb _) (hb _) hinv hroomA
  have hm2 := need_mono a2 (rd buf (p + 2))
  have hm3 := need_mono a2 (rd buf (p + 2 + 1))
  have hroomB : (tbl_pair buf st p).2.tbllen +
      (if (tbl_pair buf st p).2.invtbl (rd buf (p + 2)) < 16 then 0 else 1) +
      (if (tbl_pair buf st p).2.invtbl (rd buf (p + 2 + 1)) < 16 then 0 else 1) ≤ 16 := by
    linarith
  obtain ⟨b1, b2, _, _, _⟩ :=
    tbl_pair_spec buf (tbl_pair buf st p).2 (p + 2) (hb _) (hb _) a1 hroomB
  obtain ⟨bc, i2, i3, be, bp⟩ :=
    tbl_pair_calls_spec buf (tbl_pair buf st p).2 (p + 2) (hb _) (hb _) a1 hroomB
  have hM := tbl_more_spec buf e hb (0x7f - 0x41) 0x41
    (p + 4) (tbl_pair buf (tbl_pair buf st p).2 (p + 2)).2 b1 (by omega)
  obtain ⟨mc, mo, mf, ml⟩ := tbl_more_calls_spec buf e hb (0x7f - 0x41) 0x41
    (p + 4) (tbl_pair buf (tbl_pair buf st p).2 (p + 2)).2 b1 (by omega)
  generalize tbl_more_calls buf e (0x7f - 0x41) 0x41 (p + 4)
    (tbl_pair buf (tbl_pair buf st p).2 (p + 2)).2 = C at mc mo mf ml ⊢
  generalize tbl_more buf e (0x7f - 0x41) 0x41 (p + 4)
    (tbl_pair buf (tbl_pair buf st p).2 (p + 2)).2 = M at hM mc mo mf ml hfin ⊢
  obtain ⟨m1, m2, m3, m4, _, _, m7, _⟩ := hM
  refine ⟨fun h => (by cases h), fun _ => ⟨(show get_len buf p e < 3 by omega),
    ⟨M.1, ?_, by omega, m3, ?_⟩, ?_, ?_, ?_⟩, fun h => (by cases h)⟩
  · simp only
    rw [ae, be, ap, bp, mo]
    simp only [List.map_append, List.map_cons, List.map_nil, List.cons_append,
      List.nil_append, pack_pairs_two]
  · simp only
    rw [ae, be, List.length_append, List.length_append, ml]
    simp only [List.length_cons, List.length_nil]
    omega
  · simp only
    rw [ae, be, List.length_append, List.length_append, ml]
    simp only [List.map_append, List.map_cons, List.map_nil, List.length_cons, List.length_nil,
      List.cons_append, List.nil_append]
    rw [mf]
    have : 0 + 1 + 1 + (0 + 1 + 1) + 2 * M.2.2.1 = 4 + 2 * M.2.2.1 := by omega
    rw [this, seg_add]
    simp only [seg, List.cons_append, List.nil_append]
  · exact callsOk_append (callsOk_append (callsOk_mono ((b2.trans m7).trans hfin) ac)
      (callsOk_mono (m7.trans hfin) bc)) (callsOk_mono hfin mc)
  · simp only
    rw [ae, be, List.length_append, List.length_append, ml, m4]
    simp only [List.length_cons, List.length_nil]
    omega

/-- A pass of the literal branch. -/
theorem groupOk_literal (buf : List Nat) (e p : Nat) (st fin : TblState)
    (hn : ¬ get_len buf p e > 2) :
    GroupOk buf fin
      { kind := .literal, pos := p, n := get_len buf p e,
        out := (lit_loop buf e st 9 0xff p).1 :: (lit_loop buf e st 9 0xff p).2.1, calls := [],
        next := (lit_loop buf e st 9 0xff p).2.2.2 } := by
  have hL := lit_loop_spec buf e st 9 0xff p
  generalize lit_loop buf e st 9 0xff p = L at hL ⊢
  obtain ⟨l1, l2, l3, l4, l5, _⟩ := hL
  refine ⟨fun h => (by cases h), fun h => (by cases h),
    fun _ => ⟨(show get_len buf p e < 3 by omega), ⟨L.2.2.1, l2, by omega, ?_, l4⟩, rfl⟩⟩
  simp only
  rw [l1, l5]
  have : (0xff + L.2.2.1) % 256 = L.2.2.1 - 1 := by omega
  rw [this]

/-- The cases of one pass of the main loop that is followed by a complete run. -/
theorem compress_trace_succ (buf : List Nat) (e f p : Nat) (st : TblState)
    (t : List Group × TblState) (h : compress_trace buf e (f + 1) p st = .ok t) :
    (¬ p < e ∧ t = ([], st)) ∨
    (p < e ∧
      ((get_len buf p e > 2 ∧ get_len buf p e < 63 * 64 + 63 ∧
        ∃ r, compress_trace buf e f (rle_emit buf p (get_len buf p e)).2.2 st = .ok r ∧
          t = ({ kind := .rle, pos := p, n := get_len buf p e,
                 out := (rle_emit buf p (get_len buf p e)).1, calls := [],
                 next := (rle_emit buf p (get_len buf p e)).2.2 } :: r.1, r.2)) ∨
       (¬ get_len buf p e > 2 ∧ next_n_in_tbl buf st p 4 e = true ∧
        ∃ r, compress_trace buf e f
            (tbl_more buf e (0x7f - 0x41) 0x41 (p + 4)
              (tbl_pair buf (tbl_pair buf st p).2 (p + 2)).2).2.2.2.1
            (tbl_more buf e (0x7f - 0x41) 0x41 (p + 4)
              (tbl_pair buf (tbl_pair buf st p).2 (p + 2)).2).2.2.2.2 = .ok r ∧
          t = ({ kind := .table, pos := p, n := get_len buf p e,
                 out := (tbl_more buf e (0x7f - 0x41) 0x41 (p + 4)
                     (tbl_pair buf (tbl_pair buf st p).2 (p + 2)).2).1 :: (tbl_pair buf st p).1 ::
                   (tbl_pair buf (tbl_pair buf st p).2 (p + 2)).1 ::
                   (tbl_more buf e (0x7f - 0x41) 0x41 (p + 4)
                     (tbl_pair buf (tbl_pair buf st p).2 (p + 2)).2).2.1,
                 calls := tbl_pair_calls buf st p ++
                   tbl_pair_calls buf (tbl_pair buf st p).2 (p + 2) ++
                   tbl_more_calls buf e (0x7f - 0x41) 0x41 (p + 4)
                     (tbl_pair buf (tbl_pair buf st p).2 (p + 2)).2,
                 next := (tbl_more buf e (0x7f - 0x41) 0x41 (p + 4)
                     (tbl_pair buf (tbl_pair buf st p).2 (p + 2)).2).2.2.2.1 } :: r.1, r.2)) ∨
       (¬ get_len buf p e > 2 ∧ ¬ next_n_in_tbl buf st p 4 e = true ∧
        ∃ r, compress_trace buf e f (lit_loop buf e st 9 0xff p).2.2.2 st = .ok r ∧
          t = ({ kind := .literal, pos := p, n := get_len buf p e,
                 out := (lit_loop buf e st 9 0xff p).1 :: (lit_loop buf e st 9 0xff p).2.1,
                 calls := [], next := (lit_loop buf e st 9 0xff p).2.2.2 } :: r.1, r.2)))) := by
  rw [compress_trace] at h
  by_cases hp : p < e
  · rw [if_pos hp] at h
    refine Or.inr ⟨hp, ?_⟩
    simp only at h
    by_cases hn : get_len buf p e > 2
    · rw [if_pos hn] at h
      by_cases ha : ¬ get_len buf p e < 63 * 64 + 63
      · rw [if_pos ha] at h
        cases h
      · rw [if_neg ha] at h
        refine Or.inl ⟨hn, not_not.mp ha, ?_⟩
        split at h
        · rename_i r hr
          simp only [Except.ok.injEq] at h
          exact ⟨r, hr, h.symm⟩
        · cases h
    · rw [if_neg hn] at h
      by_cases ht : next_n_in_tbl buf st p 4 e = true
      · rw [if_pos ht] at h
        refine Or.inr (Or.inl ⟨hn, ht, ?_⟩)
        split at h
        · rename_i r hr
          simp only [Except.ok.injEq] at h
          exact ⟨r, hr, h.symm⟩
        · cases h
      · rw [if_neg ht] at h
        refine Or.inr (Or.inr ⟨hn, ht, ?_⟩)
        split at h
        · rename_i r hr
          simp only [Except.ok.injEq] at h
          exact ⟨r, hr, h.symm⟩
        · cases h
  · rw [if_neg hp] at h
    simp only [Except.ok.injEq] at h
    exact Or.inl ⟨hp, h.symm⟩

theorem compress_trace_zero (buf : List Nat) (e p : Nat) (st : TblState)
    (t : List Group × TblState) (h : compress_trace buf e 0 p st = .ok t) : t = ([], st) := by
  rw [compress_trace] at h
  split at h
  · cases h
  · simp only [Except.ok.injEq] at h
    exact h.symm

/-- Every pass of a complete run of the main loop is as `GroupOk` says, against the table
the run leaves. -/
theorem compress_trace_spec (buf : List Nat) (e : Nat) (hb : ∀ x, rd buf x < 256) :
    ∀ f p st t, TblInv st → compress_trace buf e f p st = .ok t →
      TblInv t.2 ∧ TblLe st t.2 ∧
        ∀ g ∈ t.1, GroupOk buf t.2 g ∧ p ≤ g.pos ∧ g.pos < e ∧ g.pos < g.next ∧ g.next ≤ e := by
  intro f
  induction f with
  | zero =>
    intro p st t hinv h
    rw [compress_trace_zero buf e p st t h]
    exact ⟨hinv, TblLe.refl st, fun g hg => (by cases hg)⟩
  | succ f ih =>
    intro p st t hinv h
    rcases compress_trace_succ buf e f p st t h with ⟨_, rfl⟩ |
      ⟨hp, ⟨hn, hn2, r, hr, rfl⟩ | ⟨hn, ht, r, hr, rfl⟩ | ⟨hn, ht, r, hr, rfl⟩⟩
    · exact ⟨hinv, TblLe.refl st, fun g hg => (by cases hg)⟩
    · obtain ⟨k1, k2, k3⟩ := ih _ st r hinv hr
      obtain ⟨o1, o2, o3⟩ := groupOk_rle buf r.2 e p hp hn hn2
      refine ⟨k1, k2, ?_⟩
      intro g hg
      simp only [List.mem_cons] at hg
      rcases hg with rfl | hg
      · refine ⟨o1, le_refl _, hp, ?_, ?_⟩
        · show p < (rle_emit buf p (get_len buf p e)).2.2
          rw [o2]; omega
        · show (rle_emit buf p (get_len buf p e)).2.2 ≤ e
          rw [o2]; exact o3
      · obtain ⟨q1, q2, q3⟩ := k3 g hg
        rw [o2] at q2
        exact ⟨q1, by omega, q3⟩
    · obtain ⟨hlt, b1, hle, _⟩ := four_pairs buf e p st hb hinv ht
      have hM := tbl_more_spec buf e hb (0x7f - 0x41) 0x41
        (p + 4) (tbl_pair buf (tbl_pair buf st p).2 (p + 2)).2 b1 (by omega)
      obtain ⟨k1, k2, k3⟩ := ih _ _ r hM.2.2.2.2.2.1 hr
      have o1 := groupOk_table buf e p st r.2 hb hinv hn ht k2
      have m4 := hM.2.2.2.1
      have m5 := hM.2.2.2.2.1 (by omega)
      refine ⟨k1, (hle.trans hM.2.2.2.2.2.2.1).trans k2, ?_⟩
      intro g hg
      simp only [List.mem_cons] at hg
      rcases hg with rfl | hg
      · refine ⟨o1, le_refl _, hp, ?_, m5⟩
        show p < (tbl_more buf e (0x7f - 0x41) 0x41 (p + 4)
          (tbl_pair buf (tbl_pair buf st p).2 (p + 2)).2).2.2.2.1
        rw [m4]; omega
      · obtain ⟨q1, q2, q3⟩ := k3 g hg
        rw [m4] at q2
        exact ⟨q1, by omega, q3⟩
    · have hL := lit_loop_spec buf e st 9 0xff p
      obtain ⟨k1, k2, k3⟩ := ih _ st r hinv hr
      have o1 := groupOk_literal buf e p st r.2 hn
      have l2 := hL.2.1
      have l4 := hL.2.2.2.1
      have l6 := hL.2.2.2.2.2 hp
      refine ⟨k1, k2, ?_⟩
      intro g hg
      simp only [List.mem_cons] at hg
      rcases hg with rfl | hg
      · refine ⟨o1, le_refl _, hp, ?_, l6⟩
        show p < (lit_loop buf e st 9 0xff p).2.2.2
        rw [l4]; omega
      · obtain ⟨q1, q2, q3⟩ := k3 g hg
        rw [l4] at q2
        exact ⟨q1, by omega, q3⟩

/-- Every pass of `compress_scanline` on a scanline of byte values is as `GroupOk`
says. -/
theorem scanline_trace_spec (buf : List Nat) (p e : Nat) (st : TblState)
    (hb : ∀ b ∈ buf, b < 256) (hst : TblInv st ∨ st.tbllen = -1)
    (t : List Group × TblState) (h : scanline_trace buf p e st = .ok t) :
    TblInv t.2 ∧
      ∀ g ∈ t.1, GroupOk buf t.2 g ∧ p ≤ g.pos ∧ g.pos < e ∧ g.pos < g.next ∧ g.next ≤ e := by
  obtain ⟨k1, _, k3⟩ := compress_trace_spec buf e (rd_lt buf hb) (e - p) p (clear_tables st) t
    (clear_tables_inv st hst) h
  exact ⟨k1, k3⟩

/-- A scanline shorter than 4095 bytes has its passes: no assertion fails. -/
theorem scanline_trace_total (buf : List Nat) (p e : Nat) (st : TblState)
    (hb : ∀ b ∈ buf, b < 256) (hst : TblInv st ∨ st.tbllen = -1) (hW : e - p < 4095) :
    ∃ t, scanline_trace buf p e st = .ok t := by
  obtain ⟨r, hr, _⟩ := compress_loop_spec buf e (rd_lt buf hb) (e - p) p (clear_tables st)
    (clear_tables_inv st hst) (le_refl _) hW
  obtain ⟨t, ht, _⟩ := scanline_trace_ok buf p e st r hr
  exact ⟨t, ht⟩

/-- C21, counterexample.  On the scanline 0, 1, ..., 26 the table takes the first 16
bytes and is full; the second pass is a literal pass that stores the header 9 and the
ten bytes 16, ..., 25. -/
theorem literal_cap_counterexample :
    (scanline_trace (List.range 27) 0 27 TblState.uninit).toOption.map
        (fun t => t.1.map (fun g => (g.kind, g.out))) =
      some [(Branch.table, [0x47, 0x01, 0x23, 0x45, 0x67, 0x89, 0xab, 0xcd, 0xef]),
        (Branch.literal, [9, 16, 17, 18, 19, 20, 21, 22, 23, 24, 25]),
        (Branch.literal, [0, 26])] ∧
    (compress_scanline (List.range 27) 0 27 TblState.uninit).toOption.map (fun r => r.1) =
      some [0x47, 0x01, 0x23, 0x45, 0x67, 0x89, 0xab, 0xcd, 0xef,
        9, 16, 17, 18, 19, 20, 21, 22, 23, 24, 25, 0, 26] := by
  decide

/-- C21, amended.  Literal run cap: `compress_scanline` returns on a scanline of fewer
than 4095 byte values, and whenever it returns, its output is the bytes stored by its
passes and each literal pass stored a header `m - 1` followed by `m` raw bytes of the
scanline with `1 <= m <= 10`: a literal group carries at most 10 raw bytes. -/
theorem literal_cap (buf : List Nat) (p e : Nat) (st : TblState)
    (hb : ∀ b ∈ buf, b < 256) (hst : TblInv st ∨ st.tbllen = -1) :
    (e - p < 4095 → ∃ r, compress_scanline buf p e st = .ok r) ∧
    ∀ r, compress_scanline buf p e st = .ok r →
      ∃ t, scanline_trace buf p e st = .ok t ∧ r.1 = out_bytes t.1 ∧
        ∀ g ∈ t.1, g.kind = .literal →
          ∃ m, 1 ≤ m ∧ m ≤ 10 ∧ g.out = (m - 1) :: seg buf g.pos m ∧ g.next = g.pos + m := by
  constructor
  · intro hW
    obtain ⟨r, hr, _⟩ := compress_loop_spec buf e (rd_lt buf hb) (e - p) p (clear_tables st)
      (clear_tables_inv st hst) (le_refl _) hW
    exact ⟨r, hr⟩
  · intro r hr
    obtain ⟨t, ht, e1, _⟩ := scanline_trace_ok buf p e st r hr
    obtain ⟨_, k⟩ := scanline_trace_spec buf p e st hb hst t ht
    exact ⟨t, ht, e1, fun g hg hk => ((k g hg).1.2.2 hk).2.1⟩

theorem literal_cap_witness :
    (∀ b ∈ List.range 27, b < 256) ∧
    ((27 - 0 < 4095 → ∃ r, compress_scanline (List.range 27) 0 27 TblState.uninit = .ok r) ∧
    ∀ r, compress_scanline (List.range 27) 0 27 TblState.uninit = .ok r →
      ∃ t, scanline_trace (List.range 27) 0 27 TblState.uninit = .ok t ∧ r.1 = out_bytes t.1 ∧
        ∀ g ∈ t.1, g.kind = .literal →
          ∃ m, 1 ≤ m ∧ m ≤ 10 ∧ g.out = (m - 1) :: seg (List.range 27) g.pos m ∧
            g.next = g.pos + m) :=
  ⟨by decide, literal_cap (List.range 27) 0 27 TblState.uninit (by decide) (Or.inr rfl)⟩

/-! ## Uniform scanlines -/

theorem get_len_loop_run (buf : List Nat) (c e : Nat) : ∀ k p len,
    (∀ i, p ≤ i → i < e → rd buf i = c) → p + k ≤ e →
    get_len_loop buf c e k p len = len + k := by
  intro k
  induction k with
  | zero => intro p len _ _; rw [get_len_loop]; rfl
  | succ k ih =>
    intro p len h hk
    rw [get_len_loop, if_pos ⟨by omega, (h p (le_refl _) (by omega)).symm⟩,
      ih (p + 1) (len + 1) (fun i hi => h i (by omega)) (by omega)]
    omega

/-- On a run that reaches the end, `get_len` counts all the bytes left. -/
theorem get_len_run (buf : List Nat) (p e : Nat) (hp : p < e)
    (h : ∀ i, p ≤ i → i < e → rd buf i = rd buf p) : get_len buf p e = e - p := by
  rw [get_len, get_len_loop_run buf (rd buf p) e (e - (p + 1)) (p + 1) 0
    (fun i hi => h i (by omega)) (by omega)]
  omega

theorem rd_replicate (n b i : Nat) (h : i < n) : rd (List.replicate n b) i = b := by
  unfold rd
  rw [List.getD_eq_getElem?_getD, List.getElem?_replicate, if_pos h]
  rfl

theorem compress_trace_end (buf : List Nat) (e f p : Nat) (st : TblState) (hp : ¬ p < e) :
    compress_trace buf e f p st = .ok ([], st) := by
  cases f with
  | zero => rw [compress_trace, if_neg hp]
  | succ f => rw [compress_trace, if_neg hp]

/-- A pass of the run-length branch, followed by a complete run. -/
theorem compress_trace_rle (buf : List Nat) (e f p : Nat) (st : TblState)
    (r : List Group × TblState) (hp : p < e) (hn : get_len buf p e > 2)
    (hn2 : get_len buf p e < 4095)
    (hr : compress_trace buf e f (p + get_len buf p e) st = .ok r) :
    compress_trace buf e (f + 1) p st =
      .ok ({ kind := .rle, pos := p, n := get_len buf p e,
             out := (rle_emit buf p (get_len buf p e)).1, calls := [],
             next := p + get_len buf p e } :: r.1, r.2) := by
  have he : (rle_emit buf p (get_len buf p e)).2.2 = p + get_len buf p e := by
    rw [rle_emit_eq buf p _ hn2]
  rw [compress_trace, if_pos hp]
  simp only
  rw [if_pos hn, if_neg (by omega), he, hr]

/-- The passes of `compress_scanline` on `n` copies of a byte: one run-length pass. -/
theorem uniform_trace (n b : Nat) (st : TblState) (hn3 : 3 ≤ n) (hn : n < 4095) :
    scanline_trace (List.replicate n b) 0 n st =
      .ok ([{ kind := .rle, pos := 0, n := n,
              out := (if n > 63 then [0xc0 + n / 64, b] else []) ++
                (if n % 64 ≠ 0 then [0x80 + n % 64, b] else []),
              calls := [], next := n }], clear_tables st) := by
  have hg : get_len (List.replicate n b) 0 n = n := by
    rw [get_len_run _ 0 n (by omega)]
    · rfl
    · intro i _ hi
      rw [rd_replicate n b i hi, rd_replicate n b 0 (by omega)]
  have he := rle_emit_eq (List.replicate n b) 0 n hn
  have hr0 : rd (List.replicate n b) 0 = b := rd_replicate n b 0 (by omega)
  have hr1 : n % 64 ≠ 0 →
      rd (List.replicate n b) (if n > 63 then 0 + 64 * (n / 64) else 0) = b := by
    intro hm
    apply rd_replicate
    split <;> omega
  have hout : (rle_emit (List.replicate n b) 0 n).1 =
      (if n > 63 then [0xc0 + n / 64, b] else []) ++
        (if n % 64 ≠ 0 then [0x80 + n % 64, b] else []) := by
    rw [he]
    simp only [hr0]
    by_cases hm : n % 64 ≠ 0
    · simp only [if_pos hm, hr1 hm]
    · simp only [if_neg hm]
  have hstep := compress_trace_rle (List.replicate n b) n (n - 1) 0 (clear_tables st)
    ([], clear_tables st) (by omega) (by rw [hg]; omega) (by rw [hg]; exact hn)
    (compress_trace_end _ _ _ _ _ (by rw [hg]; omega))
  rw [hg, hout, Nat.zero_add] at hstep
  have hf : n - 1 + 1 = n - 0 := by omega
  rw [hf] at hstep
  exact hstep

theorem or_c0 : ∀ q, q < 64 → 0xc0 ||| q = 0xc0 + q := by decide

theorem or_80 : ∀ q, q < 64 → 0x80 ||| q = 0x80 + q := by decide

/-- The opcodes of a run below 4095 bytes, as sums. -/
theorem rle_opcodes (n : Nat) (hn : n < 4095) :
    0xc0 ||| (n >>> 6) = 0xc0 + n / 64 ∧ n &&& 63 = n % 64 ∧
      0x80 ||| (n &&& 63) = 0x80 + n % 64 := by
  have h1 : n >>> 6 = n / 64 := Nat.shiftRight_eq_div_pow n 6
  have h2 : n &&& 63 = n % 64 := Nat.and_pow_two_sub_one_eq_mod n 6
  rw [h1, h2]
  exact ⟨or_c0 _ (by omega), rfl, or_80 _ (Nat.mod_lt _ (by decide))⟩

theorem out_bytes_single (g : Group) : out_bytes [g] = g.out := by
  simp [out_bytes]

/-- C25. Uniform scanline (scenario S2): for every byte `b` and every `n` with
`3 <= n < 4095`, `compress_scanline` on `n` copies of `b` returns, leaves `tbllen = 0`
(so the table is empty and the preamble byte is 0x80), and stores exactly
`[0xC0 | (n >> 6), b]` if `n > 63`, followed by `[0x80 | (n & 63), b]` if `n & 63` is not
zero; `olen` is the number of these bytes. -/
theorem uniform_scanline (n b : Nat) (st : TblState) (hn3 : 3 ≤ n) (hn : n < 4095) :
    ∃ out st', compress_scanline (List.replicate n b) 0 n st = .ok (out, out.length, st') ∧
      st'.tbllen = 0 ∧ table st' = [] ∧ uchar (0x80 + st'.tbllen) = 0x80 ∧
      out = (if n > 63 then [0xc0 ||| (n >>> 6), b] else []) ++
        (if n &&& 63 ≠ 0 then [0x80 ||| (n &&& 63), b] else []) := by
  obtain ⟨o1, o2, o3⟩ := rle_opcodes n hn
  have ht := uniform_trace n b st hn3 hn
  obtain ⟨r, hr, e1, e2⟩ := scanline_trace_out _ 0 n st _ ht
  have hc := hr
  rw [compress_scanline] at hc
  have hlen : r.2.1 = r.1.length := by
    have hg : get_len (List.replicate n b) 0 n = n := by
      rw [get_len_run _ 0 n (by omega)]
      · rfl
      · intro i _ hi
        rw [rd_replicate n b i hi, rd_replicate n b 0 (by omega)]
    obtain ⟨k, hk⟩ : ∃ k, n - 0 = k + 1 := ⟨n - 1, by omega⟩
    rw [hk, compress_loop, if_pos (by omega)] at hc
    simp only [hg] at hc
    rw [if_pos (by omega), if_neg (by omega)] at hc
    have he := rle_emit_eq (List.replicate n b) 0 n hn
    have hend : compress_loop (List.replicate n b) n k (rle_emit (List.replicate n b) 0 n).2.2
        (clear_tables st) = .ok ([], 0, clear_tables st) := by
      rw [he]
      simp only
      cases k with
      | zero => rw [compress_loop, if_neg (by omega)]
      | succ k => rw [compress_loop, if_neg (by omega)]
    rw [hend] at hc
    simp only [Except.ok.injEq] at hc
    rw [← hc, he]
    simp only [List.append_nil, Nat.add_zero, List.length_append]
    split <;> split <;> rfl
  simp only [out_bytes_single] at e1
  refine ⟨r.1, r.2.2, ?_, ?_, ?_, ?_, ?_⟩
  · rw [hr, ← hlen]
  · rw [e2]; rfl
  · rw [e2]; rfl
  · rw [e2]; rfl
  · rw [e1, o3, o1, o2]

theorem uniform_scanline_witness :
    3 ≤ 574 ∧ 574 < 4095 ∧
    ∃ out st', compress_scanline (List.replicate 574 0) 0 574 TblState.uninit =
        .ok (out, out.length, st') ∧
      st'.tbllen = 0 ∧ table st' = [] ∧ uchar (0x80 + st'.tbllen) = 0x80 ∧
      out = (if 574 > 63 then [0xc0 ||| (574 >>> 6), 0] else []) ++
        (if 574 &&& 63 ≠ 0 then [0x80 ||| (574 &&& 63), 0] else []) ∧
      out = [0xc8, 0x00, 0xbe, 0x00] := by
  obtain ⟨out, st', h1, h2, h3, h4, h5⟩ :=
    uniform_scanline 574 0 TblState.uninit (by decide) (by decide)
  exact ⟨by decide, by decide, out, st', h1, h2, h3, h4, h5, by rw [h5]; decide⟩

/-! ## Opcodes, runs and table indices of the passes -/

/-- C23, counterexample.  On 4032 copies of the byte 7, `compress_scanline` completes
with one run-length pass that stores the long opcode 0xFF (`0xC0 | 63`) and no short
opcode; 0xFF is not in 0xC0..0xFE. -/
theorem opcode_ranges_counterexample :
    (scanline_trace (List.replicate 4032 7) 0 4032 TblState.uninit).toOption.map
        (fun t => t.1.map (fun g => (g.kind, g.n, g.out))) =
      some [(Branch.rle, 4032, [0xff, 7])] ∧
    (compress_scanline (List.replicate 4032 7) 0 4032 TblState.uninit).toOption.map
        (fun r => r.1) = some [0xff, 7] ∧
    ¬ (0xff ≤ 0xfe) := by
  have ht := uniform_trace 4032 7 TblState.uninit (by decide) (by decide)
  obtain ⟨r, hr, e1, _⟩ := scanline_trace_out _ 0 4032 TblState.uninit _ ht
  refine ⟨?_, ?_, by decide⟩
  · rw [ht]
    decide
  · rw [hr]
    simp only [out_bytes_single] at e1
    show some r.1 = _
    rw [e1]
    decide

/-- C23, amended.  Opcode ranges: `compress_scanline` returns on a scanline of fewer
than 4095 byte values, and whenever it returns, its output is the bytes stored by its
passes; a run-length pass for a run of `n` bytes stored the long opcode `0xC0 + n / 64`
if `n > 63`, which lies in 0xC0..0xFF, and the short opcode `0x80 + n % 64` if `n % 64`
is not zero, which lies in 0x80..0xBF, each followed by the byte of the run; a table
pass stored first an opcode in 0x41..0x7F. -/
theorem opcode_ranges (buf : List Nat) (p e : Nat) (st : TblState)
    (hb : ∀ b ∈ buf, b < 256) (hst : TblInv st ∨ st.tbllen = -1) :
    (e - p < 4095 → ∃ r, compress_scanline buf p e st = .ok r) ∧
    ∀ r, compress_scanline buf p e st = .ok r →
      ∃ t, scanline_trace buf p e st = .ok t ∧ r.1 = out_bytes t.1 ∧
        ∀ g ∈ t.1,
          (g.kind = .rle →
            g.out = (if g.n > 63 then [0xc0 + g.n / 64, rd buf g.pos] else []) ++
              (if g.n % 64 ≠ 0 then [0x80 + g.n % 64, rd buf g.pos] else []) ∧
            (g.n > 63 → 0xc0 ≤ 0xc0 + g.n / 64 ∧ 0xc0 + g.n / 64 ≤ 0xff) ∧
            (g.n % 64 ≠ 0 → 0x80 ≤ 0x80 + g.n % 64 ∧ 0x80 + g.n % 64 ≤ 0xbf)) ∧
          (g.kind = .table → ∃ op rest, g.out = op :: rest ∧ 0x41 ≤ op ∧ op ≤ 0x7f) := by
  constructor
  · intro hW
    obtain ⟨r, hr, _⟩ := compress_loop_spec buf e (rd_lt buf hb) (e - p) p (clear_tables st)
      (clear_tables_inv st hst) (le_refl _) hW
    exact ⟨r, hr⟩
  · intro r hr
    obtain ⟨t, ht, e1, _⟩ := scanline_trace_ok buf p e st r hr
    obtain ⟨_, k⟩ := scanline_trace_spec buf p e st hb hst t ht
    refine ⟨t, ht, e1, fun g hg => ⟨fun hk => ?_, fun hk => ?_⟩⟩
    · obtain ⟨_, g2, _, g4, _, _⟩ := (k g hg).1.1 hk
      exact ⟨g4, fun _ => (by omega), fun _ => (by omega)⟩
    · obtain ⟨_, ⟨op, o1, o2, o3, _⟩, _⟩ := (k g hg).1.2.1 hk
      exact ⟨op, _, o1, o2, o3⟩

theorem opcode_ranges_witness :
    (∀ b ∈ [7, 7, 7, 1, 2, 3, 4, 5, 9], b < 256) ∧
    ((9 - 0 < 4095 →
      ∃ r, compress_scanline [7, 7, 7, 1, 2, 3, 4, 5, 9] 0 9 TblState.uninit = .ok r) ∧
    ∀ r, compress_scanline [7, 7, 7, 1, 2, 3, 4, 5, 9] 0 9 TblState.uninit = .ok r →
      ∃ t, scanline_trace [7, 7, 7, 1, 2, 3, 4, 5, 9] 0 9 TblState.uninit = .ok t ∧
        r.1 = out_bytes t.1 ∧
        ∀ g ∈ t.1,
          (g.kind = .rle →
            g.out = (if g.n > 63 then [0xc0 + g.n / 64, rd [7, 7, 7, 1, 2, 3, 4, 5, 9] g.pos]
                else []) ++
              (if g.n % 64 ≠ 0 then [0x80 + g.n % 64, rd [7, 7, 7, 1, 2, 3, 4, 5, 9] g.pos]
                else []) ∧
            (g.n > 63 → 0xc0 ≤ 0xc0 + g.n / 64 ∧ 0xc0 + g.n / 64 ≤ 0xff) ∧
            (g.n % 64 ≠ 0 → 0x80 ≤ 0x80 + g.n % 64 ∧ 0x80 + g.n % 64 ≤ 0xbf)) ∧
          (g.kind = .table → ∃ op rest, g.out = op :: rest ∧ 0x41 ≤ op ∧ op ≤ 0x7f)) :=
  ⟨by decide, opcode_ranges [7, 7, 7, 1, 2, 3, 4, 5, 9] 0 9 TblState.uninit (by decide)
    (Or.inr rfl)⟩

/-- C24. RLE bound: on a scanline of fewer than 4095 byte values `compress_scanline`
returns, so the assertion `n < 63*64+63` does not fail; and whenever it returns, each
run-length pass found a run of `n` equal bytes with `3 <= n < 4095` and stored a long
pair for `64 * (n / 64)` of them if `n > 63` and a short pair for `n % 64` of them if
there are any, `n` bytes in all. -/
theorem rle_bound (buf : List Nat) (p e : Nat) (st : TblState)
    (hb : ∀ b ∈ buf, b < 256) (hst : TblInv st ∨ st.tbllen = -1) :
    (e - p < 4095 → (∃ r, compress_scanline buf p e st = .ok r) ∧
      compress_scanline buf p e st ≠ .error .assertion) ∧
    ∀ r, compress_scanline buf p e st = .ok r →
      ∃ t, scanline_trace buf p e st = .ok t ∧ r.1 = out_bytes t.1 ∧
        ∀ g ∈ t.1, g.kind = .rle →
          3 ≤ g.n ∧ g.n < 4095 ∧ (∀ i, i < g.n → rd buf (g.pos + i) = rd buf g.pos) ∧
          g.out = (if g.n > 63 then [0xc0 ||| (g.n >>> 6), rd buf g.pos] else []) ++
            (if g.n &&& 63 ≠ 0 then [0x80 ||| (g.n &&& 63), rd buf g.pos] else []) ∧
          64 * (g.n >>> 6) + (g.n &&& 63) = g.n ∧ g.next = g.pos + g.n := by
  constructor
  · intro hW
    obtain ⟨r, hr, _⟩ := compress_loop_spec buf e (rd_lt buf hb) (e - p) p (clear_tables st)
      (clear_tables_inv st hst) (le_refl _) hW
    refine ⟨⟨r, hr⟩, ?_⟩
    rw [show compress_scanline buf p e st = .ok r from hr]
    intro hc
    cases hc
  · intro r hr
    obtain ⟨t, ht, e1, _⟩ := scanline_trace_ok buf p e st r hr
    obtain ⟨_, k⟩ := scanline_trace_spec buf p e st hb hst t ht
    refine ⟨t, ht, e1, fun g hg hk => ?_⟩
    obtain ⟨g1, g2, g3, g4, _, g6⟩ := (k g hg).1.1 hk
    obtain ⟨o1, o2, o3⟩ := rle_opcodes g.n g2
    have hs : g.n >>> 6 = g.n / 64 := Nat.shiftRight_eq_div_pow g.n 6
    refine ⟨g1, g2, g3, ?_, ?_, g6⟩
    · rw [o3, o1, o2]
      exact g4
    · rw [hs, o2]
      omega

theorem rle_bound_witness :
    (∀ b ∈ List.replicate 70 5 ++ [1, 2, 2, 2], b < 256) ∧
    ((74 - 0 < 4095 →
      (∃ r, compress_scanline (List.replicate 70 5 ++ [1, 2, 2, 2]) 0 74 TblState.uninit
          = .ok r) ∧
      compress_scanline (List.replicate 70 5 ++ [1, 2, 2, 2]) 0 74 TblState.uninit
        ≠ .error .assertion) ∧
    ∀ r, compress_scanline (List.replicate 70 5 ++ [1, 2, 2, 2]) 0 74 TblState.uninit = .ok r →
      ∃ t, scanline_trace (List.replicate 70 5 ++ [1, 2, 2, 2]) 0 74 TblState.uninit = .ok t ∧
        r.1 = out_bytes t.1 ∧
        ∀ g ∈ t.1, g.kind = .rle →
          3 ≤ g.n ∧ g.n < 4095 ∧
          (∀ i, i < g.n → rd (List.replicate 70 5 ++ [1, 2, 2, 2]) (g.pos + i) =
            rd (List.replicate 70 5 ++ [1, 2, 2, 2]) g.pos) ∧
          g.out = (if g.n > 63 then [0xc0 ||| (g.n >>> 6),
              rd (List.replicate 70 5 ++ [1, 2, 2, 2]) g.pos] else []) ++
            (if g.n &&& 63 ≠ 0 then [0x80 ||| (g.n &&& 63),
              rd (List.replicate 70 5 ++ [1, 2, 2, 2]) g.pos] else []) ∧
          64 * (g.n >>> 6) + (g.n &&& 63) = g.n ∧ g.next = g.pos + g.n) :=
  ⟨by decide, rle_bound (List.replicate 70 5 ++ [1, 2, 2, 2]) 0 74 TblState.uninit (by decide)
    (Or.inr rfl)⟩

/-- Packed indices of valid calls select the arguments of the calls. -/
theorem unpack_pack (tb : List Nat) : ∀ (k : Nat) (calls : List (Nat × Nat)),
    calls.length = 2 * k → (∀ c ∈ calls, c.2 < 16 ∧ tb[c.2]? = some c.1) →
    unpack tb (pack_pairs (calls.map Prod.snd)) = some (calls.map Prod.fst) := by
  intro k
  induction k with
  | zero =>
    intro calls hl _
    have : calls = [] := List.length_eq_zero.mp (by omega)
    subst this
    rfl
  | succ k ih =>
    intro calls hl h
    match calls, hl, h with
    | a :: b :: rest, hl, h =>
      have ha := h a (by simp)
      have hb := h b (by simp)
      have hr := ih rest (by simp only [List.length_cons] at hl; omega)
        (fun c hc => h c (by simp [hc]))
      simp only [List.map_cons, pack_pairs_two]
      have h1 := unpack_one tb a.2 b.2 a.1 b.1 ha.1 hb.1 ha.2 hb.2
      exact unpack_cons tb _ _ _ _ h1 hr
    | [_], hl, _ => simp at hl; omega
    | [], hl, _ => simp at hl

/-- C27. Table indices are always valid: whenever `compress_scanline` returns on a
scanline of byte values (and it returns when the scanline has fewer than 4095 bytes),
its passes call `add_tbl` in the table branch only, every such call returned an index
below 16 that is below the final `tbllen` and at which the final `tbl` holds the byte
passed; the bytes passed are the bytes of the scanline from the position of the pass on,
the bytes stored after the opcode are these indices packed two by two, and reading them
back against the final table gives the bytes of the scanline. -/
theorem table_indices_valid (buf : List Nat) (p e : Nat) (st : TblState)
    (hb : ∀ b ∈ buf, b < 256) (hst : TblInv st ∨ st.tbllen = -1) :
    (e - p < 4095 → ∃ r, compress_scanline buf p e st = .ok r) ∧
    ∀ r, compress_scanline buf p e st = .ok r →
      ∃ t, scanline_trace buf p e st = .ok t ∧ r.1 = out_bytes t.1 ∧ r.2.2 = t.2 ∧
        ∀ g ∈ t.1,
          (g.kind ≠ .table → g.calls = []) ∧
          (g.kind = .table →
            (∀ c ∈ g.calls, c.2 < 16 ∧ (c.2 : Int) < r.2.2.tbllen ∧ r.2.2.tbl c.2 = c.1) ∧
            g.calls.map Prod.fst = seg buf g.pos g.calls.length ∧
            (∃ op, g.out = op :: pack_pairs (g.calls.map Prod.snd)) ∧
            unpack (table r.2.2) (pack_pairs (g.calls.map Prod.snd)) =
              some (seg buf g.pos g.calls.length)) := by
  constructor
  · intro hW
    obtain ⟨r, hr, _⟩ := compress_loop_spec buf e (rd_lt buf hb) (e - p) p (clear_tables st)
      (clear_tables_inv st hst) (le_refl _) hW
    exact ⟨r, hr⟩
  · intro r hr
    obtain ⟨t, ht, e1, e2⟩ := scanline_trace_ok buf p e st r hr
    obtain ⟨_, k⟩ := scanline_trace_spec buf p e st hb hst t ht
    refine ⟨t, ht, e1, e2, fun g hg => ⟨fun hk => ?_, fun hk => ?_⟩⟩
    · obtain ⟨k1, _, k3⟩ := (k g hg).1
      cases hkind : g.kind with
      | rle => exact (k1 hkind).2.2.2.2.1
      | table => exact absurd hkind hk
      | literal => exact (k3 hkind).2.2
    · obtain ⟨_, ⟨op, o1, _, _, o4⟩, o5, o6, _⟩ := (k g hg).1.2.1 hk
      rw [e2]
      refine ⟨o6, o5, ⟨op, o1⟩, ?_⟩
      rw [← o5]
      apply unpack_pack (table t.2) (2 + (op - 0x41)) g.calls (by omega)
      intro c hc
      obtain ⟨c1, c2, c3⟩ := o6 c hc
      exact ⟨c1, by rw [tblExt_table t.2 c.2 c2, c3]⟩

theorem table_indices_valid_witness :
    (∀ b ∈ [1, 2, 3, 4, 5, 1, 9, 9, 9], b < 256) ∧
    ((9 - 0 < 4095 →
      ∃ r, compress_scanline [1, 2, 3, 4, 5, 1, 9, 9, 9] 0 9 TblState.uninit = .ok r) ∧
    ∀ r, compress_scanline [1, 2, 3, 4, 5, 1, 9, 9, 9] 0 9 TblState.uninit = .ok r →
      ∃ t, scanline_trace [1, 2, 3, 4, 5, 1, 9, 9, 9] 0 9 TblState.uninit = .ok t ∧
        r.1 = out_bytes t.1 ∧ r.2.2 = t.2 ∧
        ∀ g ∈ t.1,
          (g.kind ≠ .table → g.calls = []) ∧
          (g.kind = .table →
            (∀ c ∈ g.calls, c.2 < 16 ∧ (c.2 : Int) < r.2.2.tbllen ∧ r.2.2.tbl c.2 = c.1) ∧
            g.calls.map Prod.fst = seg [1, 2, 3, 4, 5, 1, 9, 9, 9] g.pos g.calls.length ∧
            (∃ op, g.out = op :: pack_pairs (g.calls.map Prod.snd)) ∧
            unpack (table r.2.2) (pack_pairs (g.calls.map Prod.snd)) =
              some (seg [1, 2, 3, 4, 5, 1, 9, 9, 9] g.pos g.calls.length))) :=
  ⟨by decide, table_indices_valid [1, 2, 3, 4, 5, 1, 9, 9, 9] 0 9 TblState.uninit (by decide)
    (Or.inr rfl)⟩

/-! ## The table branch: when it is taken -/

/-- The test `next_n_in_tbl(p, 4, end)`: four more bytes lie before the last one, and the
table has room for those of them it does not hold, each counted as often as it occurs. -/
theorem next4_iff (buf : List Nat) (st : TblState) (p e : Nat) :
    next_n_in_tbl buf st p 4 e = true ↔
      (p + 4 < e ∧ st.tbllen + (if st.invtbl (rd buf p) < 16 then 0 else 1) +
        (if st.invtbl (rd buf (p + 1)) < 16 then 0 else 1) +
        (if st.invtbl (rd buf (p + 2)) < 16 then 0 else 1) +
        (if st.invtbl (rd buf (p + 3)) < 16 then 0 else 1) ≤ 16) := by
  have e2 : p + 1 + 1 = p + 2 := by omega
  have e3 : p + 1 + 1 + 1 = p + 3 := by omega
  by_cases hge : p + 4 ≥ e
  · simp only [next_n_in_tbl, if_pos hge]
    constructor
    · intro h; cases h
    · intro h; omega
  · simp only [next_n_in_tbl, if_neg hge, count_in_tbl, e2, e3]
    by_cases h0 : st.invtbl (rd buf p) < 16 <;>
      by_cases h1 : st.invtbl (rd buf (p + 1)) < 16 <;>
      by_cases h2 : st.invtbl (rd buf (p + 2)) < 16 <;>
      by_cases h3 : st.invtbl (rd buf (p + 3)) < 16 <;>
      simp [h0, h1, h2, h3] <;> omega

theorem pack_pairs_length : ∀ (k : Nat) (l : List Nat), l.length = 2 * k →
    (pack_pairs l).length = k := by
  intro k
  induction k with
  | zero =>
    intro l hl
    have : l = [] := List.length_eq_zero.mp (by omega)
    subst this
    rfl
  | succ k ih =>
    intro l hl
    match l, hl with
    | a :: b :: rest, hl =>
      rw [pack_pairs_two, List.length_cons, ih rest (by simp only [List.length_cons] at hl; omega)]
    | [_], hl => simp only [List.length_cons, List.length_nil] at hl; omega
    | [], hl => simp only [List.length_nil] at hl; omega

/-- The first four calls of a table pass and the bytes stored for them. -/
theorem table_group_head (buf : List Nat) (fin : TblState) (g : Group) (hk : g.kind = .table)
    (hg : GroupOk buf fin g) :
    ∃ op i0 i1 i2 i3 more,
      g.out = op :: (((i0 <<< 4) % 256) ||| i1) :: (((i2 <<< 4) % 256) ||| i3) :: more ∧
      0x41 ≤ op ∧ op ≤ 0x7f ∧ op = 0x41 + more.length ∧
      i0 < 16 ∧ i1 < 16 ∧ i2 < 16 ∧ i3 < 16 ∧
      (i0 : Int) < fin.tbllen ∧ (i1 : Int) < fin.tbllen ∧ (i2 : Int) < fin.tbllen ∧
      (i3 : Int) < fin.tbllen ∧
      fin.tbl i0 = rd buf g.pos ∧ fin.tbl i1 = rd buf (g.pos + 1) ∧
      fin.tbl i2 = rd buf (g.pos + 2) ∧ fin.tbl i3 = rd buf (g.pos + 3) := by
  obtain ⟨_, ⟨op, o1, o2, o3, o4⟩, o5, o6, _⟩ := hg.2.1 hk
  generalize g.calls = calls at o1 o4 o5 o6
  match calls, o4 with
  | c0 :: c1 :: c2 :: c3 :: rest, o4 =>
    have h0 := o6 c0 (by simp)
    have h1 := o6 c1 (by simp)
    have h2 := o6 c2 (by simp)
    have h3 := o6 c3 (by simp)
    have hl : rest.length = 2 * (op - 0x41) := by
      simp only [List.length_cons] at o4
      omega
    have hs : seg buf g.pos (c0 :: c1 :: c2 :: c3 :: rest).length =
        rd buf g.pos :: rd buf (g.pos + 1) :: rd buf (g.pos + 2) :: rd buf (g.pos + 3) ::
          seg buf (g.pos + 4) rest.length := by
      have : (c0 :: c1 :: c2 :: c3 :: rest).length = 4 + rest.length := by
        simp only [List.length_cons]; omega
      rw [this, seg_add]
      simp only [seg, List.cons_append, List.nil_append]
    rw [hs] at o5
    simp only [List.map_cons, List.cons.injEq] at o5
    obtain ⟨f0, f1, f2, f3, _⟩ := o5
    refine ⟨op, c0.2, c1.2, c2.2, c3.2, pack_pairs (rest.map Prod.snd), ?_, o2, o3, ?_,
      h0.1, h1.1, h2.1, h3.1, h0.2.1, h1.2.1, h2.2.1, h3.2.1, ?_, ?_, ?_, ?_⟩
    · rw [o1]
      simp only [List.map_cons, pack_pairs_two]
    · rw [pack_pairs_length (op - 0x41) _ (by rw [List.length_map]; exact hl)]
      omega
    · rw [h0.2.2, f0]
    · rw [h1.2.2, f1]
    · rw [h2.2.2, f2]
    · rw [h3.2.2, f3]
  | [], o4 => simp only [List.length_nil] at o4; omega
  | [_], o4 => simp only [List.length_cons, List.length_nil] at o4; omega
  | [_, _], o4 => simp only [List.length_cons, List.length_nil] at o4; omega
  | [_, _, _], o4 => simp only [List.length_cons, List.length_nil] at o4; omega

/-- C22, counterexample.  On the scanline 1, 2, 3, 4 no run starts at position 0, four
bytes remain (`p + 4 <= end`) and the empty table has room for all of them, yet the
only pass is a literal pass: the code asks for `p + 4 < end`.  On the scanline
0, ..., 14, 0, 200, 200, 1, 1, 9 the pass at position 16 finds a run of 2, five bytes
left, the table 0, ..., 14 with one free slot, and among the next four bytes only the
value 200 missing from it, yet it is a literal pass: the code counts a missing byte as
often as it occurs. -/
theorem table_branch_selection_counterexample :
    (get_len [1, 2, 3, 4] 0 4 < 3 ∧ 0 + 4 ≤ 4 ∧
      (scanline_trace [1, 2, 3, 4] 0 4 TblState.uninit).toOption.map
          (fun t => t.1.map (fun g => (g.kind, g.pos, g.out))) =
        some [(Branch.literal, 0, [3, 1, 2, 3, 4])] ∧
      (compress_scanline [1, 2, 3, 4] 0 4 TblState.uninit).toOption.map (fun r => r.1) =
        some [3, 1, 2, 3, 4]) ∧
    (get_len (List.range 15 ++ [0, 200, 200, 1, 1, 9]) 16 21 < 3 ∧ 16 + 4 < 21 ∧
      ((seg (List.range 15 ++ [0, 200, 200, 1, 1, 9]) 16 4).filter
          (fun b => b ∉ List.range 15)).dedup.length ≤ 16 - (List.range 15).length ∧
      (scanline_trace (List.range 15 ++ [0, 200, 200, 1, 1, 9]) 0 21
          TblState.uninit).toOption.map
          (fun t => (t.1.map (fun g => (g.kind, g.pos, g.out)), table t.2)) =
        some ([(Branch.table, 0, [0x47, 0x01, 0x23, 0x45, 0x67, 0x89, 0xab, 0xcd, 0xe0]),
          (Branch.literal, 16, [4, 200, 200, 1, 1, 9])], List.range 15)) := by
  decide

/-- C22, amended.  Table branch selection: a pass of the main loop of
`compress_scanline` that starts at a position `p < end` where fewer than 3 equal bytes
start is a table pass exactly when four bytes lie before the last byte of the scanline
(`p + 4 < end`) and `tbllen` plus the number of those of the next four positions whose
byte is not in the table is at most 16.  A table pass stores an opcode 0x41, ..., 0x7F,
which is 0x41 plus the number of further bytes of the group, followed by the two bytes
`(i0 << 4) | i1` and `(i2 << 4) | i3`, where `i0`, ..., `i3` are indices below 16 and
below the final `tbllen` at which the table holds the bytes at `p`, ..., `p + 3`.  The
loop returns when at most `f + 1` bytes and fewer than 4095 are left. -/
theorem table_branch_selection (buf : List Nat) (e f p : Nat) (st : TblState)
    (hb : ∀ b ∈ buf, b < 256) (hst : TblInv st) (hp : p < e) (hn : get_len buf p e < 3) :
    (e - p ≤ f + 1 → e - p < 4095 → ∃ t, compress_trace buf e (f + 1) p st = .ok t) ∧
    ∀ t, compress_trace buf e (f + 1) p st = .ok t →
      ∃ g rest, t.1 = g :: rest ∧ g.pos = p ∧ g.n = get_len buf p e ∧
        (∃ r, compress_loop buf e (f + 1) p st = .ok r ∧ r.1 = g.out ++ out_bytes rest) ∧
        (g.kind = .table ↔
          (p + 4 < e ∧ st.tbllen + (if st.invtbl (rd buf p) < 16 then 0 else 1) +
            (if st.invtbl (rd buf (p + 1)) < 16 then 0 else 1) +
            (if st.invtbl (rd buf (p + 2)) < 16 then 0 else 1) +
            (if st.invtbl (rd buf (p + 3)) < 16 then 0 else 1) ≤ 16)) ∧
        (g.kind = .table →
          ∃ op i0 i1 i2 i3 more,
            g.out = op :: (((i0 <<< 4) % 256) ||| i1) :: (((i2 <<< 4) % 256) ||| i3) :: more ∧
            0x41 ≤ op ∧ op ≤ 0x7f ∧ op = 0x41 + more.length ∧
            i0 < 16 ∧ i1 < 16 ∧ i2 < 16 ∧ i3 < 16 ∧
            (i0 : Int) < t.2.tbllen ∧ (i1 : Int) < t.2.tbllen ∧ (i2 : Int) < t.2.tbllen ∧
            (i3 : Int) < t.2.tbllen ∧
            t.2.tbl i0 = rd buf p ∧ t.2.tbl i1 = rd buf (p + 1) ∧
            t.2.tbl i2 = rd buf (p + 2) ∧ t.2.tbl i3 = rd buf (p + 3)) := by
  have hsame := compress_trace_loop buf e (f + 1) p st
  constructor
  · intro hf hW
    obtain ⟨r, hr, _⟩ := compress_loop_spec buf e (rd_lt buf hb) (f + 1) p st hst hf hW
    rw [hr] at hsame
    generalize compress_trace buf e (f + 1) p st = A at hsame
    cases A with
    | ok t => exact ⟨t, rfl⟩
    | error x => exact absurd hsame (by simp [SameRun])
  · intro t ht
    have hspec := compress_trace_spec buf e (rd_lt buf hb) (f + 1) p st t hst ht
    have hloop : ∀ g rest, t.1 = g :: rest →
        ∃ r, compress_loop buf e (f + 1) p st = .ok r ∧ r.1 = g.out ++ out_bytes rest := by
      intro g rest hg
      rw [ht] at hsame
      generalize compress_loop buf e (f + 1) p st = B at hsame
      cases B with
      | ok r =>
        refine ⟨r, rfl, ?_⟩
        have := hsame.1
        rw [this, hg]
        rfl
      | error x => exact absurd hsame (by simp [SameRun])
    have hhead : ∀ g rest, t.1 = g :: rest → g.pos = p → g.kind = .table →
        ∃ op i0 i1 i2 i3 more,
            g.out = op :: (((i0 <<< 4) % 256) ||| i1) :: (((i2 <<< 4) % 256) ||| i3) :: more ∧
            0x41 ≤ op ∧ op ≤ 0x7f ∧ op = 0x41 + more.length ∧
            i0 < 16 ∧ i1 < 16 ∧ i2 < 16 ∧ i3 < 16 ∧
            (i0 : Int) < t.2.tbllen ∧ (i1 : Int) < t.2.tbllen ∧ (i2 : Int) < t.2.tbllen ∧
            (i3 : Int) < t.2.tbllen ∧
            t.2.tbl i0 = rd buf p ∧ t.2.tbl i1 = rd buf (p + 1) ∧
            t.2.tbl i2 = rd buf (p + 2) ∧ t.2.tbl i3 = rd buf (p + 3) := by
      intro g rest hg hpos hk
      have hG := (hspec.2.2 g (by rw [hg]; exact List.mem_cons_self _ _)).1
      have := table_group_head buf t.2 g hk hG
      rw [hpos] at this
      exact this
    rcases compress_trace_succ buf e f p st t ht with ⟨h1, _⟩ | ⟨_, h2 | h2 | h2⟩
    · exact absurd hp h1
    · omega
    · obtain ⟨_, h4, r, _, hr⟩ := h2
      obtain ⟨g, ht1, hpos, hnn, hkind⟩ : ∃ g, t.1 = g :: r.1 ∧ g.pos = p ∧
          g.n = get_len buf p e ∧ g.kind = .table := ⟨_, congrArg Prod.fst hr, rfl, rfl, rfl⟩
      exact ⟨g, r.1, ht1, hpos, hnn, hloop g r.1 ht1,
        ⟨fun _ => (next4_iff buf st p e).mp h4, fun _ => hkind⟩, hhead g r.1 ht1 hpos⟩
    · obtain ⟨_, h4, r, _, hr⟩ := h2
      obtain ⟨g, ht1, hpos, hnn, hkind⟩ : ∃ g, t.1 = g :: r.1 ∧ g.pos = p ∧
          g.n = get_len buf p e ∧ g.kind = .literal := ⟨_, congrArg Prod.fst hr, rfl, rfl, rfl⟩
      exact ⟨g, r.1, ht1, hpos, hnn, hloop g r.1 ht1,
        ⟨fun hk => (by rw [hkind] at hk; cases hk),
          fun hc => absurd ((next4_iff buf st p e).mpr hc) h4⟩,
        fun hk => (by rw [hkind] at hk; cases hk)⟩

/-- The pass at position 0 of the scanline 1, 2, 3, 4, 5, 1, 9, 9, 9. -/
theorem table_branch_selection_witness :
    (∀ b ∈ [1, 2, 3, 4, 5, 1, 9, 9, 9], b < 256) ∧ 0 < 9 ∧
    get_len [1, 2, 3, 4, 5, 1, 9, 9, 9] 0 9 < 3 ∧
    ((9 - 0 ≤ 8 + 1 → 9 - 0 < 4095 →
      ∃ t, compress_trace [1, 2, 3, 4, 5, 1, 9, 9, 9] 9 (8 + 1) 0
        (clear_tables TblState.uninit) = .ok t) ∧
    ∀ t, compress_trace [1, 2, 3, 4, 5, 1, 9, 9, 9] 9 (8 + 1) 0
        (clear_tables TblState.uninit) = .ok t →
      ∃ g rest, t.1 = g :: rest ∧ g.pos = 0 ∧ g.n = get_len [1, 2, 3, 4, 5, 1, 9, 9, 9] 0 9 ∧
        (∃ r, compress_loop [1, 2, 3, 4, 5, 1, 9, 9, 9] 9 (8 + 1) 0
            (clear_tables TblState.uninit) = .ok r ∧ r.1 = g.out ++ out_bytes rest) ∧
        (g.kind = .table ↔
          (0 + 4 < 9 ∧ (clear_tables TblState.uninit).tbllen +
            (if (clear_tables TblState.uninit).invtbl (rd [1, 2, 3, 4, 5, 1, 9, 9, 9] 0) < 16
              then 0 else 1) +
            (if (clear_tables TblState.uninit).invtbl
              (rd [1, 2, 3, 4, 5, 1, 9, 9, 9] (0 + 1)) < 16 then 0 else 1) +
            (if (clear_tables TblState.uninit).invtbl
              (rd [1, 2, 3, 4, 5, 1, 9, 9, 9] (0 + 2)) < 16 then 0 else 1) +
            (if (clear_tables TblState.uninit).invtbl
              (rd [1, 2, 3, 4, 5, 1, 9, 9, 9] (0 + 3)) < 16 then 0 else 1) ≤ 16)) ∧
        (g.kind = .table →
          ∃ op i0 i1 i2 i3 more,
            g.out = op :: (((i0 <<< 4) % 256) ||| i1) :: (((i2 <<< 4) % 256) ||| i3) :: more ∧
            0x41 ≤ op ∧ op ≤ 0x7f ∧ op = 0x41 + more.length ∧
            i0 < 16 ∧ i1 < 16 ∧ i2 < 16 ∧ i3 < 16 ∧
            (i0 : Int) < t.2.tbllen ∧ (i1 : Int) < t.2.tbllen ∧ (i2 : Int) < t.2.tbllen ∧
            (i3 : Int) < t.2.tbllen ∧
            t.2.tbl i0 = rd [1, 2, 3, 4, 5, 1, 9, 9, 9] 0 ∧
            t.2.tbl i1 = rd [1, 2, 3, 4, 5, 1, 9, 9, 9] (0 + 1) ∧
            t.2.tbl i2 = rd [1, 2, 3, 4, 5, 1, 9, 9, 9] (0 + 2) ∧
            t.2.tbl i3 = rd [1, 2, 3, 4, 5, 1, 9, 9, 9] (0 + 3))) :=
  ⟨by decide, by decide, by decide,
    table_branch_selection [1, 2, 3, 4, 5, 1, 9, 9, 9] 9 8 0 (clear_tables TblState.uninit)
      (by decide) (clear_tables_inv TblState.uninit (Or.inr rfl)) (by decide) (by decide)⟩

/-! ## Checkerboard scanlines -/

/-- A table pass of the main loop, from the passes that follow it. -/
theorem compress_trace_table (buf : List Nat) (e f p : Nat) (st : TblState)
    (r : List Group × TblState) (hp : p < e) (hn : ¬ get_len buf p e > 2)
    (h4 : next_n_in_tbl buf st p 4 e = true)
    (hr : compress_trace buf e f
        (tbl_more buf e (0x7f - 0x41) 0x41 (p + 4)
          (tbl_pair buf (tbl_pair buf st p).2 (p + 2)).2).2.2.2.1
        (tbl_more buf e (0x7f - 0x41) 0x41 (p + 4)
          (tbl_pair buf (tbl_pair buf st p).2 (p + 2)).2).2.2.2.2 = .ok r) :
    ∃ g, compress_trace buf e (f + 1) p st = .ok (g :: r.1, r.2) ∧ g.kind = .table ∧
      g.pos = p ∧
      g.out = (tbl_more buf e (0x7f - 0x41) 0x41 (p + 4)
          (tbl_pair buf (tbl_pair buf st p).2 (p + 2)).2).1 :: (tbl_pair buf st p).1 ::
        (tbl_pair buf (tbl_pair buf st p).2 (p + 2)).1 ::
        (tbl_more buf e (0x7f - 0x41) 0x41 (p + 4)
          (tbl_pair buf (tbl_pair buf st p).2 (p + 2)).2).2.1 := by
  have h : compress_trace buf e (f + 1) p st =
      .ok ({ kind := .table, pos := p, n := get_len buf p e,
             out := (tbl_more buf e (0x7f - 0x41) 0x41 (p + 4)
                 (tbl_pair buf (tbl_pair buf st p).2 (p + 2)).2).1 :: (tbl_pair buf st p).1 ::
               (tbl_pair buf (tbl_pair buf st p).2 (p + 2)).1 ::
               (tbl_more buf e (0x7f - 0x41) 0x41 (p + 4)
                 (tbl_pair buf (tbl_pair buf st p).2 (p + 2)).2).2.1,
             calls := tbl_pair_calls buf st p ++
               tbl_pair_calls buf (tbl_pair buf st p).2 (p + 2) ++
               tbl_more_calls buf e (0x7f - 0x41) 0x41 (p + 4)
                 (tbl_pair buf (tbl_pair buf st p).2 (p + 2)).2,
             next := (tbl_more buf e (0x7f - 0x41) 0x41 (p + 4)
                 (tbl_pair buf (tbl_pair buf st p).2 (p + 2)).2).2.2.2.1 } :: r.1, r.2) := by
    rw [compress_trace, if_pos hp]
    simp only
    rw [if_neg hn, if_pos h4, hr]
  exact ⟨_, h, rfl, rfl, rfl⟩

/-- A literal pass of the main loop, from the passes that follow it. -/
theorem compress_trace_literal (buf : List Nat) (e f p : Nat) (st : TblState)
    (r : List Group × TblState) (hp : p < e) (hn : ¬ get_len buf p e > 2)
    (h4 : ¬ next_n_in_tbl buf st p 4 e = true)
    (hr : compress_trace buf e f (lit_loop buf e st 9 0xff p).2.2.2 st = .ok r) :
    ∃ g, compress_trace buf e (f + 1) p st = .ok (g :: r.1, r.2) ∧ g.kind = .literal ∧
      g.pos = p ∧
      g.out = (lit_loop buf e st 9 0xff p).1 :: (lit_loop buf e st 9 0xff p).2.1 := by
  have h : compress_trace buf e (f + 1) p st =
      .ok ({ kind := .literal, pos := p, n := get_len buf p e,
             out := (lit_loop buf e st 9 0xff p).1 :: (lit_loop buf e st 9 0xff p).2.1,
             calls := [], next := (lit_loop buf e st 9 0xff p).2.2.2 } :: r.1, r.2) := by
    rw [compress_trace, if_pos hp]
    simp only
    rw [if_neg hn, if_neg h4, hr]
  exact ⟨_, h, rfl, rfl, rfl⟩

/-- Where no two neighbours are equal, `get_len` finds a run of one byte. -/
theorem get_len_alt (buf : List Nat) (e : Nat)
    (h1 : ∀ i, i + 1 < e → rd buf (i + 1) ≠ rd buf i) (p e' : Nat) (he : e' ≤ e) :
    get_len buf p e' = 1 := by
  obtain ⟨g1, g2, g3, g4⟩ := get_len_spec buf p e'
  by_cases hp : p < e'
  · by_contra hne
    have h2 : 1 < get_len buf p e' := by omega
    have := g2 hp
    exact h1 p (by omega) (g4 1 h2)
  · exact g3 (by omega)

theorem add_tbl_known (st : TblState) (b : Nat) (h : st.invtbl b < 16) :
    add_tbl st b = (st.invtbl b, st) := by
  rw [add_tbl, if_pos (Or.inl h)]

theorem tbl_pair_known (buf : List Nat) (st : TblState) (p : Nat)
    (h0 : st.invtbl (rd buf p) < 16) (h1 : st.invtbl (rd buf (p + 1)) < 16) :
    (tbl_pair buf st p).2 = st := by
  rw [tbl_pair]
  simp only [add_tbl_known st _ h0, add_tbl_known st _ h1]

/-- The extension loop of the table branch on bytes that are all in the table: the
globals stay, the opcode counts the pairs added, the position stays before `end`. -/
theorem tbl_more_known (buf : List Nat) (e : Nat) (st : TblState)
    (h2 : ∀ i, i < e → st.invtbl (rd buf i) < 16) : ∀ k q p, q ≤ 0x7f → p < e →
    (tbl_more buf e k q p st).2.2.2.2 = st ∧ (tbl_more buf e k q p st).2.2.2.1 < e ∧
      p ≤ (tbl_more buf e k q p st).2.2.2.1 ∧
      q ≤ (tbl_more buf e k q p st).1 ∧ (tbl_more buf e k q p st).1 ≤ 0x7f ∧
      (tbl_more buf e k q p st).2.1.length + q = (tbl_more buf e k q p st).1 := by
  intro k
  induction k with
  | zero =>
    intro q p hq hp
    rw [tbl_more]
    exact ⟨rfl, hp, le_refl _, le_refl _, hq, by simp⟩
  | succ k ih =>
    intro q p hq hp
    rw [tbl_more]
    by_cases hc : next_n_in_tbl buf st p 2 e = true ∧ q < 0x7f
    · rw [if_pos hc]
      by_cases hg : get_len buf p (min (p + 3) e) ≥ 3
      · rw [if_pos hg]
        exact ⟨rfl, hp, le_refl _, le_refl _, hq, by simp⟩
      · rw [if_neg hg]
        have hlt : p + 2 < e := by
          by_contra hh
          have := hc.1
          rw [next_n_in_tbl, if_pos (by omega)] at this
          cases this
        have hs : (tbl_pair buf st p).2 = st :=
          tbl_pair_known buf st p (h2 p (by omega)) (h2 (p + 1) (by omega))
        have hq1 : (q + 1) % 256 = q + 1 := by omega
        simp only [hs, hq1]
        obtain ⟨a, b, c, d, d2, d3⟩ := ih (q + 1) (p + 2) (by omega) hlt
        refine ⟨a, b, by omega, by omega, d2, ?_⟩
        rw [List.length_cons]
        omega
    · rw [if_neg hc]
      exact ⟨rfl, hp, le_refl _, le_refl _, hq, by simp⟩

/-- The literal loop on the last one to four bytes of a scanline in which no two
neighbours are equal: it takes them all. -/
theorem lit_loop_tail (buf : List Nat) (e : Nat) (st : TblState)
    (h1 : ∀ i, i + 1 < e → rd buf (i + 1) ≠ rd buf i) : ∀ k q p, p < e → e ≤ p + 4 →
    e - p ≤ k + 1 → (q + 1) % 256 + (e - p) ≤ 9 →
    lit_loop buf e st k q p = ((q + 1) % 256 + (e - p - 1), seg buf p (e - p), e - p, e) := by
  intro k
  induction k with
  | zero =>
    intro q p hp h4 hk hq
    have he : e - p = 1 := by omega
    rw [lit_loop, he]
    simp only [seg]
    have : e = p + 1 := by omega
    rw [this]
    rfl
  | succ k ih =>
    intro q p hp h4 hk hq
    rw [lit_loop]
    have hg : ¬ get_len buf (p + 1) (min (p + 1 + 3) e) ≥ 3 := by
      rw [get_len_alt buf e h1 (p + 1) _ (Nat.min_le_right _ _)]
      omega
    have hn : ¬ next_n_in_tbl buf st (p + 1) 4 e = true := by
      rw [next_n_in_tbl, if_pos (by omega)]
      simp
    rw [if_neg hg, if_neg hn]
    by_cases hc : p + 1 < e ∧ (q + 1) % 256 < 9
    · rw [if_pos hc]
      have hq1 : ((q + 1) % 256 + 1) % 256 = (q + 1) % 256 + 1 := by omega
      rw [ih ((q + 1) % 256) (p + 1) hc.1 (by omega) (by omega) (by omega)]
      simp only [hq1]
      have hs : e - p = (e - (p + 1)) + 1 := by omega
      rw [hs]
      simp only [seg]
      have e1 : (q + 1) % 256 + 1 + (e - (p + 1) - 1) = (q + 1) % 256 + (e - (p + 1) + 1 - 1) := by
        omega
      rw [e1]
    · rw [if_neg hc]
      have he : e - p = 1 := by omega
      rw [he]
      simp only [seg]
      have : e = p + 1 := by omega
      rw [this]
      rfl

/-- The passes of the main loop on a scanline in which no two neighbours are equal and
every byte is in the table: table passes, then one literal pass for the last one to four
bytes; the globals stay. -/
theorem alt_trace (buf : List Nat) (e : Nat) (st : TblState) (hl : st.tbllen ≤ 16)
    (h1 : ∀ i, i + 1 < e → rd buf (i + 1) ≠ rd buf i)
    (h2 : ∀ i, i < e → st.invtbl (rd buf i) < 16) : ∀ f p, p < e → e - p ≤ f →
    ∃ gs last, compress_trace buf e f p st = .ok (gs ++ [last], st) ∧
      (∀ g ∈ gs, g.kind = .table ∧ ∃ op rest, g.out = op :: rest ∧ 0x41 ≤ op ∧ op ≤ 0x7f ∧
        rest.length = op - 0x41 + 2) ∧
      last.kind = .literal ∧
      ∃ m, 1 ≤ m ∧ m ≤ 4 ∧ last.out = (m - 1) :: seg buf (e - m) m := by
  intro f
  induction f with
  | zero => intro p hp hf; omega
  | succ f ih =>
    intro p hp hf
    have hn : ¬ get_len buf p e > 2 := by
      rw [get_len_alt buf e h1 p e (le_refl _)]
      omega
    by_cases h4 : next_n_in_tbl buf st p 4 e = true
    · have hlt := ((next4_iff buf st p e).mp h4).1
      have ha : (tbl_pair buf st p).2 = st :=
        tbl_pair_known buf st p (h2 p (by omega)) (h2 (p + 1) (by omega))
      have hb : (tbl_pair buf st (p + 2)).2 = st :=
        tbl_pair_known buf st (p + 2) (h2 (p + 2) (by omega)) (h2 (p + 2 + 1) (by omega))
      obtain ⟨m1, m2, m3, m4, m5, m6⟩ :=
        tbl_more_known buf e st h2 (0x7f - 0x41) 0x41 (p + 4) (by omega) hlt
      obtain ⟨gs, last, hr, hgs, hlast⟩ :=
        ih (tbl_more buf e (0x7f - 0x41) 0x41 (p + 4) st).2.2.2.1 m2 (by omega)
      obtain ⟨g, hg, hk, _, ho⟩ := compress_trace_table buf e f p st (gs ++ [last], st) hp hn h4
        (by rw [ha, hb, m1]; exact hr)
      rw [ha, hb] at ho
      refine ⟨g :: gs, last, by rw [hg]; rfl, ?_, hlast⟩
      intro g' hg'
      rcases List.mem_cons.mp hg' with hh | hh
      · rw [hh]
        refine ⟨hk, _, _, ho, m4, m5, ?_⟩
        simp only [List.length_cons]
        omega
      · exact hgs g' hh
    · have hge : e ≤ p + 4 := by
        by_contra hh
        apply h4
        rw [next4_iff]
        refine ⟨by omega, ?_⟩
        rw [if_pos (h2 p (by omega)), if_pos (h2 (p + 1) (by omega)),
          if_pos (h2 (p + 2) (by omega)), if_pos (h2 (p + 3) (by omega))]
        omega
      have hlit := lit_loop_tail buf e st h1 9 0xff p hp hge (by omega) (by omega)
      obtain ⟨g, hg, hk, _, ho⟩ := compress_trace_literal buf e f p st ([], st) hp hn h4
        (by rw [hlit]; exact compress_trace_end buf e f e st (lt_irrefl e))
      rw [hlit] at ho
      refine ⟨[], g, by rw [hg]; rfl, fun g' hg' => (by cases hg'), hk, e - p, by omega,
        by omega, ?_⟩
      rw [ho]
      have e1 : (0xff + 1) % 256 + (e - p - 1) = e - p - 1 := by omega
      have e2 : e - (e - p) = p := by omega
      simp only [e1, e2]

theorem rd_checker (W i : Nat) (h : i < W) :
    rd (checker W) i = if i % 2 = 0 then 0xaa else 0x55 := by
  unfold rd checker
  rw [List.getD_eq_getElem?_getD, List.getElem?_map, List.getElem?_range h]
  rfl

theorem checker_alt (W : Nat) :
    ∀ i, i + 1 < W → rd (checker W) (i + 1) ≠ rd (checker W) i := by
  intro i hi
  rw [rd_checker W (i + 1) hi, rd_checker W i (by omega)]
  by_cases h : i % 2 = 0
  · rw [if_pos h, if_neg (by omega)]
    decide
  · rw [if_neg h, if_pos (by omega)]
    decide

/-- The first pair of `add_tbl` calls on a checkerboard scanline, from the cleared
table. -/
theorem checker_first (W : Nat) (st : TblState) (hW : 2 ≤ W) (hinv : TblInv st)
    (h0 : st.tbllen = 0) :
    (tbl_pair (checker W) st 0).2.tbllen = 2 ∧
    table (tbl_pair (checker W) st 0).2 = [0xaa, 0x55] ∧
    (tbl_pair (checker W) st 0).2.invtbl 0xaa < 16 ∧
    (tbl_pair (checker W) st 0).2.invtbl 0x55 < 16 := by
  have ha : st.invtbl 0xaa = 0xff := hinv.2.2.2 0xaa (by omega) (fun i hi => by omega)
  have hb : st.invtbl 0x55 = 0xff := hinv.2.2.2 0x55 (by omega) (fun i hi => by omega)
  have r0 : rd (checker W) 0 = 0xaa := by rw [rd_checker W 0 (by omega)]; rfl
  have r1 : rd (checker W) (0 + 1) = 0x55 := by rw [rd_checker W (0 + 1) (by omega)]; rfl
  rw [tbl_pair]
  simp only [r0, r1]
  have s1 : add_tbl st 0xaa =
      (0, (⟨1, Function.update st.tbl 0 0xaa, Function.update st.invtbl 0xaa 0⟩ : TblState)) := by
    rw [add_tbl, if_neg (by rw [ha, h0]; omega), h0]
    rfl
  rw [s1]
  simp only
  have s2 : add_tbl (⟨1, Function.update st.tbl 0 0xaa,
        Function.update st.invtbl 0xaa 0⟩ : TblState) 0x55 =
      (1, (⟨2, Function.update (Function.update st.tbl 0 0xaa) 1 0x55,
        Function.update (Function.update st.invtbl 0xaa 0) 0x55 1⟩ : TblState)) := by
    rw [add_tbl]
    simp only
    rw [Function.update_noteq (by decide), hb, if_neg (by omega)]
    rfl
  rw [s2]
  refine ⟨rfl, ?_, ?_, ?_⟩
  · simp only [table]
    have : (2 : Int).toNat = 2 := rfl
    rw [this]
    simp only [List.range_succ, List.range_zero, List.nil_append, List.cons_append,
      List.map_cons, List.map_nil]
    rw [Function.update_noteq (by decide), Function.update_same, Function.update_same]
  · simp only
    rw [Function.update_noteq (by decide), Function.update_same]
    omega
  · simp only
    rw [Function.update_same]
    omega

/-- The result of `compress_scanline`, from the passes of its main loop. -/
theorem scanline_trace_run (buf : List Nat) (p e : Nat) (st : TblState)
    (t : List Group × TblState) (h : scanline_trace buf p e st = .ok t) :
    ∃ r, compress_scanline buf p e st = .ok r ∧ r.1 = out_bytes t.1 ∧ r.2.2 = t.2 := by
  have := compress_trace_loop buf e (e - p) p (clear_tables st)
  rw [scanline_trace] at h
  rw [h] at this
  rw [compress_scanline]
  generalize compress_loop buf e (e - p) p (clear_tables st) = B at this ⊢
  cases B with
  | ok r => exact ⟨r, rfl, this.1, this.2⟩
  | error x => exact absurd this (by simp [SameRun])

/-- C26, counterexample.  The checkerboard scanline of 5 bytes is compressed to the table
group 0x41, 0x01, 0x01 and the literal group 0x00, 0xAA: the opcode byte 0x00 of the
stream is not in the range 0x41..0x7F. -/
theorem checkerboard_counterexample :
    (scanline_trace (checker 5) 0 5 TblState.uninit).toOption.map
        (fun t => (t.1.map (fun g => (g.kind, g.out)), table t.2)) =
      some ([(Branch.table, [0x41, 0x01, 0x01]), (Branch.literal, [0x00, 0xaa])],
        [0xaa, 0x55]) ∧
    (compress_scanline (checker 5) 0 5 TblState.uninit).toOption.map (fun r => r.1) =
      some [0x41, 0x01, 0x01, 0x00, 0xaa] := by
  decide

/-- C26, amended.  Checkerboard scanline (scenario S3): for every scanline of length
`W >= 5` whose bytes alternate 0xAA, 0x55, 0xAA, 0x55, ..., `compress_scanline` returns,
ends with exactly two table entries (`tbl = [0xAA, 0x55]`, `tbllen = 2`), and its stream
is made of one or more table groups, each an opcode in the range 0x41..0x7F followed by
`opcode - 0x41 + 2` index bytes, and then one literal group, whose opcode byte `m - 1` is
in 0..3 and is followed by the last `m` bytes of the scanline. -/
theorem checkerboard (W : Nat) (st : TblState) (hW : 5 ≤ W)
    (hst : TblInv st ∨ st.tbllen = -1) :
    ∃ r gs last, compress_scanline (checker W) 0 W st = .ok r ∧
      scanline_trace (checker W) 0 W st = .ok (gs ++ [last], r.2.2) ∧
      r.1 = out_bytes (gs ++ [last]) ∧
      r.2.2.tbllen = 2 ∧ table r.2.2 = [0xaa, 0x55] ∧ gs ≠ [] ∧
      (∀ g ∈ gs, g.kind = .table ∧ ∃ op rest, g.out = op :: rest ∧ 0x41 ≤ op ∧ op ≤ 0x7f ∧
        rest.length = op - 0x41 + 2) ∧
      last.kind = .literal ∧
      ∃ m, 1 ≤ m ∧ m ≤ 4 ∧ last.out = (m - 1) :: seg (checker W) (W - m) m := by
  have hinv0 := clear_tables_inv st hst
  have h00 : (clear_tables st).tbllen = 0 := rfl
  obtain ⟨c1, c2, c3, c4⟩ := checker_first W (clear_tables st) (by omega) hinv0 h00
  have hn : ¬ get_len (checker W) 0 W > 2 := by
    rw [get_len_alt (checker W) W (checker_alt W) 0 W (le_refl _)]
    omega
  have h4 : next_n_in_tbl (checker W) (clear_tables st) 0 4 W = true := by
    rw [next4_iff, h00]
    refine ⟨by omega, ?_⟩
    have k : ∀ c : Prop, ∀ [Decidable c], (if c then (0 : Int) else 1) ≤ 1 := by
      intro c _
      split <;> omega
    have k0 := k ((clear_tables st).invtbl (rd (checker W) 0) < 16)
    have k1 := k ((clear_tables st).invtbl (rd (checker W) (0 + 1)) < 16)
    have k2 := k ((clear_tables st).invtbl (rd (checker W) (0 + 2)) < 16)
    have k3 := k ((clear_tables st).invtbl (rd (checker W) (0 + 3)) < 16)
    linarith
  have key := fun r => compress_trace_table (checker W) W (W - 1) 0 (clear_tables st) r
    (by omega) hn h4
  generalize (tbl_pair (checker W) (clear_tables st) 0).2 = st2 at key c1 c2 c3 c4
  have h2 : ∀ i, i < W → st2.invtbl (rd (checker W) i) < 16 := by
    intro i hi
    rw [rd_checker W i hi]
    split
    · exact c3
    · exact c4
  have hb : (tbl_pair (checker W) st2 (0 + 2)).2 = st2 :=
    tbl_pair_known (checker W) st2 (0 + 2) (h2 (0 + 2) (by omega)) (h2 (0 + 2 + 1) (by omega))
  obtain ⟨m1, m2, m3, m4, m5, m6⟩ :=
    tbl_more_known (checker W) W st2 h2 (0x7f - 0x41) 0x41 (0 + 4) (by omega) (by omega)
  obtain ⟨gs, last, hr, hgs, hlast⟩ := alt_trace (checker W) W st2 (by omega) (checker_alt W) h2
    (W - 1) (tbl_more (checker W) W (0x7f - 0x41) 0x41 (0 + 4) st2).2.2.2.1 m2 (by omega)
  obtain ⟨g, hg, hk, _, ho⟩ := key (gs ++ [last], st2) (by rw [hb, m1]; exact hr)
  rw [hb] at ho
  have ht : scanline_trace (checker W) 0 W st = .ok ((g :: gs) ++ [last], st2) := by
    have e1 : W - 0 = W - 1 + 1 := by omega
    rw [scanline_trace, e1, hg]
    rfl
  obtain ⟨r, hr1, hr2, hr3⟩ := scanline_trace_run (checker W) 0 W st _ ht
  simp only at hr2 hr3
  refine ⟨r, g :: gs, last, hr1, by rw [hr3]; exact ht, hr2, by rw [hr3]; exact c1,
    by rw [hr3]; exact c2, List.cons_ne_nil _ _, ?_, hlast⟩
  intro g' hg'
  rcases List.mem_cons.mp hg' with hh | hh
  · rw [hh]
    refine ⟨hk, _, _, ho, m4, m5, ?_⟩
    simp only [List.length_cons]
    omega
  · exact hgs g' hh

/-- The checkerboard scanline of 6 bytes, on a fresh compressor. -/
theorem checkerboard_witness :
    5 ≤ 6 ∧
    ∃ r gs last, compress_scanline (checker 6) 0 6 TblState.uninit = .ok r ∧
      scanline_trace (checker 6) 0 6 TblState.uninit = .ok (gs ++ [last], r.2.2) ∧
      r.1 = out_bytes (gs ++ [last]) ∧
      r.2.2.tbllen = 2 ∧ table r.2.2 = [0xaa, 0x55] ∧ gs ≠ [] ∧
      (∀ g ∈ gs, g.kind = .table ∧ ∃ op rest, g.out = op :: rest ∧ 0x41 ≤ op ∧ op ≤ 0x7f ∧
        rest.length = op - 0x41 + 2) ∧
      last.kind = .literal ∧
      ∃ m, 1 ≤ m ∧ m ≤ 4 ∧ last.out = (m - 1) :: seg (checker 6) (6 - m) m :=
  ⟨by decide, checkerboard 6 TblState.uninit (by decide) (Or.inr rfl)⟩

/-! ## Pages: a page lower than the margin -/

set_option maxRecDepth 1000000 in
set_option maxHeartbeats 4000000 in
/-- C30.  The last band's line count underflows on a low page: at 300 dpi (`res = 0`,
margin 96 pixels) the page `P4\n200 50\n` with its 1250 data bytes passes the small-page
test of `dojob` with the margins still enforced, because `y - skip` wraps around;
`ceil(50 / 8) = 7 < 65536`; the first seven blocks of `dopage` read 2, 0, ..., 0
scanlines and the eighth block reads none, which is fewer than `8 * skip = 48`; the value
`yy - 8 * skip` wraps around to 4294967248, the assertion `nlines < 65536` of
`send_raster_data` fails, and so `dojob` does not return. -/
theorem last_band_underflow :
    (page_head 0 (job_skip { Config.default with res := 0 }) 200 50).small = false ∧
    (page_head 0 (job_skip { Config.default with res := 0 }) 200 50).nomargins = 0 ∧
    page_skip { Config.default with res := 0 } 0 = 6 ∧
    50 / 8 + (if 50 &&& 7 ≠ 0 then 1 else 0) < 65536 ∧
    ((skip_top 25 48 ⟨List.replicate 1250 0, false⟩).toOption.bind (fun s =>
      (bands_loop 0 6 25 7 50 7 0 { inp := s, yc := 48, ecofl := 0, tbl := TblState.uninit }
        3).toOption.bind (fun r =>
          (band_loop 0 6 25 50 7 r.2.2.1).toOption.map (fun b =>
            (r.1.map (fun x => x.1), b.1.yy, (b.1.yy + 2 ^ 32 - 8 * 6) % 2 ^ 32))))) =
      some ([2, 0, 0, 0, 0, 0, 0], 0, 4294967248) ∧
    send_raster_data 10 4294967248 0 [] = .error .assertion ∧
    dojob { Config.default with res := 0 }
      ⟨[80, 52, 10, 50, 48, 48, 32, 53, 48, 10] ++ List.replicate 1250 0, false⟩ 0
      TblState.uninit = .error .assertion := by
  have hd : (match dojob { Config.default with res := 0 }
      ⟨[80, 52, 10, 50, 48, 48, 32, 53, 48, 10] ++ List.replicate 1250 0, false⟩ 0
      TblState.uninit with
      | .error e => some e
      | .ok _ => none) = some Fault.assertion := by decide
  refine ⟨by decide, by decide, by decide, by decide, by decide, rfl, ?_⟩
  rcases h : dojob { Config.default with res := 0 }
      ⟨[80, 52, 10, 50, 48, 48, 32, 53, 48, 10] ++ List.replicate 1250 0, false⟩ 0
      TblState.uninit with e | r
  · rw [h] at hd
    exact congrArg Except.error (Option.some.inj hd)
  · rw [h] at hd
    cases hd

/-! ## Pages: line counts and records of the eight blocks -/

theorem min_succ_sub (k y yc : Nat) (h : yc < y) :
    min k (y - (yc + 1)) + 1 = min (k + 1) (y - yc) := by
  omega

theorem kept_skip (yc y s m T : Nat) (hT : T = y + 1 - s) (h2 : yc + s > y) :
    min (yc + 1 + m) T - min (yc + 1) T = min (yc + (m + 1)) T - min yc T := by
  omega

theorem kept_keep (yc y s m T : Nat) (hT : T = y + 1 - s) (h2 : ¬ yc + s > y) :
    min (yc + 1 + m) T - min (yc + 1) T + 1 = min (yc + (m + 1)) T - min yc T := by
  omega

theorem min_step (yc c y a : Nat) : min (yc + min c (y - yc) + a) y = min (yc + c + a) y := by
  omega

theorem min_first (yc c y : Nat) : min c (y - yc) = min (yc + c) y - min yc y := by
  omega

theorem min_sum (yc c y a : Nat) :
    min c (y - yc) + (min (yc + c + a) y - min (yc + c) y) = min (yc + (a + c)) y - min yc y := by
  omega

theorem kept_first (yc c y T : Nat) :
    min (yc + min c (y - yc)) T - min yc T = min (min (yc + c) y) T - min (min yc y) T := by
  omega

/-- What one block counts: `yy` is the number of scanlines read, the block buffer is the
records of the scanlines compressed, and these are the scanlines read at positions `yc`
with `yc + 8 * skip <= y`. -/
theorem band_loop_acct (ecomode skip sclbytes y : Nat) : ∀ k st r,
    band_loop ecomode skip sclbytes y k st = .ok r →
      r.1.yy = min k (y - st.yc) ∧ r.2.yc = st.yc + min k (y - st.yc) ∧
      r.1.blbuf = (r.1.lines.map (fun l => l.record)).foldr (fun a b => a ++ b) [] ∧
      (y + skip * 8 < 2 ^ 32 →
        r.1.lines.length = min (st.yc + min k (y - st.yc)) (y + 1 - skip * 8) -
          min st.yc (y + 1 - skip * 8)) := by
  intro k
  induction k with
  | zero =>
    intro st r h
    rw [band_loop_zero] at h
    cases h
    simp
  | succ k ih =>
    intro st r h
    rcases band_loop_succ ecomode skip sclbytes y k st r h with ⟨h0, rfl⟩ |
      ⟨h0, _, ⟨h2, r', h1, rfl⟩ | ⟨h2, c, r', _, h1, rfl⟩⟩
    · have : y - st.yc = 0 := by omega
      simp [this]
    · obtain ⟨k1, k2, k3, k4⟩ := ih _ r' h1
      simp only at k1 k2 k3 k4 ⊢
      have hm := min_succ_sub k y st.yc h0
      rw [k1, k2, ← hm]
      refine ⟨rfl, by rw [Nat.add_assoc, Nat.add_comm 1], k3, ?_⟩
      intro hw
      have e : (st.yc + skip * 8) % 2 ^ 32 = st.yc + skip * 8 := Nat.mod_eq_of_lt (by omega)
      rw [e] at h2
      rw [k4 hw]
      exact kept_skip st.yc y (skip * 8) _ _ rfl h2
    · obtain ⟨k1, k2, k3, k4⟩ := ih _ r' h1
      simp only at k1 k2 k3 k4 ⊢
      have hm := min_succ_sub k y st.yc h0
      rw [k1, k2, ← hm]
      refine ⟨rfl, by rw [Nat.add_assoc, Nat.add_comm 1], ?_, ?_⟩
      · simp only [List.map_cons, List.foldr_cons]
        rw [k3]
      · intro hw
        have e : (st.yc + skip * 8) % 2 ^ 32 = st.yc + skip * 8 := Nat.mod_eq_of_lt (by omega)
        rw [e] at h2
        simp only [List.length_cons]
        rw [k4 hw]
        exact kept_keep st.yc y (skip * 8) _ _ rfl h2

/-- What the blocks of a page count, block `j` of the loop that starts at block `i` and
scanline `st.yc`. -/
theorem bands_loop_acct (ecomode skip sclbytes c y : Nat) : ∀ n i st sq r,
    bands_loop ecomode skip sclbytes c y n i st sq = .ok r →
      r.1.length = n ∧
      (r.1.map (fun b => b.2.yy)).sum = min (st.yc + n * c) y - min st.yc y ∧
      ∀ j b, r.1[j]? = some b →
        b.1 < 2 ^ 16 ∧
        b.2.yy = min (st.yc + (j + 1) * c) y - min (st.yc + j * c) y ∧
        b.1 = (if i + j = 7 then (b.2.yy + 2 ^ 32 - 8 * skip) % 2 ^ 32 else b.2.yy) ∧
        b.2.blbuf = (b.2.lines.map (fun l => l.record)).foldr (fun a b => a ++ b) [] ∧
        (y + skip * 8 < 2 ^ 32 →
          b.2.lines.length = min (min (st.yc + (j + 1) * c) y) (y + 1 - skip * 8) -
            min (min (st.yc + j * c) y) (y + 1 - skip * 8)) := by
  intro n
  induction n with
  | zero =>
    intro i st sq r h
    rw [bands_loop] at h
    cases h
    refine ⟨rfl, by simp, ?_⟩
    intro j b hb
    simp at hb
  | succ n ih =>
    intro i st sq r h
    obtain ⟨b, o, r', hb, ho, hr, rfl⟩ := bands_loop_succ ecomode skip sclbytes c y n i st sq r h
    obtain ⟨b1, b2, b3, b4⟩ := band_loop_acct ecomode skip sclbytes y c st b hb
    obtain ⟨k1, k2, k3⟩ := ih (i + 1) b.2 o.2 r' hr
    have hlt : (if i = 7 then (b.1.yy + 2 ^ 32 - 8 * skip) % 2 ^ 32 else b.1.yy) < 2 ^ 16 := by
      by_contra hh
      rw [send_raster_data, if_pos hh] at ho
      cases ho
    have hm := min_step st.yc c y
    rw [b2] at k2 k3
    refine ⟨by simp only [List.length_cons]; rw [k1], ?_, ?_⟩
    · simp only [List.map_cons, List.sum_cons]
      rw [k2, b1, Nat.succ_mul, hm (n * c)]
      have h0 := hm 0
      rw [Nat.add_zero, Nat.add_zero] at h0
      rw [h0]
      exact min_sum st.yc c y (n * c)
    · intro j b' hj
      cases j with
      | zero =>
        simp only [List.getElem?_cons_zero, Option.some.injEq] at hj
        subst hj
        simp only
        have e0 : (0 + 1) * c = c := by rw [Nat.zero_add, Nat.one_mul]
        have e00 : st.yc + 0 * c = st.yc := by rw [Nat.zero_mul, Nat.add_zero]
        rw [e0, e00]
        refine ⟨hlt, by rw [b1]; exact min_first st.yc c y, rfl, b3, ?_⟩
        intro hw
        rw [b4 hw]
        exact kept_first st.yc c y _
      | succ j =>
        simp only [List.getElem?_cons_succ] at hj
        obtain ⟨q1, q2, q3, q4, q5⟩ := k3 j b' hj
        have h1 := hm (j * c)
        have h2 := hm ((j + 1) * c)
        have e1 : (j + 1 + 1) * c = c + (j + 1) * c := by rw [Nat.succ_mul (j + 1) c]; omega
        have e2 : (j + 1) * c = c + j * c := by rw [Nat.succ_mul j c]; omega
        have e3 : i + 1 + j = i + (j + 1) := by omega
        rw [e3] at q3
        have e4 : st.yc + c + (c + j * c) = st.yc + (c + (c + j * c)) := by omega
        have e5 : st.yc + c + j * c = st.yc + (c + j * c) := by omega
        refine ⟨q1, ?_, q3, q4, ?_⟩
        · rw [q2, h1, h2, e1, e2, e4, e5]
        · intro hw
          rw [q5 hw, h1, h2, e1, e2, e4, e5]

theorem list_eight {α : Type} (l : List α) (h : l.length = 8) :
    ∃ b0 b1 b2 b3 b4 b5 b6 b7, l = [b0, b1, b2, b3, b4, b5, b6, b7] := by
  match l, h with
  | [b0, b1, b2, b3, b4, b5, b6, b7], _ => exact ⟨b0, b1, b2, b3, b4, b5, b6, b7, rfl⟩

/-- What the eight blocks of a page count. -/
theorem dopage_acct (cfg : Config) (nomargins : Nat) (inp : Stdin) (sq : Nat) (tbl : TblState)
    (x y : Nat) (r : List (Nat × Band) × List Nat × PageState × Nat)
    (h : dopage cfg nomargins inp sq tbl x y = .ok r) :
    r.1.length = 8 ∧
    (r.1.map (fun b => b.2.yy)).sum =
      min (page_skip cfg nomargins * 8 + 8 * (y / 8 + if y &&& 7 ≠ 0 then 1 else 0)) y -
        min (page_skip cfg nomargins * 8) y ∧
    ∀ j b, r.1[j]? = some b →
      b.1 < 2 ^ 16 ∧
      b.2.yy = min (page_skip cfg nomargins * 8 +
          (j + 1) * (y / 8 + if y &&& 7 ≠ 0 then 1 else 0)) y -
        min (page_skip cfg nomargins * 8 + j * (y / 8 + if y &&& 7 ≠ 0 then 1 else 0)) y ∧
      b.1 = (if 0 + j = 7 then (b.2.yy + 2 ^ 32 - 8 * page_skip cfg nomargins) % 2 ^ 32
        else b.2.yy) ∧
      b.2.blbuf = (b.2.lines.map (fun l => l.record)).foldr (fun a b => a ++ b) [] ∧
      (y + page_skip cfg nomargins * 8 < 2 ^ 32 →
        b.2.lines.length =
          min (min (page_skip cfg nomargins * 8 +
              (j + 1) * (y / 8 + if y &&& 7 ≠ 0 then 1 else 0)) y)
            (y + 1 - page_skip cfg nomargins * 8) -
          min (min (page_skip cfg nomargins * 8 +
              j * (y / 8 + if y &&& 7 ≠ 0 then 1 else 0)) y)
            (y + 1 - page_skip cfg nomargins * 8)) := by
  rw [dopage] at h
  split at h
  · cases h
  · exact bands_loop_acct cfg.ecomode _ (x / 8) _ y 8 0 _ sq r h

theorem sclperbl_bounds (y : Nat) :
    y ≤ 8 * (y / 8 + if y &&& 7 ≠ 0 then 1 else 0) ∧
      8 * (y / 8 + if y &&& 7 ≠ 0 then 1 else 0) < y + 8 := by
  have hm : y &&& 7 = y % 8 := Nat.and_pow_two_sub_one_eq_mod y 3
  rw [hm]
  split <;> omega

theorem acct_total (s c y : Nat) (hc1 : y ≤ 8 * c) :
    min (s * 8 + 8 * c) y - min (s * 8) y = y - 8 * s := by
  omega

theorem acct_last (s c y : Nat) (hc1 : y ≤ 8 * c) (hc2 : 8 * c < y + 8) (hy : y < 2 ^ 32)
    (hs : s = 0 ∨ (3 ≤ s ∧ 144 * s + 8 ≤ y)) :
    (min (s * 8 + (7 + 1) * c) y - min (s * 8 + 7 * c) y + 2 ^ 32 - 8 * s) % 2 ^ 32 =
      min (s * 8 + (7 + 1) * c) y - min (s * 8 + 7 * c) y - 8 * s ∧
    8 * s ≤ min (s * 8 + (7 + 1) * c) y - min (s * 8 + 7 * c) y := by
  omega

theorem acct_le (a c y : Nat) : min (a + c) y - min a y ≤ c := by
  omega

theorem acct_off (a b y : Nat) (hy : y < 2 ^ 32) :
    min (min b y) (y + 1 - 0 * 8) - min (min a y) (y + 1 - 0 * 8) = min b y - min a y ∧
    (min b y - min a y + 2 ^ 32 - 8 * 0) % 2 ^ 32 = min b y - min a y := by
  omega

theorem acct_first (s c y : Nat) (hc1 : y ≤ 8 * c) (hc2 : 8 * c < y + 8)
    (hs : 3 ≤ s ∧ 144 * s + 8 ≤ y) :
    min (s * 8 + (0 + 1) * c) y - min (s * 8 + 0 * c) y = c := by
  omega

theorem acct_full (s c y A : Nat) (hc1 : y ≤ 8 * c) (hc2 : 8 * c < y + 8)
    (hs : 3 ≤ s ∧ 144 * s + 8 ≤ y) (hA : A + c ≤ 7 * c) :
    min (min (s * 8 + (A + c)) y) (y + 1 - s * 8) - min (min (s * 8 + A) y) (y + 1 - s * 8) =
      min (s * 8 + (A + c)) y - min (s * 8 + A) y := by
  omega

theorem acct_extra (s c y : Nat) (hc1 : y ≤ 8 * c) (hc2 : 8 * c < y + 8)
    (hs : 3 ≤ s ∧ 144 * s + 8 ≤ y) :
    min (min (s * 8 + (7 + 1) * c) y) (y + 1 - s * 8) -
        min (min (s * 8 + 7 * c) y) (y + 1 - s * 8) =
      min (s * 8 + (7 + 1) * c) y - min (s * 8 + 7 * c) y - 8 * s + 1 := by
  omega

theorem skiptbl_cases (i : Nat) : skiptbl i = 0 ∨ 6 ≤ skiptbl i := by
  unfold skiptbl
  match i with
  | 0 => exact Or.inr (by decide)
  | 1 => exact Or.inr (by decide)
  | 2 => exact Or.inr (by decide)
  | n + 3 => exact Or.inl rfl

theorem sum_eight (n0 n1 n2 n3 n4 n5 n6 n7 y0 y1 y2 y3 y4 y5 y6 y7 s y : Nat)
    (h0 : n0 = y0) (h1 : n1 = y1) (h2 : n2 = y2) (h3 : n3 = y3) (h4 : n4 = y4) (h5 : n5 = y5)
    (h6 : n6 = y6) (h7 : n7 = y7 - 8 * s) (hl : 8 * s ≤ y7)
    (hsum : y0 + (y1 + (y2 + (y3 + (y4 + (y5 + (y6 + (y7 + 0))))))) = y - 8 * s) :
    n0 + (n1 + (n2 + (n3 + (n4 + (n5 + (n6 + (n7 + 0))))))) = y - 16 * s := by
  omega

theorem acct_nowrap (s c y : Nat) (hc1 : y ≤ 8 * c) (hs : 3 ≤ s ∧ 144 * s + 8 ≤ y)
    (hc : c < 2 ^ 16) : y + s * 8 < 2 ^ 32 := by
  omega

/-- The line counts and the records of the eight blocks of a page with the margin `s`:
either `s = 0`, or the page is high enough for the small-page test of `dojob` not to
hold. -/
theorem acct_core (bs : List (Nat × Band)) (s c y : Nat) (hc1 : y ≤ 8 * c)
    (hc2 : 8 * c < y + 8) (hy : y < 2 ^ 32) (hs : s = 0 ∨ (3 ≤ s ∧ 144 * s + 8 ≤ y))
    (hlen : bs.length = 8)
    (hsum : (bs.map (fun b => b.2.yy)).sum = min (s * 8 + 8 * c) y - min (s * 8) y)
    (hf : ∀ j b, bs[j]? = some b →
      b.1 < 2 ^ 16 ∧
      b.2.yy = min (s * 8 + (j + 1) * c) y - min (s * 8 + j * c) y ∧
      b.1 = (if 0 + j = 7 then (b.2.yy + 2 ^ 32 - 8 * s) % 2 ^ 32 else b.2.yy) ∧
      b.2.blbuf = (b.2.lines.map (fun l => l.record)).foldr (fun a b => a ++ b) [] ∧
      (y + s * 8 < 2 ^ 32 →
        b.2.lines.length = min (min (s * 8 + (j + 1) * c) y) (y + 1 - s * 8) -
          min (min (s * 8 + j * c) y) (y + 1 - s * 8))) :
    (bs.map Prod.fst).sum = y - 16 * s ∧
    ∀ j b, bs[j]? = some b →
      b.2.blbuf = (b.2.lines.map (fun l => l.record)).foldr (fun a b => a ++ b) [] ∧
      (j < 7 → b.1 ≤ c) ∧
      (s = 0 → b.2.lines.length = b.1) ∧
      (0 < s → (j < 7 → b.2.lines.length = b.1) ∧ (j = 7 → b.2.lines.length = b.1 + 1)) := by
  obtain ⟨b0, b1, b2, b3, b4, b5, b6, b7, rfl⟩ := list_eight bs hlen
  have f0 := hf 0 b0 rfl
  have f1 := (hf 1 b1 rfl).2.2.1
  have f2 := (hf 2 b2 rfl).2.2.1
  have f3 := (hf 3 b3 rfl).2.2.1
  have f4 := (hf 4 b4 rfl).2.2.1
  have f5 := (hf 5 b5 rfl).2.2.1
  have f6 := (hf 6 b6 rfl).2.2.1
  have f7 := hf 7 b7 rfl
  have g0 := f0.2.2.1
  rw [if_neg (by decide)] at g0 f1 f2 f3 f4 f5 f6
  have g7 := f7.2.2.1
  rw [if_pos (by decide), f7.2.1, (acct_last s c y hc1 hc2 hy hs).1] at g7
  have hl := (acct_last s c y hc1 hc2 hy hs).2
  rw [← f7.2.1] at g7 hl
  rw [acct_total s c y hc1] at hsum
  simp only [List.map_cons, List.map_nil, List.sum_cons, List.sum_nil] at hsum ⊢
  refine ⟨sum_eight _ _ _ _ _ _ _ _ _ _ _ _ _ _ _ _ s y g0 f1 f2 f3 f4 f5 f6 g7 hl hsum, ?_⟩
  clear hsum g7 hl g0 f1 f2 f3 f4 f5 f6
  intro j b hj
  obtain ⟨q1, q2, q3, q4, q5⟩ := hf j b hj
  have e1 : (j + 1) * c = j * c + c := Nat.succ_mul j c
  refine ⟨q4, ?_, ?_, ?_⟩
  · intro hj7
    rw [if_neg (by rw [Nat.zero_add]; exact Nat.ne_of_lt hj7)] at q3
    rw [q3, q2, e1, ← Nat.add_assoc]
    exact acct_le _ c y
  · intro h0
    subst h0
    rw [q5 (by rw [Nat.zero_mul, Nat.add_zero]; exact hy), q3, q2]
    have k := acct_off (0 * 8 + j * c) (0 * 8 + (j + 1) * c) y hy
    rw [k.1, k.2]
    split <;> rfl
  · intro hpos
    have hs' : 3 ≤ s ∧ 144 * s + 8 ≤ y := by
      rcases hs with h | h
      · exact absurd h (Nat.pos_iff_ne_zero.mp hpos)
      · exact h
    have hc : c < 2 ^ 16 := by
      have := f0.1
      rw [f0.2.2.1, if_neg (by decide), f0.2.1, acct_first s c y hc1 hc2 hs'] at this
      exact this
    have hw : y + s * 8 < 2 ^ 32 := acct_nowrap s c y hc1 hs' hc
    constructor
    · intro hj7
      rw [if_neg (by rw [Nat.zero_add]; exact Nat.ne_of_lt hj7)] at q3
      have hA : j * c + c ≤ 7 * c := by
        rw [← e1]
        exact Nat.mul_le_mul_right c hj7
      rw [q5 hw, q3, q2, e1]
      exact acct_full s c y (j * c) hc1 hc2 hs' hA
    · intro hj7
      subst hj7
      rw [if_pos (by decide)] at q3
      rw [q5 hw, q3, q2, (acct_last s c y hc1 hc2 hy hs).1]
      exact acct_extra s c y hc1 hc2 hs'

theorem page_head_enforced (nomargins skip lx ly : Nat)
    (h : (page_head nomargins skip lx ly).nomargins = 0) :
    nomargins = 0 ∧ (page_head nomargins skip lx ly).small = false := by
  simp only [page_head] at h ⊢
  split at h
  · cases h
  · rename_i hs
    exact ⟨h, by simpa using hs⟩

/-- The margin of `dopage` on a page of `dojob`: 0, or at least 3 on a page at least
`144 * s + 8` scanlines high. -/
theorem page_margin (cfg : Config) (nomargins skip lx ly : Nat)
    (hjs : (nomargins = 0 ∧ skip = 16 * skiptbl (cfg.res &&& 0xff)) ∨
      (nomargins ≠ 0 ∧ skip = 0))
    (hnw : (page_head nomargins skip lx ly).nomargins ≠ 0 ∨
      skip ≤ (page_head nomargins skip lx ly).y) :
    (page_skip cfg (page_head nomargins skip lx ly).nomargins = 0 ∨
      (3 ≤ page_skip cfg (page_head nomargins skip lx ly).nomargins ∧
        144 * page_skip cfg (page_head nomargins skip lx ly).nomargins + 8 ≤
          (page_head nomargins skip lx ly).y)) ∧
    (page_head nomargins skip lx ly).sent_y =
      (page_head nomargins skip lx ly).y -
        16 * page_skip cfg (page_head nomargins skip lx ly).nomargins ∧
    ((page_head nomargins skip lx ly).nomargins ≠ 0 →
      page_skip cfg (page_head nomargins skip lx ly).nomargins = 0) ∧
    ((page_head nomargins skip lx ly).nomargins = 0 →
      page_skip cfg (page_head nomargins skip lx ly).nomargins = skiptbl (cfg.res &&& 0xff)) := by
  obtain ⟨_, d2, d3⟩ := page_head_dims (skiptbl (cfg.res &&& 0xff)) nomargins skip lx ly hjs
  by_cases hn : (page_head nomargins skip lx ly).nomargins = 0
  · have hp : page_skip cfg (page_head nomargins skip lx ly).nomargins =
        skiptbl (cfg.res &&& 0xff) := by rw [page_skip, if_pos hn]
    obtain ⟨hn0, hsm⟩ := page_head_enforced nomargins skip lx ly hn
    have hsk : skip = 16 * skiptbl (cfg.res &&& 0xff) := by
      rcases hjs with ⟨_, h⟩ | ⟨h, _⟩
      · exact h
      · exact absurd hn0 h
    have hle : skip ≤ (page_head nomargins skip lx ly).y := by
      rcases hnw with h | h
      · exact absurd hn h
      · exact h
    subst hn0
    have hsmall := (page_head_small skip lx ly).2.2.2 hle
    have hns : ¬ (((page_head 0 skip lx ly).y - skip) / 8 ≤ skip ∨
        (page_head 0 skip lx ly).x ≤ 2 * skip) := by
      intro hh
      have := hsmall.mpr hh
      rw [hsm] at this
      cases this
    rw [hp]
    refine ⟨?_, (d2 hn (by rw [← hsk]; exact hle)).2.1, fun h => absurd hn h, fun _ => rfl⟩
    rcases skiptbl_cases (cfg.res &&& 0xff) with h0 | h6
    · exact Or.inl h0
    · refine Or.inr ⟨by omega, ?_⟩
      have h1 : ¬ ((page_head 0 skip lx ly).y - skip) / 8 ≤ skip := fun hh => hns (Or.inl hh)
      generalize (page_head 0 skip lx ly).y = y at h1 hle
      omega
  · have hp : page_skip cfg (page_head nomargins skip lx ly).nomargins = 0 := by
      rw [page_skip, if_neg hn]
    rw [hp]
    exact ⟨Or.inl rfl, by rw [(d3 hn).2]; rfl, fun _ => rfl, fun h => absurd h hn⟩

/-- The blocks of a page that `dojob` completes, when the subtraction `y - skip` of its
small-page test did not wrap around: eight blocks, whose line counts add up to the height
passed to `send_new_page`; the first seven hold as many records as their line count says;
the last one too when the margin is 0, and one more when it is not. -/
theorem page_acct (cfg : Config) (js : JobState) (lx ly : Nat)
    (pg : PageRec × List Nat × JobState)
    (hjs : (js.nomargins = 0 ∧ js.skip = 16 * skiptbl (cfg.res &&& 0xff)) ∨
      (js.nomargins ≠ 0 ∧ js.skip = 0))
    (hpg : dojob_page cfg js lx ly = .ok pg)
    (hnw : pg.1.nomargins ≠ 0 ∨ js.skip ≤ pg.1.y) :
    pg.1.bands.length = 8 ∧ (pg.1.bands.map Prod.fst).sum = pg.1.sent_y ∧
    ∀ j b, pg.1.bands[j]? = some b →
      b.2.blbuf = (b.2.lines.map (fun l => l.record)).foldr (fun a b => a ++ b) [] ∧
      (j < 7 → b.1 ≤ pg.1.y / 8 + if pg.1.y &&& 7 ≠ 0 then 1 else 0) ∧
      (page_skip cfg pg.1.nomargins = 0 → b.2.lines.length = b.1) ∧
      (0 < page_skip cfg pg.1.nomargins →
        (j < 7 → b.2.lines.length = b.1) ∧ (j = 7 → b.2.lines.length = b.1 + 1)) := by
  obtain ⟨np, pr, _, hpr, rfl⟩ := dojob_page_ok cfg js lx ly pg hpg
  simp only at hnw ⊢
  obtain ⟨m1, m2, _, _⟩ := page_margin cfg js.nomargins js.skip lx ly hjs hnw
  obtain ⟨a1, a2, a3⟩ := dopage_acct cfg _ js.inp np.2 js.tbl _ _ pr hpr
  obtain ⟨c1, c2⟩ := sclperbl_bounds (page_head js.nomargins js.skip lx ly).y
  have hy := page_head_y_lt js.nomargins js.skip lx ly
  obtain ⟨r1, r2⟩ := acct_core pr.1 _ _ _ c1 c2 hy m1 a1 a2 a3
  exact ⟨a1, by rw [r1, m2], r2⟩

/-! ## Pages: when a page is completed -/

theorem fread_enough (n : Nat) (s : Stdin) (h : n ≤ s.rest.length) :
    (fread n s).1.length = n ∧ (fread n s).2.rest.length = s.rest.length - n := by
  rw [fread, if_pos h]
  exact ⟨by simp only [List.length_take]; exact Nat.min_eq_left h,
    by simp only [List.length_drop]⟩

theorem lines_left (a n L : Nat) (ha : 0 < a) (h : a * n ≤ L) :
    n ≤ L ∧ (a - 1) * n ≤ L - n := by
  have e : a = (a - 1) + 1 := by omega
  rw [e, Nat.succ_mul] at h
  omega

/-- The top margin is skipped when the input holds the scanlines for it. -/
theorem skip_top_total (sclbytes : Nat) : ∀ n s, n * sclbytes ≤ s.rest.length →
    ∃ s', skip_top sclbytes n s = .ok s' ∧ s'.rest.length = s.rest.length - n * sclbytes := by
  intro n
  induction n with
  | zero =>
    intro s _
    exact ⟨s, skip_top_zero sclbytes s, by rw [Nat.zero_mul, Nat.sub_zero]⟩
  | succ n ih =>
    intro s h
    obtain ⟨l1, l2⟩ := lines_left (n + 1) sclbytes _ (Nat.succ_pos n) h
    obtain ⟨f1, f2⟩ := fread_enough sclbytes s l1
    obtain ⟨s', h1, h2⟩ := ih (fread sclbytes s).2 (by rw [f2]; exact l2)
    refine ⟨s', ?_, ?_⟩
    · rw [skip_top, if_neg (not_not.mpr f1), h1]
    · rw [h2, f2, Nat.succ_mul]
      omega

theorem send_raster_data_total (sq nlines len : Nat) (data : List Nat) (h : nlines < 2 ^ 16) :
    ∃ o, send_raster_data sq nlines len data = .ok o := by
  rw [send_raster_data, if_neg (not_not.mpr h), do_cmd, if_neg (by decide)]
  exact ⟨_, rfl⟩

/-- The scanline loop returns when the input holds the scanlines left of the page and the
scanline between the margins has fewer than 4095 bytes. -/
theorem band_loop_total (ecomode skip sclbytes y : Nat) (hx : sclbytes < 2 ^ 32)
    (hs : skip ≤ sclbytes) (hW : (sclbytes + 2 ^ 32 - skip) % 2 ^ 32 - skip < 4095) :
    ∀ k st, (∀ b ∈ st.inp.rest, b < 256) → (TblInv st.tbl ∨ st.tbl.tbllen = -1) →
      (y - st.yc) * sclbytes ≤ st.inp.rest.length →
      ∃ r, band_loop ecomode skip sclbytes y k st = .ok r ∧
        (∀ b ∈ r.2.inp.rest, b < 256) ∧ (TblInv r.2.tbl ∨ r.2.tbl.tbllen = -1) ∧
        (y - r.2.yc) * sclbytes ≤ r.2.inp.rest.length := by
  intro k
  induction k with
  | zero =>
    intro st hi ht hd
    exact ⟨_, band_loop_zero ecomode skip sclbytes y st, hi, ht, hd⟩
  | succ k ih =>
    intro st hi ht hd
    by_cases h0 : st.yc < y
    · obtain ⟨l1, l2⟩ := lines_left (y - st.yc) sclbytes _ (by omega) hd
      obtain ⟨f1, f2⟩ := fread_enough sclbytes st.inp l1
      obtain ⟨hraw, hrest⟩ := fread_rest sclbytes st.inp hi
      have hd' : (y - (st.yc + 1)) * sclbytes ≤ (fread sclbytes st.inp).2.rest.length := by
        rw [f2]
        have : y - (st.yc + 1) = y - st.yc - 1 := by omega
        rw [this]
        exact l2
      by_cases h2 : (st.yc + skip * 8) % 2 ^ 32 > y
      · obtain ⟨r', hr', q1, q2, q3⟩ := ih
          { inp := (fread sclbytes st.inp).2, yc := st.yc + 1, ecofl := st.ecofl,
            tbl := st.tbl } hrest ht hd'
        have hE : ∃ r, band_loop ecomode skip sclbytes y (k + 1) st = .ok r ∧ r.2 = r'.2 := by
          rw [band_loop, if_pos h0, if_neg (not_not.mpr f1), if_pos h2, hr']
          exact ⟨_, rfl, rfl⟩
        obtain ⟨r, hr, e⟩ := hE
        rw [← e] at q1 q2 q3
        exact ⟨r, hr, q1, q2, q3⟩
      · have hfed : ∀ b ∈ (if ecomode ≠ 0 ∧ st.ecofl ≠ 0 then List.replicate sclbytes 0
            else (fread sclbytes st.inp).1), b < 256 := by
          intro b hb
          split at hb
          · rw [List.eq_of_mem_replicate hb]; decide
          · exact hraw b hb
        obtain ⟨c, hc, _⟩ := compress_loop_spec _ _ (rd_lt _ hfed) _ skip (clear_tables st.tbl)
          (clear_tables_inv st.tbl ht) (le_refl _) hW
        have hc' : compress_scanline
            (if ecomode ≠ 0 ∧ st.ecofl ≠ 0 then List.replicate sclbytes 0
              else (fread sclbytes st.inp).1)
            skip ((sclbytes + 2 ^ 32 - skip) % 2 ^ 32) st.tbl = .ok c := hc
        obtain ⟨c1, _, _⟩ := record_bound sclbytes skip _ st.tbl c hx hs hfed ht hc'
        obtain ⟨r', hr', q1, q2, q3⟩ := ih
          { inp := (fread sclbytes st.inp).2, yc := st.yc + 1,
            ecofl := if ecomode ≠ 0 then -1 - st.ecofl else st.ecofl, tbl := c.2.2 }
          hrest (Or.inl c1) hd'
        have hE : ∃ r, band_loop ecomode skip sclbytes y (k + 1) st = .ok r ∧ r.2 = r'.2 := by
          rw [band_loop, if_pos h0, if_neg (not_not.mpr f1), if_neg h2]
          simp only
          rw [hc']
          simp only
          rw [hr']
          exact ⟨_, rfl, rfl⟩
        obtain ⟨r, hr, e⟩ := hE
        rw [← e] at q1 q2 q3
        exact ⟨r, hr, q1, q2, q3⟩
    · have hE : band_loop ecomode skip sclbytes y (k + 1) st =
          .ok ({ yy := 0, bllen := 0, blbuf := [], lines := [] }, st) := by
        rw [band_loop, if_neg h0]
      exact ⟨_, hE, hi, ht, hd⟩

theorem rep_lt (yy c skip : Nat) (hyy : yy ≤ c) (hc : c < 2 ^ 16)
    (h : skip = 0 ∨ 8 * skip ≤ yy) : (yy + 2 ^ 32 - 8 * skip) % 2 ^ 32 < 2 ^ 16 := by
  omega

theorem last_ok (c y yc skip : Nat) (h8 : 8 * skip ≤ c) (h : yc + 8 * skip ≤ y) :
    8 * skip ≤ min c (y - yc) := by
  omega

theorem full_band (c y yc A skip : Nat) (h : yc + (A + c) + 8 * skip ≤ y) :
    yc + min c (y - yc) + A + 8 * skip ≤ y := by
  omega

/-- The block loop returns when the input holds the scanlines left of the page, a block
has fewer than 65536 scanlines and the last block is left at least `8 * skip` of them. -/
theorem bands_loop_total (ecomode skip sclbytes c y : Nat) (hx : sclbytes < 2 ^ 32)
    (hs : skip ≤ sclbytes) (hW : (sclbytes + 2 ^ 32 - skip) % 2 ^ 32 - skip < 4095)
    (hc : c < 2 ^ 16) :
    ∀ n i st sq, i + n = 8 → (∀ b ∈ st.inp.rest, b < 256) →
      (TblInv st.tbl ∨ st.tbl.tbllen = -1) →
      (y - st.yc) * sclbytes ≤ st.inp.rest.length →
      (skip = 0 ∨ (8 * skip ≤ c ∧ ∀ m, m + 1 = n → st.yc + m * c + 8 * skip ≤ y)) →
      ∃ r, bands_loop ecomode skip sclbytes c y n i st sq = .ok r := by
  intro n
  induction n with
  | zero =>
    intro i st sq _ _ _ _ _
    exact ⟨_, by rw [bands_loop]⟩
  | succ n ih =>
    intro i st sq hin hi ht hd hH
    obtain ⟨b, hb, q1, q2, q3⟩ := band_loop_total ecomode skip sclbytes y hx hs hW c st hi ht hd
    obtain ⟨b1, b2, _, _⟩ := band_loop_acct ecomode skip sclbytes y c st b hb
    have hyy : b.1.yy ≤ c := by rw [b1]; exact Nat.min_le_left _ _
    have hlt : (if i = 7 then (b.1.yy + 2 ^ 32 - 8 * skip) % 2 ^ 32 else b.1.yy) < 2 ^ 16 := by
      split
      · rename_i h7
        apply rep_lt b.1.yy c skip hyy hc
        rcases hH with h0 | ⟨h8, hm⟩
        · exact Or.inl h0
        · right
          have hn : n = 0 := by omega
          have := hm 0 (by rw [hn])
          rw [Nat.zero_mul, Nat.add_zero] at this
          rw [b1]
          exact last_ok c y st.yc skip h8 this
      · exact Nat.lt_of_le_of_lt hyy hc
    obtain ⟨o, ho⟩ := send_raster_data_total sq _ b.1.bllen b.1.blbuf hlt
    have hH' : skip = 0 ∨ (8 * skip ≤ c ∧ ∀ m, m + 1 = n → b.2.yc + m * c + 8 * skip ≤ y) := by
      rcases hH with h0 | ⟨h8, hm⟩
      · exact Or.inl h0
      · refine Or.inr ⟨h8, ?_⟩
        intro m hmn
        have := hm n rfl
        rw [← hmn, Nat.succ_mul] at this
        rw [b2]
        exact full_band c y st.yc (m * c) skip this
    obtain ⟨r', hr'⟩ := ih (i + 1) b.2 o.2 (by omega) q1 q2 q3 hH'
    rw [bands_loop, hb]
    simp only
    rw [ho]
    simp only
    rw [hr']
    exact ⟨_, rfl⟩

theorem margin_room (s c y : Nat) (hc1 : y ≤ 8 * c) (hc2 : 8 * c < y + 8)
    (hm : s = 0 ∨ (3 ≤ s ∧ 144 * s + 8 ≤ y)) :
    s * 8 ≤ y ∧ (s = 0 ∨ (8 * s ≤ c ∧ s * 8 + 7 * c + 8 * s ≤ y)) := by
  omega

/-- The function `dopage` returns when the input holds byte values and the `y` scanlines
of the page, the scanline between the margins has fewer than 4095 bytes, a block has
fewer than 65536 scanlines, and the margin is 0 or at least 3 on a page at least
`144 * skip + 8` scanlines high. -/
theorem dopage_total (cfg : Config) (nomargins : Nat) (inp : Stdin) (sq : Nat) (tbl : TblState)
    (x y : Nat) (hx : x < 2 ^ 32) (hs : page_skip cfg nomargins ≤ x / 8)
    (hW : (x / 8 + 2 ^ 32 - page_skip cfg nomargins) % 2 ^ 32 - page_skip cfg nomargins < 4095)
    (hc : y / 8 + (if y &&& 7 ≠ 0 then 1 else 0) < 2 ^ 16)
    (hi : ∀ b ∈ inp.rest, b < 256) (ht : TblInv tbl ∨ tbl.tbllen = -1)
    (hd : y * (x / 8) ≤ inp.rest.length)
    (hm : page_skip cfg nomargins = 0 ∨
      (3 ≤ page_skip cfg nomargins ∧ 144 * page_skip cfg nomargins + 8 ≤ y)) :
    ∃ r, dopage cfg nomargins inp sq tbl x y = .ok r := by
  obtain ⟨c1, c2⟩ := sclperbl_bounds y
  obtain ⟨m1, m2⟩ := margin_room _ _ y c1 c2 hm
  have hd1 : page_skip cfg nomargins * 8 * (x / 8) ≤ inp.rest.length :=
    Nat.le_trans (Nat.mul_le_mul_right _ m1) hd
  obtain ⟨s', h1, h2⟩ := skip_top_total (x / 8) (page_skip cfg nomargins * 8) inp hd1
  have hd2 : (y - page_skip cfg nomargins * 8) * (x / 8) ≤ s'.rest.length := by
    rw [h2, Nat.sub_mul]
    exact Nat.sub_le_sub_right hd _
  have hH : page_skip cfg nomargins = 0 ∨
      (8 * page_skip cfg nomargins ≤ y / 8 + (if y &&& 7 ≠ 0 then 1 else 0) ∧
        ∀ m, m + 1 = 8 → page_skip cfg nomargins * 8 +
          m * (y / 8 + (if y &&& 7 ≠ 0 then 1 else 0)) + 8 * page_skip cfg nomargins ≤ y) := by
    rcases m2 with h0 | ⟨h8, h7⟩
    · exact Or.inl h0
    · refine Or.inr ⟨h8, ?_⟩
      intro m hm8
      have : m = 7 := by omega
      rw [this]
      exact h7
  rw [dopage, h1]
  exact bands_loop_total cfg.ecomode _ (x / 8) _ y (by omega) hs hW hc 8 0
    { inp := s', yc := page_skip cfg nomargins * 8, ecofl := 0, tbl := tbl } sq rfl
    (skip_top_rest (x / 8) _ inp s' hi h1) ht hd2 hH

/-- The bytes written by the block loop: the output of one call of `send_raster_data`
for each block, in order. -/
theorem bands_loop_out (ecomode skip sclbytes c y : Nat) : ∀ n i st sq r,
    bands_loop ecomode skip sclbytes c y n i st sq = .ok r →
      ∃ outs : List (List Nat), outs.length = n ∧
        r.2.1 = outs.foldr (fun a b => a ++ b) [] ∧
        ∀ (j : Nat) (b : Nat × Band), r.1[j]? = some b →
          ∃ sq1 o, send_raster_data sq1 b.1 b.2.bllen b.2.blbuf = .ok o ∧
            outs[j]? = some o.1 := by
  intro n
  induction n with
  | zero =>
    intro i st sq r h
    rw [bands_loop] at h
    cases h
    refine ⟨[], rfl, rfl, ?_⟩
    intro j b hb
    simp at hb
  | succ n ih =>
    intro i st sq r h
    obtain ⟨b, o, r', _, ho, hr, rfl⟩ := bands_loop_succ ecomode skip sclbytes c y n i st sq r h
    obtain ⟨outs, k1, k2, k3⟩ := ih (i + 1) b.2 o.2 r' hr
    refine ⟨o.1 :: outs, by rw [List.length_cons, k1], by rw [List.foldr_cons, ← k2], ?_⟩
    intro j b' hj
    cases j with
    | zero =>
      simp only [List.getElem?_cons_zero, Option.some.injEq] at hj
      subst hj
      exact ⟨sq, o, ho, List.getElem?_cons_zero⟩
    | succ j =>
      simp only [List.getElem?_cons_succ] at hj ⊢
      exact k3 j b' hj

/-- The bytes written for a page that `dojob` completes: the frame of `send_new_page`
for the dimensions recorded, then the output of one call of `send_raster_data` for each
block. -/
theorem page_out (cfg : Config) (js : JobState) (lx ly : Nat)
    (pg : PageRec × List Nat × JobState) (hpg : dojob_page cfg js lx ly = .ok pg) :
    ∃ outs : List (List Nat), outs.length = 8 ∧
      pg.2.1 = frame js.sq 0x51 (new_page_buf cfg pg.1.sent_x pg.1.sent_y) ++
        outs.foldr (fun a b => a ++ b) [] ∧
      ∀ (j : Nat) (b : Nat × Band), pg.1.bands[j]? = some b →
        ∃ sq1 o, send_raster_data sq1 b.1 b.2.bllen b.2.blbuf = .ok o ∧
          outs[j]? = some o.1 := by
  obtain ⟨np, pr, hnp, hpr, rfl⟩ := dojob_page_ok cfg js lx ly pg hpg
  rw [send_new_page_eq] at hnp
  cases hnp
  rw [dopage] at hpr
  split at hpr
  · cases hpr
  · obtain ⟨outs, k1, k2, k3⟩ := bands_loop_out cfg.ecomode _ _ _ _ 8 0 _ _ pr hpr
    exact ⟨outs, k1, by simp only; rw [k2], k3⟩

theorem width_ok (w s : Nat) (hx : w < 2 ^ 32) (hs : s ≤ w) (h : w < 4095 + 2 * s) :
    (w + 2 ^ 32 - s) % 2 ^ 32 - s < 4095 := by
  omega

/-- A page of `dojob` is completed when the subtraction `y - skip` of the small-page test
does not wrap around, the input holds byte values and the `y` scanlines of the page, the
scanline between the margins has fewer than 4095 bytes and a block has fewer than 65536
scanlines. -/
theorem page_total (cfg : Config) (js : JobState) (lx ly : Nat)
    (hjs : (js.nomargins = 0 ∧ js.skip = 16 * skiptbl (cfg.res &&& 0xff)) ∨
      (js.nomargins ≠ 0 ∧ js.skip = 0))
    (hnw : (page_head js.nomargins js.skip lx ly).nomargins ≠ 0 ∨
      js.skip ≤ (page_head js.nomargins js.skip lx ly).y)
    (hi : ∀ b ∈ js.inp.rest, b < 256) (ht : TblInv js.tbl ∨ js.tbl.tbllen = -1)
    (hd : (page_head js.nomargins js.skip lx ly).y *
      ((page_head js.nomargins js.skip lx ly).x / 8) ≤ js.inp.rest.length)
    (hW : (page_head js.nomargins js.skip lx ly).x / 8 <
      4095 + 2 * page_skip cfg (page_head js.nomargins js.skip lx ly).nomargins)
    (hc : (page_head js.nomargins js.skip lx ly).y / 8 +
      (if (page_head js.nomargins js.skip lx ly).y &&& 7 ≠ 0 then 1 else 0) < 2 ^ 16) :
    ∃ pg, dojob_page cfg js lx ly = .ok pg := by
  obtain ⟨m1, _, _, _⟩ := page_margin cfg js.nomargins js.skip lx ly hjs hnw
  have hx := page_head_x_lt js.nomargins js.skip lx ly
  have hs := page_skip_le cfg js.nomargins js.skip lx ly (fun h0 => by
    rcases hjs with ⟨_, h⟩ | ⟨h, _⟩
    · exact h
    · exact absurd h0 h)
  have hx8 : (page_head js.nomargins js.skip lx ly).x / 8 < 2 ^ 32 :=
    Nat.lt_of_le_of_lt (Nat.div_le_self _ _) hx
  obtain ⟨pr, hpr⟩ := dopage_total cfg (page_head js.nomargins js.skip lx ly).nomargins js.inp
    ((js.sq + 1) % 256) js.tbl _ _ hx hs (width_ok _ _ hx8 hs hW) hc hi ht hd m1
  exact ⟨_, dojob_page_eq cfg js lx ly _ _ pr rfl (send_new_page_eq cfg js.sq _ _) hpr⟩

theorem records_total (bs : List (Nat × Band)) (hlen : bs.length = 8)
    (hf : ∀ j b, bs[j]? = some b →
      (j < 7 → b.2.lines.length = b.1) ∧ (j = 7 → b.2.lines.length = b.1 + 1)) :
    (bs.map (fun b => b.2.lines.length)).sum = (bs.map Prod.fst).sum + 1 := by
  obtain ⟨b0, b1, b2, b3, b4, b5, b6, b7, rfl⟩ := list_eight bs hlen
  have f0 := (hf 0 b0 rfl).1 (by decide)
  have f1 := (hf 1 b1 rfl).1 (by decide)
  have f2 := (hf 2 b2 rfl).1 (by decide)
  have f3 := (hf 3 b3 rfl).1 (by decide)
  have f4 := (hf 4 b4 rfl).1 (by decide)
  have f5 := (hf 5 b5 rfl).1 (by decide)
  have f6 := (hf 6 b6 rfl).1 (by decide)
  have f7 := (hf 7 b7 rfl).2 rfl
  simp only [List.map_cons, List.map_nil, List.sum_cons, List.sum_nil]
  rw [f0, f1, f2, f3, f4, f5, f6, f7]
  omega

/-- The margin state of `dojob` is kept from page to page. -/
theorem page_state (cfg : Config) (js : JobState) (lx ly : Nat)
    (pg : PageRec × List Nat × JobState)
    (hjs : (js.nomargins = 0 ∧ js.skip = 16 * skiptbl (cfg.res &&& 0xff)) ∨
      (js.nomargins ≠ 0 ∧ js.skip = 0))
    (hpg : dojob_page cfg js lx ly = .ok pg) :
    ((pg.2.2.nomargins = 0 ∧ pg.2.2.skip = 16 * skiptbl (cfg.res &&& 0xff)) ∨
      (pg.2.2.nomargins ≠ 0 ∧ pg.2.2.skip = 0)) ∧
    (pg.1.nomargins = 0 → js.skip = 16 * skiptbl (cfg.res &&& 0xff)) := by
  obtain ⟨np, pr, _, _, rfl⟩ := dojob_page_ok cfg js lx ly pg hpg
  refine ⟨(page_head_dims (skiptbl (cfg.res &&& 0xff)) js.nomargins js.skip lx ly hjs).1, ?_⟩
  intro h0
  obtain ⟨hn0, _⟩ := page_head_enforced js.nomargins js.skip lx ly h0
  rcases hjs with ⟨_, h⟩ | ⟨h, _⟩
  · exact h
  · exact absurd hn0 h

/-! ## Pages: line accounting -/

/-- The line counts of every page of a job, from those of one page. -/
theorem job_acct (cfg : Config) (inp : Stdin) (sq : Nat) (tbl : TblState)
    (r : List PageRec × List Nat × JobState) (h : dojob cfg inp sq tbl = .ok r)
    (Q : PageRec → Prop)
    (hQ : ∀ js lx ly pg,
      ((js.nomargins = 0 ∧ js.skip = 16 * skiptbl (cfg.res &&& 0xff)) ∨
        (js.nomargins ≠ 0 ∧ js.skip = 0)) →
      dojob_page cfg js lx ly = .ok pg → Q pg.1) :
    ∀ p ∈ r.1, Q p := by
  obtain ⟨s, r', t, _, hloop, _, e1, _⟩ := dojob_ok cfg inp sq tbl r h
  rw [e1]
  refine dojob_loop_inv cfg
    (fun js => (js.nomargins = 0 ∧ js.skip = 16 * skiptbl (cfg.res &&& 0xff)) ∨
      (js.nomargins ≠ 0 ∧ js.skip = 0)) Q (fun _ _ hI _ => hI)
    (fun js lx ly pg hI hpg => ⟨hQ js lx ly pg hI hpg, (page_state cfg js lx ly pg hI hpg).1⟩)
    _ _ r' ?_ hloop
  simp only [job_skip]
  by_cases hn : cfg.nomargins = 0
  · exact Or.inl ⟨hn, by rw [if_pos hn]⟩
  · exact Or.inr ⟨hn, by rw [if_neg hn]⟩

theorem page_nowrap (cfg : Config) (js : JobState) (lx ly : Nat)
    (pg : PageRec × List Nat × JobState)
    (hjs : (js.nomargins = 0 ∧ js.skip = 16 * skiptbl (cfg.res &&& 0xff)) ∨
      (js.nomargins ≠ 0 ∧ js.skip = 0))
    (hpg : dojob_page cfg js lx ly = .ok pg)
    (hq : pg.1.nomargins ≠ 0 ∨ 16 * skiptbl (cfg.res &&& 0xff) ≤ pg.1.y) :
    pg.1.nomargins ≠ 0 ∨ js.skip ≤ pg.1.y := by
  by_cases hn : pg.1.nomargins = 0
  · rcases hq with h | h
    · exact absurd hn h
    · rw [(page_state cfg js lx ly pg hjs hpg).2 hn]
      exact Or.inr h
  · exact Or.inl hn

/-- C28.  Line accounting.  Take a page that `dojob` processes (`dojob_page`: the
small-page test, `send_new_page`, `dopage`) in a margin state of `dojob` (margins enforced
and `skip = 16 * skiptbl[res & 0xff]`, or margins off and `skip = 0`), on which the
subtraction `y - skip` of the small-page test does not wrap around or the margins are off
after the test.  When the input holds byte values and the `y` scanlines of the page, the
scanline between the margins has fewer than 4095 bytes and `ceil(y / 8) < 65536`, the
page is completed.  Whenever it is completed, the bytes written are the frame of
`send_new_page` for the recorded dimensions followed by the output of exactly eight calls
of `send_raster_data`, one for each block; each of the first seven reports at most
`ceil(y / 8)` lines, and the eight reported line counts add up to the height passed to
`send_new_page`.  The same holds of every page of a job that `dojob` completes. -/
theorem line_accounting (cfg : Config) (js : JobState) (lx ly : Nat)
    (hjs : (js.nomargins = 0 ∧ js.skip = 16 * skiptbl (cfg.res &&& 0xff)) ∨
      (js.nomargins ≠ 0 ∧ js.skip = 0))
    (hnw : (page_head js.nomargins js.skip lx ly).nomargins ≠ 0 ∨
      js.skip ≤ (page_head js.nomargins js.skip lx ly).y) :
    ((∀ b ∈ js.inp.rest, b < 256) → (TblInv js.tbl ∨ js.tbl.tbllen = -1) →
      (page_head js.nomargins js.skip lx ly).y *
        ((page_head js.nomargins js.skip lx ly).x / 8) ≤ js.inp.rest.length →
      (page_head js.nomargins js.skip lx ly).x / 8 <
        4095 + 2 * page_skip cfg (page_head js.nomargins js.skip lx ly).nomargins →
      (page_head js.nomargins js.skip lx ly).y / 8 +
        (if (page_head js.nomargins js.skip lx ly).y &&& 7 ≠ 0 then 1 else 0) < 2 ^ 16 →
      ∃ pg, dojob_page cfg js lx ly = .ok pg) ∧
    (∀ pg, dojob_page cfg js lx ly = .ok pg →
      pg.1.bands.length = 8 ∧
      (∃ outs : List (List Nat), outs.length = 8 ∧
        pg.2.1 = frame js.sq 0x51 (new_page_buf cfg pg.1.sent_x pg.1.sent_y) ++
          outs.foldr (fun a b => a ++ b) [] ∧
        ∀ (j : Nat) (b : Nat × Band), pg.1.bands[j]? = some b →
          ∃ sq1 o, send_raster_data sq1 b.1 b.2.bllen b.2.blbuf = .ok o ∧
            outs[j]? = some o.1) ∧
      (∀ (j : Nat) (b : Nat × Band), pg.1.bands[j]? = some b → j < 7 →
        b.1 ≤ pg.1.y / 8 + if pg.1.y &&& 7 ≠ 0 then 1 else 0) ∧
      (pg.1.bands.map Prod.fst).sum = pg.1.sent_y) ∧
    (∀ inp sq tbl r, dojob cfg inp sq tbl = .ok r → ∀ p ∈ r.1,
      (p.nomargins ≠ 0 ∨ 16 * skiptbl (cfg.res &&& 0xff) ≤ p.y) →
      p.bands.length = 8 ∧
      (∀ (j : Nat) (b : Nat × Band), p.bands[j]? = some b → j < 7 →
        b.1 ≤ p.y / 8 + if p.y &&& 7 ≠ 0 then 1 else 0) ∧
      (p.bands.map Prod.fst).sum = p.sent_y) := by
  refine ⟨fun hi ht hd hW hc => page_total cfg js lx ly hjs hnw hi ht hd hW hc, ?_, ?_⟩
  · intro pg hpg
    have hnw' : pg.1.nomargins ≠ 0 ∨ js.skip ≤ pg.1.y := by
      obtain ⟨np, pr, _, _, rfl⟩ := dojob_page_ok cfg js lx ly pg hpg
      exact hnw
    obtain ⟨a1, a2, a3⟩ := page_acct cfg js lx ly pg hjs hpg hnw'
    exact ⟨a1, page_out cfg js lx ly pg hpg, fun j b hb hj => (a3 j b hb).2.1 hj, a2⟩
  · intro inp sq tbl r h
    refine job_acct cfg inp sq tbl r h _ ?_
    intro js1 lx1 ly1 pg hI hpg hq
    obtain ⟨a1, a2, a3⟩ := page_acct cfg js1 lx1 ly1 pg hI hpg
      (page_nowrap cfg js1 lx1 ly1 pg hI hpg hq)
    exact ⟨a1, fun j b hb hj => (a3 j b hb).2.1 hj, a2⟩

/-- A page of 200 x 872 pixels at 300 dpi, with the margins enforced. -/
theorem line_accounting_witness :
    ((0 = 0 ∧ 96 = 16 * skiptbl ((0 : Nat) &&& 0xff)) ∨ ((0 : Nat) ≠ 0 ∧ (96 : Nat) = 0)) ∧
    ((page_head 0 96 200 872).nomargins ≠ 0 ∨ 96 ≤ (page_head 0 96 200 872).y) ∧
    ∃ pg, dojob_page { Config.default with res := 0 }
        (⟨⟨List.replicate 21800 0, false⟩, 2, TblState.uninit, 0, 96⟩ : JobState) 200 872
        = .ok pg ∧
      pg.1.bands.length = 8 ∧ (pg.1.bands.map Prod.fst).sum = pg.1.sent_y := by
  have hjs : (0 = 0 ∧ 96 = 16 * skiptbl ((0 : Nat) &&& 0xff)) ∨
      ((0 : Nat) ≠ 0 ∧ (96 : Nat) = 0) := Or.inl ⟨rfl, by decide⟩
  have hnw : (page_head 0 96 200 872).nomargins ≠ 0 ∨ 96 ≤ (page_head 0 96 200 872).y :=
    Or.inr (by decide)
  have k := line_accounting { Config.default with res := 0 }
    (⟨⟨List.replicate 21800 0, false⟩, 2, TblState.uninit, 0, 96⟩ : JobState) 200 872 hjs hnw
  obtain ⟨pg, hpg⟩ := k.1 (fun b hb => by rw [List.eq_of_mem_replicate hb]; decide)
    (Or.inr rfl)
    (by show _ ≤ (List.replicate 21800 0).length; rw [List.length_replicate]; decide)
    (by decide) (by decide)
  obtain ⟨a1, _, _, a4⟩ := k.2.1 pg hpg
  exact ⟨hjs, hnw, pg, hpg, a1, a4⟩

theorem mem_page_lines : ∀ (bs : List (Nat × Band)) (b : Nat × Band) (l : Line),
    b ∈ bs → l ∈ b.2.lines → l ∈ page_lines bs := by
  intro bs
  induction bs with
  | nil => intro b l hb _; cases hb
  | cons a bs ih =>
    intro b l hb hl
    rw [page_lines, List.mem_append]
    rcases List.mem_cons.mp hb with h | h
    · left
      rw [← h]
      exact hl
    · exact Or.inr (ih b l h hl)

/-- Every record of a block is the table preamble and the compressor's output for the
scanline between the margins. -/
theorem page_records (cfg : Config) (js : JobState) (lx ly : Nat)
    (pg : PageRec × List Nat × JobState) (hpg : dojob_page cfg js lx ly = .ok pg) :
    ∀ b ∈ pg.1.bands, ∀ l ∈ b.2.lines, ∃ st c,
      compress_scanline l.fed (page_skip cfg pg.1.nomargins)
        ((pg.1.x / 8 + 2 ^ 32 - page_skip cfg pg.1.nomargins) % 2 ^ 32) st = .ok c ∧
      l.record = uchar (0x80 + c.2.2.tbllen) :: (table c.2.2 ++ c.1.take c.2.1) := by
  obtain ⟨np, pr, _, hpr, rfl⟩ := dojob_page_ok cfg js lx ly pg hpg
  intro b hb l hl
  obtain ⟨j, hj⟩ := List.getElem?_of_mem (mem_page_lines pr.1 b l hb hl)
  exact (dopage_alt cfg _ js.inp np.2 js.tbl _ _ pr hpr j l hj).2.2

/-- The dimensions recorded for a page are those of `page_head`. -/
theorem page_rec_head (cfg : Config) (js : JobState) (lx ly : Nat)
    (pg : PageRec × List Nat × JobState) (hpg : dojob_page cfg js lx ly = .ok pg) :
    pg.1.sent_y = (page_head js.nomargins js.skip lx ly).sent_y ∧
    pg.1.nomargins = (page_head js.nomargins js.skip lx ly).nomargins ∧
    pg.1.y = (page_head js.nomargins js.skip lx ly).y ∧
    pg.1.x = (page_head js.nomargins js.skip lx ly).x := by
  obtain ⟨np, pr, _, _, rfl⟩ := dojob_page_ok cfg js lx ly pg hpg
  exact ⟨rfl, rfl, rfl, rfl⟩

/-- C29.  Band data and line count.  Take a page that `dojob` processes in a margin state
of `dojob`, on which the subtraction `y - skip` of the small-page test does not wrap
around or the margins are off after the test.  When the input holds byte values and the
`y` scanlines of the page, the scanline between the margins has fewer than 4095 bytes and
`ceil(y / 8) < 65536`, the page is completed.  Whenever it is completed, the data of each
of its eight blocks is the concatenation of its scanline records, each the preamble byte
`0x80 + tbllen`, the table bytes and the opcode stream of one scanline.  With the margins
off every block holds as many records as the line count passed to `send_raster_data`.
With the margins enforced this holds of the first seven blocks, but the eighth block
holds one record more than its line count, and the page holds one record more than the
height passed to `send_new_page`.  The same holds of every page of a job that `dojob`
completes. -/
theorem band_record_count (cfg : Config) (js : JobState) (lx ly : Nat)
    (hjs : (js.nomargins = 0 ∧ js.skip = 16 * skiptbl (cfg.res &&& 0xff)) ∨
      (js.nomargins ≠ 0 ∧ js.skip = 0))
    (hnw : (page_head js.nomargins js.skip lx ly).nomargins ≠ 0 ∨
      js.skip ≤ (page_head js.nomargins js.skip lx ly).y) :
    ((∀ b ∈ js.inp.rest, b < 256) → (TblInv js.tbl ∨ js.tbl.tbllen = -1) →
      (page_head js.nomargins js.skip lx ly).y *
        ((page_head js.nomargins js.skip lx ly).x / 8) ≤ js.inp.rest.length →
      (page_head js.nomargins js.skip lx ly).x / 8 <
        4095 + 2 * page_skip cfg (page_head js.nomargins js.skip lx ly).nomargins →
      (page_head js.nomargins js.skip lx ly).y / 8 +
        (if (page_head js.nomargins js.skip lx ly).y &&& 7 ≠ 0 then 1 else 0) < 2 ^ 16 →
      ∃ pg, dojob_page cfg js lx ly = .ok pg) ∧
    (∀ pg, dojob_page cfg js lx ly = .ok pg →
      pg.1.bands.length = 8 ∧
      (∀ b ∈ pg.1.bands, ∀ l ∈ b.2.lines, ∃ st c,
        compress_scanline l.fed (page_skip cfg pg.1.nomargins)
          ((pg.1.x / 8 + 2 ^ 32 - page_skip cfg pg.1.nomargins) % 2 ^ 32) st = .ok c ∧
        l.record = uchar (0x80 + c.2.2.tbllen) :: (table c.2.2 ++ c.1.take c.2.1)) ∧
      (∀ (j : Nat) (b : Nat × Band), pg.1.bands[j]? = some b →
        b.2.blbuf = (b.2.lines.map (fun l => l.record)).foldr (fun a b => a ++ b) [] ∧
        (page_skip cfg pg.1.nomargins = 0 → b.2.lines.length = b.1) ∧
        (0 < page_skip cfg pg.1.nomargins →
          (j < 7 → b.2.lines.length = b.1) ∧ (j = 7 → b.2.lines.length = b.1 + 1))) ∧
      (0 < page_skip cfg pg.1.nomargins →
        (pg.1.bands.map (fun b => b.2.lines.length)).sum = pg.1.sent_y + 1)) ∧
    (∀ inp sq tbl r, dojob cfg inp sq tbl = .ok r → ∀ p ∈ r.1,
      (p.nomargins ≠ 0 ∨ 16 * skiptbl (cfg.res &&& 0xff) ≤ p.y) →
      p.bands.length = 8 ∧
      (∀ (j : Nat) (b : Nat × Band), p.bands[j]? = some b →
        b.2.blbuf = (b.2.lines.map (fun l => l.record)).foldr (fun a b => a ++ b) [] ∧
        (page_skip cfg p.nomargins = 0 → b.2.lines.length = b.1) ∧
        (0 < page_skip cfg p.nomargins →
          (j < 7 → b.2.lines.length = b.1) ∧ (j = 7 → b.2.lines.length = b.1 + 1))) ∧
      (0 < page_skip cfg p.nomargins →
        (p.bands.map (fun b => b.2.lines.length)).sum = p.sent_y + 1)) := by
  refine ⟨fun hi ht hd hW hc => page_total cfg js lx ly hjs hnw hi ht hd hW hc, ?_, ?_⟩
  · intro pg hpg
    have hnw' : pg.1.nomargins ≠ 0 ∨ js.skip ≤ pg.1.y := by
      obtain ⟨np, pr, _, _, rfl⟩ := dojob_page_ok cfg js lx ly pg hpg
      exact hnw
    obtain ⟨a1, a2, a3⟩ := page_acct cfg js lx ly pg hjs hpg hnw'
    refine ⟨a1, page_records cfg js lx ly pg hpg,
      fun j b hb => ⟨(a3 j b hb).1, (a3 j b hb).2.2.1, (a3 j b hb).2.2.2⟩, ?_⟩
    intro hpos
    rw [records_total pg.1.bands a1 (fun j b hb => (a3 j b hb).2.2.2 hpos), a2]
  · intro inp sq tbl r h
    refine job_acct cfg inp sq tbl r h _ ?_
    intro js1 lx1 ly1 pg hI hpg hq
    obtain ⟨a1, a2, a3⟩ := page_acct cfg js1 lx1 ly1 pg hI hpg
      (page_nowrap cfg js1 lx1 ly1 pg hI hpg hq)
    refine ⟨a1, fun j b hb => ⟨(a3 j b hb).1, (a3 j b hb).2.2.1, (a3 j b hb).2.2.2⟩, ?_⟩
    intro hpos
    rw [records_total pg.1.bands a1 (fun j b hb => (a3 j b hb).2.2.2 hpos), a2]

/-- A page of 200 x 872 pixels at 300 dpi, with the margins enforced: `send_new_page`
is passed the height 776, and the blocks hold 777 records; the eighth block holds one
record more than its line count. -/
theorem band_record_count_witness :
    ((0 = 0 ∧ 96 = 16 * skiptbl ((0 : Nat) &&& 0xff)) ∨ ((0 : Nat) ≠ 0 ∧ (96 : Nat) = 0)) ∧
    ((page_head 0 96 200 872).nomargins ≠ 0 ∨ 96 ≤ (page_head 0 96 200 872).y) ∧
    ∃ pg b, dojob_page { Config.default with res := 0 }
        (⟨⟨List.replicate 21800 0, false⟩, 2, TblState.uninit, 0, 96⟩ : JobState) 200 872
        = .ok pg ∧
      pg.1.sent_y = 776 ∧ (pg.1.bands.map (fun b => b.2.lines.length)).sum = 777 ∧
      pg.1.bands[7]? = some b ∧ b.2.lines.length = b.1 + 1 := by
  have hjs : (0 = 0 ∧ 96 = 16 * skiptbl ((0 : Nat) &&& 0xff)) ∨
      ((0 : Nat) ≠ 0 ∧ (96 : Nat) = 0) := Or.inl ⟨rfl, by decide⟩
  have hnw : (page_head 0 96 200 872).nomargins ≠ 0 ∨ 96 ≤ (page_head 0 96 200 872).y :=
    Or.inr (by decide)
  have k := band_record_count { Config.default with res := 0 }
    (⟨⟨List.replicate 21800 0, false⟩, 2, TblState.uninit, 0, 96⟩ : JobState) 200 872 hjs hnw
  obtain ⟨pg, hpg⟩ := k.1 (fun b hb => by rw [List.eq_of_mem_replicate hb]; decide)
    (Or.inr rfl)
    (by show _ ≤ (List.replicate 21800 0).length; rw [List.length_replicate]; decide)
    (by decide) (by decide)
  obtain ⟨a1, _, a3, a4⟩ := k.2.1 pg hpg
  obtain ⟨e1, e2, _, _⟩ := page_rec_head _ _ _ _ pg hpg
  have hs : pg.1.sent_y = 776 ∧
      0 < page_skip { Config.default with res := 0 } pg.1.nomargins := by
    rw [e1, e2]
    exact ⟨by decide, by decide⟩
  obtain ⟨b0, b1, b2, b3, b4, b5, b6, b7, hb⟩ := list_eight pg.1.bands a1
  have h7 : pg.1.bands[7]? = some b7 := by rw [hb]; rfl
  refine ⟨hjs, hnw, pg, b7, hpg, hs.1, ?_, h7, ((a3 7 b7 h7).2.2 hs.2).2 rfl⟩
  rw [a4 hs.2, hs.1]

/-! ## The contract of `add_tbl` -/

/-- Under the table invariant a byte has an index below 16 exactly when it is one of
`tbl[0..tbllen)`. -/
theorem in_table_iff (st : TblState) (b : Nat) (hinv : TblInv st) (hb : b < 256) :
    (∃ i : Nat, (i : Int) < st.tbllen ∧ st.tbl i = b) ↔ st.invtbl b < 16 := by
  constructor
  · rintro ⟨i, hi1, hi2⟩
    have := hinv.2.2.1 i hi1
    rw [hi2] at this
    have h16 := hinv.2.1
    omega
  · intro hi
    exact ⟨st.invtbl b, (hinv.lookup hb hi).1, (hinv.lookup hb hi).2⟩

/-- The call `add_tbl(b)` for a byte without an index, in a table with room. -/
theorem add_tbl_new (st : TblState) (b : Nat) (hi : ¬ st.invtbl b < 16) (h0 : 0 ≤ st.tbllen)
    (hlt : st.tbllen < 16) :
    add_tbl st b = (st.tbllen.toNat, ⟨st.tbllen + 1, Function.update st.tbl st.tbllen.toNat b,
      Function.update st.invtbl b st.tbllen.toNat⟩) := by
  have hmod : (st.tbllen % 256).toNat = st.tbllen.toNat := by omega
  have hc : ¬ (st.invtbl b < 16 ∨ st.tbllen ≥ 16) := by
    intro h
    rcases h with h | h
    · exact hi h
    · omega
  rw [add_tbl, if_neg hc, hmod]

/-- C34.  The contract of `add_tbl`: in a state that satisfies the table invariant, for
a byte `b`: if `b` is one of `tbl[0..tbllen)`, the call returns `invtbl[b]`, which is the
index of `b`, and changes nothing; otherwise, if `tbllen < 16`, it returns the old
`tbllen`, stores `b` at `tbl[tbllen]`, sets `invtbl[b]` to the old `tbllen`, adds one to
`tbllen` and leaves every other entry of `tbl` and `invtbl` as it was; otherwise it
returns 0xFF and changes nothing.  A second call with the same byte returns the same
value and changes nothing. -/
theorem add_tbl_contract (st : TblState) (b : Nat) (hinv : TblInv st) (hb : b < 256) :
    ((∃ i : Nat, (i : Int) < st.tbllen ∧ st.tbl i = b) →
      add_tbl st b = (st.invtbl b, st) ∧ st.invtbl b < 16 ∧
        (st.invtbl b : Int) < st.tbllen ∧ st.tbl (st.invtbl b) = b) ∧
    ((∀ i : Nat, (i : Int) < st.tbllen → st.tbl i ≠ b) → st.tbllen < 16 →
      ((add_tbl st b).1 : Int) = st.tbllen ∧
      (add_tbl st b).2.tbllen = st.tbllen + 1 ∧
      (add_tbl st b).2.tbl st.tbllen.toNat = b ∧
      ((add_tbl st b).2.invtbl b : Int) = st.tbllen ∧
      (∀ i : Nat, (i : Int) ≠ st.tbllen → (add_tbl st b).2.tbl i = st.tbl i) ∧
      (∀ c : Nat, c ≠ b → (add_tbl st b).2.invtbl c = st.invtbl c)) ∧
    ((∀ i : Nat, (i : Int) < st.tbllen → st.tbl i ≠ b) → ¬ st.tbllen < 16 →
      add_tbl st b = (0xff, st)) ∧
    add_tbl (add_tbl st b).2 b = ((add_tbl st b).1, (add_tbl st b).2) := by
  have hiff := in_table_iff st b hinv hb
  have h0 := hinv.1
  refine ⟨?_, ?_, ?_, ?_⟩
  · intro hex
    have hi := hiff.mp hex
    exact ⟨by rw [add_tbl, if_pos (Or.inl hi)], hi, (hinv.lookup hb hi).1,
      (hinv.lookup hb hi).2⟩
  · intro habs hlt
    have hi : ¬ st.invtbl b < 16 := fun h => by
      obtain ⟨i, hi1, hi2⟩ := hiff.mpr h
      exact habs i hi1 hi2
    rw [add_tbl_new st b hi h0 hlt]
    refine ⟨by simp only; omega, rfl, ?_, ?_, ?_, ?_⟩
    · simp only
      rw [Function.update_same]
    · simp only
      rw [Function.update_same]
      omega
    · intro i hne
      simp only
      rw [Function.update_noteq (by omega)]
    · intro c hne
      simp only
      rw [Function.update_noteq hne]
  · intro habs hfull
    have hff := hinv.2.2.2 b hb habs
    rw [add_tbl, if_pos (Or.inr (by omega)), hff]
  · by_cases hi : st.invtbl b < 16
    · have e : add_tbl st b = (st.invtbl b, st) := by rw [add_tbl, if_pos (Or.inl hi)]
      rw [e]
      exact e
    · by_cases hlt : st.tbllen < 16
      · rw [add_tbl_new st b hi h0 hlt]
        have hn : st.tbllen.toNat < 16 := by omega
        rw [add_tbl, if_pos (Or.inl (by simp only; rw [Function.update_same]; exact hn))]
        simp only
        rw [Function.update_same]
      · have e : add_tbl st b = (st.invtbl b, st) := by
          rw [add_tbl, if_pos (Or.inr (by omega))]
        rw [e]
        exact e

/-- The byte 7 added to the cleared table, to the table that holds it, and to a full
table that does not. -/
theorem add_tbl_contract_witness :
    (7 : Nat) < 256 ∧
    (((∀ i : Nat, (i : Int) < (clear_tables TblState.uninit).tbllen →
        (clear_tables TblState.uninit).tbl i ≠ 7) →
      (clear_tables TblState.uninit).tbllen < 16 →
      ((add_tbl (clear_tables TblState.uninit) 7).1 : Int) =
        (clear_tables TblState.uninit).tbllen ∧
      (add_tbl (clear_tables TblState.uninit) 7).2.tbllen =
        (clear_tables TblState.uninit).tbllen + 1 ∧
      (add_tbl (clear_tables TblState.uninit) 7).2.tbl
        (clear_tables TblState.uninit).tbllen.toNat = 7) ∧
    add_tbl (add_tbl (clear_tables TblState.uninit) 7).2 7 =
      ((add_tbl (clear_tables TblState.uninit) 7).1,
        (add_tbl (clear_tables TblState.uninit) 7).2)) :=
  ⟨by decide,
    fun ha hl => ⟨((add_tbl_contract (clear_tables TblState.uninit) 7
        (clear_tables_inv TblState.uninit (Or.inr rfl)) (by decide)).2.1 ha hl).1,
      ((add_tbl_contract (clear_tables TblState.uninit) 7
        (clear_tables_inv TblState.uninit (Or.inr rfl)) (by decide)).2.1 ha hl).2.1,
      ((add_tbl_contract (clear_tables TblState.uninit) 7
        (clear_tables_inv TblState.uninit (Or.inr rfl)) (by decide)).2.1 ha hl).2.2.1⟩,
    (add_tbl_contract (clear_tables TblState.uninit) 7
      (clear_tables_inv TblState.uninit (Or.inr rfl)) (by decide)).2.2.2⟩

/-! ## The compressor does not depend on earlier scanlines -/

theorem add_tbl_eq (a b : TblState) (c : Nat) (hc : c < 256) (h : TblEq a b) :
    (add_tbl a c).1 = (add_tbl b c).1 ∧ TblEq (add_tbl a c).2 (add_tbl b c).2 := by
  obtain ⟨h1, h2, h3⟩ := h
  have hi := h3 c hc
  by_cases hcond : a.invtbl c < 16 ∨ a.tbllen ≥ 16
  · have hcond' : b.invtbl c < 16 ∨ b.tbllen ≥ 16 := by rw [← hi, ← h1]; exact hcond
    rw [add_tbl, add_tbl, if_pos hcond, if_pos hcond']
    exact ⟨hi, h1, h2, h3⟩
  · have hcond' : ¬ (b.invtbl c < 16 ∨ b.tbllen ≥ 16) := by rw [← hi, ← h1]; exact hcond
    rw [add_tbl, add_tbl, if_neg hcond, if_neg hcond']
    refine ⟨by simp only; rw [h1], by simp only; rw [h1], ?_, ?_⟩
    · intro i hlt
      simp only at hlt ⊢
      rw [← h1]
      by_cases hn : i = a.tbllen.toNat
      · rw [hn, Function.update_same, Function.update_same]
      · rw [Function.update_noteq hn, Function.update_noteq hn]
        exact h2 i (by omega)
    · intro d hd
      simp only
      rw [← h1]
      by_cases hn : d = c
      · rw [hn, Function.update_same, Function.update_same]
      · rw [Function.update_noteq hn, Function.update_noteq hn]
        exact h3 d hd

theorem count_in_tbl_eq (buf : List Nat) (hb : ∀ x, rd buf x < 256) (a b : TblState)
    (h : TblEq a b) : ∀ j p i, count_in_tbl buf a.invtbl j p i = count_in_tbl buf b.invtbl j p i := by
  intro j
  induction j with
  | zero => intro p i; rfl
  | succ j ih =>
    intro p i
    rw [count_in_tbl, count_in_tbl, h.2.2 _ (hb p), ih]

theorem next_n_in_tbl_eq (buf : List Nat) (hb : ∀ x, rd buf x < 256) (a b : TblState)
    (h : TblEq a b) (p len e : Nat) :
    next_n_in_tbl buf a p len e = next_n_in_tbl buf b p len e := by
  rw [next_n_in_tbl, next_n_in_tbl, count_in_tbl_eq buf hb a b h, h.1]

theorem tbl_pair_eq (buf : List Nat) (hb : ∀ x, rd buf x < 256) (a b : TblState)
    (h : TblEq a b) (p : Nat) :
    (tbl_pair buf a p).1 = (tbl_pair buf b p).1 ∧ TblEq (tbl_pair buf a p).2 (tbl_pair buf b p).2 := by
  obtain ⟨e1, q1⟩ := add_tbl_eq a b (rd buf p) (hb p) h
  obtain ⟨e2, q2⟩ := add_tbl_eq _ _ (rd buf (p + 1)) (hb (p + 1)) q1
  simp only [tbl_pair]
  rw [e1, e2]
  exact ⟨rfl, q2⟩

theorem tbl_more_eq (buf : List Nat) (e : Nat) (hb : ∀ x, rd buf x < 256) :
    ∀ k q p a b, TblEq a b →
      (tbl_more buf e k q p a).1 = (tbl_more buf e k q p b).1 ∧
      (tbl_more buf e k q p a).2.1 = (tbl_more buf e k q p b).2.1 ∧
      (tbl_more buf e k q p a).2.2.1 = (tbl_more buf e k q p b).2.2.1 ∧
      (tbl_more buf e k q p a).2.2.2.1 = (tbl_more buf e k q p b).2.2.2.1 ∧
      TblEq (tbl_more buf e k q p a).2.2.2.2 (tbl_more buf e k q p b).2.2.2.2 := by
  intro k
  induction k with
  | zero =>
    intro q p a b h
    rw [tbl_more, tbl_more]
    exact ⟨rfl, rfl, rfl, rfl, h⟩
  | succ k ih =>
    intro q p a b h
    rw [tbl_more, tbl_more, next_n_in_tbl_eq buf hb a b h]
    by_cases hc : next_n_in_tbl buf b p 2 e = true ∧ q < 0x7f
    · rw [if_pos hc, if_pos hc]
      by_cases hg : get_len buf p (min (p + 3) e) ≥ 3
      · rw [if_pos hg, if_pos hg]
        exact ⟨rfl, rfl, rfl, rfl, h⟩
      · rw [if_neg hg, if_neg hg]
        obtain ⟨e1, q1⟩ := tbl_pair_eq buf hb a b h p
        obtain ⟨i1, i2, i3, i4, i5⟩ := ih ((q + 1) % 256) (p + 2) _ _ q1
        simp only
        rw [e1, i1, i2, i3, i4]
        exact ⟨rfl, rfl, rfl, rfl, i5⟩
    · rw [if_neg hc, if_neg hc]
      exact ⟨rfl, rfl, rfl, rfl, h⟩

theorem lit_loop_eq (buf : List Nat) (e : Nat) (hb : ∀ x, rd buf x < 256) (a b : TblState)
    (h : TblEq a b) : ∀ k q p, lit_loop buf e a k q p = lit_loop buf e b k q p := by
  intro k
  induction k with
  | zero => intro q p; rw [lit_loop, lit_loop]
  | succ k ih =>
    intro q p
    rw [lit_loop, lit_loop, next_n_in_tbl_eq buf hb a b h, ih]

theorem resEq_ok (x y : Except Fault (List Nat × Nat × TblState)) (h : ResEq x y) :
    (∀ u, x = .error u → y = .error u) ∧
    ∀ r, x = .ok r → ∃ s, y = .ok s ∧ r.1 = s.1 ∧ r.2.1 = s.2.1 ∧ TblEq r.2.2 s.2.2 := by
  cases x with
  | error u =>
    cases y with
    | error v =>
      refine ⟨fun w hw => ?_, fun r hr => by cases hr⟩
      cases hw
      exact congrArg Except.error (Eq.symm h)
    | ok s => exact absurd h (by simp [ResEq])
  | ok r =>
    cases y with
    | error v => exact absurd h (by simp [ResEq])
    | ok s =>
      refine ⟨fun w hw => (by cases hw), fun r' hr => ?_⟩
      cases hr
      exact ⟨s, rfl, h⟩

/-- The main loop of `compress_scanline` from two table states that agree. -/
theorem compress_loop_eq (buf : List Nat) (e : Nat) (hb : ∀ x, rd buf x < 256) :
    ∀ f p a b, TblEq a b → ResEq (compress_loop buf e f p a) (compress_loop buf e f p b) := by
  intro f
  induction f with
  | zero =>
    intro p a b h
    rw [compress_loop, compress_loop]
    split
    · rfl
    · exact ⟨rfl, rfl, h⟩
  | succ f ih =>
    intro p a b h
    rw [compress_loop, compress_loop]
    by_cases hp : p < e
    · rw [if_pos hp, if_pos hp]
      simp only
      by_cases hn : get_len buf p e > 2
      · rw [if_pos hn, if_pos hn]
        by_cases ha : ¬ get_len buf p e < 63 * 64 + 63
        · rw [if_pos ha, if_pos ha]
          rfl
        · rw [if_neg ha, if_neg ha]
          have key := ih (rle_emit buf p (get_len buf p e)).2.2 a b h
          generalize compress_loop buf e f (rle_emit buf p (get_len buf p e)).2.2 a = X at key ⊢
          generalize compress_loop buf e f (rle_emit buf p (get_len buf p e)).2.2 b = Y at key ⊢
          cases X with
          | error u =>
            cases Y with
            | error v => exact key
            | ok s => exact key
          | ok r =>
            cases Y with
            | error v => exact key
            | ok s =>
              obtain ⟨k1, k2, k3⟩ := key
              exact ⟨by simp only; rw [k1], by simp only; rw [k2], k3⟩
      · rw [if_neg hn, if_neg hn, next_n_in_tbl_eq buf hb a b h]
        by_cases h4 : next_n_in_tbl buf b p 4 e = true
        · rw [if_pos h4, if_pos h4]
          obtain ⟨e1, q1⟩ := tbl_pair_eq buf hb a b h p
          obtain ⟨e2, q2⟩ := tbl_pair_eq buf hb _ _ q1 (p + 2)
          obtain ⟨i1, i2, i3, i4, i5⟩ := tbl_more_eq buf e hb (0x7f - 0x41) 0x41 (p + 4) _ _ q2
          have key := ih (tbl_more buf e (0x7f - 0x41) 0x41 (p + 4)
                (tbl_pair buf (tbl_pair buf b p).2 (p + 2)).2).2.2.2.1 _ _ i5
          rw [e1, e2, i1, i2, i3, i4]
          generalize compress_loop buf e f _
            (tbl_more buf e (0x7f - 0x41) 0x41 (p + 4)
              (tbl_pair buf (tbl_pair buf a p).2 (p + 2)).2).2.2.2.2 = X at key ⊢
          generalize compress_loop buf e f _
            (tbl_more buf e (0x7f - 0x41) 0x41 (p + 4)
              (tbl_pair buf (tbl_pair buf b p).2 (p + 2)).2).2.2.2.2 = Y at key ⊢
          cases X with
          | error u =>
            cases Y with
            | error v => exact key
            | ok s => exact key
          | ok r =>
            cases Y with
            | error v => exact key
            | ok s =>
              obtain ⟨k1, k2, k3⟩ := key
              exact ⟨by simp only; rw [k1], by simp only; rw [k2], k3⟩
        · rw [if_neg h4, if_neg h4, lit_loop_eq buf e hb a b h]
          have key := ih (lit_loop buf e b 9 0xff p).2.2.2 a b h
          generalize compress_loop buf e f (lit_loop buf e b 9 0xff p).2.2.2 a = X at key ⊢
          generalize compress_loop buf e f (lit_loop buf e b 9 0xff p).2.2.2 b = Y at key ⊢
          cases X with
          | error u =>
            cases Y with
            | error v => exact key
            | ok s => exact key
          | ok r =>
            cases Y with
            | error v => exact key
            | ok s =>
              obtain ⟨k1, k2, k3⟩ := key
              exact ⟨by simp only; rw [k1], by simp only; rw [k2], k3⟩
    · rw [if_neg hp, if_neg hp]
      exact ⟨rfl, rfl, h⟩

/-- After the reset at the start of `compress_scanline` nothing is left of the state
before. -/
theorem clear_tables_eq (st1 st2 : TblState) (h1 : TblInv st1 ∨ st1.tbllen = -1)
    (h2 : TblInv st2 ∨ st2.tbllen = -1) : TblEq (clear_tables st1) (clear_tables st2) := by
  have c1 := clear_tables_inv st1 h1
  have c2 := clear_tables_inv st2 h2
  have z1 : (clear_tables st1).tbllen = 0 := rfl
  have z2 : (clear_tables st2).tbllen = 0 := rfl
  refine ⟨by rw [z1, z2], ?_, ?_⟩
  · intro i hi
    rw [z1] at hi
    omega
  · intro c hc
    rw [c1.2.2.2 c hc (fun i hi => by rw [z1] at hi; omega),
      c2.2.2.2 c hc (fun i hi => by rw [z2] at hi; omega)]

theorem table_eq (a b : TblState) (h : TblEq a b) : table a = table b := by
  rw [table, table, ← h.1]
  apply List.map_congr_left
  intro i hi
  have := List.mem_range.mp hi
  exact h.2.1 i (by omega)

/-- C32.  Compression does not depend on earlier scanlines: for two prior table states
that each satisfy the table invariant or have `tbllen = -1`, `compress_scanline` on the
same scanline of byte values fails in the same way from both or returns from both, and
then with the same output bytes, the same `olen`, the same `tbllen`, the same entries
`tbl[0..tbllen)` and the same 256 entries of `invtbl`; it returns when the scanline has
fewer than 4095 bytes. -/
theorem scanline_independent (buf : List Nat) (p e : Nat) (st1 st2 : TblState)
    (hb : ∀ b ∈ buf, b < 256) (h1 : TblInv st1 ∨ st1.tbllen = -1)
    (h2 : TblInv st2 ∨ st2.tbllen = -1) :
    (e - p < 4095 → ∃ r1, compress_scanline buf p e st1 = .ok r1) ∧
    (∀ x, compress_scanline buf p e st1 = .error x →
      compress_scanline buf p e st2 = .error x) ∧
    ∀ r1, compress_scanline buf p e st1 = .ok r1 →
      ∃ r2, compress_scanline buf p e st2 = .ok r2 ∧ r1.1 = r2.1 ∧ r1.2.1 = r2.2.1 ∧
        r1.2.2.tbllen = r2.2.2.tbllen ∧ table r1.2.2 = table r2.2.2 ∧
        (∀ i : Nat, (i : Int) < r1.2.2.tbllen → r1.2.2.tbl i = r2.2.2.tbl i) ∧
        ∀ c : Nat, c < 256 → r1.2.2.invtbl c = r2.2.2.invtbl c := by
  have key := resEq_ok _ _ (compress_loop_eq buf e (rd_lt buf hb) (e - p) p _ _
    (clear_tables_eq st1 st2 h1 h2))
  refine ⟨?_, key.1, ?_⟩
  · intro hW
    obtain ⟨r, hr, _⟩ := compress_loop_spec buf e (rd_lt buf hb) (e - p) p (clear_tables st1)
      (clear_tables_inv st1 h1) (le_refl _) hW
    exact ⟨r, hr⟩
  · intro r1 hr1
    obtain ⟨r2, hr2, k1, k2, k3⟩ := key.2 r1 hr1
    exact ⟨r2, hr2, k1, k2, k3.1, table_eq _ _ k3, k3.2.1, k3.2.2⟩

/-- The scanline 1, 2, 3, 4, 5, 1, 9, 9, 9 after program start and after the byte 7 was
put in the table. -/
theorem scanline_independent_witness :
    (∀ b ∈ [1, 2, 3, 4, 5, 1, 9, 9, 9], b < 256) ∧ TblState.uninit.tbllen = -1 ∧
    TblInv (add_tbl (clear_tables TblState.uninit) 7).2 ∧
    ((9 - 0 < 4095 →
      ∃ r1, compress_scanline [1, 2, 3, 4, 5, 1, 9, 9, 9] 0 9 TblState.uninit = .ok r1) ∧
    (∀ x, compress_scanline [1, 2, 3, 4, 5, 1, 9, 9, 9] 0 9 TblState.uninit = .error x →
      compress_scanline [1, 2, 3, 4, 5, 1, 9, 9, 9] 0 9
        (add_tbl (clear_tables TblState.uninit) 7).2 = .error x) ∧
    ∀ r1, compress_scanline [1, 2, 3, 4, 5, 1, 9, 9, 9] 0 9 TblState.uninit = .ok r1 →
      ∃ r2, compress_scanline [1, 2, 3, 4, 5, 1, 9, 9, 9] 0 9
          (add_tbl (clear_tables TblState.uninit) 7).2 = .ok r2 ∧
        r1.1 = r2.1 ∧ r1.2.1 = r2.2.1 ∧
        r1.2.2.tbllen = r2.2.2.tbllen ∧ table r1.2.2 = table r2.2.2 ∧
        (∀ i : Nat, (i : Int) < r1.2.2.tbllen → r1.2.2.tbl i = r2.2.2.tbl i) ∧
        ∀ c : Nat, c < 256 → r1.2.2.invtbl c = r2.2.2.invtbl c) :=
  ⟨by decide, rfl,
    (add_tbl_spec (clear_tables TblState.uninit) 7 (by decide)
      (clear_tables_inv TblState.uninit (Or.inr rfl)) (Or.inr (by decide))).1,
    scanline_independent [1, 2, 3, 4, 5, 1, 9, 9, 9] 0 9 TblState.uninit
      (add_tbl (clear_tables TblState.uninit) 7).2 (by decide) (Or.inr rfl)
      (Or.inl (add_tbl_spec (clear_tables TblState.uninit) 7 (by decide)
        (clear_tables_inv TblState.uninit (Or.inr rfl)) (Or.inr (by decide))).1)⟩

/-! ## The compressor reads one byte past a scanline that ends with a literal group -/

theorem get_len_loop_reads_lt (buf : List Nat) (c e : Nat) : ∀ k p,
    ∀ x ∈ get_len_loop_reads buf c e k p, p ≤ x ∧ x < e := by
  intro k
  induction k with
  | zero => intro p x hx; cases hx
  | succ k ih =>
    intro p x hx
    rw [get_len_loop_reads] at hx
    split at hx
    · rename_i hp
      rcases List.mem_cons.mp hx with h | h
      · rw [h]; exact ⟨le_refl _, hp⟩
      · split at h
        · have := ih (p + 1) x h
          omega
        · cases h
    · cases hx

theorem get_len_reads_le (buf : List Nat) (p e : Nat) :
    ∀ x ∈ get_len_reads buf p e, x = p ∨ (p < x ∧ x < e) := by
  intro x hx
  rw [get_len_reads] at hx
  rcases List.mem_cons.mp hx with h | h
  · exact Or.inl h
  · have := get_len_loop_reads_lt buf _ e _ _ x h
    omega

theorem next_n_reads_lt (p len e : Nat) : ∀ x ∈ next_n_reads p len e, p ≤ x ∧ x < e := by
  intro x hx
  rw [next_n_reads] at hx
  split at hx
  · cases hx
  · obtain ⟨j, hj, rfl⟩ := List.mem_map.mp hx
    have := List.mem_range.mp hj
    omega

theorem tbl_more_pos (buf : List Nat) (e : Nat) : ∀ k q p st,
    p ≤ (tbl_more buf e k q p st).2.2.2.1 ∧ (p ≤ e → (tbl_more buf e k q p st).2.2.2.1 ≤ e) := by
  intro k
  induction k with
  | zero => intro q p st; rw [tbl_more]; exact ⟨le_refl _, fun h => h⟩
  | succ k ih =>
    intro q p st
    rw [tbl_more]
    split
    · rename_i hc
      split
      · exact ⟨le_refl _, fun h => h⟩
      · have hlt : p + 2 < e := by
          by_contra hh
          have := hc.1
          rw [next_n_in_tbl, if_pos (by omega)] at this
          cases this
        have := ih ((q + 1) % 256) (p + 2) (tbl_pair buf st p).2
        simp only
        exact ⟨by omega, fun _ => this.2 (by omega)⟩
    · exact ⟨le_refl _, fun h => h⟩

theorem tbl_more_reads_lt (buf : List Nat) (e : Nat) : ∀ k q p st,
    ∀ x ∈ tbl_more_reads buf e k q p st, p ≤ x ∧ x < e := by
  intro k
  induction k with
  | zero =>
    intro q p st x hx
    rw [tbl_more_reads] at hx
    exact next_n_reads_lt p 2 e x hx
  | succ k ih =>
    intro q p st x hx
    rw [tbl_more_reads] at hx
    rcases List.mem_append.mp hx with h | h
    · exact next_n_reads_lt p 2 e x h
    · split at h
      · rename_i hc
        have hlt : p + 2 < e := by
          by_contra hh
          have := hc.1
          rw [next_n_in_tbl, if_pos (by omega)] at this
          cases this
        rcases List.mem_append.mp h with h1 | h1
        · have := get_len_reads_le buf p (min (p + 3) e) x h1
          have hm : min (p + 3) e ≤ e := Nat.min_le_right _ _
          omega
        · split at h1
          · cases h1
          · rcases List.mem_append.mp h1 with h2 | h2
            · simp only [List.mem_cons, List.mem_singleton, List.not_mem_nil, or_false] at h2
              omega
            · have := ih _ _ _ x h2
              omega
      · cases h

theorem lit_loop_reads_le (buf : List Nat) (e : Nat) (st : TblState) : ∀ k q p, p < e →
    ∀ x ∈ lit_loop_reads buf e st k q p, p ≤ x ∧ x ≤ e := by
  have hg : ∀ p, p < e → ∀ x ∈ get_len_reads buf (p + 1) (min (p + 1 + 3) e),
      p ≤ x ∧ x ≤ e := by
    intro p hp x hx
    have := get_len_reads_le buf (p + 1) (min (p + 1 + 3) e) x hx
    have hm : min (p + 1 + 3) e ≤ e := Nat.min_le_right _ _
    omega
  intro k
  induction k with
  | zero =>
    intro q p hp x hx
    rw [lit_loop_reads] at hx
    rcases List.mem_cons.mp hx with h | h
    · omega
    · rcases List.mem_append.mp h with h1 | h1
      · exact hg p hp x h1
      · split at h1
        · cases h1
        · have := next_n_reads_lt (p + 1) 4 e x h1
          omega
  | succ k ih =>
    intro q p hp x hx
    rw [lit_loop_reads] at hx
    rcases List.mem_cons.mp hx with h | h
    · omega
    · rcases List.mem_append.mp h with h1 | h1
      · exact hg p hp x h1
      · split at h1
        · cases h1
        · rcases List.mem_append.mp h1 with h2 | h2
          · have := next_n_reads_lt (p + 1) 4 e x h2
            omega
          · split at h2
            · cases h2
            · split at h2
              · rename_i hc
                have := ih _ (p + 1) hc.1 x h2
                omega
              · cases h2

theorem rle_reads_lt (p n e : Nat) (hn : 3 ≤ n) (hn2 : n < 4095) (he : p + n ≤ e) :
    ∀ x ∈ rle_reads p n, p ≤ x ∧ x < e := by
  obtain ⟨_, h1, h2⟩ := rle_bits n hn2
  intro x hx
  by_cases h63 : n > 63
  · rw [rle_reads, if_pos h63, if_pos h63, if_pos h63, h1, h2] at hx
    rcases List.mem_append.mp hx with h | h
    · rw [List.mem_singleton] at h
      omega
    · by_cases hm : n % 64 ≠ 0
      · rw [if_pos hm, List.mem_singleton] at h
        omega
      · rw [if_neg hm] at h
        cases h
  · rw [rle_reads, if_neg h63, if_neg h63, if_neg h63] at hx
    rcases List.mem_append.mp hx with h | h
    · cases h
    · by_cases hm : n ≠ 0
      · rw [if_pos hm, List.mem_singleton] at h
        omega
      · rw [if_neg hm] at h
        cases h

/-- Every position read by the main loop lies between the position of the pass and
`end`, `end` included. -/
theorem compress_reads_le (buf : List Nat) (e : Nat) : ∀ f p st,
    ∀ x ∈ compress_reads buf e f p st, p ≤ x ∧ x ≤ e := by
  intro f
  induction f with
  | zero => intro p st x hx; cases hx
  | succ f ih =>
    intro p st x hx
    rw [compress_reads] at hx
    by_cases hp : p < e
    · rw [if_pos hp] at hx
      obtain ⟨g1, g2, _, _⟩ := get_len_spec buf p e
      have he := g2 hp
      rcases List.mem_append.mp hx with h | h
      · have := get_len_reads_le buf p e x h
        omega
      · by_cases hn : get_len buf p e > 2
        · rw [if_pos hn] at h
          by_cases ha : ¬ get_len buf p e < 63 * 64 + 63
          · rw [if_pos ha] at h
            cases h
          · rw [if_neg ha] at h
            have hn2 : get_len buf p e < 4095 := by omega
            rcases List.mem_append.mp h with h1 | h1
            · have := rle_reads_lt p _ e (by omega) hn2 he x h1
              omega
            · rw [rle_emit_eq buf p _ hn2] at h1
              have := ih _ st x h1
              simp only at this
              omega
        · rw [if_neg hn] at h
          rcases List.mem_append.mp h with h1 | h1
          · have := next_n_reads_lt p 4 e x h1
            omega
          · by_cases h4 : next_n_in_tbl buf st p 4 e = true
            · rw [if_pos h4] at h1
              have hlt := ((next4_iff buf st p e).mp h4).1
              rcases List.mem_append.mp h1 with h2 | h2
              · rcases List.mem_append.mp h2 with h3 | h3
                · simp only [List.mem_cons, List.mem_singleton, List.not_mem_nil,
                    or_false] at h3
                  omega
                · have := tbl_more_reads_lt buf e _ _ _ _ x h3
                  omega
              · have hpos := (tbl_more_pos buf e (0x7f - 0x41) 0x41 (p + 4)
                  (tbl_pair buf (tbl_pair buf st p).2 (p + 2)).2).1
                have := ih _ _ x h2
                omega
            · rw [if_neg h4] at h1
              rcases List.mem_append.mp h1 with h2 | h2
              · exact lit_loop_reads_le buf e st 9 0xff p hp x h2
              · obtain ⟨_, l2, _, l4, _, _⟩ := lit_loop_spec buf e st 9 0xff p
                have := ih _ st x h2
                omega
    · rw [if_neg hp] at hx
      cases hx

/-- On a scanline of one byte the position `end` is read. -/
theorem one_byte_reads (buf : List Nat) (p : Nat) (st : TblState) :
    p + 1 ∈ scanline_reads buf p (p + 1) st := by
  obtain ⟨g1, g2, _, _⟩ := get_len_spec buf p (p + 1)
  have he := g2 (Nat.lt_succ_self p)
  have hn : ¬ get_len buf p (p + 1) > 2 := by omega
  have h4 : ¬ next_n_in_tbl buf (clear_tables st) p 4 (p + 1) = true := by
    rw [next_n_in_tbl, if_pos (by omega)]
    exact Bool.false_ne_true
  have hf : p + 1 - p = 0 + 1 := by omega
  rw [scanline_reads, hf, compress_reads, if_pos (Nat.lt_succ_self p), if_neg hn, if_neg h4,
    lit_loop_reads]
  apply List.mem_append_right
  apply List.mem_append_right
  apply List.mem_append_left
  apply List.mem_cons_of_mem
  apply List.mem_append_left
  rw [get_len_reads]
  exact List.mem_cons_self _ _

/-- C33.  A read past the scanline.  On the scanline that holds the one byte 7 at
position 0 (`end` is position 1, outside the buffer) `compress_scanline` stores the
literal group 00 07 and reads the positions 0, 0 and 1: after the literal branch has
stored the last byte, it calls `get_len(p, MIN(p + 3, end))` with `p = end`, and
`get_len` reads `*p` before it tests `p < end`.  This holds of every scanline of one
byte, whatever the byte and the table state are.  No position after `end` or before the
start of the scanline is ever read. -/
theorem read_past_end :
    scanline_reads [7] 0 1 TblState.uninit = [0, 0, 1] ∧ ([7] : List Nat)[1]? = none ∧
    ¬ (1 < 1) ∧
    (compress_scanline [7] 0 1 TblState.uninit).toOption.map (fun r => r.1) = some [0, 7] ∧
    (∀ (buf : List Nat) (p : Nat) (st : TblState), p + 1 ∈ scanline_reads buf p (p + 1) st) ∧
    (∀ (buf : List Nat) (p e : Nat) (st : TblState), ∀ x ∈ scanline_reads buf p e st,
      p ≤ x ∧ x ≤ e) :=
  ⟨by decide, by decide, by decide, by decide, one_byte_reads,
    fun buf p e st => compress_reads_le buf e (e - p) p (clear_tables st)⟩

/-! ## The parser on the streams of the encoder -/

/-- The run of `main` is that of `esc_main`. -/
theorem esc_trace_main : ∀ f d,
    esc_main f d = (match esc_trace f d with
      | .ok t => .ok t.2
      | .error x => .error x) := by
  intro f
  induction f with
  | zero =>
    intro d
    rw [esc_main, esc_trace]
    split <;> rfl
  | succ f ih =>
    intro d
    rw [esc_main, esc_trace]
    by_cases he : d.inp.eof = true
    · rw [if_pos he, if_pos he]
    · rw [if_neg he, if_neg he]
      simp only
      by_cases hn : (readesc d).1 < 0
      · rw [if_pos hn, if_pos hn]
      · rw [if_neg hn, if_neg hn]
        by_cases h52 : (readesc d).1 = 0x52
        · rw [if_pos h52, if_pos h52, ih]
          generalize esc_trace f _ = T
          cases T <;> rfl
        · rw [if_neg h52, if_neg h52, ih]
          generalize esc_trace f _ = T
          cases T <;> rfl

/-- A pass of `main` on a frame that `readesc` accepts. -/
theorem esc_trace_accept (f : Nat) (d : Dec) (r : Int × List Nat × Dec)
    (t : List Int × Int × Dec) (he : d.inp.eof = false) (hr : readesc d = r)
    (hpos : ¬ r.1 < 0)
    (ht : esc_trace f (if r.1 = 0x52 then dump52 r.2.1 r.2.2 else r.2.2) = .ok t) :
    esc_trace (f + 1) d = .ok (r.1 :: t.1, t.2) := by
  rw [esc_trace, if_neg (by rw [he]; exact Bool.false_ne_true), hr, if_neg hpos, ht]

/-- A pass of `main` in which `readesc` fails. -/
theorem esc_trace_reject (f : Nat) (d : Dec) (r : Int × List Nat × Dec)
    (he : d.inp.eof = false) (hr : readesc d = r) (hneg : r.1 < 0) :
    esc_trace (f + 1) d = .ok ([], r.1, r.2.2) := by
  rw [esc_trace, if_neg (by rw [he]; exact Bool.false_ne_true), hr, if_pos hneg]

/-- A frame written by `do_cmd` with a payload of fewer than 256 bytes is accepted by
`readesc` when the expected sequence number is the frame's, and also when it is not but
the frame's is 0. -/
theorem readesc_accept (s cmd : Nat) (payload rest : List Nat) (i dsq : Int) (hs : s < 256)
    (hcmd : cmd < 256) (hpl : ∀ b ∈ payload, b < 256) (hlen : payload.length < 256)
    (hd : dsq = (s : Int) ∨ s = 0) :
    ∃ frame, do_cmd s cmd payload.length payload = .ok (frame, (s + 1) % 256) ∧
      frame = [0x1b, cmd, s, payload.length, 0, 0xff - cmd] ++ payload ++
        [(0x1b + cmd + s + payload.length + (0xff - cmd) + payload.sum) % 256] ∧
      readesc ⟨⟨frame ++ rest, false⟩, i, dsq⟩ =
        ((cmd : Int), frame, ⟨⟨rest, false⟩, i + 6 + payload.length, (s : Int) + 1⟩) := by
  have e1 : payload.length % 256 = payload.length := by omega
  have e2 : payload.length / 256 = 0 := by omega
  refine ⟨[0x1b, cmd, s, payload.length, 0, 0xff - cmd] ++ payload ++
        [(0x1b + cmd + s + payload.length + (0xff - cmd) + payload.sum) % 256], ?_, rfl, ?_⟩
  · rw [do_cmd_eq s cmd payload hcmd (by omega)]
    simp only [e1, e2, Nat.add_zero]
  · have := readesc_eval 0x1b cmd s payload.length 0 (0xff - cmd)
      ((0x1b + cmd + s + payload.length + (0xff - cmd) + payload.sum) % 256) payload rest i dsq
      (by omega) hcmd hs hlen (by omega) (by omega) (by omega) hpl rfl
    simp only [e1, e2, Nat.add_zero, List.cons_append, List.nil_append, List.append_assoc]
      at this ⊢
    rw [this]
    rcases hd with h | h
    · subst h
      simp
    · subst h
      by_cases hz : dsq = 0
      · subst hz
        simp
      · have hz' : ¬ ((0 : Int) = dsq) := fun hh => hz hh.symm
        simp [hz']

/-- The count that `dump52` assembles from a frame with a payload of six byte values. -/
theorem raster_count_eq (h0 h1 h2 h3 h4 h5 a b c d x y : Nat) (rest : List Nat)
    (ha : a < 256) (hb : b < 256) (hc : c < 256) :
    raster_count ([h0, h1, h2, h3, h4, h5] ++ [a, b, c, d, x, y] ++ rest) =
      int32 (announced [a, b, c, d, x, y]) := by
  simp only [raster_count, announced, rd, List.cons_append, List.nil_append,
    List.getD_cons_succ, List.getD_cons_zero]
  rw [shl_or _ _ hc, shl_or _ _ hb, shl_or _ _ ha]
  congr 1
  omega

theorem list_six (l : List Nat) (h : l.length = 6) :
    ∃ a b c d x y, l = [a, b, c, d, x, y] := by
  match l, h with
  | [a, b, c, d, x, y], _ => exact ⟨a, b, c, d, x, y, rfl⟩

theorem readesc_eof (i dsq : Int) :
    readesc ⟨⟨[], false⟩, i, dsq⟩ = (-1, [uchar (-1)], ⟨⟨[], true⟩, i, dsq⟩) := by
  simp [readesc, getchar]

/-- After an accepted frame of an item of the stream, `main` is at the next frame. -/
theorem after_frame (cmd s : Nat) (payload raw out ck : List Nat) (i : Int)
    (hpl : ∀ b ∈ payload, b < 256)
    (hr1 : (cmd = 0x52 ∧ payload.length = 6) →
      raw.length = announced payload ∧ raw.length < 2 ^ 31)
    (hr2 : ¬ (cmd = 0x52 ∧ payload.length = 6) → raw = []) :
    ∃ j : Int,
      (if (cmd : Int) = 0x52 then
        dump52 ([0x1b, cmd, s, payload.length, 0, 0xff - cmd] ++ payload ++ ck)
          ⟨⟨raw ++ out, false⟩, i, (s : Int) + 1⟩
       else ⟨⟨raw ++ out, false⟩, i, (s : Int) + 1⟩) = ⟨⟨out, false⟩, j, (s : Int) + 1⟩ := by
  have h3 : rd ([0x1b, cmd, s, payload.length, 0, 0xff - cmd] ++ payload ++ ck) 3 =
      payload.length := by
    simp [rd]
  by_cases hc : cmd = 0x52 ∧ payload.length = 6
  · obtain ⟨e1, e2⟩ := hr1 hc
    obtain ⟨a, b, c, d, x, y, hp⟩ := list_six payload hc.2
    have hcount : raster_count ([0x1b, cmd, s, payload.length, 0, 0xff - cmd] ++ payload ++ ck)
        = (raw.length : Int) := by
      rw [hp, raster_count_eq _ _ _ _ _ _ a b c d x y ck
        (hpl a (by rw [hp]; simp)) (hpl b (by rw [hp]; simp)) (hpl c (by rw [hp]; simp)),
        ← hp, ← e1, int32_small _ e2]
    refine ⟨i + raw.length, ?_⟩
    rw [if_pos (by rw [hc.1]; rfl), dump52, h3, if_neg (by rw [hc.2]; exact fun h => h rfl),
      hcount, Int.toNat_ofNat, skip_raw_spec]
  · have hraw := hr2 hc
    subst hraw
    refine ⟨i, ?_⟩
    by_cases h52 : cmd = 0x52
    · have h6 : payload.length ≠ 6 := fun h => hc ⟨h52, h⟩
      rw [if_pos (by rw [h52]; rfl), dump52, h3, if_pos h6]
      rfl
    · rw [if_neg (by omega)]
      rfl

/-- The parser on the stream written for a list of items, from the sequence counter `s`
of the encoder and an expected sequence number that is `s`, or anything when `s = 0`. -/
theorem stream_accepted : ∀ (items : List (Nat × List Nat × List Nat)) (s : Nat) (i dsq : Int),
    s < 256 → (dsq = (s : Int) ∨ s = 0) → (∀ it ∈ items, ItemOk it) →
    ∃ out sq', write_items s items = .ok (out, sq') ∧ sq' = (s + items.length) % 256 ∧
      ∀ f, items.length < f →
        ∃ d, esc_trace f ⟨⟨out, false⟩, i, dsq⟩ =
            .ok (items.map (fun it => (it.1 : Int)), -1, d) ∧
          d.inp.rest = [] := by
  intro items
  induction items with
  | nil =>
    intro s i dsq hs _ _
    refine ⟨[], s, by rw [write_items], by simp only [List.length_nil]; omega, ?_⟩
    intro f hf
    obtain ⟨f', rfl⟩ : ∃ f', f = f' + 1 := ⟨f - 1, by simp only [List.length_nil] at hf; omega⟩
    exact ⟨_, esc_trace_reject f' _ _ rfl (readesc_eof i dsq) (by show (-1 : Int) < 0; decide), rfl⟩
  | cons it its ih =>
    intro s i dsq hs hd h
    obtain ⟨hcmd, hpl, hlen, hr1, hr2⟩ := h it (List.mem_cons_self _ _)
    have hd' : ((s : Int) + 1 = (((s + 1) % 256 : Nat) : Int)) ∨ (s + 1) % 256 = 0 := by
      omega
    have hits : ∀ x ∈ its, ItemOk x := fun x hx => h x (List.mem_cons_of_mem _ hx)
    obtain ⟨out', sq0, hw0, _, _⟩ := ih ((s + 1) % 256) 0 ((s : Int) + 1) (by omega) hd' hits
    obtain ⟨frame, hdo, hframe, hread⟩ := readesc_accept s it.1 it.2.1 (it.2.2 ++ out') i dsq hs
      hcmd hpl hlen hd
    obtain ⟨j, hj⟩ := after_frame it.1 s it.2.1 it.2.2 out'
      [(0x1b + it.1 + s + it.2.1.length + (0xff - it.1) + it.2.1.sum) % 256]
      (i + 6 + it.2.1.length) hpl hr1 hr2
    rw [← hframe] at hj
    obtain ⟨out2, sq', hw, hsq, hrun⟩ := ih ((s + 1) % 256) j ((s : Int) + 1) (by omega) hd' hits
    have hsame : out2 = out' := by
      rw [hw0] at hw
      cases hw
      rfl
    subst hsame
    refine ⟨frame ++ (it.2.2 ++ out2), sq', ?_, ?_, ?_⟩
    · rw [write_items, hdo]
      simp only
      rw [hw]
    · rw [hsq]
      simp only [List.length_cons]
      omega
    · intro f hf
      obtain ⟨f', rfl⟩ : ∃ f', f = f' + 1 :=
        ⟨f - 1, by simp only [List.length_cons] at hf; omega⟩
      obtain ⟨d, hd1, hd2⟩ := hrun f' (by simp only [List.length_cons] at hf; omega)
      refine ⟨d, ?_, hd2⟩
      have := esc_trace_accept f' ⟨⟨frame ++ (it.2.2 ++ out2), false⟩, i, dsq⟩ _
        (its.map (fun it => (it.1 : Int)), -1, d) rfl hread (by simp only; omega)
        (by simp only; rw [hj]; exact hd1)
      rw [this]
      rfl

theorem readesc_bad_start (b : Nat) (tl : List Nat) (i dsq : Int) (hb : b < 256)
    (hne : b ≠ 0x1b) :
    readesc ⟨⟨b :: tl, false⟩, i, dsq⟩ = (-2, [b], ⟨⟨tl, false⟩, i, dsq⟩) := by
  have hu : uchar (b : Int) = b := uchar_nat b hb
  simp [readesc, getchar, hu, hne]

theorem write_items_cons (s : Nat) (it : Nat × List Nat × List Nat)
    (its : List (Nat × List Nat × List Nat)) (r rs : List Nat × Nat)
    (hdo : do_cmd s it.1 it.2.1.length it.2.1 = .ok r) (hw : write_items r.2 its = .ok rs) :
    write_items s (it :: its) = .ok (r.1 ++ (it.2.2 ++ rs.1), rs.2) := by
  rw [write_items, hdo]
  simp only
  rw [hw]

/-- A block that announces `2 ^ 31` raw bytes: the frame is accepted, no raw byte is skipped,
and the first raw byte is read as the start of the next frame. -/
theorem big_block (raw tl : List Nat) (hraw : raw = 0 :: tl) :
    write_items 0 [(0x52, [0, 0, 0, 0x80, 1, 0], raw), (0x41, [0], [])] =
      .ok ([0x1b, 0x52, 0, 6, 0, 0xad, 0, 0, 0, 0x80, 1, 0, 0xa1] ++
        (raw ++ ([0x1b, 0x41, 1, 1, 0, 0xbe, 0, 0x1c] ++ ([] ++ []))), 2) ∧
    ∃ d, esc_trace 3 ⟨⟨[0x1b, 0x52, 0, 6, 0, 0xad, 0, 0, 0, 0x80, 1, 0, 0xa1] ++
        (raw ++ ([0x1b, 0x41, 1, 1, 0, 0xbe, 0, 0x1c] ++ ([] ++ []))), false⟩, 0, 0⟩ =
      .ok ([0x52], -2, d) := by
  constructor
  · obtain ⟨frame1, hdo1, hframe1, _⟩ := readesc_accept 0 0x52 [0, 0, 0, 0x80, 1, 0] [] 0 0
      (by decide) (by decide) (by decide) (by decide) (Or.inl rfl)
    obtain ⟨frame2, hdo2, hframe2, _⟩ := readesc_accept 1 0x41 [0] [] 0 1
      (by decide) (by decide) (by decide) (by decide) (Or.inl rfl)
    have e1 : frame1 = [0x1b, 0x52, 0, 6, 0, 0xad, 0, 0, 0, 0x80, 1, 0, 0xa1] := by
      rw [hframe1]
      rfl
    have e2 : frame2 = [0x1b, 0x41, 1, 1, 0, 0xbe, 0, 0x1c] := by
      rw [hframe2]
      rfl
    subst e1
    subst e2
    have w3 : write_items 2 [] = .ok ([], 2) := by rw [write_items]
    have w2 := write_items_cons 1 (0x41, [0], []) [] _ _ hdo2 w3
    exact write_items_cons 0 (0x52, [0, 0, 0, 0x80, 1, 0], raw) _ _ _ hdo1 w2
  · obtain ⟨frame, hdo, hframe, hread⟩ := readesc_accept 0 0x52 [0, 0, 0, 0x80, 1, 0]
      (raw ++ ([0x1b, 0x41, 1, 1, 0, 0xbe, 0, 0x1c] ++ ([] ++ []))) 0 0 (by decide) (by decide)
      (by decide) (by decide) (Or.inl rfl)
    have hf : frame = [0x1b, 0x52, 0, 6, 0, 0xad, 0, 0, 0, 0x80, 1, 0, 0xa1] := by
      rw [hframe]
      rfl
    subst hf
    have hdump : dump52 [0x1b, 0x52, 0, 6, 0, 0xad, 0, 0, 0, 0x80, 1, 0, 0xa1]
        ⟨⟨raw ++ ([0x1b, 0x41, 1, 1, 0, 0xbe, 0, 0x1c] ++ ([] ++ [])), false⟩, 0 + 6 + 6, 0 + 1⟩
        = ⟨⟨0 :: (tl ++ ([0x1b, 0x41, 1, 1, 0, 0xbe, 0, 0x1c] ++ ([] ++ []))), false⟩,
            0 + 6 + 6, 0 + 1⟩ := by
      rw [hraw]
      rfl
    have h2 := esc_trace_reject 1
      ⟨⟨0 :: (tl ++ ([0x1b, 0x41, 1, 1, 0, 0xbe, 0, 0x1c] ++ ([] ++ []))), false⟩,
        0 + 6 + 6, 0 + 1⟩ _ rfl
      (readesc_bad_start 0 _ _ _ (by decide) (by decide)) (by show (-2 : Int) < 0; decide)
    have h1 := esc_trace_accept 2 _ _
      ([], -2, ⟨⟨tl ++ ([0x1b, 0x41, 1, 1, 0, 0xbe, 0, 0x1c] ++ ([] ++ [])), false⟩,
        0 + 6 + 6, 0 + 1⟩) rfl hread (by show ¬ ((0x52 : Nat) : Int) < 0; decide)
      (by
        show esc_trace 2 (if ((0x52 : Nat) : Int) = 0x52 then
          dump52 [0x1b, 0x52, 0, 6, 0, 0xad, 0, 0, 0, 0x80, 1, 0, 0xa1]
            ⟨⟨raw ++ ([0x1b, 0x41, 1, 1, 0, 0xbe, 0, 0x1c] ++ ([] ++ [])), false⟩,
              0 + 6 + 6, 0 + 1⟩
          else ⟨⟨raw ++ ([0x1b, 0x41, 1, 1, 0, 0xbe, 0, 0x1c] ++ ([] ++ [])), false⟩,
              0 + 6 + 6, 0 + 1⟩) = _
        rw [if_pos (by decide), hdump]
        exact h2)
    exact ⟨_, h1⟩

/-- C31, as the spec words it: the parser accepts every frame of a stream the encoder
writes. A block of `2 ^ 31` raw bytes is announced by a frame the parser accepts, but the
parser takes the count for a negative number, skips nothing, and stops with `-2` at the
first raw byte: the frame that follows the block is never returned. -/
theorem decoder_accepts_counterexample :
    (List.replicate (2 ^ 31) 0).length = announced [0, 0, 0, 0x80, 1, 0] ∧
    ∃ out d,
      write_items 0 [(0x52, [0, 0, 0, 0x80, 1, 0], List.replicate (2 ^ 31) 0),
        (0x41, [0], [])] = .ok (out, 2) ∧
      esc_trace 3 ⟨⟨out, false⟩, 0, 0⟩ = .ok ([0x52], -2, d) ∧
      esc_main 3 ⟨⟨out, false⟩, 0, 0⟩ = .ok (-2, d) := by
  refine ⟨by rw [List.length_replicate]; rfl, ?_⟩
  obtain ⟨hw, d, hd⟩ := big_block (List.replicate (2 ^ 31) 0) (List.replicate 2147483647 0)
    (List.replicate_succ (n := 2147483647) (a := 0))
  refine ⟨_, d, hw, hd, ?_⟩
  rw [esc_trace_main, hd]

/-- C31, amended. When every frame is a byte command with a payload of fewer than 256
bytes, every 0x52 frame with a 6-byte payload is followed by exactly the number of raw bytes
its first four payload bytes announce, fewer than `2 ^ 31`, and no other frame is followed by
raw bytes, then the encoder writes the stream, from a fresh sequence counter, and a fresh
parser accepts every frame of it: `readesc` returns the command bytes in order, however many
frames there are (so also across the wrap of the sequence byte from 255 to 0), and `main`
ends with `-1` at the end of the input, all of it consumed. -/
theorem decoder_accepts (items : List (Nat × List Nat × List Nat))
    (h : ∀ it ∈ items, ItemOk it) :
    ∃ out sq', write_items 0 items = .ok (out, sq') ∧ sq' = items.length % 256 ∧
      ∀ f, items.length < f →
        ∃ d, esc_trace f ⟨⟨out, false⟩, 0, 0⟩ =
            .ok (items.map (fun it => (it.1 : Int)), -1, d) ∧
          esc_main f ⟨⟨out, false⟩, 0, 0⟩ = .ok (-1, d) ∧ d.inp.rest = [] := by
  obtain ⟨out, sq', hw, hsq, hrun⟩ := stream_accepted items 0 0 0 (by decide) (Or.inl rfl) h
  refine ⟨out, sq', hw, by rw [hsq, Nat.zero_add], ?_⟩
  intro f hf
  obtain ⟨d, hd1, hd2⟩ := hrun f hf
  refine ⟨d, hd1, ?_, hd2⟩
  rw [esc_trace_main, hd1]

theorem decoder_accepts_witness :
    (∀ it ∈ List.replicate 300 ((0x41 : Nat), ([0] : List Nat), ([] : List Nat)), ItemOk it) ∧
    ∃ out sq', write_items 0 (List.replicate 300 (0x41, [0], [])) = .ok (out, sq') ∧
      sq' = (List.replicate 300 ((0x41 : Nat), ([0] : List Nat), ([] : List Nat))).length % 256 ∧
      ∀ f, (List.replicate 300 ((0x41 : Nat), ([0] : List Nat), ([] : List Nat))).length < f →
        ∃ d, esc_trace f ⟨⟨out, false⟩, 0, 0⟩ =
            .ok ((List.replicate 300 ((0x41 : Nat), ([0] : List Nat), ([] : List Nat))).map
              (fun it => (it.1 : Int)), -1, d) ∧
          esc_main f ⟨⟨out, false⟩, 0, 0⟩ = .ok (-1, d) ∧ d.inp.rest = [] :=
  have hok : ∀ it ∈ List.replicate 300 ((0x41 : Nat), ([0] : List Nat), ([] : List Nat)),
      ItemOk it := fun it hit => by
    rw [List.eq_of_mem_replicate hit]
    exact ⟨by decide, by decide, by decide, fun h => absurd h.1 (by decide), fun _ => rfl⟩
  ⟨hok, decoder_accepts _ hok⟩


/-! ## The block buffer is too small when its size wraps around -/

/-- Two calls of `compress_scanline` on the same scanline from two table states return the
same `olen` and `tbllen`. -/
theorem compress_same (buf : List Nat) (p e : Nat) (st1 st2 : TblState)
    (hb : ∀ b ∈ buf, b < 256) (h1 : TblInv st1 ∨ st1.tbllen = -1)
    (h2 : TblInv st2 ∨ st2.tbllen = -1) (r1 : List Nat × Nat × TblState)
    (hr : compress_scanline buf p e st1 = .ok r1) :
    ∃ r2, compress_scanline buf p e st2 = .ok r2 ∧ r1.2.1 = r2.2.1 ∧
      r1.2.2.tbllen = r2.2.2.tbllen := by
  have key := compress_loop_eq buf e (rd_lt buf hb) (e - p) p _ _ (clear_tables_eq st1 st2 h1 h2)
  obtain ⟨s, hs, _, q2, q3⟩ := (resEq_ok _ _ key).2 r1 hr
  exact ⟨s, hs, q2, q3.1⟩

/-- One pass of the scanline loop that compresses a scanline: its stores. -/
theorem band_stores_step (ecomode skip sclbytes y k off e : Nat) (inp : Stdin) (yc : Nat)
    (ecofl : Int) (tbl : TblState)
    (scl : List Nat) (inp2 : Stdin) (ec2 : Int) (c : List Nat × Nat × TblState)
    (h1 : yc < y) (h2 : (fread sclbytes inp).1.length = sclbytes)
    (h3 : ¬ (yc + skip * 8) % 2 ^ 32 > y)
    (hscl : (if ecomode ≠ 0 ∧ ecofl ≠ 0 then List.replicate sclbytes 0
      else (fread sclbytes inp).1) = scl)
    (he : (sclbytes + 2 ^ 32 - skip) % 2 ^ 32 = e)
    (hinp : (fread sclbytes inp).2 = inp2)
    (hec : (if ecomode ≠ 0 then -1 - ecofl else ecofl) = ec2)
    (hc : compress_scanline scl skip e tbl = .ok c) :
    band_stores ecomode skip sclbytes y (k + 1) off
        { inp := inp, yc := yc, ecofl := ecofl, tbl := tbl } =
      record_stores off c.2.1 c.2.2.tbllen ++
        band_stores ecomode skip sclbytes y k (off + (c.2.1 + 1 + c.2.2.tbllen.toNat))
          { inp := inp2, yc := yc + 1, ecofl := ec2, tbl := c.2.2 } := by
  rw [band_stores, if_pos h1, if_neg (not_not.mpr h2), if_neg h3]
  simp only [hscl, he, hinp, hec, hc]

/-- A pass of the scanline loop in which `fread` meets the end of the input: the program
stops. -/
theorem band_stores_eof (ecomode skip sclbytes y k off : Nat) (inp : Stdin) (yc : Nat)
    (ecofl : Int) (tbl : TblState)
    (h1 : yc < y) (h2 : (fread sclbytes inp).1.length ≠ sclbytes) :
    band_stores ecomode skip sclbytes y (k + 1) off
      { inp := inp, yc := yc, ecofl := ecofl, tbl := tbl } = [] := by
  rw [band_stores, if_pos h1, if_pos h2]

/-- The stores of the first block of a page. -/
theorem bands_stores_head (ecomode skip sclbytes sclperbl y n i : Nat) (st : PageState)
    (sq : Nat) :
    (bands_stores ecomode skip sclbytes sclperbl y (n + 1) i st sq).head? =
      some (band_stores ecomode skip sclbytes y sclperbl 0 st) := by
  rw [bands_stores]
  rfl

theorem dopage_stores_head (cfg : Config) (nomargins : Nat) (inp : Stdin) (sq : Nat)
    (tbl : TblState) (x y : Nat) (hn : page_skip cfg nomargins = 0) :
    (dopage_stores cfg nomargins inp sq tbl x y).head? =
      some (band_stores cfg.ecomode 0 (x / 8) y (y / 8 + if y &&& 7 ≠ 0 then 1 else 0) 0
        { inp := inp, yc := 0, ecofl := 0, tbl := tbl }) := by
  rw [dopage_stores, hn]
  simp only [Nat.zero_mul, skip_top]
  rw [bands_stores_head]

theorem two_lines_stores (sq : Nat) :
    (dopage_stores Config.default 1
      ⟨[1, 2, 3, 4, 5, 6, 7, 8, 9, 10, 11, 12, 13,
        1, 2, 3, 4, 5, 6, 7, 8, 9, 10, 11, 12, 13], false⟩ sq TblState.uninit
      104 1073741825).head? =
      some [(17, 9), (0, 1), (1, 12), (13, 9), (39, 9), (22, 1), (23, 12), (35, 9)] := by
  have hd : (compress_scanline [1, 2, 3, 4, 5, 6, 7, 8, 9, 10, 11, 12, 13] 0 13
      TblState.uninit).toOption.map (fun r => (r.2.1, r.2.2.tbllen)) = some (9, 12) := by
    decide
  rcases h : compress_scanline [1, 2, 3, 4, 5, 6, 7, 8, 9, 10, 11, 12, 13] 0 13
      TblState.uninit with x | c1
  · rw [h] at hd
    cases hd
  rw [h] at hd
  have hd' : (c1.2.1, c1.2.2.tbllen) = (9, 12) := Option.some.inj hd
  have e1 : c1.2.1 = 9 := congrArg Prod.fst hd'
  have e2 : c1.2.2.tbllen = 12 := congrArg Prod.snd hd'
  have hinv : TblInv c1.2.2 :=
    (compress_scanline_len _ 0 13 TblState.uninit (by decide) (Or.inr rfl) c1 h).2.2
  obtain ⟨c2, h', e3, e4⟩ := compress_same [1, 2, 3, 4, 5, 6, 7, 8, 9, 10, 11, 12, 13] 0 13
    TblState.uninit c1.2.2 (by decide) (Or.inr rfl) (Or.inl hinv) c1 h
  have s3 := band_stores_eof 0 0 13 1073741825 134217726
    (0 + (c1.2.1 + 1 + c1.2.2.tbllen.toNat) + (c2.2.1 + 1 + c2.2.2.tbllen.toNat))
    ⟨[], false⟩ (0 + 1 + 1) 0 c2.2.2 (by decide) (by decide)
  have s2 := band_stores_step 0 0 13 1073741825 (134217726 + 1)
    (0 + (c1.2.1 + 1 + c1.2.2.tbllen.toNat)) 13
    ⟨[1, 2, 3, 4, 5, 6, 7, 8, 9, 10, 11, 12, 13], false⟩ (0 + 1) 0 c1.2.2
    [1, 2, 3, 4, 5, 6, 7, 8, 9, 10, 11, 12, 13] ⟨[], false⟩ 0 c2
    (by decide) (by decide) (by decide) (by decide) (by decide) rfl (by decide) h'
  have s1 := band_stores_step 0 0 13 1073741825 (134217726 + 1 + 1) 0 13
    ⟨[1, 2, 3, 4, 5, 6, 7, 8, 9, 10, 11, 12, 13,
        1, 2, 3, 4, 5, 6, 7, 8, 9, 10, 11, 12, 13], false⟩ 0 0 TblState.uninit
    [1, 2, 3, 4, 5, 6, 7, 8, 9, 10, 11, 12, 13]
    ⟨[1, 2, 3, 4, 5, 6, 7, 8, 9, 10, 11, 12, 13], false⟩ 0 c1
    (by decide) (by decide) (by decide) (by decide) (by decide) rfl (by decide) h
  rw [s2, s3, ← e3, ← e4, e1, e2] at s1
  rw [dopage_stores_head Config.default 1 _ sq TblState.uninit 104 1073741825 (by decide)]
  have hk : (1073741825 / 8 + if 1073741825 &&& 7 ≠ 0 then 1 else 0) = 134217726 + 1 + 1 + 1 := by
    decide
  have h8 : 104 / 8 = 13 := by decide
  have hm : Config.default.ecomode = 0 := rfl
  rw [hk, h8, hm, s1]
  rfl

/-- C20. The block buffer is too small when its size wraps around.  Take the job
`P4\n104 1073741825\n` followed by two scanlines of the 13 bytes 1 to 13, with the
default options.  The page is narrower than the margins, so `dojob` switches them off and
calls `dopage` with `x = 104` and `y = 1073741825`; there `sclbytes = 13`,
`sclperbl = 134217729`, and the product `134217729 * (17 + 13 + 1 + 1) = 2^32 + 32`
wraps around to `blblen = 32`.  Each scanline gives a record of 22 bytes (the preamble,
twelve table bytes and nine bytes of output), within the 32 bytes of a record that the
bound allows: the first is stored at the offsets 0 to 21 of the buffer, with the output of
`compress_scanline` first put at 17 to 25; the second is stored at 22 to 43, with the
output first put at 39 to 47, past the 32 bytes of the buffer. -/
theorem block_buffer_overflow :
    sscanf_lu_lu [49, 48, 52, 32, 49, 48, 55, 51, 55, 52, 49, 56, 50, 53, 10] =
      some (104, 1073741825) ∧
    (page_head Config.default.nomargins (job_skip Config.default) 104 1073741825).x = 104 ∧
    (page_head Config.default.nomargins (job_skip Config.default) 104 1073741825).y
      = 1073741825 ∧
    (page_head Config.default.nomargins (job_skip Config.default) 104 1073741825).nomargins
      = 1 ∧
    (1073741825 / 8 + 1) * (17 + 104 / 8 + 104 / 8 / 10 + 1) = 2 ^ 32 + 32 ∧
    blblen 104 1073741825 = 32 ∧
    (∀ sq : Nat, (dopage_stores Config.default 1
      ⟨[1, 2, 3, 4, 5, 6, 7, 8, 9, 10, 11, 12, 13,
        1, 2, 3, 4, 5, 6, 7, 8, 9, 10, 11, 12, 13], false⟩ sq TblState.uninit 104 1073741825).head? =
      some [(17, 9), (0, 1), (1, 12), (13, 9), (39, 9), (22, 1), (23, 12), (35, 9)]) ∧
    (∀ s ∈ [((39 : Nat), (9 : Nat)), (23, 12), (35, 9)],
      0 < s.2 ∧ blblen 104 1073741825 < s.1 + s.2) ∧
    (17 + 104 / 8 + 104 / 8 / 10 + 1 = 32 ∧ 1 + 12 + 9 ≤ 32) := by
  refine ⟨by decide, by decide, by decide, by decide, by decide, by decide, two_lines_stores,
    by decide, by decide⟩

/-! ## Pages: the new-page frame in the bytes written -/

/-- The cases of one pass of the page loop that returns, with the bytes written. -/
theorem dojob_loop_cases (cfg : Config) (f : Nat) (js : JobState)
    (r : List PageRec × List Nat × JobState) (h : dojob_loop cfg (f + 1) js = .ok r) :
    (r.1 = [] ∧ r.2.1 = []) ∨
    ∃ s pg r' lx ly,
      dojob_page cfg { inp := s, sq := js.sq, tbl := js.tbl, nomargins := js.nomargins,
                       skip := js.skip } lx ly = .ok pg ∧
      dojob_loop cfg f pg.2.2 = .ok r' ∧
      r = (pg.1 :: r'.1, pg.2.1 ++ r'.2.1, r'.2.2) := by
  rw [dojob_loop] at h
  split at h
  · cases h; exact Or.inl ⟨rfl, rfl⟩
  · split at h
    · cases h; exact Or.inl ⟨rfl, rfl⟩
    · split at h
      · cases h
      · split at h
        · cases h
        · rename_i hd hh
          split at h
          · cases h
          · rename_i d _
            split at h
            · cases h
            · rename_i pg hpg
              split at h
              · cases h
              · rename_i r' hr'
                simp only [Except.ok.injEq] at h
                exact Or.inr ⟨hd.2, pg, r', d.1, d.2, hpg, hr', h.symm⟩

theorem dojob_loop_none (cfg : Config) (js : JobState) (r : List PageRec × List Nat × JobState)
    (h : dojob_loop cfg 0 js = .ok r) : r.1 = [] ∧ r.2.1 = [] := by
  rw [dojob_loop] at h
  split at h
  · cases h; exact ⟨rfl, rfl⟩
  · cases h

/-- The dimensions that `dojob` passes to `send_new_page` for a page, and the frame at the
start of the bytes written for the page. -/
theorem page_frame (cfg : Config) (js : JobState) (lx ly : Nat)
    (pg : PageRec × List Nat × JobState)
    (hjs : (js.nomargins = 0 ∧ js.skip = 16 * skiptbl (cfg.res &&& 0xff)) ∨
      (js.nomargins ≠ 0 ∧ js.skip = 0))
    (hpg : dojob_page cfg js lx ly = .ok pg) :
    pg.1.x = round_x (lx % 2 ^ 32) ∧ pg.1.y = ly % 2 ^ 32 ∧
    (pg.1.nomargins = 0 ↔ js.nomargins = 0 ∧ small_page js.skip pg.1.x pg.1.y = false) ∧
    (∃ rest, pg.2.1 = frame js.sq 0x51 (new_page_buf cfg pg.1.sent_x pg.1.sent_y) ++ rest) ∧
    (pg.1.nomargins = 0 → 16 * skiptbl (cfg.res &&& 0xff) ≤ pg.1.y →
      pg.1.sent_x = pg.1.x - 16 * skiptbl (cfg.res &&& 0xff) ∧
      pg.1.sent_y = pg.1.y - 16 * skiptbl (cfg.res &&& 0xff) ∧
      32 * skiptbl (cfg.res &&& 0xff) < pg.1.x) ∧
    (pg.1.nomargins ≠ 0 → pg.1.sent_x = pg.1.x ∧ pg.1.sent_y = pg.1.y) := by
  obtain ⟨outs, _, hout, _⟩ := page_out cfg js lx ly pg hpg
  obtain ⟨_, d2, d3⟩ := page_head_dims (skiptbl (cfg.res &&& 0xff)) js.nomargins js.skip
    lx ly hjs
  obtain ⟨np, pr, _, _, rfl⟩ := dojob_page_ok cfg js lx ly pg hpg
  refine ⟨rfl, rfl, ?_, ⟨_, hout⟩, d2, d3⟩
  show (page_head js.nomargins js.skip lx ly).nomargins = 0 ↔
    js.nomargins = 0 ∧ small_page js.skip (page_head js.nomargins js.skip lx ly).x
      (page_head js.nomargins js.skip lx ly).y = false
  simp only [page_head]
  by_cases hsm : small_page js.skip (round_x (lx % 2 ^ 32)) (ly % 2 ^ 32) = true
  · rw [if_pos hsm, hsm]
    exact ⟨fun h => absurd h (by decide), fun h => absurd h.2 (by decide)⟩
  · rw [if_neg hsm]
    exact ⟨fun h => ⟨h, by simpa using hsm⟩, fun h => h.1⟩

/-- The bytes written by the page loop are those written for its pages, in order, and
those of every page start with its new-page frame. -/
theorem dojob_loop_frames (cfg : Config) : ∀ (f : Nat) (js : JobState)
    (r : List PageRec × List Nat × JobState),
    ((js.nomargins = 0 ∧ js.skip = 16 * skiptbl (cfg.res &&& 0xff)) ∨
      (js.nomargins ≠ 0 ∧ js.skip = 0)) →
    dojob_loop cfg f js = .ok r →
    ∃ outs : List (List Nat), outs.length = r.1.length ∧
      r.2.1 = outs.foldr (fun a b => a ++ b) [] ∧
      ∀ (j : Nat) (p : PageRec), r.1[j]? = some p →
        (∃ sq1 rest, outs[j]? =
          some (frame sq1 0x51 (new_page_buf cfg p.sent_x p.sent_y) ++ rest)) ∧
        (p.nomargins = 0 → 16 * skiptbl (cfg.res &&& 0xff) ≤ p.y →
          p.sent_x = p.x - 16 * skiptbl (cfg.res &&& 0xff) ∧
          p.sent_y = p.y - 16 * skiptbl (cfg.res &&& 0xff) ∧
          32 * skiptbl (cfg.res &&& 0xff) < p.x) ∧
        (p.nomargins ≠ 0 → p.sent_x = p.x ∧ p.sent_y = p.y) := by
  intro f
  induction f with
  | zero =>
    intro js r _ h
    obtain ⟨h1, h2⟩ := dojob_loop_none cfg js r h
    refine ⟨[], by rw [h1]; rfl, by rw [h2]; rfl, ?_⟩
    intro j p hp
    rw [h1] at hp
    cases hp
  | succ f ih =>
    intro js r hjs h
    rcases dojob_loop_cases cfg f js r h with ⟨h1, h2⟩ | ⟨s, pg, r', lx, ly, hpg, hr', rfl⟩
    · refine ⟨[], by rw [h1]; rfl, by rw [h2]; rfl, ?_⟩
      intro j p hp
      rw [h1] at hp
      cases hp
    · obtain ⟨_, _, _, ⟨rest, hrest⟩, q5, q6⟩ :=
        page_frame cfg ⟨s, js.sq, js.tbl, js.nomargins, js.skip⟩ lx ly pg hjs hpg
      obtain ⟨outs, o1, o2, o3⟩ := ih pg.2.2 r'
        (page_state cfg ⟨s, js.sq, js.tbl, js.nomargins, js.skip⟩ lx ly pg hjs hpg).1 hr'
      refine ⟨pg.2.1 :: outs, by simp only [List.length_cons, o1], ?_, ?_⟩
      · simp only [List.foldr_cons]
        rw [← o2]
      · intro j p hp
        cases j with
        | zero =>
          simp only [List.getElem?_cons_zero, Option.some.injEq] at hp
          subst hp
          exact ⟨⟨js.sq, rest, by rw [List.getElem?_cons_zero, hrest]⟩, q5, q6⟩
        | succ j =>
          simp only [List.getElem?_cons_succ] at hp ⊢
          exact o3 j p hp

/-- C15, amended.  Reduced page dimensions.  Take a page that `dojob` processes
(`dojob_page`: the rounding of the width, the small-page test, `send_new_page`, `dopage`)
in a margin state of `dojob` (margins enforced and `skip = 16 * skiptbl[res & 0xff]`, or
margins off and `skip = 0`), with `s = skiptbl[res & 0xff]`.  The page is completed under
the conditions of C28.  Whenever it is completed, `x` is the rounded width and `y` the
height of the header; the margins stay enforced on the page (`nomargins` is 0 after the
small-page test) exactly when they were enforced before and the small-page test fails;
the bytes written for the page start with the new-page frame, the frame that `do_cmd`
writes for command 0x51 and the payload of `send_new_page(W, H)`, whose bytes 2 to 9
encode `W` and `H`; and `(W, H) = (x - 16 * s, y - 16 * s)` when the margins stay enforced
and `y >= 16 * s`, and `(W, H) = (x, y)` when the margins are disabled.  For a job that
`dojob` completes, the bytes written are the two frames of `send_start_job`, the bytes
written for each page in order, and the two frames of `send_end_job`, and the bytes written
for each page start with the new-page frame of these dimensions. -/
theorem new_page_dimensions (cfg : Config) (js : JobState) (lx ly : Nat)
    (hjs : (js.nomargins = 0 ∧ js.skip = 16 * skiptbl (cfg.res &&& 0xff)) ∨
      (js.nomargins ≠ 0 ∧ js.skip = 0)) :
    (((page_head js.nomargins js.skip lx ly).nomargins ≠ 0 ∨
        js.skip ≤ (page_head js.nomargins js.skip lx ly).y) →
      (∀ b ∈ js.inp.rest, b < 256) → (TblInv js.tbl ∨ js.tbl.tbllen = -1) →
      (page_head js.nomargins js.skip lx ly).y *
        ((page_head js.nomargins js.skip lx ly).x / 8) ≤ js.inp.rest.length →
      (page_head js.nomargins js.skip lx ly).x / 8 <
        4095 + 2 * page_skip cfg (page_head js.nomargins js.skip lx ly).nomargins →
      (page_head js.nomargins js.skip lx ly).y / 8 +
        (if (page_head js.nomargins js.skip lx ly).y &&& 7 ≠ 0 then 1 else 0) < 2 ^ 16 →
      ∃ pg, dojob_page cfg js lx ly = .ok pg) ∧
    (∀ pg, dojob_page cfg js lx ly = .ok pg →
      pg.1.x = round_x (lx % 2 ^ 32) ∧ pg.1.y = ly % 2 ^ 32 ∧
      (pg.1.nomargins = 0 ↔ js.nomargins = 0 ∧ small_page js.skip pg.1.x pg.1.y = false) ∧
      (∃ W H rest, pg.2.1 = frame js.sq 0x51 (new_page_buf cfg W H) ++ rest ∧
        (new_page_buf cfg W H).take 10 =
          [0, 0x01, (W >>> 16) &&& 0xff, (W >>> 24) % 256, W &&& 0xff, (W >>> 8) &&& 0xff,
            (H >>> 16) &&& 0xff, (H >>> 24) % 256, H &&& 0xff, (H >>> 8) &&& 0xff] ∧
        (pg.1.nomargins = 0 → 16 * skiptbl (cfg.res &&& 0xff) ≤ pg.1.y →
          W = pg.1.x - 16 * skiptbl (cfg.res &&& 0xff) ∧
          H = pg.1.y - 16 * skiptbl (cfg.res &&& 0xff) ∧
          32 * skiptbl (cfg.res &&& 0xff) < pg.1.x) ∧
        (pg.1.nomargins ≠ 0 → W = pg.1.x ∧ H = pg.1.y))) ∧
    (∀ inp sq tbl r, dojob cfg inp sq tbl = .ok r →
      ∃ (outs : List (List Nat)) (sqe : Nat), outs.length = r.1.length ∧
        r.2.1 = (frame sq 0x40 [cfg.model % 256, 0] ++
            frame ((sq + 1) % 256) 0x50 (start_job_buf cfg)) ++
          outs.foldr (fun a b => a ++ b) [] ++
          (frame sqe 0x55 [0] ++ frame ((sqe + 1) % 256) 0x41 [0]) ∧
        ∀ (j : Nat) (p : PageRec), r.1[j]? = some p →
          ∃ W H sq1 rest,
            outs[j]? = some (frame sq1 0x51 (new_page_buf cfg W H) ++ rest) ∧
            (p.nomargins = 0 → 16 * skiptbl (cfg.res &&& 0xff) ≤ p.y →
              W = p.x - 16 * skiptbl (cfg.res &&& 0xff) ∧
              H = p.y - 16 * skiptbl (cfg.res &&& 0xff) ∧
              32 * skiptbl (cfg.res &&& 0xff) < p.x) ∧
            (p.nomargins ≠ 0 → W = p.x ∧ H = p.y)) := by
  refine ⟨fun hnw hi ht hd hW hc => page_total cfg js lx ly hjs hnw hi ht hd hW hc, ?_, ?_⟩
  · intro pg hpg
    obtain ⟨q1, q2, q3, ⟨rest, q4⟩, q5, q6⟩ := page_frame cfg js lx ly pg hjs hpg
    exact ⟨q1, q2, q3, pg.1.sent_x, pg.1.sent_y, rest, q4, rfl, q5, q6⟩
  · intro inp sq tbl r h
    obtain ⟨s, r', t, hs, hloop, ht, e1, e2⟩ := dojob_ok cfg inp sq tbl r h
    rw [send_start_job_eq] at hs
    rw [send_end_job_eq] at ht
    have hs1 : s.1 = frame sq 0x40 [cfg.model % 256, 0] ++
        frame ((sq + 1) % 256) 0x50 (start_job_buf cfg) := by
      cases hs
      rfl
    have ht1 : t.1 = frame r'.2.2.sq 0x55 [0] ++ frame ((r'.2.2.sq + 1) % 256) 0x41 [0] := by
      cases ht
      rfl
    have hI : (cfg.nomargins = 0 ∧ job_skip cfg = 16 * skiptbl (cfg.res &&& 0xff)) ∨
        (cfg.nomargins ≠ 0 ∧ job_skip cfg = 0) := by
      simp only [job_skip]
      by_cases hn : cfg.nomargins = 0
      · exact Or.inl ⟨hn, by rw [if_pos hn]⟩
      · exact Or.inr ⟨hn, by rw [if_neg hn]⟩
    obtain ⟨outs, o1, o2, o3⟩ := dojob_loop_frames cfg _ ⟨inp, s.2, tbl, cfg.nomargins, job_skip cfg⟩ r' hI hloop
    refine ⟨outs, r'.2.2.sq, by rw [o1, e1], by rw [e2, hs1, ht1, o2], ?_⟩
    intro j p hp
    rw [e1] at hp
    obtain ⟨⟨sq1, rest, q1⟩, q2, q3⟩ := o3 j p hp
    exact ⟨p.sent_x, p.sent_y, sq1, rest, q1, q2, q3⟩

/-- A page of 200 x 872 pixels at 300 dpi, with the margins enforced: the frame announces
104 x 776. -/
theorem new_page_dimensions_witness :
    ((0 = 0 ∧ 96 = 16 * skiptbl ((0 : Nat) &&& 0xff)) ∨ ((0 : Nat) ≠ 0 ∧ (96 : Nat) = 0)) ∧
    ∃ pg rest, dojob_page { Config.default with res := 0 }
        (⟨⟨List.replicate 21800 0, false⟩, 2, TblState.uninit, 0, 96⟩ : JobState) 200 872
        = .ok pg ∧
      pg.1.x = 200 ∧ pg.1.y = 872 ∧ pg.1.nomargins = 0 ∧
      pg.2.1 = frame 2 0x51 (new_page_buf { Config.default with res := 0 } 104 776) ++ rest := by
  have hjs : (0 = 0 ∧ 96 = 16 * skiptbl ((0 : Nat) &&& 0xff)) ∨
      ((0 : Nat) ≠ 0 ∧ (96 : Nat) = 0) := Or.inl ⟨rfl, by decide⟩
  have k := new_page_dimensions { Config.default with res := 0 }
    (⟨⟨List.replicate 21800 0, false⟩, 2, TblState.uninit, 0, 96⟩ : JobState) 200 872 hjs
  obtain ⟨pg, hpg⟩ := k.1 (Or.inr (by decide))
    (fun b hb => by rw [List.eq_of_mem_replicate hb]; decide)
    (Or.inr rfl)
    (by show _ ≤ (List.replicate 21800 0).length; rw [List.length_replicate]; decide)
    (by decide) (by decide)
  obtain ⟨q1, q2, q3, W, H, rest, hW, _, hd1, _⟩ := k.2.1 pg hpg
  have hx : pg.1.x = 200 := by rw [q1]; decide
  have hy : pg.1.y = 872 := by rw [q2]; decide
  have hn : pg.1.nomargins = 0 := q3.mpr ⟨rfl, by rw [hx, hy]; decide⟩
  obtain ⟨w1, w2, _⟩ := hd1 hn (by rw [hy]; decide)
  have hW1 : W = 104 := by rw [w1, hx]; decide
  have hH1 : H = 776 := by rw [w2, hy]; decide
  rw [hW1, hH1] at hW
  exact ⟨hjs, pg, rest, hpg, hx, hy, hn, hW⟩

end Min12xxw
